import Mathlib

/-!
# Dynamic (extendible) hash index of `Backend/dataManager/hashingDinamico.go`

Shallow embedding of the disk-resident dynamic hash and the properties of its
operations.

Modelling conventions.

* Go `int64`/`int` values are `Int`.  A directory of `2^p` eight-byte entries
  has to fit in memory, so every depth is far below 63 and no shift or sum on
  depths, counts and directory indices overflows; shifts are therefore exact
  powers of two.  The sums of `newHash` on the caller's `size`, which nothing
  bounds, wrap around as `int64` sums do (`wrap64`).
* A Go run-time panic (slice index out of range, negative `make` length,
  negative shift count) is the result `none`.
* The bucket file is the sequence of its fixed-size slots.  A byte offset
  designates a slot when it is non-negative and a multiple of `bucketSize`
  (every offset handed out by the allocator is); for any other offset the
  model gives no result (`none`).  Reading past the end of the file yields
  zero bytes, i.e. the all-zero bucket; writing past the end extends the file
  with zero slots.
* The operations act on the in-memory `DinamicHash`; the `load`/`Close` pair
  that brackets every facade call is modelled separately on the bytes of the
  directory file.
-/

namespace HashingDinamico

/-! ## Structs -/

/-- A record of a bucket: the key and the address of the full record. -/
structure BucketRecord where
  ID : Int
  Address : Int
deriving DecidableEq, Repr

/-- A bucket: local depth, number of occupied records, record slots. -/
structure Bucket where
  ActualPower : Int
  CurrentSize : Int
  Records : List BucketRecord
deriving DecidableEq, Repr

/-- The directory: global depth, bucket offsets, reclaimed offsets. -/
structure Directory where
  p : Int
  bucketPointer : List Int
  garbage : List Int
deriving DecidableEq, Repr

/-- The bucket file: its path (bytes of the name) and its slots. -/
structure BucketFile where
  name : List Nat
  slots : List Bucket
deriving DecidableEq, Repr

/-- The dynamic hash (the directory file handle is only used by `Close`). -/
structure DinamicHash where
  bucketFile : BucketFile
  loadFactor : Int
  bucketSize : Int
  directory : Directory
deriving DecidableEq, Repr

/-! ## Go primitives -/

/-- Slice read `xs[i]`: panics outside `0 ≤ i < len xs`. -/
def sliceGet {α : Type} (xs : List α) (i : Int) : Option α :=
  if i < 0 then none else xs[i.toNat]?

/-- Slice write `xs[i] = v`: panics outside `0 ≤ i < len xs`. -/
def sliceSet {α : Type} (xs : List α) (i : Int) (v : α) : Option (List α) :=
  if 0 ≤ i ∧ i.toNat < xs.length then some (xs.set i.toNat v) else none

/-- Allocation `make([]T, n)` filled with the zero value: panics when `n < 0`. -/
def makeSlice {α : Type} (n : Int) (zero : α) : Option (List α) :=
  if n < 0 then none else some (List.replicate n.toNat zero)

/-- Largest `int64`, `math.MaxInt64`. -/
def MaxInt64 : Int := 9223372036854775807

/-- The `int64` that Go computes for the exact value `x`: two's complement
wrap-around into `-2^63 .. 2^63 - 1`. -/
def wrap64 (x : Int) : Int :=
  (x + 9223372036854775808) % 18446744073709551616 - 9223372036854775808

/-- Shift `1 << x`: panics on a negative shift count. -/
def shiftOne (x : Int) : Option Int :=
  if x < 0 then none else some (2 ^ x.toNat)

/-- The zero record `BucketRecord{}` returned by `newBucketRecord`. -/
def newBucketRecord : BucketRecord := ⟨0, 0⟩

/-- The bucket that an all-zero slot decodes to. -/
def zeroSlot (loadFactor : Int) : Bucket :=
  ⟨0, 0, List.replicate loadFactor.toNat newBucketRecord⟩

/-! ## The bucket file -/

/-- Slot designated by a byte offset of the bucket file. -/
def slotOf (hash : DinamicHash) (off : Int) : Option Nat :=
  if 0 ≤ off ∧ 0 ≤ hash.loadFactor ∧ 16 + 16 * hash.loadFactor ≤ hash.bucketSize
      ∧ off % hash.bucketSize = 0 then
    some (off / hash.bucketSize).toNat
  else none

/-- Offset of the end of the bucket file, `Seek(0, io.SeekEnd)`. -/
def seekEnd (hash : DinamicHash) : Int :=
  (hash.bucketFile.slots.length : Int) * hash.bucketSize

/-- Overwrite slot `k`, extending the file with zero slots when needed. -/
def putSlot (loadFactor : Int) (slots : List Bucket) (k : Nat) (b : Bucket) : List Bucket :=
  if k < slots.length then slots.set k b
  else slots ++ List.replicate (k - slots.length) (zeroSlot loadFactor) ++ [b]

/-- Seek to `off` and write a whole bucket (power, size, records). -/
def writeAt (hash : DinamicHash) (off : Int) (b : Bucket) : Option DinamicHash := do
  let k ← slotOf hash off
  some { hash with
    bucketFile := { hash.bucketFile with
      slots := putSlot hash.loadFactor hash.bucketFile.slots k b } }

/-- The bucket decoded from the bytes of a slot: power, size and exactly
`loadFactor` records. -/
def decodeSlot (loadFactor : Int) (slot : Bucket) : Bucket :=
  ⟨slot.ActualPower, slot.CurrentSize,
    (slot.Records ++ List.replicate loadFactor.toNat newBucketRecord).take loadFactor.toNat⟩

/-- Seek to `off`, read `bucketSize` bytes and decode `loadFactor` records. -/
def readAt (hash : DinamicHash) (off : Int) : Option Bucket := do
  let k ← slotOf hash off
  some (decodeSlot hash.loadFactor (hash.bucketFile.slots.getD k (zeroSlot hash.loadFactor)))

/-! ## Dinamic Hash -/

/-- Number of directory entries, `1 << p`. -/
def getBucketCount (hash : DinamicHash) : Option Int :=
  shiftOne hash.directory.p

/-- Power of two of the local depth, `1 << ActualPower`. -/
def getBucketPower (b : Bucket) : Option Int :=
  shiftOne b.ActualPower

/-- A bucket ready to be filled. -/
def newBucket (actualPower loadFactor : Int) : Option Bucket := do
  let records ← makeSlice loadFactor newBucketRecord
  some ⟨actualPower, 0, records⟩

/-- Read and decode the bucket addressed by directory index `pos`. -/
def readBucket (hash : DinamicHash) (pos : Int) : Option Bucket :=
  if pos < 0 then some ⟨0, 0, []⟩
  else do
    let off ← sliceGet hash.directory.bucketPointer pos
    readAt hash off

/-- Write power, size and records at the slot of directory index `pos`
(every caller passes exactly `loadFactor` records, which fill the slot). -/
def insertIntoBucket (hash : DinamicHash) (pos power currentSize : Int)
    (records : List BucketRecord) : Option DinamicHash := do
  let off ← sliceGet hash.directory.bucketPointer pos
  writeAt hash off ⟨power, currentSize, records⟩

/-- The loop of `initializeNewBucket`: one bucket per iteration, taken from the
head of `garbage` if there is one and from the end of the file otherwise. -/
def initializeLoop : Nat → DinamicHash → Option (DinamicHash × List Int)
  | 0, hash => some (hash, [])
  | n + 1, hash => do
    let zeros ← makeSlice hash.loadFactor newBucketRecord
    let fresh : Bucket := ⟨hash.directory.p, 0, zeros⟩
    match hash.directory.garbage with
    | g :: rest =>
      let hash1 := { hash with directory := { hash.directory with garbage := rest } }
      let hash2 ← writeAt hash1 g fresh
      let (hash3, more) ← initializeLoop n hash2
      some (hash3, g :: more)
    | [] =>
      let e := seekEnd hash
      let hash2 ← writeAt hash e fresh
      let (hash3, more) ← initializeLoop n hash2
      some (hash3, e :: more)

/-- Initialise `numberOfBuckets` buckets and return their addresses. -/
def initializeNewBucket (hash : DinamicHash) (numberOfBuckets : Int) :
    Option (DinamicHash × List Int) :=
  if numberOfBuckets < 0 then none else initializeLoop numberOfBuckets.toNat hash

/-- The loop of `newHash` that stores the addresses of the created buckets. -/
def storeLoop : Nat → Int → List Int → List Int → Option (List Int)
  | 0, _, _, bp => some bp
  | n + 1, i, address, bp => do
    let a ← sliceGet address i
    let bp1 ← sliceSet bp i a
    storeLoop n (i + 1) address bp1

/-- A new, empty dynamic hash on a freshly created (empty) bucket file.  The
capacity `size + 1` and the slot size `8 + 8 + loadFactor * 16` are `int64`
sums of the code and wrap around. -/
def newHash (bucketPath : List Nat) (size : Int) : Option DinamicHash := do
  let d : Directory := ⟨1, [0, 0], []⟩
  let loadFactor := wrap64 (size + 1)
  let hash : DinamicHash :=
    ⟨⟨bucketPath, []⟩, loadFactor, wrap64 (8 + 8 + wrap64 (loadFactor * 16)), d⟩
  let count ← getBucketCount hash
  let (hash1, bucketAddress) ← initializeNewBucket hash count
  let count1 ← getBucketCount hash1
  let bp ← storeLoop count1.toNat 0 bucketAddress hash1.directory.bucketPointer
  some { hash1 with directory := { hash1.directory with bucketPointer := bp } }

/-- The mirroring loop of `increasePower`: `bucketPointer[i] = bucketPointer[j]`
for `i` from `count >> 1` and `j` from `0` (both indices are in range because
the slice has `count` entries). -/
def mirrorLoop : Nat → Nat → Nat → List Int → List Int
  | 0, _, _, bp => bp
  | n + 1, i, j, bp => mirrorLoop n (i + 1) (j + 1) (bp.set i (bp.getD j 0))

/-- Increase the depth of the directory and create the new pointers. -/
def increasePower (hash : DinamicHash) : Option DinamicHash := do
  let p := hash.directory.p + 1
  let novoTamanhoBucket ← shiftOne p
  let n := novoTamanhoBucket.toNat
  let old := hash.directory.bucketPointer
  let novoBucket := old.take n ++ List.replicate (n - old.length) 0
  let bp := mirrorLoop (n - n / 2) (n / 2) 0 novoBucket
  some { hash with directory := { hash.directory with p := p, bucketPointer := bp } }

/-- The redistribution loop of a split: a record whose key modulo `power`
equals `pos` goes to `bucket1`, any other record to `bucket2`. -/
def splitLoop (power pos : Int) :
    List BucketRecord → Nat → Nat → Bucket → Bucket → Bucket × Bucket
  | [], _, _, bucket1, bucket2 => (bucket1, bucket2)
  | x :: rest, b1, b2, bucket1, bucket2 =>
    if Int.tmod x.ID power = pos then
      splitLoop power pos rest (b1 + 1) b2
        ⟨bucket1.ActualPower, bucket1.CurrentSize + 1, bucket1.Records.set b1 x⟩ bucket2
    else
      splitLoop power pos rest b1 (b2 + 1) bucket1
        ⟨bucket2.ActualPower, bucket2.CurrentSize + 1, bucket2.Records.set b2 x⟩

/-- The test of `addRecord` that selects the split branch. -/
def splits (hash : DinamicHash) (r : BucketRecord) : Option Bool := do
  let count ← getBucketCount hash
  let bucket ← readBucket hash (Int.tmod r.ID count)
  some (decide (bucket.CurrentSize = hash.loadFactor - 1))

/-- Add a record to the hash. -/
def addRecord (hash : DinamicHash) (r : BucketRecord) : Option DinamicHash := do
  let count ← getBucketCount hash
  let pos := Int.tmod r.ID count
  let bucket ← readBucket hash pos
  if bucket.CurrentSize = hash.loadFactor - 1 then
    let hash1 ← (if bucket.ActualPower = hash.directory.p then increasePower hash else some hash)
    let (hash2, address) ← initializeNewBucket hash1 1
    let power ← getBucketPower bucket
    let count2 ← getBucketCount hash2
    let newPos0 := power + pos
    let newPos := if newPos0 ≥ count2 then pos else newPos0
    let pos1 := if newPos0 ≥ count2 then Int.tmod pos power else pos
    let a ← sliceGet address 0
    let bp ← sliceSet hash2.directory.bucketPointer newPos a
    let hash3 := { hash2 with directory := { hash2.directory with bucketPointer := bp } }
    let actualPower := bucket.ActualPower + 1
    let bucket1 ← newBucket actualPower hash3.loadFactor
    let bucket2 ← newBucket actualPower hash3.loadFactor
    let records ← sliceSet bucket.Records bucket.CurrentSize r
    let power1 ← shiftOne actualPower
    let full := splitLoop power1 pos1 records 0 0 bucket1 bucket2
    let hash4 ← insertIntoBucket hash3 pos1 full.1.ActualPower full.1.CurrentSize full.1.Records
    insertIntoBucket hash4 newPos full.2.ActualPower full.2.CurrentSize full.2.Records
  else
    let records ← sliceSet bucket.Records bucket.CurrentSize r
    insertIntoBucket hash pos bucket.ActualPower (bucket.CurrentSize + 1) records

/-! ## Crud -/

/-- The scan of `HashRead`: address of the first of the first `n` records with
the target key, `-1` when there is none. -/
def readScan (targetID : Int) : Nat → List BucketRecord → Option Int
  | 0, _ => some (-1)
  | _ + 1, [] => none
  | n + 1, x :: rest => if x.ID = targetID then some x.Address else readScan targetID n rest

/-- The index part of `HashRead`: the position found (`-1` when absent) and
whether the not-found error is raised. -/
def HashRead (hash : DinamicHash) (targetID : Int) : Option (Int × Bool) := do
  let count ← getBucketCount hash
  let pos := Int.tmod targetID count
  let bucket ← readBucket hash pos
  let targetPos ← readScan targetID bucket.CurrentSize.toNat bucket.Records
  some (targetPos, decide (targetPos < 0))

/-- The scan of `HashDelete`: index of the last of the first `n` records with
the target key (no early exit), starting from `targetPos`. -/
def deleteScan (targetID : Int) : Nat → List BucketRecord → Int → Int → Option Int
  | 0, _, _, targetPos => some targetPos
  | _ + 1, [], _, _ => none
  | n + 1, x :: rest, i, targetPos =>
    deleteScan targetID n rest (i + 1) (if x.ID = targetID then i else targetPos)

/-- The removal loop of `HashDelete`: `Records[i] = Records[i+1]` for
`i` from `targetPos` to `len - 2`. -/
def shiftLoop : Nat → Nat → List BucketRecord → List BucketRecord
  | 0, _, records => records
  | n + 1, i, records =>
    shiftLoop n (i + 1) (records.set i (records.getD (i + 1) newBucketRecord))

/-- Remove a key; the flag is `true` when the not-found error is returned. -/
def HashDelete (hash : DinamicHash) (targetID : Int) : Option (DinamicHash × Bool) := do
  let count ← getBucketCount hash
  let pos := Int.tmod targetID count
  let bucket ← readBucket hash pos
  let targetPos ← deleteScan targetID bucket.CurrentSize.toNat bucket.Records 0 (-1)
  if targetPos < 0 then some (hash, true)
  else
    let currentSize := bucket.CurrentSize - 1
    let t := targetPos.toNat
    let shifted := shiftLoop (bucket.Records.length - 1 - t) t bucket.Records
    let records ← sliceSet shifted ((shifted.length : Int) - 1) newBucketRecord
    let hash1 ← insertIntoBucket hash pos bucket.ActualPower currentSize records
    if currentSize = 0 then
      let old ← sliceGet hash1.directory.bucketPointer pos
      let garbage := hash1.directory.garbage ++ [old]
      let buddy ← sliceGet hash1.directory.bucketPointer (pos / 2)
      let bp ← sliceSet hash1.directory.bucketPointer pos buddy
      let hash2 := { hash1 with
        directory := { hash1.directory with bucketPointer := bp, garbage := garbage } }
      let mergedBucket ← readBucket hash2 pos
      let hash3 ← insertIntoBucket hash2 pos (mergedBucket.ActualPower - 1)
        mergedBucket.CurrentSize mergedBucket.Records
      some (hash3, false)
    else some (hash1, false)

/-- The scan of `HashUpdate`: index of the first of the first `n` records with
the target key, `-1` when there is none. -/
def updateScan (targetID : Int) : Nat → List BucketRecord → Int → Option Int
  | 0, _, _ => some (-1)
  | _ + 1, [], _ => none
  | n + 1, x :: rest, i => if x.ID = targetID then some i else updateScan targetID n rest (i + 1)

/-- Update the address of a key; the flag is `true` when the not-found error
is returned. -/
def HashUpdate (hash : DinamicHash) (numero newAddress : Int) : Option (DinamicHash × Bool) := do
  let count ← getBucketCount hash
  let pos := Int.tmod numero count
  let bucket ← readBucket hash pos
  let targetPos ← updateScan numero bucket.CurrentSize.toNat bucket.Records 0
  if targetPos < 0 then some (hash, true)
  else
    let old ← sliceGet bucket.Records targetPos
    let records ← sliceSet bucket.Records targetPos ⟨old.ID, newAddress⟩
    let hash1 ← insertIntoBucket hash pos bucket.ActualPower bucket.CurrentSize records
    some (hash1, false)

/-! ## Sequences of operations -/

/-- An operation on the index. -/
inductive Op where
  | add (r : BucketRecord)
  | update (numero newAddress : Int)
  | delete (targetID : Int)
deriving DecidableEq, Repr

/-- One operation; an update or delete that reports not-found leaves the hash as it is. -/
def step (hash : DinamicHash) : Op → Option DinamicHash
  | Op.add r => addRecord hash r
  | Op.update numero newAddress => (HashUpdate hash numero newAddress).map Prod.fst
  | Op.delete targetID => (HashDelete hash targetID).map Prod.fst

/-- A sequence of operations in which every operation completes. -/
def run : List Op → DinamicHash → Option DinamicHash
  | [], hash => some hash
  | op :: rest, hash => (step hash op).bind (run rest)

/-- The insertion loop of `StartHashFile`, counting the calls that split. -/
def addAll : List BucketRecord → DinamicHash → Option (DinamicHash × Nat)
  | [], hash => some (hash, 0)
  | r :: rest, hash => do
    let s ← splits hash r
    let hash1 ← addRecord hash r
    let (hash2, n) ← addAll rest hash1
    some (hash2, (if s then 1 else 0) + n)

/-- Records for the given keys, key `k` with address `100 + k`. -/
def keyed (keys : List Int) : List BucketRecord :=
  keys.map (fun k => ⟨k, 100 + k⟩)

/-- Insertions of the given keys, key `k` with address `100 + k`. -/
def inserts (keys : List Int) : List Op :=
  (keyed keys).map Op.add

/-- The state built by `newHash` with the given size followed by the given
operations (the empty structure if one of them does not complete). -/
def built (size : Int) (ops : List Op) : DinamicHash :=
  ((newHash [] size).bind (run ops)).getD ⟨⟨[], []⟩, 0, 0, ⟨0, [], []⟩⟩

/-! ## Invariants -/

/-- Directory shape: depth at least one and `2^p` entries. -/
def DirShape (hash : DinamicHash) : Prop :=
  1 ≤ hash.directory.p ∧ hash.directory.bucketPointer.length = 2 ^ hash.directory.p.toNat

/-- Depth bound: every slot of the bucket file has local depth at most `p`. -/
def DepthBound (hash : DinamicHash) : Prop :=
  0 ≤ hash.directory.p ∧ ∀ b ∈ hash.bucketFile.slots, b.ActualPower ≤ hash.directory.p

/-! ## Explicit states -/

/-- Records followed by zero records up to the capacity. -/
def padded (loadFactor : Int) (recs : List BucketRecord) : List BucketRecord :=
  recs ++ List.replicate (loadFactor.toNat - recs.length) newBucketRecord

/-- Size in bytes of a slot for the given `size` parameter of `newHash`. -/
def slotBytes (size : Int) : Int := 8 + 8 + (size + 1) * 16

/-- An index of capacity `size + 1` with the given slots and directory. -/
def indexOf (path : List Nat) (size : Int) (slots : List Bucket) (d : Directory) : DinamicHash :=
  ⟨⟨path, slots⟩, size + 1, slotBytes size, d⟩

/-- A bucket of the given depth holding exactly the given records. -/
def filled (power loadFactor : Int) (recs : List BucketRecord) : Bucket :=
  ⟨power, recs.length, padded loadFactor recs⟩

/-- The fresh directory of depth 1 over slots 0 and 1. -/
def freshDirectory (size : Int) : Directory :=
  ⟨1, [((0 : Nat) : Int) * slotBytes size, ((1 : Nat) : Int) * slotBytes size], []⟩

/-- The index of depth 1 whose two buckets hold the given records. -/
def twoBuckets (path : List Nat) (size : Int) (evens odds : List BucketRecord) : DinamicHash :=
  indexOf path size [filled 1 (size + 1) evens, filled 1 (size + 1) odds] (freshDirectory size)

/-- Records with an even key. -/
def evenKey (x : BucketRecord) : Bool := decide (x.ID % 2 = 0)

/-- Records with an odd key. -/
def oddKey (x : BucketRecord) : Bool := decide (x.ID % 2 = 1)

/-- The offset designates a slot inside the bucket file. -/
def Within (hash : DinamicHash) (off : Int) : Prop :=
  ∃ k, slotOf hash off = some k ∧ k < hash.bucketFile.slots.length

/-- Every insertion of the sequence takes the branch without split. -/
def quiet : List Op → DinamicHash → Prop
  | [], _ => True
  | op :: rest, hash =>
    (∀ r, op = Op.add r → splits hash r = some false) ∧
      ∀ hash1, step hash op = some hash1 → quiet rest hash1

/-! ## The directory file -/

/-- The `n` low-order bytes of `x`, least significant first. -/
def leBytes : Nat → Nat → List Nat
  | 0, _ => []
  | n + 1, x => x % 256 :: leBytes n (x / 256)

/-- The number whose little-endian bytes are given. -/
def leValue : List Nat → Nat
  | [] => 0
  | b :: rest => b + 256 * leValue rest

/-- Bytes of `binary.Write(file, binary.LittleEndian, x)` for an `int64`. -/
def putInt64 (x : Int) : List Nat := leBytes 8 (x % 2 ^ 64).toNat

/-- Bytes of `binary.Write(file, binary.LittleEndian, x)` for an `int32`. -/
def putInt32 (x : Int) : List Nat := leBytes 4 (x % 2 ^ 32).toNat

/-- The signed value of a `w`-bit pattern. -/
def signed (w : Nat) (v : Nat) : Int :=
  if v < 2 ^ (w - 1) then (v : Int) else (v : Int) - 2 ^ w

/-- Modelled from the spec: `utils.BytesToInt64` is not among the sources; the
directory file is little-endian (§6), so it decodes the eight bytes at `ptr`
as a signed 64-bit integer and returns the pointer behind them; a buffer that
is too short has no result. -/
def BytesToInt64 (buffer : List Nat) (ptr : Nat) : Option (Int × Nat) :=
  if ptr + 8 ≤ buffer.length then
    some (signed 64 (leValue ((buffer.drop ptr).take 8)), ptr + 8)
  else none

/-- Modelled from the spec: `utils.BytesToString` is not among the sources; the
path is stored length-prefixed (§6) and `Close` writes the length as an
`int32`, so it decodes a four-byte little-endian length and returns that many
bytes and the pointer behind them. -/
def BytesToString (buffer : List Nat) (ptr : Nat) : Option (List Nat × Nat) :=
  if ptr + 4 ≤ buffer.length then
    let n := signed 32 (leValue ((buffer.drop ptr).take 4))
    if 0 ≤ n ∧ ptr + 4 + n.toNat ≤ buffer.length then
      some ((buffer.drop (ptr + 4)).take n.toNat, ptr + 4 + n.toNat)
    else none
  else none

/-- The bytes `Close` writes from the start of the directory file (bytes of an
older, longer content stay behind them). -/
def Close (hash : DinamicHash) : List Nat :=
  putInt32 (hash.bucketFile.name.length : Int) ++ hash.bucketFile.name
    ++ putInt64 hash.loadFactor ++ putInt64 hash.bucketSize
    ++ putInt64 hash.directory.p
    ++ putInt64 (hash.directory.bucketPointer.length : Int)
    ++ hash.directory.bucketPointer.flatMap putInt64
    ++ putInt64 (hash.directory.garbage.length : Int)
    ++ hash.directory.garbage.flatMap putInt64

/-- The decoding loops of `loadDinamicHash`: `n` successive `int64` values. -/
def loadLoop : Nat → List Nat → Nat → Option (List Int × Nat)
  | 0, _, ptr => some ([], ptr)
  | n + 1, buffer, ptr => do
    let (x, ptr1) ← BytesToInt64 buffer ptr
    let (rest, ptr2) ← loadLoop n buffer ptr1
    some (x :: rest, ptr2)

/-- Load the hash from the bytes of the directory file; `openFile` gives the
slots of the bucket file of a given path. -/
def loadDinamicHash (buffer : List Nat) (openFile : List Nat → List Bucket) :
    Option DinamicHash := do
  let (bucketPath, ptr) ← BytesToString buffer 0
  let (loadFactor, ptr) ← BytesToInt64 buffer ptr
  let (bucketSize, ptr) ← BytesToInt64 buffer ptr
  let (p, ptr) ← BytesToInt64 buffer ptr
  let (bucketPointerLen, ptr) ← BytesToInt64 buffer ptr
  let zeros ← makeSlice bucketPointerLen (0 : Int)
  let (bucketPointer, ptr) ← loadLoop zeros.length buffer ptr
  let (bucketGarbageLen, ptr) ← BytesToInt64 buffer ptr
  let zeros1 ← makeSlice bucketGarbageLen (0 : Int)
  let (bucketGarbage, _) ← loadLoop zeros1.length buffer ptr
  some ⟨⟨bucketPath, openFile bucketPath⟩, loadFactor, bucketSize,
    ⟨p, bucketPointer, bucketGarbage⟩⟩

/-- The value fits the Go type `int64`. -/
def isInt64 (x : Int) : Prop := -2 ^ 63 ≤ x ∧ x < 2 ^ 63

/-- Every field of the structure fits its Go type. -/
def Representable (hash : DinamicHash) : Prop :=
  (hash.bucketFile.name.length : Int) < 2 ^ 31 ∧
  isInt64 hash.loadFactor ∧ isInt64 hash.bucketSize ∧ isInt64 hash.directory.p ∧
  (hash.directory.bucketPointer.length : Int) < 2 ^ 63 ∧
  (∀ x ∈ hash.directory.bucketPointer, isInt64 x) ∧
  (hash.directory.garbage.length : Int) < 2 ^ 63 ∧
  (∀ x ∈ hash.directory.garbage, isInt64 x)

/-- Offsets are slot boundaries: the capacity is non-negative, the slot size
is `16 + 16 * loadFactor`, and every offset of the directory and of the free
list is a non-negative multiple of the slot size. -/
def Aligned (hash : DinamicHash) : Prop :=
  0 ≤ hash.loadFactor ∧ hash.bucketSize = 16 + 16 * hash.loadFactor ∧
  (∀ o ∈ hash.directory.bucketPointer, 0 ≤ o ∧ o % hash.bucketSize = 0) ∧
  (∀ o ∈ hash.directory.garbage, 0 ≤ o ∧ o % hash.bucketSize = 0)

/-- Size bound: the capacity is non-negative and every slot of the bucket
file has a record count between `0` and the capacity. -/
def SizeBound (hash : DinamicHash) : Prop :=
  0 ≤ hash.loadFactor ∧
    ∀ b ∈ hash.bucketFile.slots, 0 ≤ b.CurrentSize ∧ b.CurrentSize ≤ hash.loadFactor

/-- The bucket that `initializeNewBucket` writes: depth `p`, size `0`, zero records. -/
def freshBucket (p loadFactor : Int) : Bucket :=
  ⟨p, 0, List.replicate loadFactor.toNat newBucketRecord⟩

/-- Free list inside the file: every offset of the free list designates a
slot that the bucket file holds. -/
def FreeWithin (hash : DinamicHash) : Prop :=
  ∀ o ∈ hash.directory.garbage, Within hash o

/-- Directory inside the file: every offset of `bucketPointer` designates a
slot that the bucket file holds. -/
def DirWithin (hash : DinamicHash) : Prop :=
  ∀ o ∈ hash.directory.bucketPointer, Within hash o

/-- Well-formed state: directory of `2^p` entries, offsets on slot boundaries,
free list and directory inside the bucket file. -/
def WellFormed (hash : DinamicHash) : Prop :=
  DirShape hash ∧ Aligned hash ∧ FreeWithin hash ∧ DirWithin hash

/-- The directory indices of a split, `(pos, newPos)`, as `addRecord` computes
them from `power = 1 << ActualPower`, `pos = ID % count` and the number of
directory entries after the optional doubling: `newPos := power + pos` and,
when `newPos >= count`, the fallback `newPos = pos`, `pos %= power`. -/
def splitIndices (power pos count : Int) : Int × Int :=
  if power + pos ≥ count then (Int.tmod pos power, pos) else (pos, power + pos)

end HashingDinamico

/-!
# Substring search of `Backend/data/patternMatching/kmp/kmp.go`

A Go string is the list of its bytes.  The table `kmpNext` is the array
`[PatternSize]int`, a list of `PatternSize` integers.  An index out of range is
a panic (`none`); the inner `for` loops run on a budget of iterations that is
enough whenever every table entry read is smaller than its index, and give
`none` when it is used up.
-/

namespace Kmp

open HashingDinamico (sliceGet sliceSet)

/-- Maximum size of the pattern, the size of the array of the preprocessing. -/
def PatternSize : Nat := 100

/-- The inner loops `for i > -1 && x[i] != y[j] { i = next[i] }` of `kmp` and
`for j > -1 && x[i] != x[j] { j = kmpNext[j] }` of `preKMP`: `v` is the
variable of the loop, an index of `x`, and `w` the index that stays, of `y`.
The characters are read only when `v > -1`. -/
def slide (next : List Int) (x y : List Nat) (w : Int) : Nat → Int → Option Int
  | fuel, v =>
    if v > -1 then do
      let a ← sliceGet x v
      let b ← sliceGet y w
      if a ≠ b then
        match fuel with
        | 0 => none
        | f + 1 => do
          let v1 ← sliceGet next v
          slide next x y w f v1
      else some v
    else some v

/-- The outer loop of `preKMP`, `for i < length`, with the number of
iterations that remain. -/
def preLoop (x : List Nat) : Nat → Int → Int → List Int → Option (List Int)
  | 0, _, _, kmpNext => some kmpNext
  | k + 1, i, j, kmpNext => do
    let j1 ← slide kmpNext x x i (j + 1).toNat j
    let i2 := i + 1
    let j2 := j1 + 1
    let a ← sliceGet x i2
    let b ← sliceGet x j2
    let v ← (if a = b then sliceGet kmpNext j2 else some j2)
    let kmpNext1 ← sliceSet kmpNext i2 v
    preLoop x k i2 j2 kmpNext1

/-- Preprocessing of the pattern: the table `kmpNext`. -/
def preKMP (x : List Nat) : Option (List Int) := do
  let length := (x.length : Int) - 1
  let kmpNext ← sliceSet (List.replicate PatternSize (0 : Int)) 0 (-1)
  preLoop x length.toNat 0 (-1) kmpNext

/-- The outer loop of `kmp`, `for j < n`, with the number of iterations that
remain. -/
def kmpLoop (next : List Int) (x y : List Nat) : Nat → Int → Int → List Int → Option (List Int)
  | 0, _, _, ret => some ret
  | k + 1, i, j, ret => do
    let i1 ← slide next x y j (i + 1).toNat i
    let i2 := i1 + 1
    let j2 := j + 1
    if i2 ≥ (x.length : Int) then
      let i3 ← sliceGet next i2
      kmpLoop next x y k i3 j2 (ret ++ [j2 - i2])
    else kmpLoop next x y k i2 j2 ret

/-- The Knuth-Morris-Pratt search: start positions of `needle` in `haystack`. -/
def kmp (haystack needle : List Nat) : Option (List Int) := do
  let next ← preKMP needle
  if needle.length = 0 ∨ haystack.length = 0 then some []
  else if haystack.length < needle.length then some []
  else kmpLoop next needle haystack haystack.length 0 0 []

/-- Position of the last occurrence reported by `kmp`, `-1` when there is none. -/
def SearchNext (haystack needle : List Nat) : Option Int := do
  let retSlice ← kmp haystack needle
  if retSlice.length > 0 then sliceGet retSlice ((retSlice.length : Int) - 1)
  else some (-1)

/-- Go's `strings.ToLower` on one byte of an ASCII string: `A`..`Z` become
`a`..`z`, every other byte stays. -/
def lowerByte (b : Nat) : Nat := if 65 ≤ b ∧ b ≤ 90 then b + 32 else b

/-- Go's `strings.ToLower` on an ASCII string. -/
def ToLower (s : List Nat) : List Nat := s.map lowerByte

/-- Case-insensitive search. -/
def SearchString (haystack needle : List Nat) : Option (List Int) :=
  kmp (ToLower haystack) (ToLower needle)

/-- The string is ASCII: every byte is below 128. -/
def isASCII (s : List Nat) : Prop := ∀ b ∈ s, b < 128

/-- The byte with the letter case changed: `A`..`Z` and `a`..`z` are swapped. -/
def swapCase (b : Nat) : Nat :=
  if 65 ≤ b ∧ b ≤ 90 then b + 32 else if 97 ≤ b ∧ b ≤ 122 then b - 32 else b

/-- The second string is the first with the letter case of some of its
characters changed. -/
def caseVariant (s t : List Nat) : Prop :=
  List.Forall₂ (fun a b => b = a ∨ b = swapCase a) s t

/-- The needle occurs in the haystack at start position `p`. -/
def occursAt (haystack needle : List Nat) (p : Nat) : Prop :=
  p + needle.length ≤ haystack.length ∧ (haystack.drop p).take needle.length = needle

instance (haystack needle : List Nat) (p : Nat) : Decidable (occursAt haystack needle p) :=
  inferInstanceAs (Decidable (_ ∧ _))

/-- All start positions at which the needle occurs, in increasing order. -/
def occurrences (haystack needle : List Nat) : List Int :=
  ((List.range (haystack.length + 1)).filter (fun p => decide (occursAt haystack needle p))).map
    (fun p => (p : Int))

/-- Equal stretches: `x[0..k)` equals `y[s..s+k)`, index by index. -/
def Pref (x y : List Nat) (k s : Int) : Prop :=
  ∀ t : Int, 0 ≤ t → t < k → sliceGet x t = sliceGet y (s + t)

/-- Border: `k` is `-1`, or `0 ≤ k < i` and `x[0..k)` equals `x[i-k..i)`. -/
def Border (x : List Nat) (i k : Int) : Prop :=
  k = -1 ∨ (0 ≤ k ∧ k < i ∧ Pref x x k (i - k))

/-- State of the loop of `preKMP` before the iteration for `i`: the table has
`PatternSize` entries, `j` is `-1` (at `i = 0`) or the length of a border of
`x[0..i)`, every entry up to `i` is a border of its index, and every later
entry is still `0`. -/
def PreInv (x : List Nat) (next : List Int) (i j : Int) : Prop :=
  next.length = PatternSize ∧ 0 ≤ i ∧
    ((i = 0 ∧ j = -1) ∨ (0 ≤ j ∧ j < i ∧ Pref x x j (i - j))) ∧
    (∀ v, 0 ≤ v → v ≤ i → ∃ k, sliceGet next v = some k ∧ Border x v k) ∧
    (∀ v, i < v → v < PatternSize → sliceGet next v = some 0)

/-- Result list of `kmp` when the haystack has been read up to `j`: strictly
increasing start positions `p` with `0 ≤ p`, `p + m ≤ j` and the needle at
`haystack[p..p+m)`. -/
def Found (x y : List Nat) (j : Int) (ret : List Int) : Prop :=
  ret.Pairwise (fun a b => a < b) ∧
    ∀ p ∈ ret, 0 ≤ p ∧ p + x.length ≤ j ∧ Pref x y x.length p

/-- Longest border: every border `u` of `x[0..i)` is at most `j`. -/
def Longest (x : List Nat) (i j : Int) : Prop :=
  ∀ u : Int, 0 ≤ u → u < i → Pref x x u (i - u) → u ≤ j

/-- Maximal table entry: every border `u` of `x[0..v)` that is followed by a
character other than `x[v]` is at most `k`. -/
def StrongMax (x : List Nat) (v k : Int) : Prop :=
  ∀ u : Int, 0 ≤ u → u < v → Pref x x u (v - u) → sliceGet x u ≠ sliceGet x v → u ≤ k

/-- State of the loop of `preKMP` with the maximality of what it holds: on top
of `PreInv`, `j` is the longest border of `x[0..i)` and every entry up to `i`
is maximal. -/
def PreMax (x : List Nat) (next : List Int) (i j : Int) : Prop :=
  PreInv x next i j ∧ Longest x i j ∧
    ∀ v k : Int, 0 ≤ v → v ≤ i → sliceGet next v = some k → StrongMax x v k

end Kmp

/-! ## Lemmas and theorems -/

namespace HashingDinamico

theorem mirrorLoop_fill (old : List Int) :
    ∀ (n j : Nat) (rest : List Int), j + n = old.length → rest.length = n →
      mirrorLoop n (old.length + j) j (old ++ old.take j ++ rest) = old ++ old := by
  intro n
  induction n with
  | zero =>
    intro j rest hj hr
    have hrest : rest = [] := List.length_eq_zero.mp hr
    have hj2 : j = old.length := by omega
    subst hrest
    simp [mirrorLoop, hj2]
  | succ n ih =>
    intro j rest hj hr
    cases rest with
    | nil => simp at hr
    | cons x rest1 =>
      have hjlt : j < old.length := by omega
      simp only [mirrorLoop]
      have hget : (old ++ List.take j old ++ x :: rest1).getD j 0 = old[j] := by
        rw [List.append_assoc, List.getD_eq_getElem?_getD, List.getElem?_append_left hjlt]
        simp [hjlt]
      have hset : (old ++ List.take j old ++ x :: rest1).set (old.length + j) old[j]
          = old ++ List.take (j + 1) old ++ rest1 := by
        rw [List.append_assoc, List.set_append_right _ _ (by omega)]
        have h1 : old.length + j - old.length = j := by omega
        rw [h1]
        have h2 : (List.take j old).length = j := by simp; omega
        rw [List.set_append_right _ _ (by omega)]
        rw [h2]
        simp only [Nat.sub_self, List.set_cons_zero, List.take_succ, List.getElem?_eq_getElem hjlt, Option.toList, List.append_assoc, List.singleton_append]
      rw [hget, hset]
      have := ih (j + 1) rest1 (by omega) (by simpa using hr)
      simpa [Nat.add_assoc] using this

theorem shiftOne_nonneg {x : Int} (hx : 0 ≤ x) : shiftOne x = some ((2 : Int) ^ x.toNat) := by
  simp [shiftOne, Int.not_lt.mpr hx]

theorem increasePower_eq (hash : DinamicHash) (hp : 0 ≤ hash.directory.p)
    (hlen : hash.directory.bucketPointer.length = 2 ^ hash.directory.p.toNat) :
    increasePower hash = some { hash with directory :=
      { hash.directory with
        p := hash.directory.p + 1,
        bucketPointer := hash.directory.bucketPointer ++ hash.directory.bucketPointer } } := by
  have hp1 : 0 ≤ hash.directory.p + 1 := by omega
  have htn : (hash.directory.p + 1).toNat = hash.directory.p.toNat + 1 := by omega
  have hn : (((2 : Int) ^ (hash.directory.p + 1).toNat)).toNat
      = 2 * hash.directory.bucketPointer.length := by
    rw [htn, hlen]
    have : ((2 : Int) ^ (hash.directory.p.toNat + 1)) = ((2 ^ (hash.directory.p.toNat + 1) : Nat) : Int) := by
      push_cast; rfl
    rw [this, Int.toNat_ofNat, pow_succ]; omega
  simp only [increasePower, shiftOne_nonneg hp1, Option.bind_eq_bind, Option.some_bind, hn]
  have h1 : 2 * hash.directory.bucketPointer.length / 2 = hash.directory.bucketPointer.length := by omega
  have h2 : 2 * hash.directory.bucketPointer.length - hash.directory.bucketPointer.length
      = hash.directory.bucketPointer.length := by omega
  have h3 : List.take (2 * hash.directory.bucketPointer.length) hash.directory.bucketPointer
      = hash.directory.bucketPointer := List.take_of_length_le (by omega)
  rw [h1, h2, h3]
  have := mirrorLoop_fill hash.directory.bucketPointer hash.directory.bucketPointer.length 0
    (List.replicate hash.directory.bucketPointer.length 0) (by omega) (by simp)
  simp only [List.take_zero, List.append_nil, Nat.add_zero] at this
  rw [this]

theorem writeAt_frame {hash hash1 : DinamicHash} {off : Int} {b : Bucket}
    (h : writeAt hash off b = some hash1) :
    hash1.directory = hash.directory ∧ hash1.loadFactor = hash.loadFactor ∧
      hash1.bucketSize = hash.bucketSize ∧ hash1.bucketFile.name = hash.bucketFile.name := by
  simp only [writeAt, Option.bind_eq_bind, Option.bind_eq_some, Option.some.injEq] at h
  obtain ⟨k, _, rfl⟩ := h
  exact ⟨rfl, rfl, rfl, rfl⟩

theorem insertIntoBucket_frame {hash hash1 : DinamicHash} {pos power size : Int}
    {records : List BucketRecord}
    (h : insertIntoBucket hash pos power size records = some hash1) :
    hash1.directory = hash.directory ∧ hash1.loadFactor = hash.loadFactor ∧
      hash1.bucketSize = hash.bucketSize ∧ hash1.bucketFile.name = hash.bucketFile.name := by
  simp only [insertIntoBucket, Option.bind_eq_bind, Option.bind_eq_some] at h
  obtain ⟨off, _, h⟩ := h
  exact writeAt_frame h

theorem initializeLoop_frame : ∀ (n : Nat) (hash hash1 : DinamicHash) (address : List Int),
    initializeLoop n hash = some (hash1, address) →
    hash1.directory.p = hash.directory.p ∧
      hash1.directory.bucketPointer = hash.directory.bucketPointer ∧
      hash1.loadFactor = hash.loadFactor ∧ hash1.bucketSize = hash.bucketSize ∧
      address.length = n := by
  intro n
  induction n with
  | zero =>
    intro hash hash1 address h
    simp only [initializeLoop, Option.some.injEq, Prod.mk.injEq] at h
    obtain ⟨rfl, rfl⟩ := h
    simp
  | succ n ih =>
    intro hash hash1 address h
    simp only [initializeLoop, Option.bind_eq_bind, Option.bind_eq_some] at h
    obtain ⟨zeros, _, h⟩ := h
    split at h
    · simp only [Option.bind_eq_some, Option.some.injEq, Prod.mk.injEq] at h
      obtain ⟨hash2, hw, ⟨hash3, more⟩, hl, rfl, rfl⟩ := h
      obtain ⟨hd, hlf, hbs, _⟩ := writeAt_frame hw
      obtain ⟨h1, h2, h3, h4, h5⟩ := ih _ _ _ hl
      simp only [hd, hlf, hbs] at h1 h2 h3 h4
      simp [h1, h2, h3, h4, h5]
    · simp only [Option.bind_eq_some, Option.some.injEq, Prod.mk.injEq] at h
      obtain ⟨hash2, hw, ⟨hash3, more⟩, hl, rfl, rfl⟩ := h
      obtain ⟨hd, hlf, hbs, _⟩ := writeAt_frame hw
      obtain ⟨h1, h2, h3, h4, h5⟩ := ih _ _ _ hl
      simp only [hd, hlf, hbs] at h1 h2 h3 h4
      simp [h1, h2, h3, h4, h5]

theorem initializeNewBucket_frame {hash hash1 : DinamicHash} {n : Int} {address : List Int}
    (h : initializeNewBucket hash n = some (hash1, address)) :
    hash1.directory.p = hash.directory.p ∧
      hash1.directory.bucketPointer = hash.directory.bucketPointer ∧
      hash1.loadFactor = hash.loadFactor ∧ hash1.bucketSize = hash.bucketSize := by
  unfold initializeNewBucket at h
  split at h
  · simp at h
  · obtain ⟨h1, h2, h3, h4, _⟩ := initializeLoop_frame _ _ _ _ h
    exact ⟨h1, h2, h3, h4⟩

theorem sliceSet_length {α : Type} {xs ys : List α} {i : Int} {v : α}
    (h : sliceSet xs i v = some ys) : ys.length = xs.length := by
  unfold sliceSet at h
  split at h
  · simp only [Option.some.injEq] at h
    subst h
    simp
  · simp at h

theorem increasePower_shape {hash hash1 : DinamicHash} (hs : DirShape hash)
    (h : increasePower hash = some hash1) :
    DirShape hash1 ∧ hash1.directory.p = hash.directory.p + 1 ∧
      hash1.loadFactor = hash.loadFactor ∧ hash1.bucketSize = hash.bucketSize := by
  rw [increasePower_eq hash (by have := hs.1; omega) hs.2] at h
  simp only [Option.some.injEq] at h
  subst h
  refine ⟨⟨?_, ?_⟩, rfl, rfl, rfl⟩
  · simp only; have := hs.1; omega
  · simp only [List.length_append]
    have htn : (hash.directory.p + 1).toNat = hash.directory.p.toNat + 1 := by
      have := hs.1; omega
    rw [htn, pow_succ, hs.2]; omega

theorem bind_elim {α β : Type} {x : Option α} {f : α → Option β} {b : β}
    (h : (x >>= f) = some b) : ∃ a, x = some a ∧ f a = some b :=
  Option.bind_eq_some.mp h

theorem addRecord_shape {hash hash1 : DinamicHash} {r : BucketRecord} (hs : DirShape hash)
    (h : addRecord hash r = some hash1) :
    DirShape hash1 ∧ hash.directory.p ≤ hash1.directory.p := by
  unfold addRecord at h
  obtain ⟨count, _, h⟩ := bind_elim h
  obtain ⟨bucket, _, h⟩ := bind_elim h
  split at h
  · obtain ⟨hashA, hA, h⟩ := bind_elim h
    obtain ⟨⟨hashB, address⟩, hB, h⟩ := bind_elim h
    dsimp only at h
    obtain ⟨power, _, h⟩ := bind_elim h
    obtain ⟨count2, _, h⟩ := bind_elim h
    obtain ⟨a, _, h⟩ := bind_elim h
    obtain ⟨bp, hbp, h⟩ := bind_elim h
    obtain ⟨b1, _, h⟩ := bind_elim h
    obtain ⟨b2, _, h⟩ := bind_elim h
    obtain ⟨records, _, h⟩ := bind_elim h
    obtain ⟨power1, _, h⟩ := bind_elim h
    obtain ⟨hashC, hC, hD⟩ := bind_elim h
    have hAshape : DirShape hashA ∧ hash.directory.p ≤ hashA.directory.p := by
      split at hA
      · obtain ⟨h1, h2, _⟩ := increasePower_shape hs hA
        exact ⟨h1, by omega⟩
      · simp only [Option.some.injEq] at hA
        subst hA
        exact ⟨hs, le_refl _⟩
    obtain ⟨hBp, hBbp, _, _⟩ := initializeNewBucket_frame hB
    obtain ⟨hCd, _⟩ := insertIntoBucket_frame hC
    obtain ⟨hDd, _⟩ := insertIntoBucket_frame hD
    have hlen := sliceSet_length hbp
    simp only [DirShape, hDd, hCd, hlen, hBbp, hBp]
    exact ⟨hAshape.1, hAshape.2⟩
  · obtain ⟨records, _, h⟩ := bind_elim h
    obtain ⟨hd, _⟩ := insertIntoBucket_frame h
    simp only [DirShape, hd]
    exact ⟨hs, le_refl _⟩

theorem increasePower_frame {hash hash1 : DinamicHash} (h : increasePower hash = some hash1) :
    hash1.directory.p = hash.directory.p + 1 ∧ hash1.directory.garbage = hash.directory.garbage ∧
      hash1.bucketFile = hash.bucketFile ∧ hash1.loadFactor = hash.loadFactor ∧
      hash1.bucketSize = hash.bucketSize := by
  unfold increasePower at h
  obtain ⟨n, _, h⟩ := bind_elim h
  simp only [Option.some.injEq] at h
  subst h
  exact ⟨rfl, rfl, rfl, rfl, rfl⟩

theorem HashUpdate_frame {hash hash1 : DinamicHash} {numero newAddress : Int} {err : Bool}
    (h : HashUpdate hash numero newAddress = some (hash1, err)) :
    hash1.directory = hash.directory ∧ hash1.loadFactor = hash.loadFactor ∧
      hash1.bucketSize = hash.bucketSize := by
  unfold HashUpdate at h
  obtain ⟨count, _, h⟩ := bind_elim h
  obtain ⟨bucket, _, h⟩ := bind_elim h
  obtain ⟨targetPos, _, h⟩ := bind_elim h
  split at h
  · simp only [Option.some.injEq, Prod.mk.injEq] at h
    obtain ⟨rfl, _⟩ := h
    exact ⟨rfl, rfl, rfl⟩
  · obtain ⟨old, _, h⟩ := bind_elim h
    obtain ⟨records, _, h⟩ := bind_elim h
    obtain ⟨hashA, hA, h⟩ := bind_elim h
    simp only [Option.some.injEq, Prod.mk.injEq] at h
    obtain ⟨rfl, _⟩ := h
    obtain ⟨h1, h2, h3, _⟩ := insertIntoBucket_frame hA
    exact ⟨h1, h2, h3⟩

theorem HashDelete_shape {hash hash1 : DinamicHash} {targetID : Int} {err : Bool}
    (h : HashDelete hash targetID = some (hash1, err)) :
    hash1.directory.p = hash.directory.p ∧
      hash1.directory.bucketPointer.length = hash.directory.bucketPointer.length ∧
      hash1.loadFactor = hash.loadFactor ∧ hash1.bucketSize = hash.bucketSize := by
  unfold HashDelete at h
  obtain ⟨count, _, h⟩ := bind_elim h
  obtain ⟨bucket, _, h⟩ := bind_elim h
  obtain ⟨targetPos, _, h⟩ := bind_elim h
  split at h
  · simp only [Option.some.injEq, Prod.mk.injEq] at h
    obtain ⟨rfl, _⟩ := h
    exact ⟨rfl, rfl, rfl, rfl⟩
  · obtain ⟨records, _, h⟩ := bind_elim h
    obtain ⟨hashA, hA, h⟩ := bind_elim h
    obtain ⟨hAd, hAlf, hAbs, _⟩ := insertIntoBucket_frame hA
    split at h
    · obtain ⟨old, _, h⟩ := bind_elim h
      obtain ⟨buddy, _, h⟩ := bind_elim h
      obtain ⟨bp, hbp, h⟩ := bind_elim h
      obtain ⟨merged, _, h⟩ := bind_elim h
      obtain ⟨hashC, hC, h⟩ := bind_elim h
      simp only [Option.some.injEq, Prod.mk.injEq] at h
      obtain ⟨rfl, _⟩ := h
      obtain ⟨hCd, hClf, hCbs, _⟩ := insertIntoBucket_frame hC
      have hlen := sliceSet_length hbp
      rw [hCd, hClf, hCbs]
      simp only [hlen, hAd, hAlf, hAbs, and_self]
    · simp only [Option.some.injEq, Prod.mk.injEq] at h
      obtain ⟨rfl, _⟩ := h
      rw [hAd, hAlf, hAbs]
      exact ⟨rfl, rfl, rfl, rfl⟩

theorem step_shape {hash hash1 : DinamicHash} {op : Op} (hs : DirShape hash)
    (h : step hash op = some hash1) :
    DirShape hash1 ∧ hash.directory.p ≤ hash1.directory.p := by
  cases op with
  | add r => exact addRecord_shape hs h
  | update numero newAddress =>
    simp only [step, Option.map_eq_some', Prod.exists, exists_and_right, exists_eq_right] at h
    obtain ⟨err, h⟩ := h
    obtain ⟨hd, _⟩ := HashUpdate_frame h
    simp only [DirShape, hd]
    exact ⟨hs, le_refl _⟩
  | delete targetID =>
    simp only [step, Option.map_eq_some', Prod.exists, exists_and_right, exists_eq_right] at h
    obtain ⟨err, h⟩ := h
    obtain ⟨h1, h2, _⟩ := HashDelete_shape h
    simp only [DirShape, h1, h2]
    exact ⟨hs, le_refl _⟩

theorem run_shape : ∀ (ops : List Op) (hash hash1 : DinamicHash), DirShape hash →
    run ops hash = some hash1 → DirShape hash1 ∧ hash.directory.p ≤ hash1.directory.p := by
  intro ops
  induction ops with
  | nil =>
    intro hash hash1 hs h
    simp only [run, Option.some.injEq] at h
    subst h
    exact ⟨hs, le_refl _⟩
  | cons op rest ih =>
    intro hash hash1 hs h
    simp only [run] at h
    obtain ⟨hashA, hA, h⟩ := Option.bind_eq_some.mp h
    obtain ⟨h1, h2⟩ := step_shape hs hA
    obtain ⟨h3, h4⟩ := ih _ _ h1 h
    exact ⟨h3, le_trans h2 h4⟩

theorem storeLoop_length : ∀ (n : Nat) (i : Int) (address bp bp1 : List Int),
    storeLoop n i address bp = some bp1 → bp1.length = bp.length := by
  intro n
  induction n with
  | zero =>
    intro i address bp bp1 h
    simp only [storeLoop, Option.some.injEq] at h
    subst h; rfl
  | succ n ih =>
    intro i address bp bp1 h
    unfold storeLoop at h
    obtain ⟨a, _, h⟩ := bind_elim h
    obtain ⟨bp2, hbp2, h⟩ := bind_elim h
    rw [ih _ _ _ _ h, sliceSet_length hbp2]

theorem wrap64_of_range (x : Int) (h0 : -9223372036854775808 ≤ x)
    (h1 : x ≤ MaxInt64) : wrap64 x = x := by
  unfold MaxInt64 at h1
  unfold wrap64
  omega

/-- A slot size that did not wrap below `16 + 16 * loadFactor` did not wrap
at all. -/
theorem wrap64_slot (lf : Int) (h0 : 0 ≤ lf)
    (h : 16 + 16 * lf ≤ wrap64 (8 + 8 + wrap64 (lf * 16))) :
    wrap64 (8 + 8 + wrap64 (lf * 16)) = 16 + 16 * lf := by
  unfold wrap64 at h ⊢
  omega

/-- When `newHash` returns, the capacity did not wrap to a negative value and
the slot size did not wrap. -/
theorem newHash_fits {bucketPath : List Nat} {size : Int} {hash : DinamicHash}
    (h : newHash bucketPath size = some hash) :
    0 ≤ wrap64 (size + 1) ∧
      wrap64 (8 + 8 + wrap64 (wrap64 (size + 1) * 16)) = 16 + 16 * wrap64 (size + 1) := by
  unfold newHash at h
  obtain ⟨count, hcount, h⟩ := bind_elim h
  obtain ⟨⟨hashA, address⟩, hA, _⟩ := bind_elim h
  have hc2 : count = 2 := by
    have h2 : (some (2 : Int)) = some count := hcount
    exact (Option.some.inj h2).symm
  subst hc2
  unfold initializeNewBucket at hA
  rw [if_neg (by decide)] at hA
  have hc : (2 : Int).toNat = 1 + 1 := rfl
  rw [hc] at hA
  unfold initializeLoop at hA
  obtain ⟨zeros, hz, hA⟩ := bind_elim hA
  have hlf : 0 ≤ wrap64 (size + 1) := by
    by_contra hneg
    have hlt : wrap64 (size + 1) < 0 := by omega
    have hz1 : makeSlice (wrap64 (size + 1)) newBucketRecord = some zeros := hz
    simp [makeSlice, hlt] at hz1
  dsimp only at hA
  obtain ⟨hash2, hw, _⟩ := bind_elim hA
  unfold writeAt at hw
  obtain ⟨k, hk, _⟩ := bind_elim hw
  unfold slotOf at hk
  split at hk
  · rename_i hg
    exact ⟨hlf, wrap64_slot _ hlf hg.2.2.1⟩
  · exact absurd hk (by simp)

theorem newHash_shape {bucketPath : List Nat} {size : Int} {hash : DinamicHash}
    (h : newHash bucketPath size = some hash) : DirShape hash := by
  unfold newHash at h
  obtain ⟨count, _, h⟩ := bind_elim h
  obtain ⟨⟨hashA, address⟩, hA, h⟩ := bind_elim h
  dsimp only at h
  obtain ⟨count1, _, h⟩ := bind_elim h
  obtain ⟨bp, hbp, h⟩ := bind_elim h
  simp only [Option.some.injEq] at h
  subst h
  obtain ⟨h1, h2, _⟩ := initializeNewBucket_frame hA
  have hlen := storeLoop_length _ _ _ _ _ hbp
  simp only [DirShape, hlen, h1, h2]
  decide

theorem putSlot_mem {loadFactor : Int} {slots : List Bucket} {k : Nat} {b c : Bucket}
    (h : c ∈ putSlot loadFactor slots k b) : c = b ∨ c ∈ slots ∨ c = zeroSlot loadFactor := by
  unfold putSlot at h
  split at h
  · rcases List.mem_or_eq_of_mem_set h with h | h
    · exact Or.inr (Or.inl h)
    · exact Or.inl h
  · simp only [List.mem_append, List.mem_replicate, List.mem_singleton] at h
    rcases h with (h | h) | h
    · exact Or.inr (Or.inl h)
    · exact Or.inr (Or.inr h.2)
    · exact Or.inl h

theorem writeAt_depth {hash hash1 : DinamicHash} {off : Int} {b : Bucket}
    (h : writeAt hash off b = some hash1)
    (hd : DepthBound hash) (hb : b.ActualPower ≤ hash.directory.p) : DepthBound hash1 := by
  unfold writeAt at h
  obtain ⟨k, _, h⟩ := bind_elim h
  simp only [Option.some.injEq] at h
  subst h
  refine ⟨hd.1, ?_⟩
  intro c hc
  rcases putSlot_mem hc with h | h | h
  · subst h; exact hb
  · exact hd.2 c h
  · subst h; exact hd.1

theorem readAt_depth {hash : DinamicHash} {off : Int} {b : Bucket}
    (hd : DepthBound hash) (h : readAt hash off = some b) :
    b.ActualPower ≤ hash.directory.p := by
  unfold readAt at h
  obtain ⟨k, _, h⟩ := bind_elim h
  simp only [Option.some.injEq] at h
  subst h
  simp only [List.getD_eq_getElem?_getD]
  cases hk : hash.bucketFile.slots[k]? with
  | none => exact hd.1
  | some c => exact hd.2 c (List.getElem?_mem hk)

theorem readBucket_depth {hash : DinamicHash} {pos : Int} {b : Bucket}
    (hd : DepthBound hash) (h : readBucket hash pos = some b) :
    b.ActualPower ≤ hash.directory.p := by
  unfold readBucket at h
  split at h
  · simp only [Option.some.injEq] at h
    subst h; exact hd.1
  · obtain ⟨off, _, h⟩ := bind_elim h
    exact readAt_depth hd h

theorem insertIntoBucket_depth {hash hash1 : DinamicHash} {pos power size : Int}
    {records : List BucketRecord}
    (h : insertIntoBucket hash pos power size records = some hash1)
    (hd : DepthBound hash) (hb : power ≤ hash.directory.p) : DepthBound hash1 := by
  unfold insertIntoBucket at h
  obtain ⟨off, _, h⟩ := bind_elim h
  exact writeAt_depth h hd hb

theorem initializeLoop_depth : ∀ (n : Nat) (hash hash1 : DinamicHash) (address : List Int),
    DepthBound hash → initializeLoop n hash = some (hash1, address) → DepthBound hash1 := by
  intro n
  induction n with
  | zero =>
    intro hash hash1 address hd h
    simp only [initializeLoop, Option.some.injEq, Prod.mk.injEq] at h
    obtain ⟨rfl, _⟩ := h
    exact hd
  | succ n ih =>
    intro hash hash1 address hd h
    unfold initializeLoop at h
    obtain ⟨zeros, _, h⟩ := bind_elim h
    split at h
    · obtain ⟨hash2, hw, h⟩ := bind_elim h
      obtain ⟨⟨hash3, more⟩, hl, h⟩ := bind_elim h
      simp only [Option.some.injEq, Prod.mk.injEq] at h
      obtain ⟨rfl, _⟩ := h
      exact ih _ _ _ (writeAt_depth hw hd (le_refl _)) hl
    · obtain ⟨hash2, hw, h⟩ := bind_elim h
      obtain ⟨⟨hash3, more⟩, hl, h⟩ := bind_elim h
      simp only [Option.some.injEq, Prod.mk.injEq] at h
      obtain ⟨rfl, _⟩ := h
      exact ih _ _ _ (writeAt_depth hw hd (le_refl _)) hl

theorem initializeNewBucket_depth {hash hash1 : DinamicHash} {n : Int} {address : List Int}
    (hd : DepthBound hash) (h : initializeNewBucket hash n = some (hash1, address)) :
    DepthBound hash1 := by
  unfold initializeNewBucket at h
  split at h
  · simp at h
  · exact initializeLoop_depth _ _ _ _ hd h

theorem splitLoop_power (power pos : Int) : ∀ (records : List BucketRecord) (b1 b2 : Nat)
    (bucket1 bucket2 : Bucket),
    (splitLoop power pos records b1 b2 bucket1 bucket2).1.ActualPower = bucket1.ActualPower ∧
    (splitLoop power pos records b1 b2 bucket1 bucket2).2.ActualPower = bucket2.ActualPower := by
  intro records
  induction records with
  | nil => intro b1 b2 bucket1 bucket2; exact ⟨rfl, rfl⟩
  | cons x rest ih =>
    intro b1 b2 bucket1 bucket2
    simp only [splitLoop]
    split
    · exact ih _ _ _ _
    · exact ih _ _ _ _

theorem newBucket_power {actualPower loadFactor : Int} {b : Bucket}
    (h : newBucket actualPower loadFactor = some b) : b.ActualPower = actualPower := by
  unfold newBucket at h
  obtain ⟨records, _, h⟩ := bind_elim h
  simp only [Option.some.injEq] at h
  subst h; rfl

theorem addRecord_depth {hash hash1 : DinamicHash} {r : BucketRecord} (hd : DepthBound hash)
    (h : addRecord hash r = some hash1) : DepthBound hash1 := by
  unfold addRecord at h
  obtain ⟨count, _, h⟩ := bind_elim h
  obtain ⟨bucket, hbucket, h⟩ := bind_elim h
  have hdepth := readBucket_depth hd hbucket
  split at h
  · obtain ⟨hashA, hA, h⟩ := bind_elim h
    obtain ⟨⟨hashB, address⟩, hB, h⟩ := bind_elim h
    dsimp only at h
    obtain ⟨power, _, h⟩ := bind_elim h
    obtain ⟨count2, _, h⟩ := bind_elim h
    obtain ⟨a, _, h⟩ := bind_elim h
    obtain ⟨bp, hbp, h⟩ := bind_elim h
    obtain ⟨b1, hb1, h⟩ := bind_elim h
    obtain ⟨b2, hb2, h⟩ := bind_elim h
    obtain ⟨records, _, h⟩ := bind_elim h
    obtain ⟨power1, _, h⟩ := bind_elim h
    obtain ⟨hashC, hC, hD⟩ := bind_elim h
    have hAd : DepthBound hashA ∧ bucket.ActualPower + 1 ≤ hashA.directory.p := by
      split at hA
      · next heq =>
        obtain ⟨h1, _, h3, _⟩ := increasePower_frame hA
        refine ⟨⟨by rw [h1]; have := hd.1; omega, ?_⟩, by rw [h1, heq]⟩
        intro c hc
        rw [h3] at hc
        have := hd.2 c hc
        omega
      · next hne =>
        simp only [Option.some.injEq] at hA
        subst hA
        exact ⟨hd, by omega⟩
    have hBd := initializeNewBucket_depth hAd.1 hB
    obtain ⟨hBp, _⟩ := initializeNewBucket_frame hB
    have hle : bucket.ActualPower + 1 ≤ hashB.directory.p := by rw [hBp]; exact hAd.2
    have hp := splitLoop_power power1 (if power + r.ID.tmod count ≥ count2 then
      (r.ID.tmod count).tmod power else r.ID.tmod count) records 0 0 b1 b2
    rw [newBucket_power hb1, newBucket_power hb2] at hp
    have hCd : DepthBound hashC :=
      insertIntoBucket_depth hC hBd (by rw [hp.1]; exact hle)
    obtain ⟨hCdir, _⟩ := insertIntoBucket_frame hC
    exact insertIntoBucket_depth hD hCd (by rw [hp.2, hCdir]; exact hle)
  · obtain ⟨records, _, h⟩ := bind_elim h
    exact insertIntoBucket_depth h hd hdepth

theorem HashUpdate_depth {hash hash1 : DinamicHash} {numero newAddress : Int} {err : Bool}
    (hd : DepthBound hash) (h : HashUpdate hash numero newAddress = some (hash1, err)) :
    DepthBound hash1 := by
  unfold HashUpdate at h
  obtain ⟨count, _, h⟩ := bind_elim h
  obtain ⟨bucket, hbucket, h⟩ := bind_elim h
  obtain ⟨targetPos, _, h⟩ := bind_elim h
  split at h
  · simp only [Option.some.injEq, Prod.mk.injEq] at h
    obtain ⟨rfl, _⟩ := h
    exact hd
  · obtain ⟨old, _, h⟩ := bind_elim h
    obtain ⟨records, _, h⟩ := bind_elim h
    obtain ⟨hashA, hA, h⟩ := bind_elim h
    simp only [Option.some.injEq, Prod.mk.injEq] at h
    obtain ⟨rfl, _⟩ := h
    exact insertIntoBucket_depth hA hd (readBucket_depth hd hbucket)

theorem HashDelete_depth {hash hash1 : DinamicHash} {targetID : Int} {err : Bool}
    (hd : DepthBound hash) (h : HashDelete hash targetID = some (hash1, err)) :
    DepthBound hash1 := by
  unfold HashDelete at h
  obtain ⟨count, _, h⟩ := bind_elim h
  obtain ⟨bucket, hbucket, h⟩ := bind_elim h
  obtain ⟨targetPos, _, h⟩ := bind_elim h
  split at h
  · simp only [Option.some.injEq, Prod.mk.injEq] at h
    obtain ⟨rfl, _⟩ := h
    exact hd
  · obtain ⟨records, _, h⟩ := bind_elim h
    obtain ⟨hashA, hA, h⟩ := bind_elim h
    have hAd := insertIntoBucket_depth hA hd (readBucket_depth hd hbucket)
    split at h
    · obtain ⟨old, _, h⟩ := bind_elim h
      obtain ⟨buddy, _, h⟩ := bind_elim h
      obtain ⟨bp, hbp, h⟩ := bind_elim h
      obtain ⟨merged, hm, h⟩ := bind_elim h
      obtain ⟨hashC, hC, h⟩ := bind_elim h
      simp only [Option.some.injEq, Prod.mk.injEq] at h
      obtain ⟨rfl, _⟩ := h
      have hBd : DepthBound { hashA with directory :=
          { hashA.directory with bucketPointer := bp,
                                 garbage := hashA.directory.garbage ++ [old] } } := hAd
      have hmd := readBucket_depth hBd hm
      exact insertIntoBucket_depth hC hBd (by have : merged.ActualPower - 1 ≤ merged.ActualPower := by omega
                                              exact le_trans this hmd)
    · simp only [Option.some.injEq, Prod.mk.injEq] at h
      obtain ⟨rfl, _⟩ := h
      exact hAd

theorem step_depth {hash hash1 : DinamicHash} {op : Op} (hd : DepthBound hash)
    (h : step hash op = some hash1) : DepthBound hash1 := by
  cases op with
  | add r => exact addRecord_depth hd h
  | update numero newAddress =>
    simp only [step, Option.map_eq_some', Prod.exists, exists_and_right, exists_eq_right] at h
    obtain ⟨err, h⟩ := h
    exact HashUpdate_depth hd h
  | delete targetID =>
    simp only [step, Option.map_eq_some', Prod.exists, exists_and_right, exists_eq_right] at h
    obtain ⟨err, h⟩ := h
    exact HashDelete_depth hd h

theorem run_depth : ∀ (ops : List Op) (hash hash1 : DinamicHash), DepthBound hash →
    run ops hash = some hash1 → DepthBound hash1 := by
  intro ops
  induction ops with
  | nil =>
    intro hash hash1 hd h
    simp only [run, Option.some.injEq] at h
    subst h
    exact hd
  | cons op rest ih =>
    intro hash hash1 hd h
    simp only [run] at h
    obtain ⟨hashA, hA, h⟩ := Option.bind_eq_some.mp h
    exact ih _ _ (step_depth hd hA) h

theorem newHash_depth {bucketPath : List Nat} {size : Int} {hash : DinamicHash}
    (h : newHash bucketPath size = some hash) : DepthBound hash := by
  unfold newHash at h
  obtain ⟨count, _, h⟩ := bind_elim h
  obtain ⟨⟨hashA, address⟩, hA, h⟩ := bind_elim h
  dsimp only at h
  obtain ⟨count1, _, h⟩ := bind_elim h
  obtain ⟨bp, hbp, h⟩ := bind_elim h
  simp only [Option.some.injEq] at h
  subst h
  have h0 : DepthBound ⟨⟨bucketPath, []⟩, wrap64 (size + 1),
      wrap64 (8 + 8 + wrap64 (wrap64 (size + 1) * 16)), ⟨1, [0, 0], []⟩⟩ := by
    refine ⟨by show (0 : Int) ≤ 1; decide, ?_⟩
    intro b hb
    simp at hb
  exact (initializeNewBucket_depth h0 hA : DepthBound hashA)

/-- C9. Directory size invariant: in every state reached from `newHash` by a
sequence of `addRecord`, `HashUpdate` and `HashDelete` calls that complete,
the global depth `p` is at least 1 and `bucketPointer` has `2^p` entries; and
`p` never decreases along any further sequence of operations. -/
theorem directory_size_invariant (bucketPath : List Nat) (size : Int) (ops more : List Op)
    (h0 h1 h2 : DinamicHash) (hnew : newHash bucketPath size = some h0)
    (hrun : run ops h0 = some h1) (hmore : run more h1 = some h2) :
    1 ≤ h1.directory.p ∧ h1.directory.bucketPointer.length = 2 ^ h1.directory.p.toNat ∧
      h1.directory.p ≤ h2.directory.p := by
  obtain ⟨hs, _⟩ := run_shape ops h0 h1 (newHash_shape hnew) hrun
  exact ⟨hs.1, hs.2, (run_shape more h1 h2 hs hmore).2⟩

/-- C10. Local depth bound: in every state reached from `newHash` by a
sequence of `addRecord`, `HashUpdate` and `HashDelete` calls that complete,
the bucket read through any directory entry has `ActualPower ≤ p`. -/
theorem local_depth_le_global (bucketPath : List Nat) (size : Int) (ops : List Op)
    (h0 h1 : DinamicHash) (pos : Int) (b : Bucket) (hnew : newHash bucketPath size = some h0)
    (hrun : run ops h0 = some h1) (hread : readBucket h1 pos = some b) :
    b.ActualPower ≤ h1.directory.p :=
  readBucket_depth (run_depth ops h0 h1 (newHash_depth hnew) hrun) hread

theorem getD_putSlot (loadFactor : Int) (slots : List Bucket) (k j : Nat) (b : Bucket) :
    (putSlot loadFactor slots k b).getD j (zeroSlot loadFactor)
      = if j = k then b else slots.getD j (zeroSlot loadFactor) := by
  unfold putSlot
  simp only [List.getD_eq_getElem?_getD]
  by_cases hk : k < slots.length
  · simp only [hk, if_true, List.getElem?_set]
    by_cases hj : j = k
    · subst hj; simp [hk]
    · have : ¬ k = j := fun h => hj h.symm
      simp [hj, this]
  · simp only [hk, if_false]
    by_cases hj : j = k
    · subst hj
      have hlen : (slots ++ List.replicate (j - slots.length) (zeroSlot loadFactor)).length = j := by
        simp; omega
      rw [List.getElem?_append_right (by omega)]
      simp [hlen]
    · simp only [hj, if_false]
      by_cases hj1 : j < slots.length
      · rw [List.append_assoc, List.getElem?_append_left hj1]
      · have hnone : slots[j]? = none := List.getElem?_eq_none (by omega)
        rw [hnone, List.append_assoc, List.getElem?_append_right (by omega)]
        by_cases hj2 : j - slots.length < k - slots.length
        · rw [List.getElem?_append_left (by simpa using hj2)]
          simp [hj2]
        · rw [List.getElem?_append_right (by simpa using hj2)]
          have : j - slots.length - (List.replicate (k - slots.length) (zeroSlot loadFactor)).length ≠ 0 := by
            simp; omega
          cases hq : j - slots.length - (List.replicate (k - slots.length) (zeroSlot loadFactor)).length with
          | zero => exact absurd hq this
          | succ q => simp

theorem slotOf_writeAt {hash hash1 : DinamicHash} {off : Int} {b : Bucket}
    (h : writeAt hash off b = some hash1) (off2 : Int) : slotOf hash1 off2 = slotOf hash off2 := by
  obtain ⟨_, hlf, hbs, _⟩ := writeAt_frame h
  simp only [slotOf, hlf, hbs]

theorem readAt_eq (hash : DinamicHash) (off : Int) :
    readAt hash off = (slotOf hash off).map (fun k =>
      decodeSlot hash.loadFactor (hash.bucketFile.slots.getD k (zeroSlot hash.loadFactor))) := by
  unfold readAt
  cases slotOf hash off <;> rfl

theorem readAt_writeAt {hash hash1 : DinamicHash} {off : Int} {b : Bucket}
    (h : writeAt hash off b = some hash1) (off2 : Int) :
    readAt hash1 off2 = if slotOf hash off2 = slotOf hash off
      then some (decodeSlot hash.loadFactor b) else readAt hash off2 := by
  have hs := slotOf_writeAt h off2
  obtain ⟨_, hlf, _, _⟩ := writeAt_frame h
  unfold writeAt at h
  obtain ⟨k, hk, h⟩ := bind_elim h
  simp only [Option.some.injEq] at h
  rw [readAt_eq, readAt_eq, hs, hk]
  subst h
  cases h2 : slotOf hash off2 with
  | none => simp
  | some j =>
    simp only [Option.map_some', Option.some.injEq, getD_putSlot]
    by_cases hj : j = k
    · simp [hj]
    · simp [hj]

theorem decodeSlot_length {loadFactor : Int} (b : Bucket) :
    (decodeSlot loadFactor b).Records.length = loadFactor.toNat := by
  simp [decodeSlot]

theorem decodeSlot_of_length {loadFactor : Int} {b : Bucket}
    (h : b.Records.length = loadFactor.toNat) : decodeSlot loadFactor b = b := by
  cases b with
  | mk pw sz recs =>
    simp only [decodeSlot, Bucket.mk.injEq, true_and]
    simp only at h
    rw [List.take_append_of_le_length (by omega), List.take_of_length_le (by omega)]

theorem readAt_length {hash : DinamicHash} {off : Int} {b : Bucket}
    (h : readAt hash off = some b) : b.Records.length = hash.loadFactor.toNat := by
  rw [readAt_eq] at h
  obtain ⟨k, _, h⟩ := Option.map_eq_some'.mp h
  rw [← h]
  exact decodeSlot_length _

theorem updateScan_found (k o2 : Int) : ∀ (n : Nat) (recs : List BucketRecord) (i t : Int),
    updateScan k n recs i = some t → 0 ≤ i → ¬ t < 0 →
    ∃ j : Nat, t = i + j ∧ j < recs.length ∧
      (∃ x, recs[j]? = some x ∧ x.ID = k ∧
        readScan k n (recs.set j ⟨x.ID, o2⟩) = some o2) := by
  intro n
  induction n with
  | zero =>
    intro recs i t h hi ht
    simp only [updateScan, Option.some.injEq] at h
    omega
  | succ n ih =>
    intro recs i t h hi ht
    cases recs with
    | nil => simp [updateScan] at h
    | cons x rest =>
      simp only [updateScan] at h
      by_cases hx : x.ID = k
      · simp only [hx, if_true, Option.some.injEq] at h
        refine ⟨0, by simp [h], by simp, x, by simp, hx, ?_⟩
        simp [readScan, hx]
      · simp only [hx, if_false] at h
        obtain ⟨j, hj, hlt, y, hy, hyk, hread⟩ := ih rest (i + 1) t h (by omega) ht
        refine ⟨j + 1, by rw [hj]; push_cast; ring, by simp; omega, y, by simpa using hy, hyk, ?_⟩
        simp [readScan, hx, hread]

theorem readScan_set_other (k2 : Int) : ∀ (n : Nat) (recs : List BucketRecord) (j : Nat)
    (x y : BucketRecord), recs[j]? = some x → y.ID = x.ID → x.ID ≠ k2 →
    readScan k2 n (recs.set j y) = readScan k2 n recs := by
  intro n
  induction n with
  | zero => intro recs j x y _ _ _; simp [readScan]
  | succ n ih =>
    intro recs j x y hx hy hne
    cases recs with
    | nil => simp
    | cons z rest =>
      cases j with
      | zero =>
        simp only [List.getElem?_cons_zero, Option.some.injEq] at hx
        subst hx
        simp only [List.set_cons_zero, readScan, hy, hne, if_false]
      | succ j =>
        simp only [List.getElem?_cons_succ] at hx
        simp only [List.set_cons_succ, readScan]
        rw [ih rest j x y hx hy hne]

theorem readBucket_neg {hash : DinamicHash} {pos : Int} (h : pos < 0) :
    readBucket hash pos = some ⟨0, 0, []⟩ := by
  simp [readBucket, h]

theorem sliceSet_some {α : Type} {xs ys : List α} {i : Int} {v : α}
    (h : sliceSet xs i v = some ys) : 0 ≤ i ∧ i.toNat < xs.length ∧ ys = xs.set i.toNat v := by
  unfold sliceSet at h
  split at h
  · next hc =>
    simp only [Option.some.injEq] at h
    exact ⟨hc.1, hc.2, h.symm⟩
  · simp at h

/-- C3. Update preserves identity: when `HashUpdate(k, o2)` returns without
error, the lookup of `k` returns `o2`, the lookup result of every other key is
unchanged, and `p`, `bucketPointer` and the free list are unchanged. -/
theorem update_preserves_identity (hash hash1 : DinamicHash) (k o2 : Int)
    (h : HashUpdate hash k o2 = some (hash1, false)) :
    HashRead hash1 k = some (o2, decide (o2 < 0)) ∧
      (∀ k2 : Int, k2 ≠ k → HashRead hash1 k2 = HashRead hash k2) ∧
      hash1.directory.p = hash.directory.p ∧
      hash1.directory.bucketPointer = hash.directory.bucketPointer ∧
      hash1.directory.garbage = hash.directory.garbage := by
  obtain ⟨hdir, hlf, hbs⟩ := HashUpdate_frame h
  unfold HashUpdate at h
  obtain ⟨count, hcount, h⟩ := bind_elim h
  obtain ⟨bucket, hbucket, h⟩ := bind_elim h
  obtain ⟨targetPos, hscan, h⟩ := bind_elim h
  split at h
  · simp at h
  · next hfound =>
    obtain ⟨old, hold, h⟩ := bind_elim h
    obtain ⟨records, hrecords, h⟩ := bind_elim h
    obtain ⟨hashA, hA, h⟩ := bind_elim h
    simp only [Option.some.injEq, Prod.mk.injEq, and_true] at h
    subst h
    have hcount1 : getBucketCount hashA = some count := by
      simp only [getBucketCount, hdir] at hcount ⊢
      exact hcount
    have hpos : ¬ k.tmod count < 0 := by
      intro hneg
      rw [readBucket_neg hneg] at hbucket
      simp only [Option.some.injEq] at hbucket
      subst hbucket
      simp [updateScan] at hscan
      omega
    unfold readBucket at hbucket
    simp only [hpos, if_false] at hbucket
    obtain ⟨off, hoff, hread⟩ := bind_elim hbucket
    unfold insertIntoBucket at hA
    obtain ⟨off1, hoff1, hw⟩ := bind_elim hA
    rw [hoff] at hoff1
    simp only [Option.some.injEq] at hoff1
    subst hoff1
    obtain ⟨j, hj, hjlt, x, hx, hxk, hreadscan⟩ :=
      updateScan_found k o2 _ _ _ _ hscan (le_refl 0) hfound
    have hlen := readAt_length hread
    obtain ⟨_, _, hrecs⟩ := sliceSet_some hrecords
    have htj : targetPos.toNat = j := by omega
    have hold1 : old = x := by
      simp only [sliceGet, hfound, if_false, htj, hx, Option.some.injEq] at hold
      exact hold.symm
    rw [htj, hold1] at hrecs
    have hdec : decodeSlot hash.loadFactor ⟨bucket.ActualPower, bucket.CurrentSize, records⟩
        = ⟨bucket.ActualPower, bucket.CurrentSize, records⟩ := by
      apply decodeSlot_of_length
      simp [hrecs, hlen]
    have hRW := readAt_writeAt hw
    rw [hdec] at hRW
    refine ⟨?_, ?_, by rw [hdir], by rw [hdir], by rw [hdir]⟩
    · unfold HashRead
      simp only [hcount1, Option.bind_eq_bind, Option.some_bind, readBucket, hpos, if_false, hdir,
        hoff, hRW, if_true, hrecs, hreadscan]
    · intro k2 hk2
      unfold HashRead
      simp only [hcount1, hcount, Option.bind_eq_bind, Option.some_bind]
      by_cases hneg : k2.tmod count < 0
      · simp only [readBucket, hneg, if_true]
      · simp only [readBucket, hneg, if_false, hdir, Option.bind_eq_bind]
        cases hoff2 : sliceGet hash.directory.bucketPointer (k2.tmod count) with
        | none => simp
        | some off2 =>
          simp only [Option.some_bind, hRW]
          by_cases hsame : slotOf hash off2 = slotOf hash off
          · have hread2 : readAt hash off2 = some bucket := by
              rw [readAt_eq, hsame, ← readAt_eq]; exact hread
            simp only [hsame, if_true, hread2, Option.some_bind, hrecs]
            rw [readScan_set_other k2 _ _ j x ⟨x.ID, o2⟩ hx rfl (by rw [hxk]; exact fun e => hk2 e.symm)]
          · simp only [hsame, if_false]

theorem slotOf_indexOf (path : List Nat) (size : Int) (hsize : 0 ≤ size) (slots : List Bucket)
    (d : Directory) (k : Nat) :
    slotOf (indexOf path size slots d) ((k : Int) * slotBytes size) = some k := by
  have hB : 0 < slotBytes size := by unfold slotBytes; omega
  have h1 : (k : Int) * slotBytes size % slotBytes size = 0 := Int.mul_emod_left _ _
  have h2 : (k : Int) * slotBytes size / slotBytes size = k :=
    Int.mul_ediv_cancel _ (by omega)
  have h3 : 0 ≤ (k : Int) * slotBytes size := by positivity
  have h4 : 16 + 16 * (size + 1) ≤ slotBytes size := by unfold slotBytes; omega
  simp only [slotOf, indexOf, h1, h2, h3, h4, true_and, and_true, Int.toNat_ofNat]
  simp; omega

theorem writeAt_indexOf (path : List Nat) (size : Int) (hsize : 0 ≤ size) (slots : List Bucket)
    (d : Directory) (k : Nat) (b : Bucket) :
    writeAt (indexOf path size slots d) ((k : Int) * slotBytes size) b
      = some (indexOf path size (putSlot (size + 1) slots k b) d) := by
  unfold writeAt
  rw [slotOf_indexOf path size hsize]
  rfl

theorem readAt_indexOf (path : List Nat) (size : Int) (hsize : 0 ≤ size) (slots : List Bucket)
    (d : Directory) (k : Nat) :
    readAt (indexOf path size slots d) ((k : Int) * slotBytes size)
      = some (decodeSlot (size + 1) (slots.getD k (zeroSlot (size + 1)))) := by
  unfold readAt
  rw [slotOf_indexOf path size hsize]
  rfl

theorem seekEnd_indexOf (path : List Nat) (size : Int) (slots : List Bucket) (d : Directory) :
    seekEnd (indexOf path size slots d) = (slots.length : Int) * slotBytes size := rfl

theorem makeSlice_padded (size : Int) (hsize : 0 ≤ size) :
    makeSlice (size + 1) newBucketRecord = some (padded (size + 1) []) := by
  have hlf : ¬ size + 1 < 0 := by omega
  simp [makeSlice, hlf, padded]

theorem putSlot_end (loadFactor : Int) (slots : List Bucket) (b : Bucket) :
    putSlot loadFactor slots slots.length b = slots ++ [b] := by
  simp [putSlot]

theorem initializeLoop_indexOf_nil (path : List Nat) (size : Int) (hsize : 0 ≤ size) (n : Nat)
    (slots : List Bucket) (p : Int) (bp : List Int) :
    initializeLoop (n + 1) (indexOf path size slots ⟨p, bp, []⟩)
      = (initializeLoop n (indexOf path size (slots ++ [⟨p, 0, padded (size + 1) []⟩])
          ⟨p, bp, []⟩)).bind
          (fun x => some (x.1, (slots.length : Int) * slotBytes size :: x.2)) := by
  have hm : makeSlice (indexOf path size slots ⟨p, bp, []⟩).loadFactor newBucketRecord
      = some (padded (size + 1) []) := makeSlice_padded size hsize
  have hg : (indexOf path size slots ⟨p, bp, []⟩).directory.garbage = [] := rfl
  have hp : (indexOf path size slots ⟨p, bp, []⟩).directory.p = p := rfl
  rw [initializeLoop, hm]
  simp only [Option.bind_eq_bind, Option.some_bind, seekEnd_indexOf,
    writeAt_indexOf path size hsize, putSlot_end]
  rfl

theorem newHash_eq (path : List Nat) (size : Int) (hsize : 0 ≤ size)
    (hfit : slotBytes size ≤ MaxInt64) :
    newHash path size = some (indexOf path size
      [⟨1, 0, padded (size + 1) []⟩, ⟨1, 0, padded (size + 1) []⟩]
      ⟨1, [((0 : Nat) : Int) * slotBytes size, ((1 : Nat) : Int) * slotBytes size], []⟩) := by
  have e1 : wrap64 (size + 1) = size + 1 := by
    unfold slotBytes MaxInt64 at hfit
    unfold wrap64
    omega
  have e2 : wrap64 (8 + 8 + wrap64 ((size + 1) * 16)) = 8 + 8 + (size + 1) * 16 := by
    unfold slotBytes MaxInt64 at hfit
    unfold wrap64
    omega
  have hnew : newHash path size = (do
      let hash := indexOf path size [] ⟨1, [0, 0], []⟩
      let count ← getBucketCount hash
      let (hash1, bucketAddress) ← initializeNewBucket hash count
      let count1 ← getBucketCount hash1
      let bp ← storeLoop count1.toNat 0 bucketAddress hash1.directory.bucketPointer
      some { hash1 with directory := { hash1.directory with bucketPointer := bp } }) := by
    unfold newHash
    simp only [e1, e2]
    rfl
  rw [hnew]
  have hcount : getBucketCount (indexOf path size [] ⟨1, [0, 0], []⟩) = some 2 := rfl
  have hinit : initializeNewBucket (indexOf path size [] ⟨1, [0, 0], []⟩) 2
      = some (indexOf path size
          [⟨1, 0, padded (size + 1) []⟩, ⟨1, 0, padded (size + 1) []⟩] ⟨1, [0, 0], []⟩,
        [((0 : Nat) : Int) * slotBytes size, ((1 : Nat) : Int) * slotBytes size]) := by
    have h2 : ((2 : Int)).toNat = 1 + 1 := rfl
    have h20 : ¬ (2 : Int) < 0 := by decide
    simp only [initializeNewBucket, h20, if_false, h2]
    rw [initializeLoop_indexOf_nil path size hsize, initializeLoop_indexOf_nil path size hsize]
    rfl
  have hcount1 : getBucketCount (indexOf path size
      [⟨1, 0, padded (size + 1) []⟩, ⟨1, 0, padded (size + 1) []⟩] ⟨1, [0, 0], []⟩) = some 2 := rfl
  simp only [hcount, hinit, hcount1, Option.bind_eq_bind, Option.some_bind]
  rfl

theorem padded_length {loadFactor : Int} {recs : List BucketRecord}
    (h : recs.length ≤ loadFactor.toNat) : (padded loadFactor recs).length = loadFactor.toNat := by
  simp [padded]; omega

theorem padded_set {loadFactor : Int} {recs : List BucketRecord} (r : BucketRecord)
    (h : recs.length < loadFactor.toNat) :
    (padded loadFactor recs).set recs.length r = padded loadFactor (recs ++ [r]) := by
  unfold padded
  rw [List.set_append_right _ _ (le_refl _)]
  obtain ⟨m, hm⟩ : ∃ m, loadFactor.toNat - recs.length = m + 1 := ⟨loadFactor.toNat - recs.length - 1, by omega⟩
  have hm2 : loadFactor.toNat - (recs ++ [r]).length = m := by simp; omega
  rw [hm, hm2]
  simp [List.replicate_succ]

theorem decodeSlot_filled {power loadFactor : Int} {recs : List BucketRecord}
    (h : recs.length ≤ loadFactor.toNat) :
    decodeSlot loadFactor (filled power loadFactor recs) = filled power loadFactor recs :=
  decodeSlot_of_length (padded_length h)

theorem filled_zero (power loadFactor : Int) : filled power loadFactor [] = ⟨power, 0, padded loadFactor []⟩ := rfl

theorem bind_of_eq_some {α β : Type} {x : Option α} {a : α} (h : x = some a)
    (f : α → Option β) : (x >>= f) = f a := by
  subst h; rfl

theorem addRecord_of_not_full {hash : DinamicHash} {r : BucketRecord} {count : Int}
    {bucket : Bucket} (hcount : getBucketCount hash = some count)
    (hread : readBucket hash (r.ID.tmod count) = some bucket)
    (hne : ¬ bucket.CurrentSize = hash.loadFactor - 1) :
    addRecord hash r = (sliceSet bucket.Records bucket.CurrentSize r).bind (fun records =>
      insertIntoBucket hash (r.ID.tmod count) bucket.ActualPower (bucket.CurrentSize + 1) records) := by
  unfold addRecord
  rw [bind_of_eq_some hcount]
  dsimp only
  rw [bind_of_eq_some hread]
  rw [if_neg hne]
  rfl

theorem addRecord_append_indexOf (path : List Nat) (size : Int) (hsize : 0 ≤ size)
    (slots : List Bucket) (d : Directory) (r : BucketRecord) (count power : Int) (k : Nat)
    (recs : List BucketRecord)
    (hcount : shiftOne d.p = some count) (hpos : 0 ≤ r.ID.tmod count)
    (hoff : sliceGet d.bucketPointer (r.ID.tmod count) = some ((k : Int) * slotBytes size))
    (hslot : slots[k]? = some (filled power (size + 1) recs))
    (hlen : (recs.length : Int) < size) :
    addRecord (indexOf path size slots d) r
        = some (indexOf path size (slots.set k (filled power (size + 1) (recs ++ [r]))) d) ∧
      splits (indexOf path size slots d) r = some false := by
  have hcount1 : getBucketCount (indexOf path size slots d) = some count := hcount
  have hle : recs.length ≤ (size + 1).toNat := by omega
  have hlt : recs.length < (size + 1).toNat := by omega
  have hklt : k < slots.length := by
    by_contra hk
    rw [List.getElem?_eq_none (by omega)] at hslot
    simp at hslot
  have hget : slots.getD k (zeroSlot (size + 1)) = filled power (size + 1) recs := by
    simp [List.getD_eq_getElem?_getD, hslot]
  have hread : readBucket (indexOf path size slots d) (r.ID.tmod count)
      = some (filled power (size + 1) recs) := by
    have hoff1 : sliceGet (indexOf path size slots d).directory.bucketPointer (r.ID.tmod count)
        = some ((k : Int) * slotBytes size) := hoff
    simp only [readBucket, Int.not_lt.mpr hpos, if_false, hoff1, Option.bind_eq_bind,
      Option.some_bind, readAt_indexOf path size hsize, hget, decodeSlot_filled hle]
  have hne : ¬ (filled power (size + 1) recs).CurrentSize = (indexOf path size slots d).loadFactor - 1 := by
    show ¬ ((recs.length : Int) = size + 1 - 1)
    omega
  have hset : sliceSet (filled power (size + 1) recs).Records
      (filled power (size + 1) recs).CurrentSize r = some (padded (size + 1) (recs ++ [r])) := by
    show sliceSet (padded (size + 1) recs) (recs.length : Int) r = _
    simp only [sliceSet, padded_length hle, Int.toNat_ofNat, hlt, and_true, padded_set r hlt]
    simp
  have hins : insertIntoBucket (indexOf path size slots d) (r.ID.tmod count) power
      ((recs.length : Int) + 1) (padded (size + 1) (recs ++ [r]))
      = some (indexOf path size (slots.set k (filled power (size + 1) (recs ++ [r]))) d) := by
    have hoff1 : sliceGet (indexOf path size slots d).directory.bucketPointer (r.ID.tmod count)
        = some ((k : Int) * slotBytes size) := hoff
    simp only [insertIntoBucket, hoff1, Option.bind_eq_bind, Option.some_bind,
      writeAt_indexOf path size hsize, putSlot, hklt, if_true]
    simp [filled]
  constructor
  · rw [addRecord_of_not_full hcount1 hread hne, hset]
    exact hins
  · unfold splits
    simp only [hcount1, hread, Option.bind_eq_bind, Option.some_bind, hne, decide_False]

theorem addRecord_of_full {hash hash1 hash2 hash4 : DinamicHash} {r : BucketRecord}
    {count power count2 a power1 : Int} {bucket bucket1 : Bucket} {address bp : List Int}
    {records : List BucketRecord}
    (hcount : getBucketCount hash = some count)
    (hread : readBucket hash (r.ID.tmod count) = some bucket)
    (hfull : bucket.CurrentSize = hash.loadFactor - 1)
    (h1 : (if bucket.ActualPower = hash.directory.p then increasePower hash else some hash)
      = some hash1)
    (h2 : initializeNewBucket hash1 1 = some (hash2, address))
    (h3 : getBucketPower bucket = some power)
    (h4 : getBucketCount hash2 = some count2)
    (h5 : sliceGet address 0 = some a)
    (h6 : sliceSet hash2.directory.bucketPointer
      (if power + r.ID.tmod count ≥ count2 then r.ID.tmod count else power + r.ID.tmod count) a
      = some bp)
    (h7 : newBucket (bucket.ActualPower + 1) hash2.loadFactor = some bucket1)
    (h8 : sliceSet bucket.Records bucket.CurrentSize r = some records)
    (h9 : shiftOne (bucket.ActualPower + 1) = some power1)
    (h10 : insertIntoBucket { hash2 with directory := { hash2.directory with bucketPointer := bp } }
      (if power + r.ID.tmod count ≥ count2 then (r.ID.tmod count).tmod power else r.ID.tmod count)
      (splitLoop power1 (if power + r.ID.tmod count ≥ count2 then (r.ID.tmod count).tmod power
        else r.ID.tmod count) records 0 0 bucket1 bucket1).1.ActualPower
      (splitLoop power1 (if power + r.ID.tmod count ≥ count2 then (r.ID.tmod count).tmod power
        else r.ID.tmod count) records 0 0 bucket1 bucket1).1.CurrentSize
      (splitLoop power1 (if power + r.ID.tmod count ≥ count2 then (r.ID.tmod count).tmod power
        else r.ID.tmod count) records 0 0 bucket1 bucket1).1.Records = some hash4) :
    addRecord hash r = insertIntoBucket hash4
      (if power + r.ID.tmod count ≥ count2 then r.ID.tmod count else power + r.ID.tmod count)
      (splitLoop power1 (if power + r.ID.tmod count ≥ count2 then (r.ID.tmod count).tmod power
        else r.ID.tmod count) records 0 0 bucket1 bucket1).2.ActualPower
      (splitLoop power1 (if power + r.ID.tmod count ≥ count2 then (r.ID.tmod count).tmod power
        else r.ID.tmod count) records 0 0 bucket1 bucket1).2.CurrentSize
      (splitLoop power1 (if power + r.ID.tmod count ≥ count2 then (r.ID.tmod count).tmod power
        else r.ID.tmod count) records 0 0 bucket1 bucket1).2.Records := by
  unfold addRecord
  rw [bind_of_eq_some hcount]
  dsimp only
  rw [bind_of_eq_some hread, if_pos hfull, bind_of_eq_some h1, bind_of_eq_some h2]
  dsimp only
  rw [bind_of_eq_some h3, bind_of_eq_some h4, bind_of_eq_some h5, bind_of_eq_some h6,
    bind_of_eq_some h7, bind_of_eq_some h7, bind_of_eq_some h8, bind_of_eq_some h9,
    bind_of_eq_some h10]

theorem filled_push (a lf : Int) (A : List BucketRecord) (x : BucketRecord)
    (h : A.length < lf.toNat) :
    (⟨(filled a lf A).ActualPower, (filled a lf A).CurrentSize + 1,
      (filled a lf A).Records.set A.length x⟩ : Bucket) = filled a lf (A ++ [x]) := by
  simp only [filled, padded_set x h, List.length_append, List.length_singleton, Nat.cast_add,
    Nat.cast_one]

theorem splitLoop_filled (power pos a lf : Int) : ∀ (l A1 A2 : List BucketRecord),
    A1.length + l.length ≤ lf.toNat → A2.length + l.length ≤ lf.toNat →
    splitLoop power pos l A1.length A2.length (filled a lf A1) (filled a lf A2)
      = (filled a lf (A1 ++ l.filter (fun x => decide (Int.tmod x.ID power = pos))),
         filled a lf (A2 ++ l.filter (fun x => !decide (Int.tmod x.ID power = pos)))) := by
  intro l
  induction l with
  | nil => intro A1 A2 _ _; simp [splitLoop]
  | cons x rest ih =>
    intro A1 A2 h1 h2
    simp only [List.length_cons] at h1 h2
    simp only [splitLoop]
    by_cases hx : Int.tmod x.ID power = pos
    · simp only [hx, if_true, decide_True, List.filter_cons_of_pos, Bool.not_true,
        Bool.false_eq_true, not_false_eq_true, List.filter_cons_of_neg]
      rw [filled_push a lf A1 x (by omega)]
      have := ih (A1 ++ [x]) A2 (by simp; omega) (by omega)
      simp only [List.length_append, List.length_singleton, List.append_assoc,
        List.singleton_append] at this
      exact this
    · simp only [hx, if_false, decide_False, Bool.false_eq_true, not_false_eq_true,
        List.filter_cons_of_neg, Bool.not_false, List.filter_cons_of_pos]
      rw [filled_push a lf A2 x (by omega)]
      have := ih A1 (A2 ++ [x]) (by omega) (by simp; omega)
      simp only [List.length_append, List.length_singleton, List.append_assoc,
        List.singleton_append] at this
      exact this

theorem padded_full {loadFactor : Int} {recs : List BucketRecord}
    (h : recs.length = loadFactor.toNat) : padded loadFactor recs = recs := by
  simp [padded, h]

theorem newBucket_filled (power size : Int) (hsize : 0 ≤ size) :
    newBucket power (size + 1) = some (filled power (size + 1) []) := by
  unfold newBucket
  rw [bind_of_eq_some (makeSlice_padded size hsize)]
  rfl

theorem insertIntoBucket_indexOf (path : List Nat) (size : Int) (hsize : 0 ≤ size)
    (slots : List Bucket) (d : Directory) (pos power currentSize : Int)
    (records : List BucketRecord) (k : Nat)
    (hoff : sliceGet d.bucketPointer pos = some ((k : Int) * slotBytes size)) :
    insertIntoBucket (indexOf path size slots d) pos power currentSize records
      = some (indexOf path size (putSlot (size + 1) slots k ⟨power, currentSize, records⟩) d) := by
  unfold insertIntoBucket
  rw [bind_of_eq_some (show sliceGet (indexOf path size slots d).directory.bucketPointer pos = _
    from hoff)]
  exact writeAt_indexOf path size hsize slots d k _

theorem addRecord_split_indexOf (path : List Nat) (size : Int) (hsize : 0 ≤ size)
    (slots : List Bucket) (r : BucketRecord) (c : Nat) (recs : List BucketRecord)
    (hc : c < 2) (hslots : slots.length = 2)
    (hslot : slots[c]? = some (filled 1 (size + 1) recs))
    (hlen : (recs.length : Int) = size) (hpos : r.ID.tmod 2 = (c : Int)) :
    addRecord (indexOf path size slots
        ⟨1, [((0 : Nat) : Int) * slotBytes size, ((1 : Nat) : Int) * slotBytes size], []⟩) r
      = some (indexOf path size
          (slots.set c (filled 2 (size + 1)
              ((recs ++ [r]).filter (fun x => decide (Int.tmod x.ID 4 = (c : Int)))))
            ++ [filled 2 (size + 1)
              ((recs ++ [r]).filter (fun x => !decide (Int.tmod x.ID 4 = (c : Int))))])
          ⟨2, [((0 : Nat) : Int) * slotBytes size, ((1 : Nat) : Int) * slotBytes size,
               ((0 : Nat) : Int) * slotBytes size, ((1 : Nat) : Int) * slotBytes size].set (2 + c)
               (((2 : Nat) : Int) * slotBytes size), []⟩) ∧
      splits (indexOf path size slots
        ⟨1, [((0 : Nat) : Int) * slotBytes size, ((1 : Nat) : Int) * slotBytes size], []⟩) r
        = some true := by
  have hle : recs.length ≤ (size + 1).toNat := by omega
  have hlt : recs.length < (size + 1).toNat := by omega
  have hfullen : (recs ++ [r]).length = (size + 1).toNat := by simp; omega
  have hcount : getBucketCount (indexOf path size slots
        ⟨1, [((0 : Nat) : Int) * slotBytes size, ((1 : Nat) : Int) * slotBytes size], []⟩)
      = some 2 := rfl
  have hoff : sliceGet [((0 : Nat) : Int) * slotBytes size, ((1 : Nat) : Int) * slotBytes size]
      (c : Int) = some ((c : Int) * slotBytes size) := by
    interval_cases c <;> rfl
  have hget : slots.getD c (zeroSlot (size + 1)) = filled 1 (size + 1) recs := by
    simp [List.getD_eq_getElem?_getD, hslot]
  have hread : readBucket (indexOf path size slots
        ⟨1, [((0 : Nat) : Int) * slotBytes size, ((1 : Nat) : Int) * slotBytes size], []⟩)
      (r.ID.tmod 2) = some (filled 1 (size + 1) recs) := by
    rw [hpos]
    have hnn : ¬ ((c : Int) < 0) := by omega
    unfold readBucket
    rw [if_neg hnn]
    rw [bind_of_eq_some (show sliceGet (indexOf path size slots
        ⟨1, [((0 : Nat) : Int) * slotBytes size, ((1 : Nat) : Int) * slotBytes size],
          []⟩).directory.bucketPointer (c : Int) = _ from hoff)]
    rw [readAt_indexOf path size hsize, hget, decodeSlot_filled hle]
  have hfull : (filled 1 (size + 1) recs).CurrentSize = (indexOf path size slots
        ⟨1, [((0 : Nat) : Int) * slotBytes size, ((1 : Nat) : Int) * slotBytes size],
          []⟩).loadFactor - 1 := by
    show (recs.length : Int) = size + 1 - 1
    omega
  have h1 : (if (filled 1 (size + 1) recs).ActualPower = (indexOf path size slots
        ⟨1, [((0 : Nat) : Int) * slotBytes size, ((1 : Nat) : Int) * slotBytes size],
          []⟩).directory.p then increasePower (indexOf path size slots
        ⟨1, [((0 : Nat) : Int) * slotBytes size, ((1 : Nat) : Int) * slotBytes size], []⟩)
      else some (indexOf path size slots
        ⟨1, [((0 : Nat) : Int) * slotBytes size, ((1 : Nat) : Int) * slotBytes size], []⟩))
      = some (indexOf path size slots
        ⟨2, [((0 : Nat) : Int) * slotBytes size, ((1 : Nat) : Int) * slotBytes size,
             ((0 : Nat) : Int) * slotBytes size, ((1 : Nat) : Int) * slotBytes size], []⟩) := by
    rw [if_pos (show (filled 1 (size + 1) recs).ActualPower = (indexOf path size slots
        ⟨1, [((0 : Nat) : Int) * slotBytes size, ((1 : Nat) : Int) * slotBytes size],
          []⟩).directory.p from rfl)]
    rw [increasePower_eq _ (show (0 : Int) ≤ 1 by decide) (by rfl)]
    rfl
  have h2 : initializeNewBucket (indexOf path size slots
        ⟨2, [((0 : Nat) : Int) * slotBytes size, ((1 : Nat) : Int) * slotBytes size,
             ((0 : Nat) : Int) * slotBytes size, ((1 : Nat) : Int) * slotBytes size], []⟩) 1
      = some (indexOf path size (slots ++ [⟨2, 0, padded (size + 1) []⟩])
        ⟨2, [((0 : Nat) : Int) * slotBytes size, ((1 : Nat) : Int) * slotBytes size,
             ((0 : Nat) : Int) * slotBytes size, ((1 : Nat) : Int) * slotBytes size], []⟩,
        [((2 : Nat) : Int) * slotBytes size]) := by
    unfold initializeNewBucket
    rw [if_neg (by decide)]
    show initializeLoop (0 + 1) _ = _
    rw [initializeLoop_indexOf_nil path size hsize, hslots]
    rfl
  have h3 : getBucketPower (filled 1 (size + 1) recs) = some 2 := rfl
  have h4 : getBucketCount (indexOf path size (slots ++ [⟨2, 0, padded (size + 1) []⟩])
        ⟨2, [((0 : Nat) : Int) * slotBytes size, ((1 : Nat) : Int) * slotBytes size,
             ((0 : Nat) : Int) * slotBytes size, ((1 : Nat) : Int) * slotBytes size], []⟩)
      = some 4 := rfl
  have h5 : sliceGet [((2 : Nat) : Int) * slotBytes size] 0
      = some (((2 : Nat) : Int) * slotBytes size) := rfl
  have hnge : ¬ ((2 : Int) + r.ID.tmod 2 ≥ 4) := by rw [hpos]; omega
  have h6 : sliceSet (indexOf path size (slots ++ [⟨2, 0, padded (size + 1) []⟩])
        ⟨2, [((0 : Nat) : Int) * slotBytes size, ((1 : Nat) : Int) * slotBytes size,
             ((0 : Nat) : Int) * slotBytes size, ((1 : Nat) : Int) * slotBytes size],
          []⟩).directory.bucketPointer
      (if (2 : Int) + r.ID.tmod 2 ≥ 4 then r.ID.tmod 2 else 2 + r.ID.tmod 2)
      (((2 : Nat) : Int) * slotBytes size)
      = some ([((0 : Nat) : Int) * slotBytes size, ((1 : Nat) : Int) * slotBytes size,
             ((0 : Nat) : Int) * slotBytes size, ((1 : Nat) : Int) * slotBytes size].set (2 + c)
               (((2 : Nat) : Int) * slotBytes size)) := by
    rw [if_neg hnge, hpos]
    show sliceSet [((0 : Nat) : Int) * slotBytes size, ((1 : Nat) : Int) * slotBytes size,
             ((0 : Nat) : Int) * slotBytes size, ((1 : Nat) : Int) * slotBytes size] _ _ = _
    have hidx : ((2 : Int) + (c : Int)).toNat = 2 + c := by omega
    unfold sliceSet
    rw [if_pos ⟨by omega, by rw [hidx]; simp; omega⟩, hidx]
  have h7 : newBucket ((filled 1 (size + 1) recs).ActualPower + 1)
      (indexOf path size (slots ++ [⟨2, 0, padded (size + 1) []⟩])
        ⟨2, [((0 : Nat) : Int) * slotBytes size, ((1 : Nat) : Int) * slotBytes size,
             ((0 : Nat) : Int) * slotBytes size, ((1 : Nat) : Int) * slotBytes size],
          []⟩).loadFactor = some (filled 2 (size + 1) []) :=
    newBucket_filled 2 size hsize
  have h8 : sliceSet (filled 1 (size + 1) recs).Records (filled 1 (size + 1) recs).CurrentSize r
      = some (recs ++ [r]) := by
    show sliceSet (padded (size + 1) recs) (recs.length : Int) r = _
    unfold sliceSet
    rw [if_pos ⟨by omega, by rw [padded_length hle]; simpa using hlt⟩]
    simp only [Int.toNat_ofNat, padded_set r hlt, padded_full hfullen]
  have h9 : shiftOne ((filled 1 (size + 1) recs).ActualPower + 1) = some 4 := rfl
  have hpos1 : (if (2 : Int) + r.ID.tmod 2 ≥ 4 then (r.ID.tmod 2).tmod 2 else r.ID.tmod 2)
      = (c : Int) := by rw [if_neg hnge, hpos]
  have hnewPos : (if (2 : Int) + r.ID.tmod 2 ≥ 4 then r.ID.tmod 2 else 2 + r.ID.tmod 2)
      = 2 + (c : Int) := by rw [if_neg hnge, hpos]
  have hsplit := splitLoop_filled 4 (c : Int) 2 (size + 1) (recs ++ [r]) [] []
    (by rw [hfullen]; simp) (by rw [hfullen]; simp)
  simp only [List.length_nil, List.nil_append] at hsplit
  have hoffc : sliceGet ([((0 : Nat) : Int) * slotBytes size, ((1 : Nat) : Int) * slotBytes size,
             ((0 : Nat) : Int) * slotBytes size, ((1 : Nat) : Int) * slotBytes size].set (2 + c)
               (((2 : Nat) : Int) * slotBytes size)) (c : Int)
      = some ((c : Int) * slotBytes size) := by
    interval_cases c <;> rfl
  have hoffn : sliceGet ([((0 : Nat) : Int) * slotBytes size, ((1 : Nat) : Int) * slotBytes size,
             ((0 : Nat) : Int) * slotBytes size, ((1 : Nat) : Int) * slotBytes size].set (2 + c)
               (((2 : Nat) : Int) * slotBytes size)) (2 + (c : Int))
      = some (((2 : Nat) : Int) * slotBytes size) := by
    interval_cases c <;> rfl
  have hput1 : putSlot (size + 1) (slots ++ [⟨2, 0, padded (size + 1) []⟩]) c
      (filled 2 (size + 1) ((recs ++ [r]).filter (fun x => decide (Int.tmod x.ID 4 = (c : Int)))))
      = slots.set c (filled 2 (size + 1)
          ((recs ++ [r]).filter (fun x => decide (Int.tmod x.ID 4 = (c : Int)))))
        ++ [⟨2, 0, padded (size + 1) []⟩] := by
    unfold putSlot
    rw [if_pos (by simp; omega), List.set_append_left _ _ (by omega)]
  have hput2 : putSlot (size + 1) (slots.set c (filled 2 (size + 1)
          ((recs ++ [r]).filter (fun x => decide (Int.tmod x.ID 4 = (c : Int)))))
        ++ [⟨2, 0, padded (size + 1) []⟩]) 2
      (filled 2 (size + 1) ((recs ++ [r]).filter (fun x => !decide (Int.tmod x.ID 4 = (c : Int)))))
      = slots.set c (filled 2 (size + 1)
          ((recs ++ [r]).filter (fun x => decide (Int.tmod x.ID 4 = (c : Int)))))
        ++ [filled 2 (size + 1)
          ((recs ++ [r]).filter (fun x => !decide (Int.tmod x.ID 4 = (c : Int))))] := by
    unfold putSlot
    rw [if_pos (by simp; omega), List.set_append_right _ _ (by simp; omega)]
    simp [hslots]
  have h10 : insertIntoBucket
      { (indexOf path size (slots ++ [⟨2, 0, padded (size + 1) []⟩])
        ⟨2, [((0 : Nat) : Int) * slotBytes size, ((1 : Nat) : Int) * slotBytes size,
             ((0 : Nat) : Int) * slotBytes size, ((1 : Nat) : Int) * slotBytes size], []⟩) with
        directory := { (indexOf path size (slots ++ [⟨2, 0, padded (size + 1) []⟩])
        ⟨2, [((0 : Nat) : Int) * slotBytes size, ((1 : Nat) : Int) * slotBytes size,
             ((0 : Nat) : Int) * slotBytes size, ((1 : Nat) : Int) * slotBytes size],
          []⟩).directory with
          bucketPointer := [((0 : Nat) : Int) * slotBytes size, ((1 : Nat) : Int) * slotBytes size,
             ((0 : Nat) : Int) * slotBytes size, ((1 : Nat) : Int) * slotBytes size].set (2 + c)
               (((2 : Nat) : Int) * slotBytes size) } }
      (if (2 : Int) + r.ID.tmod 2 ≥ 4 then (r.ID.tmod 2).tmod 2 else r.ID.tmod 2)
      (splitLoop 4 (if (2 : Int) + r.ID.tmod 2 ≥ 4 then (r.ID.tmod 2).tmod 2 else r.ID.tmod 2)
        (recs ++ [r]) 0 0 (filled 2 (size + 1) []) (filled 2 (size + 1) [])).1.ActualPower
      (splitLoop 4 (if (2 : Int) + r.ID.tmod 2 ≥ 4 then (r.ID.tmod 2).tmod 2 else r.ID.tmod 2)
        (recs ++ [r]) 0 0 (filled 2 (size + 1) []) (filled 2 (size + 1) [])).1.CurrentSize
      (splitLoop 4 (if (2 : Int) + r.ID.tmod 2 ≥ 4 then (r.ID.tmod 2).tmod 2 else r.ID.tmod 2)
        (recs ++ [r]) 0 0 (filled 2 (size + 1) []) (filled 2 (size + 1) [])).1.Records
      = some (indexOf path size (slots.set c (filled 2 (size + 1)
          ((recs ++ [r]).filter (fun x => decide (Int.tmod x.ID 4 = (c : Int)))))
        ++ [⟨2, 0, padded (size + 1) []⟩])
        ⟨2, [((0 : Nat) : Int) * slotBytes size, ((1 : Nat) : Int) * slotBytes size,
             ((0 : Nat) : Int) * slotBytes size, ((1 : Nat) : Int) * slotBytes size].set (2 + c)
               (((2 : Nat) : Int) * slotBytes size), []⟩) := by
    rw [hpos1, hsplit]
    have hw : insertIntoBucket (indexOf path size (slots ++ [⟨2, 0, padded (size + 1) []⟩])
        ⟨2, [((0 : Nat) : Int) * slotBytes size, ((1 : Nat) : Int) * slotBytes size,
             ((0 : Nat) : Int) * slotBytes size, ((1 : Nat) : Int) * slotBytes size].set (2 + c)
               (((2 : Nat) : Int) * slotBytes size), []⟩) (c : Int) 2
        (filled 2 (size + 1) ((recs ++ [r]).filter (fun x => decide (Int.tmod x.ID 4 = (c : Int))))).CurrentSize
        (filled 2 (size + 1) ((recs ++ [r]).filter (fun x => decide (Int.tmod x.ID 4 = (c : Int))))).Records
        = some (indexOf path size (putSlot (size + 1) (slots ++ [⟨2, 0, padded (size + 1) []⟩]) c
            (filled 2 (size + 1) ((recs ++ [r]).filter (fun x => decide (Int.tmod x.ID 4 = (c : Int))))))
          ⟨2, [((0 : Nat) : Int) * slotBytes size, ((1 : Nat) : Int) * slotBytes size,
             ((0 : Nat) : Int) * slotBytes size, ((1 : Nat) : Int) * slotBytes size].set (2 + c)
               (((2 : Nat) : Int) * slotBytes size), []⟩) :=
      insertIntoBucket_indexOf path size hsize _ _ _ _ _ _ c hoffc
    rw [hput1] at hw
    exact hw
  constructor
  · rw [addRecord_of_full hcount hread hfull h1 h2 h3 h4 h5 h6 h7 h8 h9 h10, hpos1, hnewPos, hsplit]
    have hw : insertIntoBucket (indexOf path size (slots.set c (filled 2 (size + 1) ((recs ++ [r]).filter (fun x => decide (Int.tmod x.ID 4 = (c : Int)))))
          ++ [⟨2, 0, padded (size + 1) []⟩])
        ⟨2, [((0 : Nat) : Int) * slotBytes size, ((1 : Nat) : Int) * slotBytes size,
             ((0 : Nat) : Int) * slotBytes size, ((1 : Nat) : Int) * slotBytes size].set (2 + c)
               (((2 : Nat) : Int) * slotBytes size), []⟩) (2 + (c : Int)) 2
        (filled 2 (size + 1) ((recs ++ [r]).filter (fun x => !decide (Int.tmod x.ID 4 = (c : Int))))).CurrentSize
        (filled 2 (size + 1) ((recs ++ [r]).filter (fun x => !decide (Int.tmod x.ID 4 = (c : Int))))).Records
        = some (indexOf path size (putSlot (size + 1) (slots.set c (filled 2 (size + 1) ((recs ++ [r]).filter (fun x => decide (Int.tmod x.ID 4 = (c : Int)))))
          ++ [⟨2, 0, padded (size + 1) []⟩]) 2
            (filled 2 (size + 1) ((recs ++ [r]).filter (fun x => !decide (Int.tmod x.ID 4 = (c : Int))))))
          ⟨2, [((0 : Nat) : Int) * slotBytes size, ((1 : Nat) : Int) * slotBytes size,
             ((0 : Nat) : Int) * slotBytes size, ((1 : Nat) : Int) * slotBytes size].set (2 + c)
               (((2 : Nat) : Int) * slotBytes size), []⟩) :=
      insertIntoBucket_indexOf path size hsize _ _ _ _ _ _ 2 hoffn
    rw [hput2] at hw
    exact hw
  · unfold splits
    rw [bind_of_eq_some hcount, bind_of_eq_some hread]
    simp only [hfull, decide_True]

theorem tmod_two_cases {k : Int} (hk : 0 ≤ k) :
    (k % 2 = 0 ∧ k.tmod 2 = ((0 : Nat) : Int)) ∨ (k % 2 = 1 ∧ k.tmod 2 = ((1 : Nat) : Int)) := by
  rw [Int.tmod_eq_emod hk (by decide)]
  have := Int.emod_two_eq k
  omega

theorem addAll_twoBuckets (path : List Nat) (size : Int) (hsize : 0 ≤ size) :
    ∀ (rs evens odds : List BucketRecord), (∀ r ∈ rs, 0 ≤ r.ID) →
      ((evens.length + (rs.filter evenKey).length : Nat) : Int) ≤ size →
      ((odds.length + (rs.filter oddKey).length : Nat) : Int) ≤ size →
      addAll rs (twoBuckets path size evens odds)
        = some (twoBuckets path size (evens ++ rs.filter evenKey) (odds ++ rs.filter oddKey), 0) := by
  intro rs
  induction rs with
  | nil =>
    intro evens odds _ _ _
    simp only [addAll, List.filter_nil, List.append_nil]
  | cons r rest ih =>
    intro evens odds hnn he ho
    have hr : 0 ≤ r.ID := hnn r (List.mem_cons_self _ _)
    have hrest : ∀ x ∈ rest, 0 ≤ x.ID := fun x hx => hnn x (List.mem_cons_of_mem _ hx)
    rcases tmod_two_cases hr with ⟨hmod, htmod⟩ | ⟨hmod, htmod⟩
    · have hfe : (r :: rest).filter evenKey = r :: rest.filter evenKey :=
        List.filter_cons_of_pos (by simp [evenKey, hmod])
      have hfo : (r :: rest).filter oddKey = rest.filter oddKey :=
        List.filter_cons_of_neg (by simp [oddKey, hmod])
      rw [hfe] at he ⊢
      rw [hfo] at ho ⊢
      simp only [List.length_cons, Nat.cast_add, Nat.cast_one] at he ho
      obtain ⟨hadd, hsp⟩ := addRecord_append_indexOf path size hsize
        [filled 1 (size + 1) evens, filled 1 (size + 1) odds] (freshDirectory size) r 2 1 0 evens
        rfl (by rw [htmod]; decide) (by rw [htmod]; rfl) rfl (by omega)
      have hih := ih (evens ++ [r]) odds hrest
        (by simp only [List.length_append, List.length_singleton, Nat.cast_add, Nat.cast_one]; omega)
        (by simp only [Nat.cast_add]; omega)
      unfold addAll
      rw [bind_of_eq_some (show splits (twoBuckets path size evens odds) r = some false from hsp),
        bind_of_eq_some (show addRecord (twoBuckets path size evens odds) r
          = some (twoBuckets path size (evens ++ [r]) odds) from hadd),
        bind_of_eq_some hih]
      simp only [Bool.false_eq_true, if_false, Nat.zero_add, List.append_assoc,
        List.singleton_append]
    · have hfe : (r :: rest).filter evenKey = rest.filter evenKey :=
        List.filter_cons_of_neg (by simp [evenKey, hmod])
      have hfo : (r :: rest).filter oddKey = r :: rest.filter oddKey :=
        List.filter_cons_of_pos (by simp [oddKey, hmod])
      rw [hfe] at he ⊢
      rw [hfo] at ho ⊢
      simp only [List.length_cons, Nat.cast_add, Nat.cast_one] at he ho
      obtain ⟨hadd, hsp⟩ := addRecord_append_indexOf path size hsize
        [filled 1 (size + 1) evens, filled 1 (size + 1) odds] (freshDirectory size) r 2 1 1 odds
        rfl (by rw [htmod]; decide) (by rw [htmod]; rfl) rfl (by omega)
      have hih := ih evens (odds ++ [r]) hrest
        (by simp only [Nat.cast_add]; omega)
        (by simp only [List.length_append, List.length_singleton, Nat.cast_add, Nat.cast_one]; omega)
      unfold addAll
      rw [bind_of_eq_some (show splits (twoBuckets path size evens odds) r = some false from hsp),
        bind_of_eq_some (show addRecord (twoBuckets path size evens odds) r
          = some (twoBuckets path size evens (odds ++ [r])) from hadd),
        bind_of_eq_some hih]
      simp only [Bool.false_eq_true, if_false, Nat.zero_add, List.append_assoc,
        List.singleton_append]

theorem readScan_mem (r : BucketRecord) : ∀ (L rest : List BucketRecord), r ∈ L →
    (L.map (fun x => x.ID)).Nodup → readScan r.ID L.length (L ++ rest) = some r.Address := by
  intro L
  induction L with
  | nil => intro rest h; simp at h
  | cons x xs ih =>
    intro rest hmem hnd
    simp only [List.length_cons, List.cons_append, readScan]
    simp only [List.map_cons, List.nodup_cons, List.mem_map, not_exists, not_and] at hnd
    rcases List.mem_cons.mp hmem with h | h
    · subst h; simp
    · have hne : ¬ x.ID = r.ID := fun e => hnd.1 r h e.symm
      rw [if_neg hne]
      exact ih rest h hnd.2

theorem HashRead_indexOf (path : List Nat) (size : Int) (hsize : 0 ≤ size)
    (slots : List Bucket) (d : Directory) (count power : Int) (j : Nat)
    (L : List BucketRecord) (r : BucketRecord)
    (hcount : shiftOne d.p = some count) (hpos : 0 ≤ r.ID.tmod count)
    (hoff : sliceGet d.bucketPointer (r.ID.tmod count) = some ((j : Int) * slotBytes size))
    (hslot : slots[j]? = some (filled power (size + 1) L))
    (hle : L.length ≤ (size + 1).toNat) (hmem : r ∈ L)
    (hnd : (L.map (fun x => x.ID)).Nodup) :
    HashRead (indexOf path size slots d) r.ID = some (r.Address, decide (r.Address < 0)) := by
  have hget : slots.getD j (zeroSlot (size + 1)) = filled power (size + 1) L := by
    simp [List.getD_eq_getElem?_getD, hslot]
  have hread : readBucket (indexOf path size slots d) (r.ID.tmod count)
      = some (filled power (size + 1) L) := by
    unfold readBucket
    rw [if_neg (Int.not_lt.mpr hpos)]
    rw [bind_of_eq_some (show sliceGet (indexOf path size slots d).directory.bucketPointer
      (r.ID.tmod count) = _ from hoff)]
    rw [readAt_indexOf path size hsize, hget, decodeSlot_filled hle]
  have hscan : readScan r.ID (filled power (size + 1) L).CurrentSize.toNat
      (filled power (size + 1) L).Records = some r.Address := by
    show readScan r.ID ((L.length : Int)).toNat (padded (size + 1) L) = _
    rw [Int.toNat_ofNat]
    exact readScan_mem r L _ hmem hnd
  unfold HashRead
  rw [bind_of_eq_some (show getBucketCount (indexOf path size slots d) = some count from hcount)]
  dsimp only
  rw [bind_of_eq_some hread, bind_of_eq_some hscan]

theorem addAll_cons (r : BucketRecord) (rest : List BucketRecord) (hash : DinamicHash) :
    addAll (r :: rest) hash = (splits hash r).bind (fun s =>
      (addRecord hash r).bind (fun hash1 =>
        (addAll rest hash1).bind (fun u => some (u.1, (if s then 1 else 0) + u.2)))) := rfl

theorem addAll_append : ∀ (xs ys : List BucketRecord) (hash : DinamicHash),
    addAll (xs ++ ys) hash = (addAll xs hash).bind (fun s =>
      (addAll ys s.1).bind (fun t => some (t.1, s.2 + t.2))) := by
  intro xs
  induction xs with
  | nil =>
    intro ys hash
    simp only [List.nil_append, addAll, Option.some_bind, Nat.zero_add]
    cases addAll ys hash <;> rfl
  | cons x rest ih =>
    intro ys hash
    rw [List.cons_append, addAll_cons, addAll_cons]
    cases splits hash x with
    | none => rfl
    | some s =>
      simp only [Option.some_bind]
      cases addRecord hash x with
      | none => rfl
      | some hash1 =>
        simp only [Option.some_bind]
        rw [ih]
        cases addAll rest hash1 with
        | none => rfl
        | some u =>
          simp only [Option.some_bind]
          cases addAll ys u.1 with
          | none => rfl
          | some v => simp only [Option.some_bind, Nat.add_assoc]

theorem filter_all {α : Type} (q : α → Bool) (l : List α) (h : ∀ x ∈ l, q x = true) :
    l.filter q = l := List.filter_eq_self.mpr h

theorem filter_none {α : Type} (q : α → Bool) (l : List α) (h : ∀ x ∈ l, q x = false) :
    l.filter q = [] := by
  apply List.filter_eq_nil_iff.mpr
  intro x hx
  simp [h x hx]

theorem take_padded (loadFactor : Int) (L : List BucketRecord) :
    (padded loadFactor L).take L.length = L := by
  simp [padded]

theorem tmod_four_cases {k : Int} {c : Nat} (hk : 0 ≤ k) (hc : c < 2) (hmod : k % 2 = (c : Int)) :
    (k.tmod 4 = (c : Int) ∧ k % 4 = (c : Int)) ∨
      (k.tmod 4 = 2 + (c : Int) ∧ k % 4 = (c : Int) + 2) := by
  rw [Int.tmod_eq_emod hk (by decide)]
  omega

theorem readBucket_indexOf (path : List Nat) (size : Int) (hsize : 0 ≤ size)
    (slots : List Bucket) (d : Directory) (pos power : Int) (j : Nat) (L : List BucketRecord)
    (hpos : 0 ≤ pos)
    (hoff : sliceGet d.bucketPointer pos = some ((j : Int) * slotBytes size))
    (hslot : slots[j]? = some (filled power (size + 1) L))
    (hle : L.length ≤ (size + 1).toNat) :
    readBucket (indexOf path size slots d) pos = some (filled power (size + 1) L) := by
  have hget : slots.getD j (zeroSlot (size + 1)) = filled power (size + 1) L := by
    simp [List.getD_eq_getElem?_getD, hslot]
  unfold readBucket
  rw [if_neg (Int.not_lt.mpr hpos)]
  rw [bind_of_eq_some (show sliceGet (indexOf path size slots d).directory.bucketPointer
    pos = _ from hoff)]
  rw [readAt_indexOf path size hsize, hget, decodeSlot_filled hle]

theorem split_state (path : List Nat) (size : Int) (hsize : 0 ≤ size)
    (init : List BucketRecord) (last : BucketRecord) (c : Nat) (hc : c < 2)
    (evens odds : List BucketRecord)
    (hslotc : [filled 1 (size + 1) evens, filled 1 (size + 1) odds][c]?
      = some (filled 1 (size + 1) init))
    (hlen : (init.length : Int) = size)
    (hnn : ∀ r ∈ init ++ [last], 0 ≤ r.ID)
    (hnd : ((init ++ [last]).map (fun x => x.ID)).Nodup)
    (hslot : ∀ r ∈ init ++ [last], r.ID % 2 = (c : Int)) :
    ∃ h2 : DinamicHash,
      splits (twoBuckets path size evens odds) last = some true ∧
      addRecord (twoBuckets path size evens odds) last = some h2 ∧
      h2.directory.p = 2 ∧
      (∀ r ∈ init ++ [last], HashRead h2 r.ID = some (r.Address, decide (r.Address < 0))) ∧
      (∀ i : Int, (i = (c : Int) ∨ i = (c : Int) + 2) → ∃ b, readBucket h2 i = some b ∧
        b.ActualPower = 2 ∧
        ∀ x ∈ b.Records.take b.CurrentSize.toNat, x.ID % 2 ^ b.ActualPower.toNat = i) := by
  have hlastmem : last ∈ init ++ [last] := by simp
  have hlast0 : 0 ≤ last.ID := hnn last hlastmem
  have hpos : last.ID.tmod 2 = (c : Int) := by
    rw [Int.tmod_eq_emod hlast0 (by decide)]
    exact hslot last hlastmem
  obtain ⟨hadd, hsp⟩ := addRecord_split_indexOf path size hsize
    [filled 1 (size + 1) evens, filled 1 (size + 1) odds] last c init hc rfl hslotc hlen hpos
  have hF1len : ((init ++ [last]).filter (fun x => decide (Int.tmod x.ID 4 = (c : Int)))).length
      ≤ (size + 1).toNat := by
    have := List.length_filter_le (fun x => decide (Int.tmod x.ID 4 = (c : Int))) (init ++ [last])
    simp only [List.length_append, List.length_singleton] at this
    omega
  have hF2len : ((init ++ [last]).filter (fun x => !decide (Int.tmod x.ID 4 = (c : Int)))).length
      ≤ (size + 1).toNat := by
    have := List.length_filter_le (fun x => !decide (Int.tmod x.ID 4 = (c : Int))) (init ++ [last])
    simp only [List.length_append, List.length_singleton] at this
    omega
  have hs1 : ([filled 1 (size + 1) evens, filled 1 (size + 1) odds].set c
      (filled 2 (size + 1) ((init ++ [last]).filter (fun x => decide (Int.tmod x.ID 4 = (c : Int)))))
      ++ [filled 2 (size + 1)
        ((init ++ [last]).filter (fun x => !decide (Int.tmod x.ID 4 = (c : Int))))])[c]?
      = some (filled 2 (size + 1)
        ((init ++ [last]).filter (fun x => decide (Int.tmod x.ID 4 = (c : Int))))) := by
    interval_cases c <;> rfl
  have hs2 : ([filled 1 (size + 1) evens, filled 1 (size + 1) odds].set c
      (filled 2 (size + 1) ((init ++ [last]).filter (fun x => decide (Int.tmod x.ID 4 = (c : Int)))))
      ++ [filled 2 (size + 1)
        ((init ++ [last]).filter (fun x => !decide (Int.tmod x.ID 4 = (c : Int))))])[2]?
      = some (filled 2 (size + 1)
        ((init ++ [last]).filter (fun x => !decide (Int.tmod x.ID 4 = (c : Int))))) := by
    interval_cases c <;> rfl
  have hoffc : sliceGet ([((0 : Nat) : Int) * slotBytes size, ((1 : Nat) : Int) * slotBytes size,
             ((0 : Nat) : Int) * slotBytes size, ((1 : Nat) : Int) * slotBytes size].set (2 + c)
               (((2 : Nat) : Int) * slotBytes size)) (c : Int)
      = some ((c : Int) * slotBytes size) := by
    interval_cases c <;> rfl
  have hoffn : sliceGet ([((0 : Nat) : Int) * slotBytes size, ((1 : Nat) : Int) * slotBytes size,
             ((0 : Nat) : Int) * slotBytes size, ((1 : Nat) : Int) * slotBytes size].set (2 + c)
               (((2 : Nat) : Int) * slotBytes size)) (2 + (c : Int))
      = some (((2 : Nat) : Int) * slotBytes size) := by
    interval_cases c <;> rfl
  have hndF : ∀ q : BucketRecord → Bool,
      (((init ++ [last]).filter q).map (fun x => x.ID)).Nodup :=
    fun q => hnd.sublist (List.Sublist.map _ (List.filter_sublist _))
  refine ⟨_, hsp, hadd, rfl, ?_, ?_⟩
  · intro r hr
    have hr0 := hnn r hr
    rcases tmod_four_cases hr0 hc (hslot r hr) with ⟨ht, _⟩ | ⟨ht, _⟩
    · exact HashRead_indexOf path size hsize _ _ 4 2 c _ r rfl (by rw [ht]; omega)
        (by rw [ht]; exact hoffc) hs1 hF1len
        (List.mem_filter.mpr ⟨hr, by simp [ht]⟩) (hndF _)
    · exact HashRead_indexOf path size hsize _ _ 4 2 2 _ r rfl (by rw [ht]; omega)
        (by rw [ht]; exact hoffn) hs2 hF2len
        (List.mem_filter.mpr ⟨hr, by simp [ht]⟩) (hndF _)
  · intro i hi
    rcases hi with hi | hi
    · refine ⟨filled 2 (size + 1)
        ((init ++ [last]).filter (fun x => decide (Int.tmod x.ID 4 = (c : Int)))), ?_, rfl, ?_⟩
      · subst hi
        exact readBucket_indexOf path size hsize _ _ _ 2 c _ (by omega) hoffc hs1 hF1len
      · intro x hx
        have hx1 : x ∈ (init ++ [last]).filter (fun x => decide (Int.tmod x.ID 4 = (c : Int))) := by
          have : (filled 2 (size + 1) ((init ++ [last]).filter
              (fun x => decide (Int.tmod x.ID 4 = (c : Int))))).CurrentSize.toNat
              = ((init ++ [last]).filter (fun x => decide (Int.tmod x.ID 4 = (c : Int)))).length :=
            Int.toNat_ofNat _
          rw [this] at hx
          rw [show (filled 2 (size + 1) ((init ++ [last]).filter
              (fun x => decide (Int.tmod x.ID 4 = (c : Int))))).Records = padded (size + 1) _ from rfl,
            take_padded] at hx
          exact hx
        obtain ⟨hxm, hxp⟩ := List.mem_filter.mp hx1
        have hx0 := hnn x hxm
        simp only [decide_eq_true_eq] at hxp
        rw [Int.tmod_eq_emod hx0 (by decide)] at hxp
        rw [hi]
        show x.ID % 2 ^ (2 : Int).toNat = _
        exact hxp
    · refine ⟨filled 2 (size + 1)
        ((init ++ [last]).filter (fun x => !decide (Int.tmod x.ID 4 = (c : Int)))), ?_, rfl, ?_⟩
      · have hi2 : i = 2 + (c : Int) := by omega
        subst hi2
        exact readBucket_indexOf path size hsize _ _ _ 2 2 _ (by omega) hoffn hs2 hF2len
      · intro x hx
        have hx1 : x ∈ (init ++ [last]).filter (fun x => !decide (Int.tmod x.ID 4 = (c : Int))) := by
          have : (filled 2 (size + 1) ((init ++ [last]).filter
              (fun x => !decide (Int.tmod x.ID 4 = (c : Int))))).CurrentSize.toNat
              = ((init ++ [last]).filter (fun x => !decide (Int.tmod x.ID 4 = (c : Int)))).length :=
            Int.toNat_ofNat _
          rw [this] at hx
          rw [show (filled 2 (size + 1) ((init ++ [last]).filter
              (fun x => !decide (Int.tmod x.ID 4 = (c : Int))))).Records = padded (size + 1) _ from rfl,
            take_padded] at hx
          exact hx
        obtain ⟨hxm, hxp⟩ := List.mem_filter.mp hx1
        have hx0 := hnn x hxm
        simp only [Bool.not_eq_true', decide_eq_false_iff_not] at hxp
        rw [Int.tmod_eq_emod hx0 (by decide)] at hxp
        have hx2 := hslot x hxm
        rw [hi]
        show x.ID % 2 ^ (2 : Int).toNat = _
        have h4 : (2 : Int) ^ (2 : Int).toNat = 4 := by decide
        rw [h4]
        omega

theorem newHash_twoBuckets (path : List Nat) (size : Int) (hsize : 0 ≤ size)
    (hfit : slotBytes size ≤ MaxInt64) :
    newHash path size = some (twoBuckets path size [] []) :=
  newHash_eq path size hsize hfit

theorem addAll_then_split {h0 h1 h2 : DinamicHash} {init : List BucketRecord}
    {last : BucketRecord} (hinit : addAll init h0 = some (h1, 0))
    (hsp : splits h1 last = some true) (hadd : addRecord h1 last = some h2) :
    addAll (init ++ [last]) h0 = some (h2, 1) := by
  rw [addAll_append, hinit]
  simp only [Option.some_bind, addAll_cons, hsp, hadd, addAll, if_true, Nat.add_zero, Nat.zero_add]
  rfl

/-- C4. Split correctness: on a fresh index `newHash(size)` (capacity
`size + 1`, of a slot size `16 + (size + 1) * 16` within `int64`, for which
`newHash` returns), inserting `size + 1` records with distinct non-negative
keys that all map to the same directory slot `c = key mod 2` causes no split
before the last insert and exactly one split in total; afterwards the global
depth is 2,
every inserted key is found by the lookup with its address, and the buckets at
directory indices `c` and `c + 2` have local depth 2 and hold only keys whose
remainder modulo `2^2` is the index that points at them. -/
theorem split_correctness (path : List Nat) (size : Int) (hsize : 0 ≤ size)
    (hfit : slotBytes size ≤ MaxInt64) (rs : List BucketRecord) (c : Int)
    (hlen : (rs.length : Int) = size + 1)
    (hnn : ∀ r ∈ rs, 0 ≤ r.ID)
    (hnd : (rs.map (fun x => x.ID)).Nodup)
    (hslot : ∀ r ∈ rs, r.ID % 2 = c) :
    ∃ h0 h1 h2 : DinamicHash,
      newHash path size = some h0 ∧
      addAll rs.dropLast h0 = some (h1, 0) ∧
      addAll rs h0 = some (h2, 1) ∧
      h2.directory.p = 2 ∧
      (∀ r ∈ rs, HashRead h2 r.ID = some (r.Address, decide (r.Address < 0))) ∧
      (∀ i : Int, (i = c ∨ i = c + 2) → ∃ b, readBucket h2 i = some b ∧ b.ActualPower = 2 ∧
        ∀ x ∈ b.Records.take b.CurrentSize.toNat, x.ID % 2 ^ b.ActualPower.toNat = i) := by
  have hne : rs ≠ [] := by
    intro h
    rw [h] at hlen
    simp at hlen
    omega
  have hrs : rs.dropLast ++ [rs.getLast hne] = rs := List.dropLast_append_getLast hne
  have hinitlen : (rs.dropLast.length : Int) = size := by
    rw [List.length_dropLast]
    have : 1 ≤ rs.length := List.length_pos.mpr hne
    omega
  have hlastmem : rs.getLast hne ∈ rs := List.getLast_mem hne
  have hsub : ∀ x ∈ rs.dropLast, x ∈ rs := fun x hx => List.mem_of_mem_dropLast hx
  have hc := hslot _ hlastmem
  have hc2 := Int.emod_two_eq (rs.getLast hne).ID
  have hnew := newHash_twoBuckets path size hsize hfit
  rcases hc2 with h | h
  · have hc0 : c = ((0 : Nat) : Int) := by rw [← hc, h]; rfl
    have hphase := addAll_twoBuckets path size hsize rs.dropLast [] []
      (fun r hr => hnn r (hsub r hr))
      (by rw [filter_all evenKey _ (fun x hx => by
            simp only [evenKey, decide_eq_true_eq]; rw [hslot x (hsub x hx), hc0]; rfl)]
          simp only [List.length_nil, Nat.zero_add]; omega)
      (by rw [filter_none oddKey _ (fun x hx => by
            simp only [oddKey, decide_eq_false_iff_not]; rw [hslot x (hsub x hx), hc0]; decide)]
          simp only [List.length_nil, Nat.zero_add, Nat.cast_zero]; exact hsize)
    rw [filter_all evenKey _ (fun x hx => by
          simp only [evenKey, decide_eq_true_eq]; rw [hslot x (hsub x hx), hc0]; rfl),
      filter_none oddKey _ (fun x hx => by
          simp only [oddKey, decide_eq_false_iff_not]; rw [hslot x (hsub x hx), hc0]; decide),
      List.nil_append] at hphase
    obtain ⟨h2, hsp, hadd, hp, hread, hpart⟩ := split_state path size hsize rs.dropLast
      (rs.getLast hne) 0 (by decide) rs.dropLast [] rfl hinitlen
      (by rw [hrs]; exact hnn) (by rw [hrs]; exact hnd)
      (by rw [hrs]; intro r hr; rw [hslot r hr, hc0])
    rw [hrs] at hread
    refine ⟨_, _, h2, hnew, hphase, ?_, hp, hread, ?_⟩
    · have := addAll_then_split hphase hsp hadd
      rw [hrs] at this
      exact this
    · intro i hi
      exact hpart i (by rw [hc0] at hi; exact hi)
  · have hc1 : c = ((1 : Nat) : Int) := by rw [← hc, h]; rfl
    have hphase := addAll_twoBuckets path size hsize rs.dropLast [] []
      (fun r hr => hnn r (hsub r hr))
      (by rw [filter_none evenKey _ (fun x hx => by
            simp only [evenKey, decide_eq_false_iff_not]; rw [hslot x (hsub x hx), hc1]; decide)]
          simp only [List.length_nil, Nat.zero_add, Nat.cast_zero]; exact hsize)
      (by rw [filter_all oddKey _ (fun x hx => by
            simp only [oddKey, decide_eq_true_eq]; rw [hslot x (hsub x hx), hc1]; rfl)]
          simp only [List.length_nil, Nat.zero_add]; omega)
    rw [filter_none evenKey _ (fun x hx => by
          simp only [evenKey, decide_eq_false_iff_not]; rw [hslot x (hsub x hx), hc1]; decide),
      filter_all oddKey _ (fun x hx => by
          simp only [oddKey, decide_eq_true_eq]; rw [hslot x (hsub x hx), hc1]; rfl),
      List.nil_append] at hphase
    obtain ⟨h2, hsp, hadd, hp, hread, hpart⟩ := split_state path size hsize rs.dropLast
      (rs.getLast hne) 1 (by decide) [] rs.dropLast rfl hinitlen
      (by rw [hrs]; exact hnn) (by rw [hrs]; exact hnd)
      (by rw [hrs]; intro r hr; rw [hslot r hr, hc1])
    rw [hrs] at hread
    refine ⟨_, _, h2, hnew, hphase, ?_, hp, hread, ?_⟩
    · have := addAll_then_split hphase hsp hadd
      rw [hrs] at this
      exact this
    · intro i hi
      exact hpart i (by rw [hc1] at hi; exact hi)

theorem putSlot_length_le (loadFactor : Int) (slots : List Bucket) (k : Nat) (b : Bucket) :
    slots.length ≤ (putSlot loadFactor slots k b).length := by
  unfold putSlot
  split
  · simp
  · simp

theorem putSlot_length_of_lt (loadFactor : Int) (slots : List Bucket) (k : Nat) (b : Bucket)
    (h : k < slots.length) : (putSlot loadFactor slots k b).length = slots.length := by
  unfold putSlot
  rw [if_pos h]
  simp

theorem writeAt_within {hash hash1 : DinamicHash} {off off2 : Int} {b : Bucket}
    (h : writeAt hash off b = some hash1) (hw : Within hash off2) : Within hash1 off2 := by
  obtain ⟨k, hk, hlt⟩ := hw
  refine ⟨k, by rw [slotOf_writeAt h]; exact hk, ?_⟩
  unfold writeAt at h
  obtain ⟨j, _, h⟩ := bind_elim h
  simp only [Option.some.injEq] at h
  subst h
  exact lt_of_lt_of_le hlt (putSlot_length_le _ _ _ _)

theorem insertIntoBucket_within {hash hash1 : DinamicHash} {pos power size off2 : Int}
    {records : List BucketRecord}
    (h : insertIntoBucket hash pos power size records = some hash1) (hw : Within hash off2) :
    Within hash1 off2 := by
  unfold insertIntoBucket at h
  obtain ⟨off, _, h⟩ := bind_elim h
  exact writeAt_within h hw

theorem within_of_directory {hash hash1 : DinamicHash} {off : Int}
    (hf : hash1.bucketFile = hash.bucketFile) (hlf : hash1.loadFactor = hash.loadFactor)
    (hbs : hash1.bucketSize = hash.bucketSize) (hw : Within hash off) : Within hash1 off := by
  obtain ⟨k, hk, hlt⟩ := hw
  refine ⟨k, ?_, by rw [hf]; exact hlt⟩
  simp only [slotOf, hlf, hbs] at hk ⊢
  exact hk

theorem HashUpdate_within {hash hash1 : DinamicHash} {numero newAddress off : Int} {err : Bool}
    (h : HashUpdate hash numero newAddress = some (hash1, err)) (hw : Within hash off) :
    Within hash1 off := by
  unfold HashUpdate at h
  obtain ⟨count, _, h⟩ := bind_elim h
  obtain ⟨bucket, hbucket, h⟩ := bind_elim h
  obtain ⟨targetPos, _, h⟩ := bind_elim h
  split at h
  · simp only [Option.some.injEq, Prod.mk.injEq] at h
    obtain ⟨rfl, _⟩ := h
    exact hw
  · obtain ⟨old, _, h⟩ := bind_elim h
    obtain ⟨records, _, h⟩ := bind_elim h
    obtain ⟨hashA, hA, h⟩ := bind_elim h
    simp only [Option.some.injEq, Prod.mk.injEq] at h
    obtain ⟨rfl, _⟩ := h
    exact insertIntoBucket_within hA hw

theorem HashDelete_garbage {hash hash1 : DinamicHash} {targetID off : Int} {err : Bool}
    (h : HashDelete hash targetID = some (hash1, err)) (hw : Within hash off) :
    Within hash1 off ∧ ∃ more, hash1.directory.garbage = hash.directory.garbage ++ more := by
  unfold HashDelete at h
  obtain ⟨count, _, h⟩ := bind_elim h
  obtain ⟨bucket, hbucket, h⟩ := bind_elim h
  obtain ⟨targetPos, _, h⟩ := bind_elim h
  split at h
  · simp only [Option.some.injEq, Prod.mk.injEq] at h
    obtain ⟨rfl, _⟩ := h
    exact ⟨hw, [], by simp⟩
  · obtain ⟨records, _, h⟩ := bind_elim h
    obtain ⟨hashA, hA, h⟩ := bind_elim h
    have hwA := insertIntoBucket_within hA hw
    obtain ⟨hAd, _⟩ := insertIntoBucket_frame hA
    split at h
    · obtain ⟨old, _, h⟩ := bind_elim h
      obtain ⟨buddy, _, h⟩ := bind_elim h
      obtain ⟨bp, hbp, h⟩ := bind_elim h
      obtain ⟨merged, hm, h⟩ := bind_elim h
      obtain ⟨hashC, hC, h⟩ := bind_elim h
      simp only [Option.some.injEq, Prod.mk.injEq] at h
      obtain ⟨rfl, _⟩ := h
      obtain ⟨hCd, _⟩ := insertIntoBucket_frame hC
      refine ⟨insertIntoBucket_within hC (within_of_directory rfl rfl rfl hwA), [old], ?_⟩
      rw [hCd, ← hAd]
    · simp only [Option.some.injEq, Prod.mk.injEq] at h
      obtain ⟨rfl, _⟩ := h
      exact ⟨hwA, [], by rw [hAd]; simp⟩

theorem addRecord_quiet {hash hash1 : DinamicHash} {r : BucketRecord} {off : Int}
    (hs : splits hash r = some false) (h : addRecord hash r = some hash1)
    (hw : Within hash off) :
    Within hash1 off ∧ hash1.directory = hash.directory := by
  unfold splits at hs
  obtain ⟨count, hcount, hs⟩ := bind_elim hs
  obtain ⟨bucket, hread, hs⟩ := bind_elim hs
  simp only [Option.some.injEq, decide_eq_false_iff_not] at hs
  rw [addRecord_of_not_full hcount hread hs] at h
  obtain ⟨records, _, h⟩ := Option.bind_eq_some.mp h
  exact ⟨insertIntoBucket_within h hw, (insertIntoBucket_frame h).1⟩

theorem step_quiet {hash hash1 : DinamicHash} {op : Op} {off : Int} {more : List Int}
    (hq : ∀ r, op = Op.add r → splits hash r = some false)
    (h : step hash op = some hash1) (hw : Within hash off)
    (hg : hash.directory.garbage = off :: more) :
    Within hash1 off ∧ ∃ more1, hash1.directory.garbage = off :: more1 := by
  cases op with
  | add r =>
    obtain ⟨h1, h2⟩ := addRecord_quiet (hq r rfl) h hw
    exact ⟨h1, more, by rw [h2]; exact hg⟩
  | update numero newAddress =>
    simp only [step, Option.map_eq_some', Prod.exists, exists_and_right, exists_eq_right] at h
    obtain ⟨err, h⟩ := h
    exact ⟨HashUpdate_within h hw, more, by rw [(HashUpdate_frame h).1]; exact hg⟩
  | delete targetID =>
    simp only [step, Option.map_eq_some', Prod.exists, exists_and_right, exists_eq_right] at h
    obtain ⟨err, h⟩ := h
    obtain ⟨h1, extra, h2⟩ := HashDelete_garbage h hw
    exact ⟨h1, more ++ extra, by rw [h2, hg]; rfl⟩

theorem run_quiet {off : Int} : ∀ (ops : List Op) (hash hash1 : DinamicHash) (more : List Int),
    quiet ops hash → run ops hash = some hash1 → Within hash off →
    hash.directory.garbage = off :: more →
    Within hash1 off ∧ ∃ more1, hash1.directory.garbage = off :: more1 := by
  intro ops
  induction ops with
  | nil =>
    intro hash hash1 more _ h hw hg
    simp only [run, Option.some.injEq] at h
    subst h
    exact ⟨hw, more, hg⟩
  | cons op rest ih =>
    intro hash hash1 more hq h hw hg
    simp only [run] at h
    obtain ⟨hashA, hA, h⟩ := Option.bind_eq_some.mp h
    obtain ⟨hwA, moreA, hgA⟩ := step_quiet hq.1 hA hw hg
    exact ih hashA hash1 moreA (hq.2 hashA hA) h hwA hgA

theorem mem_of_sliceSet {xs ys : List Int} {i a : Int} (h : sliceSet xs i a = some ys) :
    a ∈ ys := by
  obtain ⟨_, hlt, rfl⟩ := sliceSet_some h
  exact List.mem_iff_getElem?.mpr ⟨i.toNat, by simp [List.getElem?_set, hlt]⟩

theorem initializeNewBucket_reuse {hash hashB : DinamicHash} {off : Int} {more address : List Int}
    (hw : Within hash off) (hg : hash.directory.garbage = off :: more)
    (h : initializeNewBucket hash 1 = some (hashB, address)) :
    address = [off] ∧ hashB.bucketFile.slots.length = hash.bucketFile.slots.length ∧
      hashB.directory.garbage = more := by
  unfold initializeNewBucket at h
  rw [if_neg (by decide)] at h
  have h1 : (1 : Int).toNat = 0 + 1 := rfl
  rw [h1] at h
  unfold initializeLoop at h
  obtain ⟨zeros, _, h⟩ := bind_elim h
  rw [hg] at h
  dsimp only at h
  obtain ⟨hash2, hwrite, h⟩ := bind_elim h
  unfold initializeLoop at h
  simp only [Option.bind_eq_bind, Option.some_bind, Option.some.injEq, Prod.mk.injEq] at h
  obtain ⟨rfl, rfl⟩ := h
  obtain ⟨hd, _⟩ := writeAt_frame hwrite
  obtain ⟨k, hk, hlt⟩ := hw
  unfold writeAt at hwrite
  obtain ⟨j, hj, hwrite⟩ := bind_elim hwrite
  have hjk : j = k := by
    have : slotOf hash off = some j := hj
    rw [hk] at this
    exact (Option.some.inj this).symm
  simp only [Option.some.injEq] at hwrite
  subst hwrite
  subst hjk
  exact ⟨rfl, putSlot_length_of_lt _ _ _ _ hlt, rfl⟩

theorem within_of_read {hash : DinamicHash} {pos off : Int} {bucket : Bucket}
    (hread : readBucket hash pos = some bucket) (hsize : bucket.CurrentSize ≠ 0)
    (hoff : sliceGet hash.directory.bucketPointer pos = some off) : Within hash off := by
  unfold readBucket at hread
  split at hread
  · simp only [Option.some.injEq] at hread
    subst hread
    exact absurd rfl hsize
  · rw [bind_of_eq_some hoff, readAt_eq] at hread
    obtain ⟨k, hk, hb⟩ := Option.map_eq_some'.mp hread
    refine ⟨k, hk, ?_⟩
    by_contra hlt
    rw [List.getD_eq_getElem?_getD, List.getElem?_eq_none (by omega)] at hb
    subst hb
    exact hsize rfl

theorem HashDelete_reclaims {hash hash1 : DinamicHash} {k count off : Int} {bucket : Bucket}
    (hcount : getBucketCount hash = some count)
    (hread : readBucket hash (k.tmod count) = some bucket)
    (hone : bucket.CurrentSize = 1)
    (hoff : sliceGet hash.directory.bucketPointer (k.tmod count) = some off)
    (hdel : HashDelete hash k = some (hash1, false)) :
    hash1.directory.garbage = hash.directory.garbage ++ [off] ∧ Within hash1 off := by
  have hw : Within hash off := within_of_read hread (by rw [hone]; decide) hoff
  unfold HashDelete at hdel
  rw [bind_of_eq_some hcount] at hdel
  dsimp only at hdel
  rw [bind_of_eq_some hread] at hdel
  obtain ⟨targetPos, _, h⟩ := bind_elim hdel
  split at h
  · simp at h
  · obtain ⟨records, _, h⟩ := bind_elim h
    obtain ⟨hashA, hA, h⟩ := bind_elim h
    have hwA := insertIntoBucket_within hA hw
    obtain ⟨hAd, _⟩ := insertIntoBucket_frame hA
    rw [if_pos (by rw [hone]; decide)] at h
    rw [hAd, bind_of_eq_some hoff] at h
    obtain ⟨buddy, _, h⟩ := bind_elim h
    obtain ⟨bp, hbp, h⟩ := bind_elim h
    obtain ⟨merged, hm, h⟩ := bind_elim h
    obtain ⟨hashC, hC, h⟩ := bind_elim h
    simp only [Option.some.injEq, Prod.mk.injEq, and_true] at h
    subst h
    obtain ⟨hCd, _⟩ := insertIntoBucket_frame hC
    exact ⟨by rw [hCd], insertIntoBucket_within hC (within_of_directory rfl rfl rfl hwA)⟩

theorem addRecord_split_reuses {hash hash2 : DinamicHash} {r : BucketRecord} {off : Int}
    {more : List Int} (hs : splits hash r = some true) (h : addRecord hash r = some hash2)
    (hw : Within hash off) (hg : hash.directory.garbage = off :: more) :
    ∃ hashA hashB, (hashA = hash ∨ increasePower hash = some hashA) ∧
      initializeNewBucket hashA 1 = some (hashB, [off]) ∧
      hashB.bucketFile.slots.length = hash.bucketFile.slots.length ∧
      off ∈ hash2.directory.bucketPointer ∧ hash2.directory.garbage = more := by
  unfold splits at hs
  obtain ⟨count, hcount, hs⟩ := bind_elim hs
  obtain ⟨bucket, hread, hs⟩ := bind_elim hs
  simp only [Option.some.injEq, decide_eq_true_eq] at hs
  unfold addRecord at h
  rw [bind_of_eq_some hcount] at h
  dsimp only at h
  rw [bind_of_eq_some hread, if_pos hs] at h
  obtain ⟨hashA, hA, h⟩ := bind_elim h
  obtain ⟨⟨hashB, address⟩, hB, h⟩ := bind_elim h
  dsimp only at h
  obtain ⟨power, _, h⟩ := bind_elim h
  obtain ⟨count2, _, h⟩ := bind_elim h
  obtain ⟨a, ha, h⟩ := bind_elim h
  obtain ⟨bp, hbp, h⟩ := bind_elim h
  obtain ⟨b1, _, h⟩ := bind_elim h
  obtain ⟨b2, _, h⟩ := bind_elim h
  obtain ⟨records, _, h⟩ := bind_elim h
  obtain ⟨power1, _, h⟩ := bind_elim h
  obtain ⟨hashC, hC, hD⟩ := bind_elim h
  have hAfacts : (hashA = hash ∨ increasePower hash = some hashA) ∧ Within hashA off ∧
      hashA.directory.garbage = off :: more ∧
      hashA.bucketFile.slots.length = hash.bucketFile.slots.length := by
    split at hA
    · obtain ⟨_, hgA, hfA, hlfA, hbsA⟩ := increasePower_frame hA
      exact ⟨Or.inr hA, within_of_directory hfA hlfA hbsA hw, by rw [hgA]; exact hg, by rw [hfA]⟩
    · simp only [Option.some.injEq] at hA
      subst hA
      exact ⟨Or.inl rfl, hw, hg, rfl⟩
  obtain ⟨hAor, hwA, hgA, hlenA⟩ := hAfacts
  obtain ⟨haddr, hlenB, hgB⟩ := initializeNewBucket_reuse hwA hgA hB
  subst haddr
  have ha1 : a = off := by
    simp only [sliceGet] at ha
    simpa using ha.symm
  subst ha1
  obtain ⟨hCd, _⟩ := insertIntoBucket_frame hC
  obtain ⟨hDd, _⟩ := insertIntoBucket_frame hD
  refine ⟨hashA, hashB, hAor, hB, by rw [hlenB, hlenA], ?_, ?_⟩
  · rw [hDd, hCd]
    exact mem_of_sliceSet hbp
  · rw [hDd, hCd]
    exact hgB

/-- C6. Merge reclaims space: in a state with an empty free list, when
`HashDelete` removes the only record of the bucket addressed by its key, the
free list afterwards is exactly the old `bucketPointer[pos]`; and after any
further operations none of which is a splitting insert, the next `addRecord`
that splits gets exactly that offset from `initializeNewBucket(1)`, whose write
leaves the number of slots of the bucket file unchanged, and stores it in the
directory. -/
theorem merge_reclaims_space (hash hash1 hashM hash2 : DinamicHash) (k count off : Int)
    (bucket : Bucket) (mid : List Op) (r : BucketRecord)
    (hg : hash.directory.garbage = [])
    (hcount : getBucketCount hash = some count)
    (hread : readBucket hash (k.tmod count) = some bucket)
    (hone : bucket.CurrentSize = 1)
    (hoff : sliceGet hash.directory.bucketPointer (k.tmod count) = some off)
    (hdel : HashDelete hash k = some (hash1, false))
    (hq : quiet mid hash1) (hmid : run mid hash1 = some hashM)
    (hs : splits hashM r = some true) (hadd : addRecord hashM r = some hash2) :
    hash1.directory.garbage = [off] ∧
      ∃ hashA hashB, (hashA = hashM ∨ increasePower hashM = some hashA) ∧
        initializeNewBucket hashA 1 = some (hashB, [off]) ∧
        hashB.bucketFile.slots.length = hashM.bucketFile.slots.length ∧
        off ∈ hash2.directory.bucketPointer := by
  obtain ⟨hg1, hw1⟩ := HashDelete_reclaims hcount hread hone hoff hdel
  rw [hg, List.nil_append] at hg1
  obtain ⟨hwM, more, hgM⟩ := run_quiet mid hash1 hashM [] hq hmid hw1 hg1
  obtain ⟨hashA, hashB, h1, h2, h3, h4, _⟩ := addRecord_split_reuses hs hadd hwM hgM
  exact ⟨hg1, hashA, hashB, h1, h2, h3, h4⟩

theorem leBytes_length : ∀ (n x : Nat), (leBytes n x).length = n := by
  intro n
  induction n with
  | zero => intro x; rfl
  | succ n ih => intro x; simp [leBytes, ih]

theorem leValue_leBytes : ∀ (n x : Nat), x < 256 ^ n → leValue (leBytes n x) = x := by
  intro n
  induction n with
  | zero => intro x hx; simp at hx; simp [leBytes, leValue, hx]
  | succ n ih =>
    intro x hx
    simp only [leBytes, leValue]
    rw [ih (x / 256) (by rw [Nat.div_lt_iff_lt_mul (by decide)]; rw [pow_succ] at hx; exact hx)]
    omega

theorem signed_put64 {x : Int} (h : isInt64 x) :
    signed 64 (leValue (putInt64 x)) = x := by
  obtain ⟨h1, h2⟩ := h
  have hlt : (x % 2 ^ 64).toNat < 256 ^ 8 := by
    have := Int.emod_lt_of_pos x (show (0 : Int) < 2 ^ 64 by decide)
    have := Int.emod_nonneg x (show (2 : Int) ^ 64 ≠ 0 by decide)
    omega
  unfold putInt64
  rw [leValue_leBytes 8 _ hlt]
  unfold signed
  have hnn := Int.emod_nonneg x (show (2 : Int) ^ 64 ≠ 0 by decide)
  by_cases hx : 0 ≤ x
  · have : x % 2 ^ 64 = x := Int.emod_eq_of_lt hx (by omega)
    rw [this]
    have h3 : x.toNat < 2 ^ (64 - 1) := by omega
    rw [if_pos h3]
    omega
  · have : x % 2 ^ 64 = x + 2 ^ 64 := by
      rw [← Int.add_emod_self]
      exact Int.emod_eq_of_lt (by omega) (by omega)
    rw [this]
    have h3 : ¬ (x + 2 ^ 64).toNat < 2 ^ (64 - 1) := by omega
    rw [if_neg h3]
    omega

theorem signed_put32 {n : Nat} (h : (n : Int) < 2 ^ 31) :
    signed 32 (leValue (putInt32 (n : Int))) = (n : Int) := by
  have hlt : (((n : Int) % 2 ^ 32)).toNat < 256 ^ 4 := by
    have := Int.emod_lt_of_pos (n : Int) (show (0 : Int) < 2 ^ 32 by decide)
    have := Int.emod_nonneg (n : Int) (show (2 : Int) ^ 32 ≠ 0 by decide)
    omega
  unfold putInt32
  rw [leValue_leBytes 4 _ hlt]
  have : (n : Int) % 2 ^ 32 = n := Int.emod_eq_of_lt (by omega) (by omega)
  rw [this]
  unfold signed
  rw [if_pos (by omega)]
  omega

theorem putInt64_length (x : Int) : (putInt64 x).length = 8 := leBytes_length 8 _

theorem putInt32_length (x : Int) : (putInt32 x).length = 4 := leBytes_length 4 _

theorem drop_add_of_drop {buffer pre post : List Nat} {ptr : Nat}
    (h : buffer.drop ptr = pre ++ post) : buffer.drop (ptr + pre.length) = post := by
  rw [← List.drop_drop, h, List.drop_left]

theorem length_of_drop {buffer rest : List Nat} {ptr : Nat} (h : buffer.drop ptr = rest)
    (hpos : 0 < rest.length) : ptr + rest.length = buffer.length := by
  have := congrArg List.length h
  rw [List.length_drop] at this
  omega

theorem BytesToInt64_put {buffer post : List Nat} {ptr : Nat} {x : Int}
    (h : buffer.drop ptr = putInt64 x ++ post) (hx : isInt64 x) :
    BytesToInt64 buffer ptr = some (x, ptr + 8) ∧ buffer.drop (ptr + 8) = post := by
  have hlen := length_of_drop h (by simp [putInt64_length])
  simp only [List.length_append, putInt64_length] at hlen
  have hd := drop_add_of_drop h
  rw [putInt64_length] at hd
  refine ⟨?_, hd⟩
  unfold BytesToInt64
  rw [if_pos (by omega), h, List.take_left' (putInt64_length x), signed_put64 hx]

theorem loadLoop_put : ∀ (xs : List Int) (buffer post : List Nat) (ptr : Nat),
    buffer.drop ptr = xs.flatMap putInt64 ++ post → (∀ x ∈ xs, isInt64 x) →
    ∃ ptr1, loadLoop xs.length buffer ptr = some (xs, ptr1) ∧ buffer.drop ptr1 = post := by
  intro xs
  induction xs with
  | nil =>
    intro buffer post ptr h _
    exact ⟨ptr, rfl, by simpa using h⟩
  | cons x rest ih =>
    intro buffer post ptr h hx
    simp only [List.flatMap_cons, List.append_assoc] at h
    obtain ⟨h1, h2⟩ := BytesToInt64_put h (hx x (List.mem_cons_self _ _))
    obtain ⟨ptr1, h3, h4⟩ := ih buffer post (ptr + 8) h2
      (fun y hy => hx y (List.mem_cons_of_mem _ hy))
    refine ⟨ptr1, ?_, h4⟩
    simp only [List.length_cons, loadLoop]
    rw [bind_of_eq_some h1]
    dsimp only
    rw [bind_of_eq_some h3]

theorem BytesToString_put {buffer name post : List Nat} {ptr : Nat}
    (h : buffer.drop ptr = putInt32 (name.length : Int) ++ (name ++ post))
    (hn : (name.length : Int) < 2 ^ 31) :
    ∃ ptr1, BytesToString buffer ptr = some (name, ptr1) ∧ buffer.drop ptr1 = post := by
  have hlen := length_of_drop h (by simp [putInt32_length])
  simp only [List.length_append, putInt32_length] at hlen
  have hd := drop_add_of_drop h
  rw [putInt32_length] at hd
  have hd2 := drop_add_of_drop hd
  refine ⟨ptr + 4 + name.length, ?_, hd2⟩
  unfold BytesToString
  rw [if_pos (by omega), h, List.take_left' (putInt32_length _), signed_put32 hn]
  simp only [Int.toNat_ofNat]
  rw [if_pos ⟨by omega, by omega⟩, hd, List.take_left' rfl]

theorem makeSlice_length (n : Nat) :
    ∃ zeros : List Int, makeSlice (n : Int) (0 : Int) = some zeros ∧ zeros.length = n := by
  refine ⟨List.replicate n 0, ?_, by simp⟩
  unfold makeSlice
  rw [if_neg (by omega)]
  simp

theorem isInt64_length {n : Nat} (h : (n : Int) < 2 ^ 63) : isInt64 (n : Int) :=
  ⟨by omega, h⟩

/-- C7. Directory round trip: for every structure whose fields fit their Go
types, the bytes written by `Close` (followed by whatever an older, longer
directory file leaves behind them) are decoded by `loadDinamicHash` into a
structure with the same `p`, the same `bucketPointer` sequence, the same free
list, the same `loadFactor` and `bucketSize`, and the same bucket-file path. -/
theorem directory_round_trip (hash : DinamicHash) (rest : List Nat)
    (openFile : List Nat → List Bucket) (hr : Representable hash) :
    ∃ hash1, loadDinamicHash (Close hash ++ rest) openFile = some hash1 ∧
      hash1.directory.p = hash.directory.p ∧
      hash1.directory.bucketPointer = hash.directory.bucketPointer ∧
      hash1.directory.garbage = hash.directory.garbage ∧
      hash1.loadFactor = hash.loadFactor ∧ hash1.bucketSize = hash.bucketSize ∧
      hash1.bucketFile.name = hash.bucketFile.name := by
  obtain ⟨hname, hlf, hbs, hp, hbpl, hbp, hgl, hg⟩ := hr
  have h0 : (Close hash ++ rest).drop 0 = putInt32 (hash.bucketFile.name.length : Int) ++
      (hash.bucketFile.name ++ (putInt64 hash.loadFactor ++ (putInt64 hash.bucketSize ++
        (putInt64 hash.directory.p ++
        (putInt64 (hash.directory.bucketPointer.length : Int) ++
        (hash.directory.bucketPointer.flatMap putInt64 ++
        (putInt64 (hash.directory.garbage.length : Int) ++
        (hash.directory.garbage.flatMap putInt64 ++ rest)))))))) := by
    simp only [Close, List.drop_zero, List.append_assoc]
  obtain ⟨ptr1, e1, d1⟩ := BytesToString_put h0 hname
  obtain ⟨e2, d2⟩ := BytesToInt64_put d1 hlf
  obtain ⟨e3, d3⟩ := BytesToInt64_put d2 hbs
  obtain ⟨e4, d4⟩ := BytesToInt64_put d3 hp
  obtain ⟨e5, d5⟩ := BytesToInt64_put d4 (isInt64_length hbpl)
  obtain ⟨zeros, e6, l6⟩ := makeSlice_length hash.directory.bucketPointer.length
  obtain ⟨ptr7, e7, d7⟩ := loadLoop_put _ _ _ _ d5 hbp
  obtain ⟨e8, d8⟩ := BytesToInt64_put d7 (isInt64_length hgl)
  obtain ⟨zeros1, e9, l9⟩ := makeSlice_length hash.directory.garbage.length
  have d8r : (Close hash ++ rest).drop (ptr7 + 8)
      = hash.directory.garbage.flatMap putInt64 ++ rest := d8
  obtain ⟨ptr10, e10, _⟩ := loadLoop_put _ _ _ _ d8r hg
  rw [← l6] at e7
  rw [← l9] at e10
  refine ⟨⟨⟨hash.bucketFile.name, openFile hash.bucketFile.name⟩, hash.loadFactor,
    hash.bucketSize, ⟨hash.directory.p, hash.directory.bucketPointer, hash.directory.garbage⟩⟩,
    ?_, rfl, rfl, rfl, rfl, rfl, rfl⟩
  unfold loadDinamicHash
  rw [bind_of_eq_some e1]
  dsimp only
  rw [bind_of_eq_some e2]
  dsimp only
  rw [bind_of_eq_some e3]
  dsimp only
  rw [bind_of_eq_some e4]
  dsimp only
  rw [bind_of_eq_some e5]
  dsimp only
  rw [bind_of_eq_some e6, bind_of_eq_some e7]
  dsimp only
  rw [bind_of_eq_some e8]
  dsimp only
  rw [bind_of_eq_some e9, bind_of_eq_some e10]

theorem mem_of_mem_sliceSet {xs ys : List Int} {i a o : Int} (h : sliceSet xs i a = some ys)
    (ho : o ∈ ys) : o = a ∨ o ∈ xs := by
  obtain ⟨_, _, rfl⟩ := sliceSet_some h
  rcases List.mem_or_eq_of_mem_set ho with h1 | h1
  · exact Or.inr h1
  · exact Or.inl h1

theorem mem_of_sliceGet {xs : List Int} {i a : Int} (h : sliceGet xs i = some a) : a ∈ xs := by
  unfold sliceGet at h
  split at h
  · simp at h
  · exact List.getElem?_mem h

theorem mirrorLoop_mem : ∀ (n i j : Nat) (bp : List Int) (o : Int),
    o ∈ mirrorLoop n i j bp → o ∈ bp ∨ o = 0 := by
  intro n
  induction n with
  | zero => intro i j bp o h; exact Or.inl h
  | succ n ih =>
    intro i j bp o h
    simp only [mirrorLoop] at h
    rcases ih _ _ _ _ h with h1 | h1
    · rcases List.mem_or_eq_of_mem_set h1 with h2 | h2
      · exact Or.inl h2
      · rw [h2, List.getD_eq_getElem?_getD]
        cases hj : bp[j]? with
        | none => exact Or.inr rfl
        | some v => exact Or.inl (List.getElem?_mem hj)
    · exact Or.inr h1

theorem increasePower_mem {hash hash1 : DinamicHash} (h : increasePower hash = some hash1)
    {o : Int} (ho : o ∈ hash1.directory.bucketPointer) :
    o ∈ hash.directory.bucketPointer ∨ o = 0 := by
  unfold increasePower at h
  obtain ⟨n, _, h⟩ := bind_elim h
  simp only [Option.some.injEq] at h
  subst h
  rcases mirrorLoop_mem _ _ _ _ _ ho with h1 | h1
  · rcases List.mem_append.mp h1 with h2 | h2
    · exact Or.inl (List.mem_of_mem_take h2)
    · exact Or.inr (List.eq_of_mem_replicate h2)
  · exact Or.inr h1

theorem aligned_of_frame {hash hash1 : DinamicHash} (hd : hash1.directory = hash.directory)
    (hlf : hash1.loadFactor = hash.loadFactor) (hbs : hash1.bucketSize = hash.bucketSize)
    (ha : Aligned hash) : Aligned hash1 := by
  unfold Aligned
  rw [hd, hlf, hbs]
  exact ha

theorem initializeLoop_aligned : ∀ (n : Nat) (hash hash1 : DinamicHash) (address : List Int),
    Aligned hash → initializeLoop n hash = some (hash1, address) →
    Aligned hash1 ∧ ∀ o ∈ address, 0 ≤ o ∧ o % hash.bucketSize = 0 := by
  intro n
  induction n with
  | zero =>
    intro hash hash1 address ha h
    simp only [initializeLoop, Option.some.injEq, Prod.mk.injEq] at h
    obtain ⟨rfl, rfl⟩ := h
    exact ⟨ha, by simp⟩
  | succ n ih =>
    intro hash hash1 address ha h
    unfold initializeLoop at h
    obtain ⟨zeros, _, h⟩ := bind_elim h
    split at h
    · next g rest hg =>
      obtain ⟨hash2, hw, h⟩ := bind_elim h
      obtain ⟨⟨hash3, more⟩, hl, h⟩ := bind_elim h
      simp only [Option.some.injEq, Prod.mk.injEq] at h
      obtain ⟨rfl, rfl⟩ := h
      obtain ⟨hd, hlf, hbs, _⟩ := writeAt_frame hw
      have ha1 : Aligned { hash with directory := { hash.directory with garbage := rest } } :=
        ⟨ha.1, ha.2.1, ha.2.2.1, fun o ho => ha.2.2.2 o (by rw [hg]; exact List.mem_cons_of_mem _ ho)⟩
      obtain ⟨h1, h2⟩ := ih _ _ _ (aligned_of_frame hd hlf hbs ha1) hl
      refine ⟨h1, ?_⟩
      intro o ho
      rcases List.mem_cons.mp ho with h3 | h3
      · rw [h3]; exact ha.2.2.2 g (by rw [hg]; exact List.mem_cons_self _ _)
      · have := h2 o h3
        rw [hbs] at this
        exact this
    · obtain ⟨hash2, hw, h⟩ := bind_elim h
      obtain ⟨⟨hash3, more⟩, hl, h⟩ := bind_elim h
      simp only [Option.some.injEq, Prod.mk.injEq] at h
      obtain ⟨rfl, rfl⟩ := h
      obtain ⟨hd, hlf, hbs, _⟩ := writeAt_frame hw
      obtain ⟨h1, h2⟩ := ih _ _ _ (aligned_of_frame hd hlf hbs ha) hl
      refine ⟨h1, ?_⟩
      intro o ho
      rcases List.mem_cons.mp ho with h3 | h3
      · rw [h3]
        unfold seekEnd
        have hbs0 : 0 ≤ hash.bucketSize := by rw [ha.2.1]; have := ha.1; omega
        exact ⟨by positivity, Int.mul_emod_left _ _⟩
      · have := h2 o h3
        rw [hbs] at this
        exact this

theorem initializeNewBucket_aligned {hash hash1 : DinamicHash} {n : Int} {address : List Int}
    (ha : Aligned hash) (h : initializeNewBucket hash n = some (hash1, address)) :
    Aligned hash1 ∧ ∀ o ∈ address, 0 ≤ o ∧ o % hash.bucketSize = 0 := by
  unfold initializeNewBucket at h
  split at h
  · simp at h
  · exact initializeLoop_aligned _ _ _ _ ha h

theorem zero_aligned (bs : Int) : (0 : Int) ≤ 0 ∧ (0 : Int) % bs = 0 :=
  ⟨le_refl 0, Int.zero_emod bs⟩

theorem addRecord_aligned {hash hash1 : DinamicHash} {r : BucketRecord} (ha : Aligned hash)
    (h : addRecord hash r = some hash1) : Aligned hash1 := by
  unfold addRecord at h
  obtain ⟨count, _, h⟩ := bind_elim h
  obtain ⟨bucket, _, h⟩ := bind_elim h
  split at h
  · obtain ⟨hashA, hA, h⟩ := bind_elim h
    obtain ⟨⟨hashB, address⟩, hB, h⟩ := bind_elim h
    dsimp only at h
    obtain ⟨power, _, h⟩ := bind_elim h
    obtain ⟨count2, _, h⟩ := bind_elim h
    obtain ⟨a, haddr, h⟩ := bind_elim h
    obtain ⟨bp, hbp, h⟩ := bind_elim h
    obtain ⟨b1, _, h⟩ := bind_elim h
    obtain ⟨b2, _, h⟩ := bind_elim h
    obtain ⟨records, _, h⟩ := bind_elim h
    obtain ⟨power1, _, h⟩ := bind_elim h
    obtain ⟨hashC, hC, hD⟩ := bind_elim h
    have haA : Aligned hashA := by
      split at hA
      · obtain ⟨_, hg, _, hlf, hbs⟩ := increasePower_frame hA
        refine ⟨by rw [hlf]; exact ha.1, by rw [hlf, hbs]; exact ha.2.1, ?_, ?_⟩
        · intro o ho
          rw [hbs]
          rcases increasePower_mem hA ho with h1 | h1
          · exact ha.2.2.1 o h1
          · rw [h1]; exact zero_aligned _
        · rw [hg, hbs]; exact ha.2.2.2
      · simp only [Option.some.injEq] at hA
        subst hA
        exact ha
    obtain ⟨haB, haddrs⟩ := initializeNewBucket_aligned haA hB
    obtain ⟨_, _, _, hbsB⟩ := initializeNewBucket_frame hB
    have haC0 : Aligned { hashB with directory := { hashB.directory with bucketPointer := bp } } := by
      refine ⟨haB.1, haB.2.1, ?_, haB.2.2.2⟩
      intro o ho
      rcases mem_of_mem_sliceSet hbp ho with h1 | h1
      · rw [h1]
        have := haddrs a (mem_of_sliceGet haddr)
        rw [← hbsB] at this
        exact this
      · exact haB.2.2.1 o h1
    obtain ⟨hCd, hClf, hCbs, _⟩ := insertIntoBucket_frame hC
    obtain ⟨hDd, hDlf, hDbs, _⟩ := insertIntoBucket_frame hD
    exact aligned_of_frame hDd hDlf hDbs (aligned_of_frame hCd hClf hCbs haC0)
  · obtain ⟨records, _, h⟩ := bind_elim h
    obtain ⟨hd, hlf, hbs, _⟩ := insertIntoBucket_frame h
    exact aligned_of_frame hd hlf hbs ha

theorem HashDelete_aligned {hash hash1 : DinamicHash} {targetID : Int} {err : Bool}
    (ha : Aligned hash) (h : HashDelete hash targetID = some (hash1, err)) : Aligned hash1 := by
  unfold HashDelete at h
  obtain ⟨count, _, h⟩ := bind_elim h
  obtain ⟨bucket, _, h⟩ := bind_elim h
  obtain ⟨targetPos, _, h⟩ := bind_elim h
  split at h
  · simp only [Option.some.injEq, Prod.mk.injEq] at h
    obtain ⟨rfl, _⟩ := h
    exact ha
  · obtain ⟨records, _, h⟩ := bind_elim h
    obtain ⟨hashA, hA, h⟩ := bind_elim h
    obtain ⟨hAd, hAlf, hAbs, _⟩ := insertIntoBucket_frame hA
    have haA := aligned_of_frame hAd hAlf hAbs ha
    split at h
    · obtain ⟨old, hold, h⟩ := bind_elim h
      obtain ⟨buddy, hbuddy, h⟩ := bind_elim h
      obtain ⟨bp, hbp, h⟩ := bind_elim h
      obtain ⟨merged, _, h⟩ := bind_elim h
      obtain ⟨hashC, hC, h⟩ := bind_elim h
      simp only [Option.some.injEq, Prod.mk.injEq] at h
      obtain ⟨rfl, _⟩ := h
      obtain ⟨hCd, hClf, hCbs, _⟩ := insertIntoBucket_frame hC
      refine aligned_of_frame hCd hClf hCbs ⟨haA.1, haA.2.1, ?_, ?_⟩
      · intro o ho
        rcases mem_of_mem_sliceSet hbp ho with h1 | h1
        · rw [h1]; exact haA.2.2.1 buddy (mem_of_sliceGet hbuddy)
        · exact haA.2.2.1 o h1
      · intro o ho
        rcases List.mem_append.mp ho with h1 | h1
        · exact haA.2.2.2 o h1
        · rw [List.mem_singleton.mp h1]; exact haA.2.2.1 old (mem_of_sliceGet hold)
    · simp only [Option.some.injEq, Prod.mk.injEq] at h
      obtain ⟨rfl, _⟩ := h
      exact haA

theorem step_aligned {hash hash1 : DinamicHash} {op : Op} (ha : Aligned hash)
    (h : step hash op = some hash1) : Aligned hash1 := by
  cases op with
  | add r => exact addRecord_aligned ha h
  | update numero newAddress =>
    simp only [step, Option.map_eq_some', Prod.exists, exists_and_right, exists_eq_right] at h
    obtain ⟨err, h⟩ := h
    obtain ⟨hd, hlf, hbs⟩ := HashUpdate_frame h
    exact aligned_of_frame hd hlf hbs ha
  | delete targetID =>
    simp only [step, Option.map_eq_some', Prod.exists, exists_and_right, exists_eq_right] at h
    obtain ⟨err, h⟩ := h
    exact HashDelete_aligned ha h

theorem run_aligned : ∀ (ops : List Op) (hash hash1 : DinamicHash), Aligned hash →
    run ops hash = some hash1 → Aligned hash1 := by
  intro ops
  induction ops with
  | nil =>
    intro hash hash1 ha h
    simp only [run, Option.some.injEq] at h
    subst h
    exact ha
  | cons op rest ih =>
    intro hash hash1 ha h
    simp only [run] at h
    obtain ⟨hashA, hA, h⟩ := Option.bind_eq_some.mp h
    exact ih _ _ (step_aligned ha hA) h

theorem storeLoop_mem : ∀ (n : Nat) (i : Int) (address bp bp1 : List Int) (o : Int),
    storeLoop n i address bp = some bp1 → o ∈ bp1 → o ∈ address ∨ o ∈ bp := by
  intro n
  induction n with
  | zero =>
    intro i address bp bp1 o h ho
    simp only [storeLoop, Option.some.injEq] at h
    subst h
    exact Or.inr ho
  | succ n ih =>
    intro i address bp bp1 o h ho
    unfold storeLoop at h
    obtain ⟨a, ha, h⟩ := bind_elim h
    obtain ⟨bp2, hbp2, h⟩ := bind_elim h
    rcases ih _ _ _ _ _ h ho with h1 | h1
    · exact Or.inl h1
    · rcases mem_of_mem_sliceSet hbp2 h1 with h2 | h2
      · rw [h2]; exact Or.inl (mem_of_sliceGet ha)
      · exact Or.inr h2

theorem newHash_aligned {bucketPath : List Nat} {size : Int} {hash : DinamicHash}
    (h : newHash bucketPath size = some hash) : Aligned hash := by
  have hfit := newHash_fits h
  unfold newHash at h
  obtain ⟨count, hcount, h⟩ := bind_elim h
  obtain ⟨⟨hashA, address⟩, hA, h⟩ := bind_elim h
  dsimp only at h
  obtain ⟨count1, _, h⟩ := bind_elim h
  obtain ⟨bp, hbp, h⟩ := bind_elim h
  simp only [Option.some.injEq] at h
  subst h
  have hc2 : count = 2 := by
    have h2 : (some (2 : Int)) = some count := hcount
    exact (Option.some.inj h2).symm
  subst hc2
  have h0 : Aligned ⟨⟨bucketPath, []⟩, wrap64 (size + 1),
      wrap64 (8 + 8 + wrap64 (wrap64 (size + 1) * 16)), ⟨1, [0, 0], []⟩⟩ := by
    refine ⟨hfit.1, hfit.2, ?_, by simp⟩
    intro o ho
    simp only [List.mem_cons, List.mem_singleton, List.not_mem_nil, or_false, or_self] at ho
    rw [ho]
    exact zero_aligned _
  obtain ⟨haA, haddr⟩ := initializeNewBucket_aligned h0 hA
  obtain ⟨_, _, _, hbsA⟩ := initializeNewBucket_frame hA
  refine ⟨haA.1, haA.2.1, ?_, haA.2.2.2⟩
  intro o ho
  rcases storeLoop_mem _ _ _ _ _ _ hbp ho with h1 | h1
  · have := haddr o h1
    dsimp only at this
    rw [hbsA]
    exact this
  · exact haA.2.2.1 o h1

theorem slotOf_of_aligned {hash : DinamicHash} (ha : Aligned hash) {o : Int}
    (ho : 0 ≤ o ∧ o % hash.bucketSize = 0) : ∃ k, slotOf hash o = some k := by
  refine ⟨(o / hash.bucketSize).toNat, ?_⟩
  unfold slotOf
  rw [if_pos ⟨ho.1, ha.1, by rw [ha.2.1], ho.2⟩]

/-- Offsets of a reachable state are slot boundaries: in every state reached
from `newHash` by a sequence of completing operations, the slot size is
`16 + 16 * loadFactor` and every offset held by the directory or by the free
list is a non-negative multiple of it, so each designates a whole slot of the
bucket file. -/
theorem reachable_offsets_are_slots (bucketPath : List Nat) (size : Int) (ops : List Op)
    (h0 h1 : DinamicHash) (o : Int) (hnew : newHash bucketPath size = some h0)
    (hrun : run ops h0 = some h1)
    (ho : o ∈ h1.directory.bucketPointer ∨ o ∈ h1.directory.garbage) :
    h1.bucketSize = 16 + 16 * h1.loadFactor ∧ 0 ≤ o ∧ o % h1.bucketSize = 0 ∧
      ∃ k, slotOf h1 o = some k := by
  have ha := run_aligned ops h0 h1 (newHash_aligned hnew) hrun
  have hoa : 0 ≤ o ∧ o % h1.bucketSize = 0 := by
    rcases ho with h | h
    · exact ha.2.2.1 o h
    · exact ha.2.2.2 o h
  exact ⟨ha.2.1, hoa.1, hoa.2, slotOf_of_aligned ha hoa⟩

theorem writeAt_size {hash hash1 : DinamicHash} {off : Int} {b : Bucket}
    (h : writeAt hash off b = some hash1)
    (hd : SizeBound hash) (hb : 0 ≤ b.CurrentSize ∧ b.CurrentSize ≤ hash.loadFactor) :
    SizeBound hash1 := by
  unfold writeAt at h
  obtain ⟨k, _, h⟩ := bind_elim h
  simp only [Option.some.injEq] at h
  subst h
  refine ⟨hd.1, ?_⟩
  intro c hc
  rcases putSlot_mem hc with h | h | h
  · subst h; exact hb
  · exact hd.2 c h
  · subst h; exact ⟨le_refl _, hd.1⟩

theorem readAt_size {hash : DinamicHash} {off : Int} {b : Bucket}
    (hd : SizeBound hash) (h : readAt hash off = some b) :
    0 ≤ b.CurrentSize ∧ b.CurrentSize ≤ hash.loadFactor := by
  unfold readAt at h
  obtain ⟨k, _, h⟩ := bind_elim h
  simp only [Option.some.injEq] at h
  subst h
  simp only [List.getD_eq_getElem?_getD]
  cases hk : hash.bucketFile.slots[k]? with
  | none => exact ⟨le_refl _, hd.1⟩
  | some c => exact hd.2 c (List.getElem?_mem hk)

theorem readBucket_size {hash : DinamicHash} {pos : Int} {b : Bucket}
    (hd : SizeBound hash) (h : readBucket hash pos = some b) :
    0 ≤ b.CurrentSize ∧ b.CurrentSize ≤ hash.loadFactor := by
  unfold readBucket at h
  split at h
  · simp only [Option.some.injEq] at h
    subst h; exact ⟨le_refl _, hd.1⟩
  · obtain ⟨off, _, h⟩ := bind_elim h
    exact readAt_size hd h

theorem insertIntoBucket_size {hash hash1 : DinamicHash} {pos power size : Int}
    {records : List BucketRecord}
    (h : insertIntoBucket hash pos power size records = some hash1)
    (hd : SizeBound hash) (hb : 0 ≤ size ∧ size ≤ hash.loadFactor) : SizeBound hash1 := by
  unfold insertIntoBucket at h
  obtain ⟨off, _, h⟩ := bind_elim h
  exact writeAt_size h hd hb

theorem initializeLoop_size : ∀ (n : Nat) (hash hash1 : DinamicHash) (address : List Int),
    SizeBound hash → initializeLoop n hash = some (hash1, address) → SizeBound hash1 := by
  intro n
  induction n with
  | zero =>
    intro hash hash1 address hd h
    simp only [initializeLoop, Option.some.injEq, Prod.mk.injEq] at h
    obtain ⟨rfl, _⟩ := h
    exact hd
  | succ n ih =>
    intro hash hash1 address hd h
    unfold initializeLoop at h
    obtain ⟨zeros, _, h⟩ := bind_elim h
    split at h
    · obtain ⟨hash2, hw, h⟩ := bind_elim h
      obtain ⟨⟨hash3, more⟩, hl, h⟩ := bind_elim h
      simp only [Option.some.injEq, Prod.mk.injEq] at h
      obtain ⟨rfl, _⟩ := h
      exact ih _ _ _ (writeAt_size hw hd ⟨le_refl _, hd.1⟩) hl
    · obtain ⟨hash2, hw, h⟩ := bind_elim h
      obtain ⟨⟨hash3, more⟩, hl, h⟩ := bind_elim h
      simp only [Option.some.injEq, Prod.mk.injEq] at h
      obtain ⟨rfl, _⟩ := h
      exact ih _ _ _ (writeAt_size hw hd ⟨le_refl _, hd.1⟩) hl

theorem initializeNewBucket_size {hash hash1 : DinamicHash} {n : Int} {address : List Int}
    (hd : SizeBound hash) (h : initializeNewBucket hash n = some (hash1, address)) :
    SizeBound hash1 := by
  unfold initializeNewBucket at h
  split at h
  · simp at h
  · exact initializeLoop_size _ _ _ _ hd h

theorem splitLoop_size (power pos : Int) : ∀ (records : List BucketRecord) (b1 b2 : Nat)
    (bucket1 bucket2 : Bucket),
    bucket1.CurrentSize ≤ (splitLoop power pos records b1 b2 bucket1 bucket2).1.CurrentSize ∧
    bucket2.CurrentSize ≤ (splitLoop power pos records b1 b2 bucket1 bucket2).2.CurrentSize ∧
    (splitLoop power pos records b1 b2 bucket1 bucket2).1.CurrentSize +
      (splitLoop power pos records b1 b2 bucket1 bucket2).2.CurrentSize
        = bucket1.CurrentSize + bucket2.CurrentSize + records.length := by
  intro records
  induction records with
  | nil => intro b1 b2 bucket1 bucket2; simp [splitLoop]
  | cons x rest ih =>
    intro b1 b2 bucket1 bucket2
    simp only [splitLoop]
    split
    · obtain ⟨h1, h2, h3⟩ := ih (b1 + 1) b2
        ⟨bucket1.ActualPower, bucket1.CurrentSize + 1, bucket1.Records.set b1 x⟩ bucket2
      simp only [List.length_cons, Nat.cast_add, Nat.cast_one] at h1 h2 h3 ⊢
      refine ⟨by omega, h2, by omega⟩
    · obtain ⟨h1, h2, h3⟩ := ih b1 (b2 + 1) bucket1
        ⟨bucket2.ActualPower, bucket2.CurrentSize + 1, bucket2.Records.set b2 x⟩
      simp only [List.length_cons, Nat.cast_add, Nat.cast_one] at h1 h2 h3 ⊢
      refine ⟨h1, by omega, by omega⟩

theorem newBucket_size {actualPower loadFactor : Int} {b : Bucket}
    (h : newBucket actualPower loadFactor = some b) : b.CurrentSize = 0 := by
  unfold newBucket at h
  obtain ⟨records, _, h⟩ := bind_elim h
  simp only [Option.some.injEq] at h
  subst h; rfl

theorem readBucket_length {hash : DinamicHash} {pos : Int} {b : Bucket}
    (h : readBucket hash pos = some b) :
    b.Records.length = hash.loadFactor.toNat ∨ (pos < 0 ∧ b = ⟨0, 0, []⟩) := by
  unfold readBucket at h
  split at h
  · next hp =>
    simp only [Option.some.injEq] at h
    exact Or.inr ⟨hp, h.symm⟩
  · obtain ⟨off, _, h⟩ := bind_elim h
    exact Or.inl (readAt_length h)

theorem addRecord_size {hash hash1 : DinamicHash} {r : BucketRecord} (hd : SizeBound hash)
    (h : addRecord hash r = some hash1) : SizeBound hash1 := by
  unfold addRecord at h
  obtain ⟨count, _, h⟩ := bind_elim h
  obtain ⟨bucket, hbucket, h⟩ := bind_elim h
  have hsize := readBucket_size hd hbucket
  have hlen := readBucket_length hbucket
  split at h
  · obtain ⟨hashA, hA, h⟩ := bind_elim h
    obtain ⟨⟨hashB, address⟩, hB, h⟩ := bind_elim h
    dsimp only at h
    obtain ⟨power, _, h⟩ := bind_elim h
    obtain ⟨count2, _, h⟩ := bind_elim h
    obtain ⟨a, _, h⟩ := bind_elim h
    obtain ⟨bp, hbp, h⟩ := bind_elim h
    obtain ⟨b1, hb1, h⟩ := bind_elim h
    obtain ⟨b2, hb2, h⟩ := bind_elim h
    obtain ⟨records, hrec, h⟩ := bind_elim h
    obtain ⟨power1, _, h⟩ := bind_elim h
    obtain ⟨hashC, hC, hD⟩ := bind_elim h
    have hAd : SizeBound hashA ∧ hashA.loadFactor = hash.loadFactor := by
      split at hA
      · obtain ⟨_, _, h3, h4, _⟩ := increasePower_frame hA
        refine ⟨⟨by rw [h4]; exact hd.1, ?_⟩, h4⟩
        intro c hc
        rw [h3] at hc
        rw [h4]
        exact hd.2 c hc
      · simp only [Option.some.injEq] at hA
        subst hA
        exact ⟨hd, rfl⟩
    have hBd := initializeNewBucket_size hAd.1 hB
    obtain ⟨_, _, hBlf, _⟩ := initializeNewBucket_frame hB
    obtain ⟨hr0, hr1, hr2⟩ := sliceSet_some hrec
    have hreclen : (records.length : Int) = hash.loadFactor := by
      rw [hr2, List.length_set]
      rcases hlen with hl | ⟨_, hl⟩
      · rw [hl]; exact Int.toNat_of_nonneg hd.1
      · rw [hl] at hr1; simp at hr1
    have hp := splitLoop_size power1 (if power + r.ID.tmod count ≥ count2 then
      (r.ID.tmod count).tmod power else r.ID.tmod count) records 0 0 b1 b2
    rw [newBucket_size hb1, newBucket_size hb2, hreclen] at hp
    obtain ⟨hp1, hp2, hp3⟩ := hp
    have hlfB : hashB.loadFactor = hash.loadFactor := by rw [hBlf, hAd.2]
    have hCd : SizeBound hashC :=
      insertIntoBucket_size hC hBd ⟨hp1, by rw [hlfB]; omega⟩
    obtain ⟨_, hClf, _⟩ := insertIntoBucket_frame hC
    exact insertIntoBucket_size hD hCd ⟨hp2, by rw [hClf, hlfB]; omega⟩
  · obtain ⟨records, hrec, h⟩ := bind_elim h
    obtain ⟨hr0, hr1, _⟩ := sliceSet_some hrec
    refine insertIntoBucket_size h hd ⟨by omega, ?_⟩
    rcases hlen with hl | ⟨_, hl⟩
    · rw [hl] at hr1
      omega
    · rw [hl] at hr1; simp at hr1

theorem HashUpdate_size {hash hash1 : DinamicHash} {numero newAddress : Int} {err : Bool}
    (hd : SizeBound hash) (h : HashUpdate hash numero newAddress = some (hash1, err)) :
    SizeBound hash1 := by
  unfold HashUpdate at h
  obtain ⟨count, _, h⟩ := bind_elim h
  obtain ⟨bucket, hbucket, h⟩ := bind_elim h
  obtain ⟨targetPos, _, h⟩ := bind_elim h
  split at h
  · simp only [Option.some.injEq, Prod.mk.injEq] at h
    obtain ⟨rfl, _⟩ := h
    exact hd
  · obtain ⟨old, _, h⟩ := bind_elim h
    obtain ⟨records, _, h⟩ := bind_elim h
    obtain ⟨hashA, hA, h⟩ := bind_elim h
    simp only [Option.some.injEq, Prod.mk.injEq] at h
    obtain ⟨rfl, _⟩ := h
    exact insertIntoBucket_size hA hd (readBucket_size hd hbucket)

/-- The scan of `HashDelete` returns its start value when no record among the
first `n` has the key, and otherwise the index of a record with the key. -/
theorem deleteScan_spec (k : Int) : ∀ (n : Nat) (recs : List BucketRecord) (i t0 t : Int),
    deleteScan k n recs i t0 = some t → t0 < i →
    (t = t0 ∧ ∀ x ∈ recs.take n, x.ID ≠ k) ∨
      ∃ j : Nat, t = i + j ∧ j < n ∧ ∃ x, recs[j]? = some x ∧ x.ID = k := by
  intro n
  induction n with
  | zero =>
    intro recs i t0 t h _
    simp only [deleteScan, Option.some.injEq] at h
    exact Or.inl ⟨h.symm, by simp⟩
  | succ n ih =>
    intro recs i t0 t h hlt
    cases recs with
    | nil => simp [deleteScan] at h
    | cons x rest =>
      simp only [deleteScan] at h
      by_cases hx : x.ID = k
      · rw [if_pos hx] at h
        rcases ih rest (i + 1) i t h (by omega) with ⟨ht, _⟩ | ⟨j, hj, hjn, y, hy, hyk⟩
        · exact Or.inr ⟨0, by simp [ht], by omega, x, by simp, hx⟩
        · exact Or.inr ⟨j + 1, by rw [hj]; push_cast; ring, by omega, y, by simpa using hy, hyk⟩
      · rw [if_neg hx] at h
        rcases ih rest (i + 1) t0 t h (by omega) with ⟨ht, hall⟩ | ⟨j, hj, hjn, y, hy, hyk⟩
        · refine Or.inl ⟨ht, ?_⟩
          intro y hy
          simp only [List.take_succ_cons, List.mem_cons] at hy
          rcases hy with rfl | hy
          · exact hx
          · exact hall y hy
        · exact Or.inr ⟨j + 1, by rw [hj]; push_cast; ring, by omega, y, by simpa using hy, hyk⟩

theorem HashDelete_size {hash hash1 : DinamicHash} {targetID : Int} {err : Bool}
    (hd : SizeBound hash) (h : HashDelete hash targetID = some (hash1, err)) :
    SizeBound hash1 := by
  unfold HashDelete at h
  obtain ⟨count, _, h⟩ := bind_elim h
  obtain ⟨bucket, hbucket, h⟩ := bind_elim h
  obtain ⟨targetPos, hscan, h⟩ := bind_elim h
  have hsize := readBucket_size hd hbucket
  split at h
  · simp only [Option.some.injEq, Prod.mk.injEq] at h
    obtain ⟨rfl, _⟩ := h
    exact hd
  · next hfound =>
    have hpos : 1 ≤ bucket.CurrentSize := by
      rcases deleteScan_spec _ _ _ _ _ _ hscan (by decide) with ⟨ht, _⟩ | ⟨j, _, hjn, _⟩
      · rw [ht] at hfound; exact absurd (by decide) hfound
      · omega
    obtain ⟨records, _, h⟩ := bind_elim h
    obtain ⟨hashA, hA, h⟩ := bind_elim h
    have hAd := insertIntoBucket_size hA hd ⟨by omega, by omega⟩
    split at h
    · obtain ⟨old, _, h⟩ := bind_elim h
      obtain ⟨buddy, _, h⟩ := bind_elim h
      obtain ⟨bp, hbp, h⟩ := bind_elim h
      obtain ⟨merged, hm, h⟩ := bind_elim h
      obtain ⟨hashC, hC, h⟩ := bind_elim h
      simp only [Option.some.injEq, Prod.mk.injEq] at h
      obtain ⟨rfl, _⟩ := h
      have hBd : SizeBound { hashA with directory :=
          { hashA.directory with bucketPointer := bp,
                                 garbage := hashA.directory.garbage ++ [old] } } := hAd
      exact insertIntoBucket_size hC hBd (readBucket_size hBd hm)
    · simp only [Option.some.injEq, Prod.mk.injEq] at h
      obtain ⟨rfl, _⟩ := h
      exact hAd

theorem step_size {hash hash1 : DinamicHash} {op : Op} (hd : SizeBound hash)
    (h : step hash op = some hash1) : SizeBound hash1 := by
  cases op with
  | add r => exact addRecord_size hd h
  | update numero newAddress =>
    simp only [step, Option.map_eq_some', Prod.exists, exists_and_right, exists_eq_right] at h
    obtain ⟨err, h⟩ := h
    exact HashUpdate_size hd h
  | delete targetID =>
    simp only [step, Option.map_eq_some', Prod.exists, exists_and_right, exists_eq_right] at h
    obtain ⟨err, h⟩ := h
    exact HashDelete_size hd h

theorem run_size : ∀ (ops : List Op) (hash hash1 : DinamicHash), SizeBound hash →
    run ops hash = some hash1 → SizeBound hash1 := by
  intro ops
  induction ops with
  | nil =>
    intro hash hash1 hd h
    simp only [run, Option.some.injEq] at h
    subst h
    exact hd
  | cons op rest ih =>
    intro hash hash1 hd h
    simp only [run] at h
    obtain ⟨hashA, hA, h⟩ := Option.bind_eq_some.mp h
    exact ih _ _ (step_size hd hA) h

theorem newHash_size {bucketPath : List Nat} {size : Int} {hash : DinamicHash}
    (h : newHash bucketPath size = some hash) : SizeBound hash := by
  have hfit := newHash_fits h
  unfold newHash at h
  obtain ⟨count, _, h⟩ := bind_elim h
  obtain ⟨⟨hashA, address⟩, hA, h⟩ := bind_elim h
  dsimp only at h
  obtain ⟨count1, _, h⟩ := bind_elim h
  obtain ⟨bp, hbp, h⟩ := bind_elim h
  simp only [Option.some.injEq] at h
  subst h
  have h0 : SizeBound ⟨⟨bucketPath, []⟩, wrap64 (size + 1),
      wrap64 (8 + 8 + wrap64 (wrap64 (size + 1) * 16)), ⟨1, [0, 0], []⟩⟩ := by
    refine ⟨hfit.1, ?_⟩
    intro b hb
    simp at hb
  exact (initializeNewBucket_size h0 hA : SizeBound hashA)

/-- The scan of `HashRead` over at most as many records as the bucket holds
returns the address of the first record with the key, and `-1` without one. -/
theorem readScan_find (k : Int) : ∀ (n : Nat) (recs : List BucketRecord), n ≤ recs.length →
    readScan k n recs = some (match (recs.take n).find? (fun y => decide (y.ID = k)) with
      | some x => x.Address
      | none => -1) := by
  intro n
  induction n with
  | zero => intro recs _; simp [readScan]
  | succ n ih =>
    intro recs hn
    cases recs with
    | nil => simp at hn
    | cons x rest =>
      simp only [readScan, List.take_succ_cons, List.find?_cons]
      by_cases hx : x.ID = k
      · simp [hx]
      · simp only [hx, if_false, decide_False]
        exact ih rest (by simpa using hn)

/-- The scan of `HashUpdate` returns `-1` when no record among the first `n`
has the key, and otherwise the index of a record with the key. -/
theorem updateScan_spec (k : Int) : ∀ (n : Nat) (recs : List BucketRecord) (i t : Int),
    updateScan k n recs i = some t → 0 ≤ i →
    (t = -1 ∧ ∀ x ∈ recs.take n, x.ID ≠ k) ∨
      ∃ j : Nat, t = i + j ∧ j < n ∧ ∃ x, recs[j]? = some x ∧ x.ID = k := by
  intro n
  induction n with
  | zero =>
    intro recs i t h _
    simp only [updateScan, Option.some.injEq] at h
    exact Or.inl ⟨h.symm, by simp⟩
  | succ n ih =>
    intro recs i t h hi
    cases recs with
    | nil => simp [updateScan] at h
    | cons x rest =>
      simp only [updateScan] at h
      by_cases hx : x.ID = k
      · rw [if_pos hx] at h
        simp only [Option.some.injEq] at h
        exact Or.inr ⟨0, by simp [h], by omega, x, by simp, hx⟩
      · rw [if_neg hx] at h
        rcases ih rest (i + 1) t h (by omega) with ⟨ht, hall⟩ | ⟨j, hj, hjn, y, hy, hyk⟩
        · refine Or.inl ⟨ht, ?_⟩
          intro y hy
          simp only [List.take_succ_cons, List.mem_cons] at hy
          rcases hy with rfl | hy
          · exact hx
          · exact hall y hy
        · exact Or.inr ⟨j + 1, by rw [hj]; push_cast; ring, by omega, y, by simpa using hy, hyk⟩

theorem updateScan_absent (k : Int) : ∀ (n : Nat) (recs : List BucketRecord) (i : Int),
    n ≤ recs.length → (∀ x ∈ recs.take n, x.ID ≠ k) → updateScan k n recs i = some (-1) := by
  intro n
  induction n with
  | zero => intro recs i _ _; rfl
  | succ n ih =>
    intro recs i hn hall
    cases recs with
    | nil => simp at hn
    | cons x rest =>
      simp only [List.take_succ_cons, List.mem_cons, forall_eq_or_imp] at hall
      simp only [updateScan, if_neg hall.1]
      exact ih rest (i + 1) (by simpa using hn) hall.2

theorem deleteScan_absent (k : Int) : ∀ (n : Nat) (recs : List BucketRecord) (i t0 : Int),
    n ≤ recs.length → (∀ x ∈ recs.take n, x.ID ≠ k) → deleteScan k n recs i t0 = some t0 := by
  intro n
  induction n with
  | zero => intro recs i t0 _ _; rfl
  | succ n ih =>
    intro recs i t0 hn hall
    cases recs with
    | nil => simp at hn
    | cons x rest =>
      simp only [List.take_succ_cons, List.mem_cons, forall_eq_or_imp] at hall
      simp only [deleteScan, if_neg hall.1]
      exact ih rest (i + 1) t0 (by simpa using hn) hall.2

/-- C11. Bucket size bound: in every state reached from `newHash(size)`,
`size ≥ 1`, by a sequence of `addRecord`, `HashUpdate` and `HashDelete` calls
that complete, every directory index addresses a bucket that can be read, and
that bucket has `0 ≤ CurrentSize ≤ loadFactor` and exactly `loadFactor` record
slots. -/
theorem bucket_size_bound (bucketPath : List Nat) (size : Int) (ops : List Op)
    (h0 h1 : DinamicHash) (pos : Int) (hsize : 1 ≤ size)
    (hnew : newHash bucketPath size = some h0) (hrun : run ops h0 = some h1)
    (hpos : 0 ≤ pos) (hlt : pos < 2 ^ h1.directory.p.toNat) :
    ∃ b, readBucket h1 pos = some b ∧ 0 ≤ b.CurrentSize ∧ b.CurrentSize ≤ h1.loadFactor ∧
      (b.Records.length : Int) = h1.loadFactor := by
  have _hs := hsize
  have hd := run_size ops h0 h1 (newHash_size hnew) hrun
  have ha := run_aligned ops h0 h1 (newHash_aligned hnew) hrun
  obtain ⟨hs, _⟩ := run_shape ops h0 h1 (newHash_shape hnew) hrun
  have hin : pos.toNat < h1.directory.bucketPointer.length := by
    rw [hs.2]
    have : ((pos.toNat : Nat) : Int) < ((2 ^ h1.directory.p.toNat : Nat) : Int) := by
      rw [Int.toNat_of_nonneg hpos]; push_cast; exact hlt
    exact_mod_cast this
  have hget : sliceGet h1.directory.bucketPointer pos
      = some (h1.directory.bucketPointer.get ⟨pos.toNat, hin⟩) := by
    unfold sliceGet
    rw [if_neg (by omega)]
    exact List.getElem?_eq_getElem hin
  obtain ⟨k, hk⟩ := slotOf_of_aligned ha (ha.2.2.1 _ (mem_of_sliceGet hget))
  have hread : readBucket h1 pos = some (decodeSlot h1.loadFactor
      (h1.bucketFile.slots.getD k (zeroSlot h1.loadFactor))) := by
    unfold readBucket
    rw [if_neg (by omega), bind_of_eq_some hget, readAt_eq, hk]
    rfl
  refine ⟨_, hread, (readBucket_size hd hread).1, (readBucket_size hd hread).2, ?_⟩
  rw [decodeSlot_length]
  exact Int.toNat_of_nonneg hd.1

/-- C12. Lookup result: `HashRead` reads the bucket at
`bucketPointer[key % 2^p]` (Go remainder; the empty bucket when the remainder
is negative) and scans its first `CurrentSize` records: with a record of that
ID among them it returns the `Address` of the first one, and without one it
returns position `-1` with the not-found error.  The bucket must have at least
`CurrentSize` record slots. -/
theorem lookup_result (hash : DinamicHash) (k count : Int) (bucket : Bucket)
    (hcount : getBucketCount hash = some count)
    (hread : readBucket hash (Int.tmod k count) = some bucket)
    (hcap : bucket.CurrentSize.toNat ≤ bucket.Records.length) :
    count = 2 ^ hash.directory.p.toNat ∧
    (0 ≤ Int.tmod k count → ∃ off,
      sliceGet hash.directory.bucketPointer (Int.tmod k count) = some off ∧
        readAt hash off = some bucket) ∧
    (∀ x, (bucket.Records.take bucket.CurrentSize.toNat).find? (fun y => decide (y.ID = k))
        = some x → HashRead hash k = some (x.Address, decide (x.Address < 0))) ∧
    ((∀ x ∈ bucket.Records.take bucket.CurrentSize.toNat, x.ID ≠ k) →
      HashRead hash k = some (-1, true)) := by
  have hH : HashRead hash k = some
      ((match (bucket.Records.take bucket.CurrentSize.toNat).find?
          (fun y => decide (y.ID = k)) with
        | some x => x.Address
        | none => -1),
       decide ((match (bucket.Records.take bucket.CurrentSize.toNat).find?
          (fun y => decide (y.ID = k)) with
        | some x => x.Address
        | none => -1) < 0)) := by
    unfold HashRead
    rw [bind_of_eq_some hcount]
    dsimp only
    rw [bind_of_eq_some hread, bind_of_eq_some (readScan_find k _ _ hcap)]
  refine ⟨?_, ?_, ?_, ?_⟩
  · unfold getBucketCount shiftOne at hcount
    split at hcount
    · simp at hcount
    · simp only [Option.some.injEq] at hcount
      exact hcount.symm
  · intro hp
    unfold readBucket at hread
    rw [if_neg (by omega)] at hread
    obtain ⟨off, hoff, h⟩ := bind_elim hread
    exact ⟨off, hoff, h⟩
  · intro x hx
    rw [hH, hx]
  · intro hall
    have hnone : (bucket.Records.take bucket.CurrentSize.toNat).find?
        (fun y => decide (y.ID = k)) = none := by
      rw [List.find?_eq_none]
      intro x hx
      simpa using hall x hx
    rw [hH, hnone]
    rfl

/-- C13. NotFound atomicity: when the key does not occur among the first
`CurrentSize` records of the bucket it addresses, `HashUpdate` and
`HashDelete` each return the not-found error and the whole state (depth,
`bucketPointer`, free list, bucket file) unchanged; and each of them returns
the error only in that case.  The bucket must have at least `CurrentSize`
record slots. -/
theorem not_found_atomicity (hash : DinamicHash) (k a count : Int) (bucket : Bucket)
    (hcount : getBucketCount hash = some count)
    (hread : readBucket hash (Int.tmod k count) = some bucket)
    (hcap : bucket.CurrentSize.toNat ≤ bucket.Records.length) :
    ((∀ x ∈ bucket.Records.take bucket.CurrentSize.toNat, x.ID ≠ k) →
      HashUpdate hash k a = some (hash, true) ∧ HashDelete hash k = some (hash, true)) ∧
    (∀ hash1, HashUpdate hash k a = some (hash1, true) →
      hash1 = hash ∧ ∀ x ∈ bucket.Records.take bucket.CurrentSize.toNat, x.ID ≠ k) ∧
    (∀ hash1, HashDelete hash k = some (hash1, true) →
      hash1 = hash ∧ ∀ x ∈ bucket.Records.take bucket.CurrentSize.toNat, x.ID ≠ k) := by
  refine ⟨?_, ?_, ?_⟩
  · intro hall
    constructor
    · unfold HashUpdate
      rw [bind_of_eq_some hcount]
      dsimp only
      rw [bind_of_eq_some hread, bind_of_eq_some (updateScan_absent k _ _ 0 hcap hall)]
      rfl
    · unfold HashDelete
      rw [bind_of_eq_some hcount]
      dsimp only
      rw [bind_of_eq_some hread, bind_of_eq_some (deleteScan_absent k _ _ 0 (-1) hcap hall)]
      rfl
  · intro hash1 h
    unfold HashUpdate at h
    rw [bind_of_eq_some hcount] at h
    dsimp only at h
    rw [bind_of_eq_some hread] at h
    obtain ⟨targetPos, hscan, h⟩ := bind_elim h
    split at h
    · next hneg =>
      simp only [Option.some.injEq, Prod.mk.injEq, and_true] at h
      refine ⟨h.symm, ?_⟩
      rcases updateScan_spec k _ _ _ _ hscan (le_refl _) with ⟨_, hall⟩ | ⟨j, hj, _⟩
      · exact hall
      · omega
    · obtain ⟨old, _, h⟩ := bind_elim h
      obtain ⟨records, _, h⟩ := bind_elim h
      obtain ⟨hashA, _, h⟩ := bind_elim h
      simp at h
  · intro hash1 h
    unfold HashDelete at h
    rw [bind_of_eq_some hcount] at h
    dsimp only at h
    rw [bind_of_eq_some hread] at h
    obtain ⟨targetPos, hscan, h⟩ := bind_elim h
    split at h
    · next hneg =>
      simp only [Option.some.injEq, Prod.mk.injEq, and_true] at h
      refine ⟨h.symm, ?_⟩
      rcases deleteScan_spec k _ _ _ _ _ hscan (by decide) with ⟨_, hall⟩ | ⟨j, hj, _⟩
      · exact hall
      · omega
    · obtain ⟨records, _, h⟩ := bind_elim h
      obtain ⟨hashA, _, h⟩ := bind_elim h
      split at h
      · obtain ⟨old, _, h⟩ := bind_elim h
        obtain ⟨buddy, _, h⟩ := bind_elim h
        obtain ⟨bp, _, h⟩ := bind_elim h
        obtain ⟨merged, _, h⟩ := bind_elim h
        obtain ⟨hashC, _, h⟩ := bind_elim h
        simp at h
      · simp at h

/-- C14 (amended). No corrupt-bucket check: `readBucket` returns the bucket
decoded from the slot that the directory entry designates, with the stored
`ActualPower`, the stored `CurrentSize` whatever its value (also one above
`loadFactor`) and exactly `loadFactor` records; it has no error result. -/
theorem readBucket_returns_decoded_slot (hash : DinamicHash) (pos off : Int) (k : Nat)
    (slot : Bucket) (hpos : 0 ≤ pos)
    (hoff : sliceGet hash.directory.bucketPointer pos = some off)
    (hk : slotOf hash off = some k) (hslot : hash.bucketFile.slots[k]? = some slot) :
    ∃ b, readBucket hash pos = some b ∧ b.ActualPower = slot.ActualPower ∧
      b.CurrentSize = slot.CurrentSize ∧ b.Records.length = hash.loadFactor.toNat ∧
      b.Records = (slot.Records ++ List.replicate hash.loadFactor.toNat newBucketRecord).take
        hash.loadFactor.toNat := by
  refine ⟨decodeSlot hash.loadFactor slot, ?_, rfl, rfl, decodeSlot_length _, rfl⟩
  unfold readBucket
  rw [if_neg (by omega), bind_of_eq_some hoff, readAt_eq, hk]
  simp [List.getD_eq_getElem?_getD, hslot]

/-- C16 (amended). Fresh index: for `size ≥ 0` with a slot size
`16 + (size + 1) * 16` of at most `MaxInt64` (no `int64` sum of `newHash`
wraps), `newHash(size)` returns and has `loadFactor = size + 1`,
`bucketSize = 16 + loadFactor * 16`, depth 1, an empty free list, a bucket file
of two slots and `bucketPointer = [0, bucketSize]`; both directory entries
address a bucket with `ActualPower = 1`, `CurrentSize = 0` and `loadFactor`
zero records. -/
theorem fresh_index (bucketPath : List Nat) (size : Int) (hsize : 0 ≤ size)
    (hfit : slotBytes size ≤ MaxInt64) :
    ∃ hash, newHash bucketPath size = some hash ∧ hash.loadFactor = size + 1 ∧
      hash.bucketSize = 16 + hash.loadFactor * 16 ∧ hash.directory.p = 1 ∧
      hash.directory.garbage = [] ∧ hash.directory.bucketPointer = [0, hash.bucketSize] ∧
      hash.bucketFile.slots.length = 2 ∧
      readBucket hash 0
        = some ⟨1, 0, List.replicate hash.loadFactor.toNat newBucketRecord⟩ ∧
      readBucket hash 1
        = some ⟨1, 0, List.replicate hash.loadFactor.toNat newBucketRecord⟩ := by
  refine ⟨_, newHash_eq bucketPath size hsize hfit, rfl, ?_, rfl, rfl, ?_, rfl, ?_, ?_⟩
  · show slotBytes size = 16 + (size + 1) * 16
    unfold slotBytes; ring
  · show [((0 : Nat) : Int) * slotBytes size, ((1 : Nat) : Int) * slotBytes size]
      = [0, slotBytes size]
    simp
  · have h := readBucket_indexOf bucketPath size hsize
      [⟨1, 0, padded (size + 1) []⟩, ⟨1, 0, padded (size + 1) []⟩]
      ⟨1, [((0 : Nat) : Int) * slotBytes size, ((1 : Nat) : Int) * slotBytes size], []⟩
      0 1 0 [] (le_refl _) rfl rfl (by simp)
    rw [h]
    simp [filled, padded, indexOf]
  · have h := readBucket_indexOf bucketPath size hsize
      [⟨1, 0, padded (size + 1) []⟩, ⟨1, 0, padded (size + 1) []⟩]
      ⟨1, [((0 : Nat) : Int) * slotBytes size, ((1 : Nat) : Int) * slotBytes size], []⟩
      1 1 1 [] (by decide) rfl rfl (by simp)
    rw [h]
    simp [filled, padded, indexOf]

/-- C20. Insert without split: on a state whose directory has `2^p` entries,
for a record `r` with non-negative key whose addressed bucket `b` has
`0 ≤ CurrentSize < loadFactor - 1`, `addRecord` completes; afterwards the
addressed bucket has the same `ActualPower`, `CurrentSize + 1` and the records
of `b` with `r` stored at index `CurrentSize`; the directory (depth,
`bucketPointer`, free list), the capacity and the slot size are unchanged, and
every offset of another slot reads as before. -/
theorem insert_without_split (hash : DinamicHash) (r : BucketRecord) (b : Bucket)
    (hp : 0 ≤ hash.directory.p)
    (hlen : hash.directory.bucketPointer.length = 2 ^ hash.directory.p.toNat)
    (hkey : 0 ≤ r.ID)
    (hread : readBucket hash (r.ID % 2 ^ hash.directory.p.toNat) = some b)
    (hlo : 0 ≤ b.CurrentSize) (hhi : b.CurrentSize < hash.loadFactor - 1) :
    ∃ hash1 off, addRecord hash r = some hash1 ∧
      sliceGet hash.directory.bucketPointer (r.ID % 2 ^ hash.directory.p.toNat) = some off ∧
      readBucket hash1 (r.ID % 2 ^ hash.directory.p.toNat)
        = some ⟨b.ActualPower, b.CurrentSize + 1, b.Records.set b.CurrentSize.toNat r⟩ ∧
      hash1.directory = hash.directory ∧
      hash1.directory.bucketPointer.length = 2 ^ hash1.directory.p.toNat ∧
      hash1.loadFactor = hash.loadFactor ∧ hash1.bucketSize = hash.bucketSize ∧
      (∀ off2, slotOf hash off2 ≠ slotOf hash off → readAt hash1 off2 = readAt hash off2) ∧
      (Within hash off → hash1.bucketFile.slots.length = hash.bucketFile.slots.length) := by
  have hcount : getBucketCount hash = some ((2 : Int) ^ hash.directory.p.toNat) :=
    shiftOne_nonneg hp
  have hpow : (0 : Int) < 2 ^ hash.directory.p.toNat := by positivity
  have hmod : Int.tmod r.ID (2 ^ hash.directory.p.toNat) = r.ID % 2 ^ hash.directory.p.toNat :=
    Int.tmod_eq_emod hkey (le_of_lt hpow)
  have hposn : 0 ≤ r.ID % 2 ^ hash.directory.p.toNat := Int.emod_nonneg _ (ne_of_gt hpow)
  have hread2 : readBucket hash (Int.tmod r.ID (2 ^ hash.directory.p.toNat)) = some b := by
    rw [hmod]; exact hread
  have hadd := addRecord_of_not_full hcount hread2 (by omega)
  rw [hmod] at hadd
  have hr := hread
  unfold readBucket at hr
  rw [if_neg (by omega)] at hr
  obtain ⟨off, hoff, hat⟩ := bind_elim hr
  have hrl := readAt_length hat
  have hat2 := hat
  rw [readAt_eq] at hat2
  obtain ⟨k, hk, _⟩ := Option.map_eq_some'.mp hat2
  have hidx : b.CurrentSize.toNat < b.Records.length := by rw [hrl]; omega
  have hset : sliceSet b.Records b.CurrentSize r = some (b.Records.set b.CurrentSize.toNat r) := by
    unfold sliceSet
    rw [if_pos ⟨hlo, hidx⟩]
  obtain ⟨hash1, hw⟩ : ∃ hash1, writeAt hash off
      ⟨b.ActualPower, b.CurrentSize + 1, b.Records.set b.CurrentSize.toNat r⟩ = some hash1 := by
    unfold writeAt
    rw [bind_of_eq_some hk]
    exact ⟨_, rfl⟩
  have hins : insertIntoBucket hash (r.ID % 2 ^ hash.directory.p.toNat) b.ActualPower
      (b.CurrentSize + 1) (b.Records.set b.CurrentSize.toNat r) = some hash1 := by
    unfold insertIntoBucket
    rw [bind_of_eq_some hoff]
    exact hw
  rw [hset] at hadd
  simp only [Option.some_bind] at hadd
  rw [hins] at hadd
  obtain ⟨hdir, hlf, hbs, _⟩ := writeAt_frame hw
  refine ⟨hash1, off, hadd, hoff, ?_, hdir, by rw [hdir]; exact hlen, hlf, hbs, ?_, ?_⟩
  · unfold readBucket
    rw [if_neg (by omega), hdir, bind_of_eq_some hoff, readAt_writeAt hw, if_pos rfl]
    rw [decodeSlot_of_length (by simpa using hrl)]
  · intro off2 hne
    rw [readAt_writeAt hw, if_neg hne]
  · intro hin
    obtain ⟨j, hj, hjlt⟩ := hin
    rw [hk] at hj
    simp only [Option.some.injEq] at hj
    subst hj
    unfold writeAt at hw
    rw [bind_of_eq_some hk] at hw
    simp only [Option.some.injEq] at hw
    subst hw
    exact putSlot_length_of_lt _ _ _ _ hjlt

theorem slotOf_mul (f : BucketFile) (lf bs : Int) (d : Directory) (hlf : 0 ≤ lf)
    (hbs : bs = 16 + 16 * lf) (k : Nat) :
    slotOf ⟨f, lf, bs, d⟩ ((k : Int) * bs) = some k := by
  have hB : 0 < bs := by omega
  have h1 : (k : Int) * bs % bs = 0 := Int.mul_emod_left _ _
  have h2 : (k : Int) * bs / bs = k := Int.mul_ediv_cancel _ (by omega)
  have h3 : 0 ≤ (k : Int) * bs := by positivity
  have h4 : 16 + 16 * lf ≤ bs := by omega
  simp only [slotOf, h1, h2, h3, h4, hlf, true_and, and_true, Int.toNat_ofNat]
  simp

theorem decodeSlot_fresh (p lf : Int) : decodeSlot lf (freshBucket p lf) = freshBucket p lf :=
  decodeSlot_of_length (by simp [freshBucket])

theorem makeSlice_fresh (lf : Int) (hlf : 0 ≤ lf) :
    makeSlice lf newBucketRecord = some (List.replicate lf.toNat newBucketRecord) := by
  unfold makeSlice
  rw [if_neg (by omega)]

/-- A write of the fresh bucket keeps every offset that reads as the fresh
bucket reading so, and makes the written offset read so. -/
theorem readAt_fresh_write (name : List Nat) (slots : List Bucket) (lf bs p : Int)
    (d d1 : Directory) (k : Nat) (o : Int)
    (h : readAt ⟨⟨name, slots⟩, lf, bs, d⟩ o = some (freshBucket p lf) ∨
      slotOf ⟨⟨name, slots⟩, lf, bs, d⟩ o = some k) :
    readAt ⟨⟨name, putSlot lf slots k (freshBucket p lf)⟩, lf, bs, d1⟩ o
      = some (freshBucket p lf) := by
  rw [readAt_eq] at h ⊢
  have hs : slotOf ⟨⟨name, putSlot lf slots k (freshBucket p lf)⟩, lf, bs, d1⟩ o
      = slotOf ⟨⟨name, slots⟩, lf, bs, d⟩ o := rfl
  rw [hs]
  cases hj : slotOf ⟨⟨name, slots⟩, lf, bs, d⟩ o with
  | none => rw [hj] at h; simp at h
  | some j =>
    rw [hj] at h
    simp only [Option.map_some', Option.some.injEq] at h ⊢
    rw [getD_putSlot]
    by_cases hjk : j = k
    · rw [if_pos hjk]; exact decodeSlot_fresh p lf
    · rw [if_neg hjk]
      rcases h with h | h
      · exact h
      · exact absurd h hjk

theorem initializeLoop_alloc (name : List Nat) (lf bs p : Int) (bp : List Int) (hlf : 0 ≤ lf)
    (hbs : bs = 16 + 16 * lf) : ∀ (n : Nat) (slots : List Bucket) (g : List Int),
    (∀ o ∈ g.take n, Within ⟨⟨name, slots⟩, lf, bs, ⟨p, bp, g⟩⟩ o) →
    ∃ slots1, initializeLoop n ⟨⟨name, slots⟩, lf, bs, ⟨p, bp, g⟩⟩
        = some (⟨⟨name, slots1⟩, lf, bs, ⟨p, bp, g.drop n⟩⟩,
            g.take n ++ (List.range (n - g.length)).map
              (fun i => ((slots.length + i : Nat) : Int) * bs)) ∧
      slots1.length = slots.length + (n - g.length) ∧
      (∀ o, readAt ⟨⟨name, slots⟩, lf, bs, ⟨p, bp, g⟩⟩ o = some (freshBucket p lf) →
        readAt ⟨⟨name, slots1⟩, lf, bs, ⟨p, bp, g.drop n⟩⟩ o = some (freshBucket p lf)) ∧
      ∀ o ∈ g.take n ++ (List.range (n - g.length)).map
              (fun i => ((slots.length + i : Nat) : Int) * bs),
        readAt ⟨⟨name, slots1⟩, lf, bs, ⟨p, bp, g.drop n⟩⟩ o = some (freshBucket p lf) := by
  intro n
  induction n with
  | zero =>
    intro slots g _
    refine ⟨slots, ?_, by simp, ?_, by simp⟩
    · simp [initializeLoop]
    · intro o h
      simpa using h
  | succ n ih =>
    intro slots g hw
    cases g with
    | cons o rest =>
      obtain ⟨k, hk, hklt⟩ := hw o (by simp)
      have hk1 : slotOf ⟨⟨name, slots⟩, lf, bs, ⟨p, bp, rest⟩⟩ o = some k := hk
      have hlen : (putSlot lf slots k (freshBucket p lf)).length = slots.length :=
        putSlot_length_of_lt _ _ _ _ hklt
      obtain ⟨slots1, h1, h2, h3, h4⟩ := ih (putSlot lf slots k (freshBucket p lf)) rest (by
        intro o2 ho2
        obtain ⟨j, hj, hjlt⟩ := hw o2 (by simp [ho2])
        exact ⟨j, hj, by rw [hlen]; exact hjlt⟩)
      rw [hlen] at h1 h2 h4
      have hwr : writeAt ⟨⟨name, slots⟩, lf, bs, ⟨p, bp, rest⟩⟩ o (freshBucket p lf)
          = some ⟨⟨name, putSlot lf slots k (freshBucket p lf)⟩, lf, bs, ⟨p, bp, rest⟩⟩ := by
        unfold writeAt
        rw [bind_of_eq_some hk1]
      refine ⟨slots1, ?_, ?_, ?_, ?_⟩
      · rw [initializeLoop, bind_of_eq_some (makeSlice_fresh lf hlf)]
        dsimp only
        rw [bind_of_eq_some (show writeAt _ o ⟨p, 0, List.replicate lf.toNat newBucketRecord⟩
          = _ from hwr), bind_of_eq_some h1]
        simp
      · rw [h2]; simp
      · intro o2 ho2
        exact h3 o2 (readAt_fresh_write name slots lf bs p _ _ k o2 (Or.inl ho2))
      · intro o2 ho2
        simp only [List.take_succ_cons, List.cons_append, List.mem_cons, List.length_cons,
          Nat.add_sub_add_right] at ho2
        rcases ho2 with rfl | ho2
        · exact h3 o2 (readAt_fresh_write name slots lf bs p ⟨p, bp, o2 :: rest⟩ _ k o2 (Or.inr hk))
        · exact h4 o2 ho2
    | nil =>
      have hk : slotOf ⟨⟨name, slots⟩, lf, bs, ⟨p, bp, []⟩⟩ ((slots.length : Int) * bs)
          = some slots.length := slotOf_mul _ lf bs _ hlf hbs _
      obtain ⟨slots1, h1, h2, h3, h4⟩ := ih (putSlot lf slots slots.length (freshBucket p lf)) []
        (by simp)
      have hlen : (putSlot lf slots slots.length (freshBucket p lf)).length
          = slots.length + 1 := by rw [putSlot_end]; simp
      rw [hlen] at h1 h2 h4
      have hwr : writeAt ⟨⟨name, slots⟩, lf, bs, ⟨p, bp, []⟩⟩ ((slots.length : Int) * bs)
          (freshBucket p lf)
          = some ⟨⟨name, putSlot lf slots slots.length (freshBucket p lf)⟩, lf, bs,
              ⟨p, bp, []⟩⟩ := by
        unfold writeAt
        rw [bind_of_eq_some hk]
      have hrange : (List.range (n + 1)).map (fun i => ((slots.length + i : Nat) : Int) * bs)
          = (slots.length : Int) * bs :: (List.range n).map
              (fun i => ((slots.length + 1 + i : Nat) : Int) * bs) := by
        rw [List.range_succ_eq_map, List.map_cons, List.map_map]
        simp only [Nat.add_zero, List.cons.injEq, true_and]
        apply List.map_congr_left
        intro i _
        simp only [Function.comp, Nat.succ_eq_add_one]
        congr 2
        omega
      simp only [List.take_nil, List.nil_append, List.length_nil, Nat.sub_zero,
        List.drop_nil] at h1 h2 h3 h4 ⊢
      refine ⟨slots1, ?_, ?_, ?_, ?_⟩
      · rw [initializeLoop, bind_of_eq_some (makeSlice_fresh lf hlf)]
        dsimp only
        rw [bind_of_eq_some (show writeAt _ (seekEnd _) ⟨p, 0, List.replicate lf.toNat newBucketRecord⟩
          = _ from hwr), bind_of_eq_some h1, hrange]
        rfl
      · rw [h2]; omega
      · intro o2 ho2
        exact h3 o2 (readAt_fresh_write name slots lf bs p _ _ slots.length o2 (Or.inl ho2))
      · intro o2 ho2
        rw [hrange] at ho2
        rcases List.mem_cons.mp ho2 with rfl | ho2
        · exact h3 _ (readAt_fresh_write name slots lf bs p ⟨p, bp, []⟩ _ slots.length _ (Or.inr hk))
        · exact h4 o2 ho2

/-- C15. Allocation: on a state with capacity `loadFactor ≥ 0`, slot size
`16 + 16 * loadFactor` and free list `g` whose first `min(n, |g|)` entries are
slots of the bucket file, `initializeNewBucket(n)`, `n ≥ 0`, returns `n`
offsets: the first `min(n, |g|)` entries of `g` in order, then the successive
end-of-file offsets; the used entries are removed from the front of the free
list, the bucket file grows by exactly `n - |g|` slots (none when `n ≤ |g|`),
every returned offset then reads as a bucket with `ActualPower = p`,
`CurrentSize = 0` and `loadFactor` zero records, and depth, `bucketPointer`,
capacity and slot size are unchanged. -/
theorem allocation (hash : DinamicHash) (n : Int) (hn : 0 ≤ n) (hlf : 0 ≤ hash.loadFactor)
    (hbs : hash.bucketSize = 16 + 16 * hash.loadFactor)
    (hw : ∀ o ∈ hash.directory.garbage.take n.toNat, Within hash o) :
    ∃ hash1 address, initializeNewBucket hash n = some (hash1, address) ∧
      address = hash.directory.garbage.take n.toNat ++
        (List.range (n.toNat - hash.directory.garbage.length)).map
          (fun (i : Nat) => seekEnd hash + (i : Int) * hash.bucketSize) ∧
      address.length = n.toNat ∧
      hash1.directory.garbage = hash.directory.garbage.drop n.toNat ∧
      hash1.bucketFile.slots.length
        = hash.bucketFile.slots.length + (n.toNat - hash.directory.garbage.length) ∧
      (∀ o ∈ address, readAt hash1 o
        = some ⟨hash.directory.p, 0, List.replicate hash.loadFactor.toNat newBucketRecord⟩) ∧
      hash1.directory.p = hash.directory.p ∧
      hash1.directory.bucketPointer = hash.directory.bucketPointer ∧
      hash1.loadFactor = hash.loadFactor ∧ hash1.bucketSize = hash.bucketSize := by
  obtain ⟨⟨name, slots⟩, lf, bs, ⟨p, bp, g⟩⟩ := hash
  obtain ⟨slots1, h1, h2, _, h4⟩ := initializeLoop_alloc name lf bs p bp hlf hbs n.toNat slots g hw
  have hmap : (List.range (n.toNat - g.length)).map
        (fun i => ((slots.length + i : Nat) : Int) * bs)
      = (List.range (n.toNat - g.length)).map
        (fun (i : Nat) => seekEnd ⟨⟨name, slots⟩, lf, bs, ⟨p, bp, g⟩⟩ + (i : Int) * bs) := by
    apply List.map_congr_left
    intro i _
    simp only [seekEnd]
    push_cast
    ring
  rw [hmap] at h1 h4
  refine ⟨_, _, ?_, rfl, ?_, rfl, h2, h4, rfl, rfl, rfl, rfl⟩
  · unfold initializeNewBucket
    rw [if_neg (by omega)]
    exact h1
  · simp only [List.length_append, List.length_take, List.length_map, List.length_range]
    omega

theorem initializeLoop_within : ∀ (n : Nat) (hash hash1 : DinamicHash) (address : List Int),
    initializeLoop n hash = some (hash1, address) →
    (∀ o, Within hash o → Within hash1 o) ∧
      ∀ o ∈ hash1.directory.garbage, o ∈ hash.directory.garbage := by
  intro n
  induction n with
  | zero =>
    intro hash hash1 address h
    simp only [initializeLoop, Option.some.injEq, Prod.mk.injEq] at h
    obtain ⟨rfl, _⟩ := h
    exact ⟨fun _ h => h, fun _ h => h⟩
  | succ n ih =>
    intro hash hash1 address h
    unfold initializeLoop at h
    obtain ⟨zeros, _, h⟩ := bind_elim h
    split at h
    · next g rest hg =>
      obtain ⟨hash2, hw, h⟩ := bind_elim h
      obtain ⟨⟨hash3, more⟩, hl, h⟩ := bind_elim h
      simp only [Option.some.injEq, Prod.mk.injEq] at h
      obtain ⟨rfl, _⟩ := h
      obtain ⟨h1, h2⟩ := ih _ _ _ hl
      obtain ⟨hd, _⟩ := writeAt_frame hw
      refine ⟨fun o ho => h1 o (writeAt_within hw (within_of_directory rfl rfl rfl ho)), ?_⟩
      intro o ho
      have := h2 o ho
      rw [hd] at this
      rw [hg]
      exact List.mem_cons_of_mem _ this
    · obtain ⟨hash2, hw, h⟩ := bind_elim h
      obtain ⟨⟨hash3, more⟩, hl, h⟩ := bind_elim h
      simp only [Option.some.injEq, Prod.mk.injEq] at h
      obtain ⟨rfl, _⟩ := h
      obtain ⟨h1, h2⟩ := ih _ _ _ hl
      obtain ⟨hd, _⟩ := writeAt_frame hw
      refine ⟨fun o ho => h1 o (writeAt_within hw ho), ?_⟩
      intro o ho
      have := h2 o ho
      rw [hd] at this
      exact this

theorem initializeNewBucket_freeWithin {hash hash1 : DinamicHash} {n : Int}
    {address : List Int} (hf : FreeWithin hash)
    (h : initializeNewBucket hash n = some (hash1, address)) : FreeWithin hash1 := by
  unfold initializeNewBucket at h
  split at h
  · simp at h
  · obtain ⟨h1, h2⟩ := initializeLoop_within _ _ _ _ h
    exact fun o ho => h1 o (hf o (h2 o ho))

theorem insertIntoBucket_freeWithin {hash hash1 : DinamicHash} {pos power size : Int}
    {records : List BucketRecord} (hf : FreeWithin hash)
    (h : insertIntoBucket hash pos power size records = some hash1) : FreeWithin hash1 := by
  intro o ho
  rw [(insertIntoBucket_frame h).1] at ho
  exact insertIntoBucket_within h (hf o ho)

theorem addRecord_freeWithin {hash hash1 : DinamicHash} {r : BucketRecord}
    (hf : FreeWithin hash) (h : addRecord hash r = some hash1) : FreeWithin hash1 := by
  unfold addRecord at h
  obtain ⟨count, _, h⟩ := bind_elim h
  obtain ⟨bucket, _, h⟩ := bind_elim h
  split at h
  · obtain ⟨hashA, hA, h⟩ := bind_elim h
    obtain ⟨⟨hashB, address⟩, hB, h⟩ := bind_elim h
    dsimp only at h
    obtain ⟨power, _, h⟩ := bind_elim h
    obtain ⟨count2, _, h⟩ := bind_elim h
    obtain ⟨a, _, h⟩ := bind_elim h
    obtain ⟨bp, _, h⟩ := bind_elim h
    obtain ⟨b1, _, h⟩ := bind_elim h
    obtain ⟨b2, _, h⟩ := bind_elim h
    obtain ⟨records, _, h⟩ := bind_elim h
    obtain ⟨power1, _, h⟩ := bind_elim h
    obtain ⟨hashC, hC, hD⟩ := bind_elim h
    have hAf : FreeWithin hashA := by
      split at hA
      · obtain ⟨_, h2, h3, h4, h5⟩ := increasePower_frame hA
        intro o ho
        rw [h2] at ho
        exact within_of_directory h3 h4 h5 (hf o ho)
      · simp only [Option.some.injEq] at hA
        subst hA
        exact hf
    have hBf := initializeNewBucket_freeWithin hAf hB
    have hB2 : FreeWithin { hashB with directory :=
        { hashB.directory with bucketPointer := bp } } :=
      fun o ho => within_of_directory rfl rfl rfl (hBf o ho)
    exact insertIntoBucket_freeWithin (insertIntoBucket_freeWithin hB2 hC) hD
  · obtain ⟨records, _, h⟩ := bind_elim h
    exact insertIntoBucket_freeWithin hf h

theorem HashUpdate_freeWithin {hash hash1 : DinamicHash} {numero newAddress : Int} {err : Bool}
    (hf : FreeWithin hash) (h : HashUpdate hash numero newAddress = some (hash1, err)) :
    FreeWithin hash1 := by
  intro o ho
  rw [(HashUpdate_frame h).1] at ho
  exact HashUpdate_within h (hf o ho)

theorem HashDelete_freeWithin {hash hash1 : DinamicHash} {targetID : Int} {err : Bool}
    (hf : FreeWithin hash) (h : HashDelete hash targetID = some (hash1, err)) :
    FreeWithin hash1 := by
  unfold HashDelete at h
  obtain ⟨count, _, h⟩ := bind_elim h
  obtain ⟨bucket, hbucket, h⟩ := bind_elim h
  obtain ⟨targetPos, _, h⟩ := bind_elim h
  split at h
  · simp only [Option.some.injEq, Prod.mk.injEq] at h
    obtain ⟨rfl, _⟩ := h
    exact hf
  · obtain ⟨records, _, h⟩ := bind_elim h
    obtain ⟨hashA, hA, h⟩ := bind_elim h
    have hAf := insertIntoBucket_freeWithin hf hA
    split at h
    · next hzero =>
      obtain ⟨old, hold, h⟩ := bind_elim h
      obtain ⟨buddy, _, h⟩ := bind_elim h
      obtain ⟨bp, hbp, h⟩ := bind_elim h
      obtain ⟨merged, hm, h⟩ := bind_elim h
      obtain ⟨hashC, hC, h⟩ := bind_elim h
      simp only [Option.some.injEq, Prod.mk.injEq] at h
      obtain ⟨rfl, _⟩ := h
      rw [(insertIntoBucket_frame hA).1] at hold
      have hwo : Within hash old := within_of_read hbucket (by omega) hold
      have hB : FreeWithin { hashA with directory :=
          { hashA.directory with bucketPointer := bp,
                                 garbage := hashA.directory.garbage ++ [old] } } := by
        intro o ho
        rcases List.mem_append.mp ho with ho | ho
        · exact within_of_directory rfl rfl rfl (hAf o ho)
        · rw [List.mem_singleton] at ho
          subst ho
          have hwA : Within hashA o := insertIntoBucket_within hA hwo
          exact within_of_directory rfl rfl rfl hwA
      exact insertIntoBucket_freeWithin hB hC
    · simp only [Option.some.injEq, Prod.mk.injEq] at h
      obtain ⟨rfl, _⟩ := h
      exact hAf

theorem step_freeWithin {hash hash1 : DinamicHash} {op : Op} (hf : FreeWithin hash)
    (h : step hash op = some hash1) : FreeWithin hash1 := by
  cases op with
  | add r => exact addRecord_freeWithin hf h
  | update numero newAddress =>
    simp only [step, Option.map_eq_some', Prod.exists, exists_and_right, exists_eq_right] at h
    obtain ⟨err, h⟩ := h
    exact HashUpdate_freeWithin hf h
  | delete targetID =>
    simp only [step, Option.map_eq_some', Prod.exists, exists_and_right, exists_eq_right] at h
    obtain ⟨err, h⟩ := h
    exact HashDelete_freeWithin hf h

theorem run_freeWithin : ∀ (ops : List Op) (hash hash1 : DinamicHash), FreeWithin hash →
    run ops hash = some hash1 → FreeWithin hash1 := by
  intro ops
  induction ops with
  | nil =>
    intro hash hash1 hf h
    simp only [run, Option.some.injEq] at h
    subst h
    exact hf
  | cons op rest ih =>
    intro hash hash1 hf h
    simp only [run] at h
    obtain ⟨hashA, hA, h⟩ := Option.bind_eq_some.mp h
    exact ih _ _ (step_freeWithin hf hA) h

theorem newHash_freeWithin {bucketPath : List Nat} {size : Int} {hash : DinamicHash}
    (h : newHash bucketPath size = some hash) : FreeWithin hash := by
  unfold newHash at h
  obtain ⟨count, _, h⟩ := bind_elim h
  obtain ⟨⟨hashA, address⟩, hA, h⟩ := bind_elim h
  dsimp only at h
  obtain ⟨count1, _, h⟩ := bind_elim h
  obtain ⟨bp, hbp, h⟩ := bind_elim h
  simp only [Option.some.injEq] at h
  subst h
  have h0 : FreeWithin ⟨⟨bucketPath, []⟩, wrap64 (size + 1),
      wrap64 (8 + 8 + wrap64 (wrap64 (size + 1) * 16)), ⟨1, [0, 0], []⟩⟩ := by
    intro o ho
    simp at ho
  have hAf := initializeNewBucket_freeWithin h0 hA
  exact fun o ho => within_of_directory rfl rfl rfl (hAf o ho)

/-- Allocation in a reachable state: in every state reached from `newHash` by
a sequence of completing operations the capacity is non-negative, the slot
size is `16 + 16 * loadFactor` and every offset of the free list is a slot of
the bucket file, so that `initializeNewBucket(n)` completes for every `n ≥ 0`
with the first entries of the free list followed by end-of-file offsets. -/
theorem reachable_allocation (bucketPath : List Nat) (size : Int) (ops : List Op)
    (h0 h1 : DinamicHash) (n : Int) (hnew : newHash bucketPath size = some h0)
    (hrun : run ops h0 = some h1) (hn : 0 ≤ n) :
    0 ≤ h1.loadFactor ∧ h1.bucketSize = 16 + 16 * h1.loadFactor ∧
      (∀ o ∈ h1.directory.garbage, Within h1 o) ∧
      ∃ hash2, initializeNewBucket h1 n = some (hash2,
        h1.directory.garbage.take n.toNat ++
          (List.range (n.toNat - h1.directory.garbage.length)).map
            (fun (i : Nat) => seekEnd h1 + (i : Int) * h1.bucketSize)) ∧
        hash2.directory.garbage = h1.directory.garbage.drop n.toNat ∧
        hash2.bucketFile.slots.length
          = h1.bucketFile.slots.length + (n.toNat - h1.directory.garbage.length) := by
  have ha := run_aligned ops h0 h1 (newHash_aligned hnew) hrun
  have hf := run_freeWithin ops h0 h1 (newHash_freeWithin hnew) hrun
  refine ⟨ha.1, ha.2.1, hf, ?_⟩
  obtain ⟨⟨name, slots⟩, lf, bs, ⟨p, bp, g⟩⟩ := h1
  obtain ⟨slots1, e1, e2, _, _⟩ := initializeLoop_alloc name lf bs p bp ha.1 ha.2.1 n.toNat slots g
    (fun o ho => hf o (List.mem_of_mem_take ho))
  have hmap : (List.range (n.toNat - g.length)).map
        (fun i => ((slots.length + i : Nat) : Int) * bs)
      = (List.range (n.toNat - g.length)).map
        (fun (i : Nat) => seekEnd ⟨⟨name, slots⟩, lf, bs, ⟨p, bp, g⟩⟩ + (i : Int) * bs) := by
    apply List.map_congr_left
    intro i _
    simp only [seekEnd]
    push_cast
    ring
  rw [hmap] at e1
  refine ⟨⟨⟨name, slots1⟩, lf, bs, ⟨p, bp, g.drop n.toNat⟩⟩, ?_, rfl, e2⟩
  unfold initializeNewBucket
  rw [if_neg (by omega)]
  exact e1

/-- A bucket that holds `loadFactor` records takes the branch without split,
where the store `Records[CurrentSize] = r` is out of range. -/
theorem addRecord_of_full_bucket {hash : DinamicHash} {r : BucketRecord} {count : Int}
    {bucket : Bucket} (hcount : getBucketCount hash = some count)
    (hread : readBucket hash (r.ID.tmod count) = some bucket)
    (hsize : bucket.CurrentSize = hash.loadFactor) :
    splits hash r = some false ∧ addRecord hash r = none := by
  have hne : ¬ bucket.CurrentSize = hash.loadFactor - 1 := by omega
  constructor
  · unfold splits
    rw [bind_of_eq_some hcount, bind_of_eq_some hread]
    simp [hne]
  · rw [addRecord_of_not_full hcount hread hne]
    have hset : sliceSet bucket.Records bucket.CurrentSize r = none := by
      unfold sliceSet
      rw [if_neg]
      rintro ⟨h0, hlt⟩
      rcases readBucket_length hread with hl | ⟨_, hl⟩
      · rw [hl, hsize] at hlt; omega
      · rw [hl] at hlt; simp at hlt
    rw [hset]
    rfl

theorem writeAt_length {hash hash1 : DinamicHash} {off : Int} {b : Bucket}
    (h : writeAt hash off b = some hash1) (hw : Within hash off) :
    hash1.bucketFile.slots.length = hash.bucketFile.slots.length := by
  obtain ⟨k, hk, hlt⟩ := hw
  unfold writeAt at h
  rw [bind_of_eq_some hk] at h
  simp only [Option.some.injEq] at h
  subst h
  exact putSlot_length_of_lt _ _ _ _ hlt

theorem insertIntoBucket_length {hash hash1 : DinamicHash} {pos power size : Int}
    {records : List BucketRecord}
    (h : insertIntoBucket hash pos power size records = some hash1) (hd : DirWithin hash) :
    hash1.bucketFile.slots.length = hash.bucketFile.slots.length ∧ DirWithin hash1 := by
  have hfr := insertIntoBucket_frame h
  refine ⟨?_, ?_⟩
  · unfold insertIntoBucket at h
    obtain ⟨off, hoff, h⟩ := bind_elim h
    exact writeAt_length h (hd off (mem_of_sliceGet hoff))
  · intro o ho
    rw [hfr.1] at ho
    exact insertIntoBucket_within h (hd o ho)

/-- One allocation in a state whose offsets are slot boundaries and whose free
list lies inside the file: the offset comes from the head of the free list, or
from the end of the file, which then grows by one slot. -/
theorem initializeNewBucket_one {hash : DinamicHash} (ha : Aligned hash) (hf : FreeWithin hash) :
    ∃ hashB a, initializeNewBucket hash 1 = some (hashB, [a]) ∧ Within hashB a ∧
      hashB.directory.garbage = hash.directory.garbage.tail ∧
      hashB.bucketFile.slots.length ≤ hash.bucketFile.slots.length + 1 ∧
      (hash.directory.garbage = [] →
        a = seekEnd hash ∧
        hashB.bucketFile.slots.length = hash.bucketFile.slots.length + 1) ∧
      (∀ g rest, hash.directory.garbage = g :: rest →
        a = g ∧ hashB.bucketFile.slots.length = hash.bucketFile.slots.length) := by
  obtain ⟨⟨name, slots⟩, lf, bs, ⟨p, bp, g⟩⟩ := hash
  have hlf : 0 ≤ lf := ha.1
  have hbs : bs = 16 + 16 * lf := ha.2.1
  obtain ⟨slots1, e1, e2, _, _⟩ := initializeLoop_alloc name lf bs p bp hlf hbs 1 slots g
    (fun o ho => hf o (List.mem_of_mem_take ho))
  have hinit : initializeNewBucket ⟨⟨name, slots⟩, lf, bs, ⟨p, bp, g⟩⟩ 1
      = initializeLoop 1 ⟨⟨name, slots⟩, lf, bs, ⟨p, bp, g⟩⟩ := by
    unfold initializeNewBucket
    rw [if_neg (by decide)]
    rfl
  rw [hinit, e1]
  cases g with
  | nil =>
    refine ⟨⟨⟨name, slots1⟩, lf, bs, ⟨p, bp, []⟩⟩, (slots.length : Int) * bs, ?_, ?_, rfl, ?_, ?_, ?_⟩
    · simp [List.range_succ]
    · refine ⟨slots.length, slotOf_mul _ lf bs _ hlf hbs _, ?_⟩
      show slots.length < slots1.length
      rw [e2]; simp
    · show slots1.length ≤ slots.length + 1
      rw [e2]; simp
    · intro _
      refine ⟨rfl, ?_⟩
      show slots1.length = slots.length + 1
      rw [e2]; simp
    · intro g rest hg
      simp at hg
  | cons o rest =>
    have hwo : Within ⟨⟨name, slots⟩, lf, bs, ⟨p, bp, o :: rest⟩⟩ o := hf o (by simp)
    have hlen : slots1.length = slots.length := by rw [e2]; simp
    refine ⟨⟨⟨name, slots1⟩, lf, bs, ⟨p, bp, rest⟩⟩, o, ?_, ?_, ?_, ?_, ?_, ?_⟩
    · simp
    · obtain ⟨k, hk, hlt⟩ := hwo
      exact ⟨k, hk, by show k < slots1.length; rw [hlen]; exact hlt⟩
    · simp
    · show slots1.length ≤ slots.length + 1
      omega
    · intro hg
      simp at hg
    · intro g rest1 hg
      simp only [List.cons.injEq] at hg
      exact ⟨hg.1, hlen⟩

theorem initializeNewBucket_within {hash hash1 : DinamicHash} {n : Int} {address : List Int}
    (h : initializeNewBucket hash n = some (hash1, address)) {o : Int} (hw : Within hash o) :
    Within hash1 o := by
  unfold initializeNewBucket at h
  split at h
  · simp at h
  · exact (initializeLoop_within _ _ _ _ h).1 o hw

/-- The state after the optional doubling of `addRecord` keeps the bucket
file, the free list and the well-formedness of the offsets. -/
theorem doubling_keeps {hash hashA : DinamicHash} {c : Prop} [Decidable c]
    (hs : DirShape hash) (ha : Aligned hash) (hf : FreeWithin hash) (hd : DirWithin hash)
    (hA : (if c then increasePower hash else some hash) = some hashA) :
    Aligned hashA ∧ FreeWithin hashA ∧ DirWithin hashA ∧
      hashA.bucketFile = hash.bucketFile ∧ hashA.directory.garbage = hash.directory.garbage := by
  split at hA
  · rw [increasePower_eq hash (by have := hs.1; omega) hs.2] at hA
    simp only [Option.some.injEq] at hA
    subst hA
    refine ⟨⟨ha.1, ha.2.1, ?_, ha.2.2.2⟩, ?_, ?_, rfl, rfl⟩
    · intro o ho
      have ho2 : o ∈ hash.directory.bucketPointer := by
        rcases List.mem_append.mp ho with h | h <;> exact h
      exact ha.2.2.1 o ho2
    · exact fun o ho => within_of_directory rfl rfl rfl (hf o ho)
    · intro o ho
      have ho2 : o ∈ hash.directory.bucketPointer := by
        rcases List.mem_append.mp ho with h | h <;> exact h
      exact within_of_directory rfl rfl rfl (hd o ho2)
  · simp only [Option.some.injEq] at hA
    subst hA
    exact ⟨ha, hf, hd, rfl, rfl⟩

/-- One `addRecord` on a well-formed state extends the bucket file by at most
one slot, takes at most the head of the free list and keeps the directory
inside the file. -/
theorem addRecord_alloc {hash hash1 : DinamicHash} {r : BucketRecord}
    (hs : DirShape hash) (ha : Aligned hash) (hf : FreeWithin hash) (hd : DirWithin hash)
    (h : addRecord hash r = some hash1) :
    hash.bucketFile.slots.length ≤ hash1.bucketFile.slots.length ∧
      hash1.bucketFile.slots.length ≤ hash.bucketFile.slots.length + 1 ∧ DirWithin hash1 ∧
      (hash1.directory.garbage = hash.directory.garbage ∨
        hash1.directory.garbage = hash.directory.garbage.tail) := by
  unfold addRecord at h
  obtain ⟨count, _, h⟩ := bind_elim h
  obtain ⟨bucket, _, h⟩ := bind_elim h
  split at h
  · obtain ⟨hashA, hA, h⟩ := bind_elim h
    obtain ⟨⟨hashB, address⟩, hB, h⟩ := bind_elim h
    dsimp only at h
    obtain ⟨power, _, h⟩ := bind_elim h
    obtain ⟨count2, _, h⟩ := bind_elim h
    obtain ⟨a, haddr, h⟩ := bind_elim h
    obtain ⟨bp, hbp, h⟩ := bind_elim h
    obtain ⟨b1, _, h⟩ := bind_elim h
    obtain ⟨b2, _, h⟩ := bind_elim h
    obtain ⟨records, _, h⟩ := bind_elim h
    obtain ⟨power1, _, h⟩ := bind_elim h
    obtain ⟨hashC, hC, hD⟩ := bind_elim h
    obtain ⟨hAa, hAf, hAd, hAfile, hAg⟩ := doubling_keeps hs ha hf hd hA
    obtain ⟨hashB1, a1, e1, e2, e3, e4, e5, e6⟩ := initializeNewBucket_one hAa hAf
    rw [e1] at hB
    simp only [Option.some.injEq, Prod.mk.injEq] at hB
    obtain ⟨rfl, rfl⟩ := hB
    have ha1 : a = a1 := by
      simp [sliceGet] at haddr
      exact haddr.symm
    subst ha1
    obtain ⟨_, hBbp, _, _⟩ := initializeNewBucket_frame e1
    have h3d : DirWithin { hashB1 with directory :=
        { hashB1.directory with bucketPointer := bp } } := by
      intro o ho
      rcases mem_of_mem_sliceSet hbp ho with h1 | h1
      · subst h1
        exact within_of_directory rfl rfl rfl e2
      · rw [hBbp] at h1
        exact within_of_directory rfl rfl rfl (initializeNewBucket_within e1 (hAd o h1))
    obtain ⟨hCl, hCd⟩ := insertIntoBucket_length hC h3d
    obtain ⟨hDl, hDd⟩ := insertIntoBucket_length hD hCd
    have hlen : hash1.bucketFile.slots.length = hashB1.bucketFile.slots.length := by
      rw [hDl, hCl]
    have hge : hashA.bucketFile.slots.length ≤ hashB1.bucketFile.slots.length := by
      cases hg : hashA.directory.garbage with
      | nil => rw [(e5 hg).2]; omega
      | cons g rest => rw [(e6 g rest hg).2]
    refine ⟨by rw [hlen, ← hAfile]; exact hge, by rw [hlen, ← hAfile]; exact e4, hDd,
      Or.inr ?_⟩
    rw [(insertIntoBucket_frame hD).1, (insertIntoBucket_frame hC).1]
    show hashB1.directory.garbage = _
    rw [e3, hAg]
  · obtain ⟨records, _, h⟩ := bind_elim h
    obtain ⟨hl, hd1⟩ := insertIntoBucket_length h hd
    exact ⟨by rw [hl], by rw [hl]; omega, hd1, Or.inl (by rw [(insertIntoBucket_frame h).1])⟩

theorem HashUpdate_dirWithin {hash hash1 : DinamicHash} {numero newAddress : Int} {err : Bool}
    (hd : DirWithin hash) (h : HashUpdate hash numero newAddress = some (hash1, err)) :
    DirWithin hash1 := by
  intro o ho
  rw [(HashUpdate_frame h).1] at ho
  exact HashUpdate_within h (hd o ho)

theorem HashDelete_dirWithin {hash hash1 : DinamicHash} {targetID : Int} {err : Bool}
    (hd : DirWithin hash) (h : HashDelete hash targetID = some (hash1, err)) :
    DirWithin hash1 := by
  unfold HashDelete at h
  obtain ⟨count, _, h⟩ := bind_elim h
  obtain ⟨bucket, hbucket, h⟩ := bind_elim h
  obtain ⟨targetPos, _, h⟩ := bind_elim h
  split at h
  · simp only [Option.some.injEq, Prod.mk.injEq] at h
    obtain ⟨rfl, _⟩ := h
    exact hd
  · obtain ⟨records, _, h⟩ := bind_elim h
    obtain ⟨hashA, hA, h⟩ := bind_elim h
    obtain ⟨_, hAd⟩ := insertIntoBucket_length hA hd
    split at h
    · obtain ⟨old, hold, h⟩ := bind_elim h
      obtain ⟨buddy, hbuddy, h⟩ := bind_elim h
      obtain ⟨bp, hbp, h⟩ := bind_elim h
      obtain ⟨merged, hm, h⟩ := bind_elim h
      obtain ⟨hashC, hC, h⟩ := bind_elim h
      simp only [Option.some.injEq, Prod.mk.injEq] at h
      obtain ⟨rfl, _⟩ := h
      have hB : DirWithin { hashA with directory :=
          { hashA.directory with bucketPointer := bp,
                                 garbage := hashA.directory.garbage ++ [old] } } := by
        intro o ho
        rcases mem_of_mem_sliceSet hbp ho with h1 | h1
        · subst h1
          exact within_of_directory rfl rfl rfl (hAd o (mem_of_sliceGet hbuddy))
        · exact within_of_directory rfl rfl rfl (hAd o h1)
      exact (insertIntoBucket_length hC hB).2
    · simp only [Option.some.injEq, Prod.mk.injEq] at h
      obtain ⟨rfl, _⟩ := h
      exact hAd

theorem step_wellFormed {hash hash1 : DinamicHash} {op : Op} (hw : WellFormed hash)
    (h : step hash op = some hash1) : WellFormed hash1 := by
  obtain ⟨hs, ha, hf, hd⟩ := hw
  refine ⟨(step_shape hs h).1, step_aligned ha h, step_freeWithin hf h, ?_⟩
  cases op with
  | add r => exact (addRecord_alloc hs ha hf hd h).2.2.1
  | update numero newAddress =>
    simp only [step, Option.map_eq_some', Prod.exists, exists_and_right, exists_eq_right] at h
    obtain ⟨err, h⟩ := h
    exact HashUpdate_dirWithin hd h
  | delete targetID =>
    simp only [step, Option.map_eq_some', Prod.exists, exists_and_right, exists_eq_right] at h
    obtain ⟨err, h⟩ := h
    exact HashDelete_dirWithin hd h

theorem run_wellFormed : ∀ (ops : List Op) (hash hash1 : DinamicHash), WellFormed hash →
    run ops hash = some hash1 → WellFormed hash1 := by
  intro ops
  induction ops with
  | nil =>
    intro hash hash1 hw h
    simp only [run, Option.some.injEq] at h
    subst h
    exact hw
  | cons op rest ih =>
    intro hash hash1 hw h
    simp only [run] at h
    obtain ⟨hashA, hA, h⟩ := Option.bind_eq_some.mp h
    exact ih _ _ (step_wellFormed hw hA) h

theorem newHash_wellFormed {bucketPath : List Nat} {size : Int} {hash : DinamicHash}
    (h : newHash bucketPath size = some hash) (hsize : 0 ≤ size)
    (hfit : slotBytes size ≤ MaxInt64) : WellFormed hash := by
  refine ⟨newHash_shape h, newHash_aligned h, newHash_freeWithin h, ?_⟩
  rw [newHash_eq bucketPath size hsize hfit] at h
  simp only [Option.some.injEq] at h
  subst h
  intro o ho
  have ho2 : o = ((0 : Nat) : Int) * slotBytes size ∨ o = ((1 : Nat) : Int) * slotBytes size := by
    simpa [indexOf] using ho
  rcases ho2 with rfl | rfl
  · exact ⟨0, slotOf_indexOf bucketPath size hsize _ _ 0, by simp [indexOf]⟩
  · exact ⟨1, slotOf_indexOf bucketPath size hsize _ _ 1, by simp [indexOf]⟩

theorem mirrorLoop_length : ∀ (n i j : Nat) (bp : List Int),
    (mirrorLoop n i j bp).length = bp.length := by
  intro n
  induction n with
  | zero => intro i j bp; rfl
  | succ n ih =>
    intro i j bp
    simp only [mirrorLoop]
    rw [ih, List.length_set]

theorem increasePower_length {hash hash1 : DinamicHash} (h : increasePower hash = some hash1) :
    hash1.directory.bucketPointer.length = 2 ^ (hash.directory.p + 1).toNat := by
  unfold increasePower at h
  obtain ⟨n, hn, h⟩ := bind_elim h
  simp only [Option.some.injEq] at h
  subst h
  unfold shiftOne at hn
  split at hn
  · simp at hn
  · simp only [Option.some.injEq] at hn
    subst hn
    simp only [mirrorLoop_length, List.length_append, List.length_take, List.length_replicate]
    have : ((2 : Int) ^ (hash.directory.p + 1).toNat).toNat = 2 ^ (hash.directory.p + 1).toNat := by
      have h2 : ((2 : Int) ^ (hash.directory.p + 1).toNat)
          = ((2 ^ (hash.directory.p + 1).toNat : Nat) : Int) := by push_cast; rfl
      rw [h2, Int.toNat_ofNat]
    rw [this]
    omega

/-- C22. When the directory doubles: for a record with non-negative key on
which `addRecord` completes, the depth `p` becomes `p + 1` and `bucketPointer`
gets `2^(p+1)` entries when the addressed bucket has `CurrentSize =
loadFactor - 1` and `ActualPower = p`, and in every other case `p` and the
length of `bucketPointer` are unchanged.  On a well-formed state the call
extends the bucket file by at most one slot and takes at most the head of the
free list, and without a split it does neither. -/
theorem directory_doubles_when (hash hash1 : DinamicHash) (r : BucketRecord) (count : Int)
    (bucket : Bucket) (hkey : 0 ≤ r.ID) (hcount : getBucketCount hash = some count)
    (hread : readBucket hash (r.ID % count) = some bucket)
    (hadd : addRecord hash r = some hash1) :
    ((bucket.CurrentSize = hash.loadFactor - 1 ∧ bucket.ActualPower = hash.directory.p) →
      hash1.directory.p = hash.directory.p + 1 ∧
        hash1.directory.bucketPointer.length = 2 ^ (hash.directory.p + 1).toNat) ∧
    (¬ (bucket.CurrentSize = hash.loadFactor - 1 ∧ bucket.ActualPower = hash.directory.p) →
      hash1.directory.p = hash.directory.p ∧
        hash1.directory.bucketPointer.length = hash.directory.bucketPointer.length) ∧
    (WellFormed hash →
      hash.bucketFile.slots.length ≤ hash1.bucketFile.slots.length ∧
      hash1.bucketFile.slots.length ≤ hash.bucketFile.slots.length + 1 ∧
      (hash1.directory.garbage = hash.directory.garbage ∨
        hash1.directory.garbage = hash.directory.garbage.tail) ∧
      (bucket.CurrentSize ≠ hash.loadFactor - 1 →
        hash1.bucketFile.slots.length = hash.bucketFile.slots.length ∧
          hash1.directory.garbage = hash.directory.garbage)) := by
  have hc0 : 0 ≤ count := by
    unfold getBucketCount shiftOne at hcount
    split at hcount
    · simp at hcount
    · simp only [Option.some.injEq] at hcount
      rw [← hcount]; positivity
  have hmod : Int.tmod r.ID count = r.ID % count := Int.tmod_eq_emod hkey hc0
  have hread2 : readBucket hash (Int.tmod r.ID count) = some bucket := by rw [hmod]; exact hread
  have hdepth : (bucket.CurrentSize = hash.loadFactor - 1 ∧ bucket.ActualPower = hash.directory.p →
      hash1.directory.p = hash.directory.p + 1 ∧
        hash1.directory.bucketPointer.length = 2 ^ (hash.directory.p + 1).toNat) ∧
      (¬ (bucket.CurrentSize = hash.loadFactor - 1 ∧ bucket.ActualPower = hash.directory.p) →
        hash1.directory.p = hash.directory.p ∧
          hash1.directory.bucketPointer.length = hash.directory.bucketPointer.length) := by
    have h := hadd
    unfold addRecord at h
    rw [bind_of_eq_some hcount] at h
    dsimp only at h
    rw [bind_of_eq_some hread2] at h
    split at h
    · next hfull =>
      obtain ⟨hashA, hA, h⟩ := bind_elim h
      obtain ⟨⟨hashB, address⟩, hB, h⟩ := bind_elim h
      dsimp only at h
      obtain ⟨power, _, h⟩ := bind_elim h
      obtain ⟨count2, _, h⟩ := bind_elim h
      obtain ⟨a, _, h⟩ := bind_elim h
      obtain ⟨bp, hbp, h⟩ := bind_elim h
      obtain ⟨b1, _, h⟩ := bind_elim h
      obtain ⟨b2, _, h⟩ := bind_elim h
      obtain ⟨records, _, h⟩ := bind_elim h
      obtain ⟨power1, _, h⟩ := bind_elim h
      obtain ⟨hashC, hC, hD⟩ := bind_elim h
      obtain ⟨hBp, hBbp, _, _⟩ := initializeNewBucket_frame hB
      obtain ⟨hCd, _⟩ := insertIntoBucket_frame hC
      obtain ⟨hDd, _⟩ := insertIntoBucket_frame hD
      have hp1 : hash1.directory.p = hashA.directory.p := by
        rw [hDd, hCd]; exact hBp
      have hl1 : hash1.directory.bucketPointer.length = hashA.directory.bucketPointer.length := by
        rw [hDd, hCd]
        show bp.length = _
        rw [sliceSet_length hbp, hBbp]
      split at hA
      · next heq =>
        refine ⟨fun _ => ⟨by rw [hp1, (increasePower_frame hA).1],
          by rw [hl1, increasePower_length hA]⟩, fun hn => absurd ⟨hfull, heq⟩ hn⟩
      · next hne =>
        simp only [Option.some.injEq] at hA
        subst hA
        exact ⟨fun hc => absurd hc.2 hne, fun _ => ⟨hp1, hl1⟩⟩
    · next hnf =>
      obtain ⟨records, _, h⟩ := bind_elim h
      obtain ⟨hd, _⟩ := insertIntoBucket_frame h
      exact ⟨fun hc => absurd hc.1 hnf, fun _ => ⟨by rw [hd], by rw [hd]⟩⟩
  refine ⟨hdepth.1, hdepth.2, ?_⟩
  intro hw
  obtain ⟨hs, ha, hf, hd⟩ := hw
  obtain ⟨h1, h2, _, h4⟩ := addRecord_alloc hs ha hf hd hadd
  refine ⟨h1, h2, h4, ?_⟩
  intro hne
  rw [addRecord_of_not_full hcount hread2 hne] at hadd
  obtain ⟨records, _, h⟩ := Option.bind_eq_some.mp hadd
  exact ⟨(insertIntoBucket_length h hd).1, by rw [(insertIntoBucket_frame h).1]⟩

theorem splitIndices_fst (power pos count : Int) :
    (if power + pos ≥ count then Int.tmod pos power else pos)
      = (splitIndices power pos count).1 := by
  unfold splitIndices
  split <;> rfl

theorem splitIndices_snd (power pos count : Int) :
    (if power + pos ≥ count then pos else power + pos) = (splitIndices power pos count).2 := by
  unfold splitIndices
  split <;> rfl

theorem newBucket_eq_filled {power lf : Int} {b : Bucket} (h : newBucket power lf = some b) :
    b = filled power lf [] ∧ 0 ≤ lf := by
  unfold newBucket makeSlice at h
  split at h
  · simp at h
  · next hlf =>
    simp only [Option.bind_eq_bind, Option.some_bind, Option.some.injEq] at h
    subst h
    exact ⟨by simp [filled, padded], by omega⟩

theorem set_last_eq {α : Type} (l : List α) (x : α) (n : Nat) (h : n + 1 = l.length) :
    l.set n x = l.take n ++ [x] := by
  rw [List.set_eq_take_append_cons_drop, if_pos (by omega), List.drop_of_length_le (by omega)]

/-- The split branch of `addRecord`, step by step: the optional doubling, the
allocation, the new directory entry at `newPos`, and the two writes of the
partition of the `loadFactor` records (the old ones and `r`). -/
theorem addRecord_split_steps {hash hash1 : DinamicHash} {r : BucketRecord} {count : Int}
    {bucket : Bucket} (hcount : getBucketCount hash = some count)
    (hread : readBucket hash (r.ID.tmod count) = some bucket)
    (hfull : bucket.CurrentSize = hash.loadFactor - 1)
    (hadd : addRecord hash r = some hash1) :
    ∃ (hashA hashB hashC : DinamicHash) (address bp : List Int) (count2 a : Int),
      (if bucket.ActualPower = hash.directory.p then increasePower hash else some hash)
        = some hashA ∧
      initializeNewBucket hashA 1 = some (hashB, address) ∧
      getBucketCount hashB = some count2 ∧ sliceGet address 0 = some a ∧
      0 ≤ bucket.ActualPower ∧ 1 ≤ hash.loadFactor ∧
      bucket.Records.length = hash.loadFactor.toNat ∧
      sliceSet hashB.directory.bucketPointer
        (splitIndices (2 ^ bucket.ActualPower.toNat) (r.ID.tmod count) count2).2 a = some bp ∧
      insertIntoBucket { hashB with directory := { hashB.directory with bucketPointer := bp } }
        (splitIndices (2 ^ bucket.ActualPower.toNat) (r.ID.tmod count) count2).1
        (bucket.ActualPower + 1)
        (((bucket.Records.take bucket.CurrentSize.toNat ++ [r]).filter (fun x => decide
          (Int.tmod x.ID (2 ^ (bucket.ActualPower + 1).toNat)
            = (splitIndices (2 ^ bucket.ActualPower.toNat) (r.ID.tmod count) count2).1))).length)
        (padded hash.loadFactor
          ((bucket.Records.take bucket.CurrentSize.toNat ++ [r]).filter (fun x => decide
            (Int.tmod x.ID (2 ^ (bucket.ActualPower + 1).toNat)
              = (splitIndices (2 ^ bucket.ActualPower.toNat) (r.ID.tmod count) count2).1))))
        = some hashC ∧
      insertIntoBucket hashC
        (splitIndices (2 ^ bucket.ActualPower.toNat) (r.ID.tmod count) count2).2
        (bucket.ActualPower + 1)
        (((bucket.Records.take bucket.CurrentSize.toNat ++ [r]).filter (fun x => !decide
          (Int.tmod x.ID (2 ^ (bucket.ActualPower + 1).toNat)
            = (splitIndices (2 ^ bucket.ActualPower.toNat) (r.ID.tmod count) count2).1))).length)
        (padded hash.loadFactor
          ((bucket.Records.take bucket.CurrentSize.toNat ++ [r]).filter (fun x => !decide
            (Int.tmod x.ID (2 ^ (bucket.ActualPower + 1).toNat)
              = (splitIndices (2 ^ bucket.ActualPower.toNat) (r.ID.tmod count) count2).1))))
        = some hash1 := by
  have h := hadd
  unfold addRecord at h
  rw [bind_of_eq_some hcount] at h
  dsimp only at h
  rw [bind_of_eq_some hread, if_pos hfull] at h
  obtain ⟨hashA, hA, h⟩ := bind_elim h
  obtain ⟨⟨hashB, address⟩, hB, h⟩ := bind_elim h
  dsimp only at h
  obtain ⟨power, hpower, h⟩ := bind_elim h
  obtain ⟨count2, hcount2, h⟩ := bind_elim h
  obtain ⟨a, haddr, h⟩ := bind_elim h
  obtain ⟨bp, hbp, h⟩ := bind_elim h
  obtain ⟨b1, hb1, h⟩ := bind_elim h
  obtain ⟨b2, hb2, h⟩ := bind_elim h
  obtain ⟨records, hrec, h⟩ := bind_elim h
  obtain ⟨power1, hpower1, h⟩ := bind_elim h
  obtain ⟨hashC, hC, hD⟩ := bind_elim h
  have hlfA : hashA.loadFactor = hash.loadFactor := by
    split at hA
    · exact (increasePower_frame hA).2.2.2.1
    · simp only [Option.some.injEq] at hA
      subst hA; rfl
  have hlfB : hashB.loadFactor = hash.loadFactor := by
    rw [(initializeNewBucket_frame hB).2.2.1, hlfA]
  have hpw : 0 ≤ bucket.ActualPower ∧ power = 2 ^ bucket.ActualPower.toNat := by
    unfold getBucketPower shiftOne at hpower
    split at hpower
    · simp at hpower
    · simp only [Option.some.injEq] at hpower
      exact ⟨by omega, hpower.symm⟩
  have hpw1 : power1 = 2 ^ (bucket.ActualPower + 1).toNat := by
    unfold shiftOne at hpower1
    split at hpower1
    · simp at hpower1
    · simp only [Option.some.injEq] at hpower1
      exact hpower1.symm
  obtain ⟨hr0, hr1, hr2⟩ := sliceSet_some hrec
  have hlen : bucket.Records.length = hash.loadFactor.toNat := by
    rcases readBucket_length hread with hl | ⟨_, hl⟩
    · exact hl
    · rw [hl] at hr1; simp at hr1
  have hlf1 : 1 ≤ hash.loadFactor := by omega
  have hrecs : records = bucket.Records.take bucket.CurrentSize.toNat ++ [r] := by
    rw [hr2]
    exact set_last_eq _ _ _ (by omega)
  have hreclen : records.length = hash.loadFactor.toNat := by
    rw [hr2, List.length_set, hlen]
  have hb1f : b1 = filled (bucket.ActualPower + 1) hash.loadFactor [] := by
    have := (newBucket_eq_filled hb1).1
    rwa [show ({ hashB with directory := { hashB.directory with bucketPointer := bp } }
      : DinamicHash).loadFactor = hashB.loadFactor from rfl, hlfB] at this
  have hb2f : b2 = filled (bucket.ActualPower + 1) hash.loadFactor [] := by
    have := (newBucket_eq_filled hb2).1
    rwa [show ({ hashB with directory := { hashB.directory with bucketPointer := bp } }
      : DinamicHash).loadFactor = hashB.loadFactor from rfl, hlfB] at this
  obtain ⟨hp0, rfl⟩ := hpw
  subst hpw1
  have hsplit := splitLoop_filled (2 ^ (bucket.ActualPower + 1).toNat)
    (if 2 ^ bucket.ActualPower.toNat + r.ID.tmod count ≥ count2
      then (r.ID.tmod count).tmod (2 ^ bucket.ActualPower.toNat) else r.ID.tmod count)
    (bucket.ActualPower + 1) hash.loadFactor records [] []
    (by simp; omega) (by simp; omega)
  simp only [List.length_nil, List.nil_append] at hsplit
  rw [hb1f, hb2f, hsplit] at hC hD
  simp only [filled] at hC hD
  rw [splitIndices_fst, hrecs] at hC hD
  rw [splitIndices_snd] at hbp hD
  exact ⟨hashA, hashB, hashC, address, bp, count2, a, hA, hB, hcount2, haddr, hp0, hlf1,
    hlen, hbp, hC, hD⟩

theorem readBucket_after_insert {hash hash1 : DinamicHash} {pos power : Int}
    {recs : List BucketRecord}
    (h : insertIntoBucket hash pos power recs.length (padded hash.loadFactor recs) = some hash1)
    (hle : recs.length ≤ hash.loadFactor.toNat) :
    readBucket hash1 pos = some (filled power hash.loadFactor recs) := by
  have hd := (insertIntoBucket_frame h).1
  unfold insertIntoBucket at h
  obtain ⟨off, hoff, hw⟩ := bind_elim h
  have hpos : ¬ pos < 0 := by
    intro hneg
    unfold sliceGet at hoff
    rw [if_pos hneg] at hoff
    simp at hoff
  unfold readBucket
  rw [if_neg hpos, hd, bind_of_eq_some hoff, readAt_writeAt hw, if_pos rfl]
  exact congrArg some (decodeSlot_filled hle)

/-- What a split writes: when `addRecord` splits a bucket with
`loadFactor - 1` records and completes, the records it partitions are the old
records followed by the new one; those with `ID % 2^(ActualPower+1) = pos`
(Go remainder) are written in their order at directory index `pos`, the others
in their order at `newPos`, with sizes that sum to `loadFactor`, and both
buckets carry `ActualPower + 1`.  Afterwards the bucket at `newPos` reads as
the second part, and the bucket at `pos` as the first part when the two
directory entries designate different slots. -/
theorem split_partition (hash hash1 : DinamicHash) (r : BucketRecord) (count : Int)
    (bucket : Bucket) (hcount : getBucketCount hash = some count)
    (hread : readBucket hash (Int.tmod r.ID count) = some bucket)
    (hfull : bucket.CurrentSize = hash.loadFactor - 1)
    (hadd : addRecord hash r = some hash1) :
    ∃ (hashB hashC : DinamicHash) (count2 pos newPos : Int) (stay move : List BucketRecord),
      (pos, newPos) = splitIndices (2 ^ bucket.ActualPower.toNat) (Int.tmod r.ID count) count2 ∧
      stay = (bucket.Records.take bucket.CurrentSize.toNat ++ [r]).filter
        (fun x => decide (Int.tmod x.ID (2 ^ (bucket.ActualPower + 1).toNat) = pos)) ∧
      move = (bucket.Records.take bucket.CurrentSize.toNat ++ [r]).filter
        (fun x => !decide (Int.tmod x.ID (2 ^ (bucket.ActualPower + 1).toNat) = pos)) ∧
      ((stay.length : Int) + move.length = hash.loadFactor) ∧
      (stay ++ move).Perm (bucket.Records.take bucket.CurrentSize.toNat ++ [r]) ∧
      stay.Sublist (bucket.Records.take bucket.CurrentSize.toNat ++ [r]) ∧
      move.Sublist (bucket.Records.take bucket.CurrentSize.toNat ++ [r]) ∧
      insertIntoBucket hashB pos (bucket.ActualPower + 1) stay.length
        (padded hash.loadFactor stay) = some hashC ∧
      insertIntoBucket hashC newPos (bucket.ActualPower + 1) move.length
        (padded hash.loadFactor move) = some hash1 ∧
      readBucket hash1 newPos = some (filled (bucket.ActualPower + 1) hash.loadFactor move) ∧
      ∀ o1 o2, sliceGet hash1.directory.bucketPointer pos = some o1 →
        sliceGet hash1.directory.bucketPointer newPos = some o2 →
        slotOf hash o1 ≠ slotOf hash o2 →
        readBucket hash1 pos = some (filled (bucket.ActualPower + 1) hash.loadFactor stay) := by
  obtain ⟨hashA, hashB, hashC, address, bp, count2, a, hA, hB, hcount2, haddr, hp0, hlf1, hlen,
    hbp, hC, hD⟩ := addRecord_split_steps hcount hread hfull hadd
  have hlfA : hashA.loadFactor = hash.loadFactor ∧ hashA.bucketSize = hash.bucketSize := by
    split at hA
    · exact ⟨(increasePower_frame hA).2.2.2.1, (increasePower_frame hA).2.2.2.2⟩
    · simp only [Option.some.injEq] at hA
      subst hA; exact ⟨rfl, rfl⟩
  obtain ⟨_, _, hBlf, hBbs⟩ := initializeNewBucket_frame hB
  obtain ⟨hCd, hClf, hCbs, _⟩ := insertIntoBucket_frame hC
  obtain ⟨hDd, hDlf, hDbs, _⟩ := insertIntoBucket_frame hD
  have hClf2 : hashC.loadFactor = hash.loadFactor := by
    rw [hClf]; show hashB.loadFactor = _; rw [hBlf, hlfA.1]
  have hCbs2 : hashC.bucketSize = hash.bucketSize := by
    rw [hCbs]; show hashB.bucketSize = _; rw [hBbs, hlfA.2]
  have hreclen : (bucket.Records.take bucket.CurrentSize.toNat ++ [r]).length
      = hash.loadFactor.toNat := by
    simp only [List.length_append, List.length_take, List.length_singleton, hlen]
    omega
  have hperm := List.filter_append_perm (fun x => decide
      (Int.tmod x.ID (2 ^ (bucket.ActualPower + 1).toNat)
        = (splitIndices (2 ^ bucket.ActualPower.toNat) (r.ID.tmod count) count2).1))
      (bucket.Records.take bucket.CurrentSize.toNat ++ [r])
  have hsum := hperm.length_eq
  rw [List.length_append, hreclen] at hsum
  have hmle : ((bucket.Records.take bucket.CurrentSize.toNat ++ [r]).filter (fun x => !decide
      (Int.tmod x.ID (2 ^ (bucket.ActualPower + 1).toNat)
        = (splitIndices (2 ^ bucket.ActualPower.toNat) (r.ID.tmod count) count2).1))).length
      ≤ hashC.loadFactor.toNat := by
    rw [hClf2]; omega
  have hsle : ((bucket.Records.take bucket.CurrentSize.toNat ++ [r]).filter (fun x => decide
      (Int.tmod x.ID (2 ^ (bucket.ActualPower + 1).toNat)
        = (splitIndices (2 ^ bucket.ActualPower.toNat) (r.ID.tmod count) count2).1))).length
      ≤ hash.loadFactor.toNat := by
    omega
  have hD2 := hD
  rw [← hClf2] at hD2
  have hreadNew := readBucket_after_insert hD2 hmle
  rw [hClf2] at hreadNew
  refine ⟨_, hashC, count2,
    (splitIndices (2 ^ bucket.ActualPower.toNat) (r.ID.tmod count) count2).1,
    (splitIndices (2 ^ bucket.ActualPower.toNat) (r.ID.tmod count) count2).2, _, _,
    rfl, rfl, rfl, ?_, hperm, List.filter_sublist _,
    List.filter_sublist _, hC, hD, hreadNew, ?_⟩
  · have : ((hash.loadFactor.toNat : Nat) : Int) = hash.loadFactor := Int.toNat_of_nonneg (by omega)
    rw [← this, ← hsum]
    push_cast
    rfl
  · intro o1 o2 ho1 ho2 hne
    rw [hDd] at ho1 ho2
    have hposn : ¬ (splitIndices (2 ^ bucket.ActualPower.toNat) (r.ID.tmod count) count2).1
        < 0 := by
      intro hneg
      unfold sliceGet at ho1
      rw [if_pos hneg] at ho1
      simp at ho1
    have hC2 := hC
    unfold insertIntoBucket at hC2 hD
    rw [← hCd] at hC2
    rw [bind_of_eq_some ho1] at hC2
    rw [bind_of_eq_some ho2] at hD
    have hne2 : slotOf hashC o1 ≠ slotOf hashC o2 := by
      simp only [slotOf, hClf2, hCbs2]
      simpa only [slotOf] using hne
    unfold readBucket
    rw [if_neg hposn, hDd, bind_of_eq_some ho1, readAt_writeAt hD, if_neg hne2,
      readAt_writeAt hC2, if_pos rfl]
    have hBlf2 : ({ hashB with directory := { hashB.directory with bucketPointer := bp } }
        : DinamicHash).loadFactor = hash.loadFactor := by
      show hashB.loadFactor = _; rw [hBlf, hlfA.1]
    rw [hBlf2]
    exact congrArg some (decodeSlot_filled hsle)

/-- The two indices of a split are valid directory indices, differ and are
congruent modulo `2^d`, for a position `k` below `2^p` and a local depth
`d ≤ p`, where the directory has `2^(p+1)` entries when `d = p` (after the
doubling) and `2^p` entries otherwise. -/
theorem splitIndices_valid (d p : Nat) (k : Int) (hk0 : 0 ≤ k) (hk1 : k < 2 ^ p) (hdp : d ≤ p) :
    0 ≤ (splitIndices (2 ^ d) k (if d = p then 2 ^ (p + 1) else 2 ^ p)).1 ∧
      (splitIndices (2 ^ d) k (if d = p then 2 ^ (p + 1) else 2 ^ p)).1
        < (if d = p then 2 ^ (p + 1) else 2 ^ p) ∧
      0 ≤ (splitIndices (2 ^ d) k (if d = p then 2 ^ (p + 1) else 2 ^ p)).2 ∧
      (splitIndices (2 ^ d) k (if d = p then 2 ^ (p + 1) else 2 ^ p)).2
        < (if d = p then 2 ^ (p + 1) else 2 ^ p) ∧
      (splitIndices (2 ^ d) k (if d = p then 2 ^ (p + 1) else 2 ^ p)).1
        ≠ (splitIndices (2 ^ d) k (if d = p then 2 ^ (p + 1) else 2 ^ p)).2 ∧
      (splitIndices (2 ^ d) k (if d = p then 2 ^ (p + 1) else 2 ^ p)).1 % 2 ^ d
        = (splitIndices (2 ^ d) k (if d = p then 2 ^ (p + 1) else 2 ^ p)).2 % 2 ^ d := by
  have hD : (0 : Int) < 2 ^ d := by positivity
  by_cases hdeq : d = p
  · subst hdeq
    have h2 : (2 : Int) ^ (d + 1) = 2 * 2 ^ d := by rw [pow_succ]; ring
    rw [if_pos rfl, h2]
    have hno : ¬ (2 ^ d + k ≥ 2 * (2 : Int) ^ d) := by omega
    simp only [splitIndices, if_neg hno]
    refine ⟨hk0, by omega, by omega, by omega, by omega, ?_⟩
    rw [Int.add_emod_self_left]
  · rw [if_neg hdeq]
    have hlt : d + 1 ≤ p := by omega
    have h2 : (2 : Int) * 2 ^ d ≤ 2 ^ p := by
      have : (2 : Int) ^ (d + 1) ≤ 2 ^ p := pow_le_pow_right₀ (by decide) hlt
      rw [pow_succ] at this
      omega
    by_cases hfall : 2 ^ d + k ≥ (2 : Int) ^ p
    · simp only [splitIndices, if_pos hfall]
      rw [Int.tmod_eq_emod hk0 (le_of_lt hD)]
      have hm0 : 0 ≤ k % 2 ^ d := Int.emod_nonneg _ (ne_of_gt hD)
      have hm1 : k % 2 ^ d < 2 ^ d := Int.emod_lt_of_pos _ hD
      refine ⟨hm0, by omega, hk0, hk1, by omega, ?_⟩
      exact Int.emod_emod_of_dvd _ (dvd_refl _)
    · simp only [splitIndices, if_neg hfall]
      refine ⟨hk0, hk1, by omega, by omega, by omega, ?_⟩
      rw [Int.add_emod_self_left]

/-- C29. Split indices are valid: on a state whose directory has `2^p`
entries, for a non-negative key whose addressed bucket has
`0 ≤ ActualPower ≤ p`, the indices `pos` and `newPos` that `addRecord`
computes for a split (after the optional doubling and the fallback) are both
in `[0, len(bucketPointer))`, differ from each other and are congruent modulo
`2^ActualPower`; they are the indices at which a completing split stores the
new directory entry and writes its two buckets. -/
theorem split_indices_valid (hash : DinamicHash) (r : BucketRecord) (bucket : Bucket)
    (hp : 0 ≤ hash.directory.p)
    (hlen : hash.directory.bucketPointer.length = 2 ^ hash.directory.p.toNat)
    (hkey : 0 ≤ r.ID)
    (hread : readBucket hash (r.ID % 2 ^ hash.directory.p.toNat) = some bucket)
    (hd0 : 0 ≤ bucket.ActualPower) (hd1 : bucket.ActualPower ≤ hash.directory.p) :
    ∃ (hashA : DinamicHash) (pos newPos : Int),
      (if bucket.ActualPower = hash.directory.p then increasePower hash else some hash)
        = some hashA ∧
      (pos, newPos) = splitIndices (2 ^ bucket.ActualPower.toNat)
        (r.ID % 2 ^ hash.directory.p.toNat) (2 ^ hashA.directory.p.toNat) ∧
      0 ≤ pos ∧ pos < hashA.directory.bucketPointer.length ∧
      0 ≤ newPos ∧ newPos < hashA.directory.bucketPointer.length ∧
      pos ≠ newPos ∧
      pos % 2 ^ bucket.ActualPower.toNat = newPos % 2 ^ bucket.ActualPower.toNat ∧
      ∀ hash1, bucket.CurrentSize = hash.loadFactor - 1 → addRecord hash r = some hash1 →
        ∃ (hashB hashC : DinamicHash) (address bp : List Int) (a : Int) (b1 b2 : Bucket),
          initializeNewBucket hashA 1 = some (hashB, address) ∧
          sliceGet address 0 = some a ∧
          sliceSet hashB.directory.bucketPointer newPos a = some bp ∧
          insertIntoBucket
            { hashB with directory := { hashB.directory with bucketPointer := bp } }
            pos b1.ActualPower b1.CurrentSize b1.Records = some hashC ∧
          insertIntoBucket hashC newPos b2.ActualPower b2.CurrentSize b2.Records = some hash1 ∧
          hash1.directory.bucketPointer = bp ∧
          bp.length = hashA.directory.bucketPointer.length := by
  have hcount : getBucketCount hash = some ((2 : Int) ^ hash.directory.p.toNat) :=
    shiftOne_nonneg hp
  have hpow : (0 : Int) < 2 ^ hash.directory.p.toNat := by positivity
  have hmod : Int.tmod r.ID (2 ^ hash.directory.p.toNat) = r.ID % 2 ^ hash.directory.p.toNat :=
    Int.tmod_eq_emod hkey (le_of_lt hpow)
  have hk0 : 0 ≤ r.ID % 2 ^ hash.directory.p.toNat := Int.emod_nonneg _ (ne_of_gt hpow)
  have hk1 : r.ID % 2 ^ hash.directory.p.toNat < 2 ^ hash.directory.p.toNat :=
    Int.emod_lt_of_pos _ hpow
  have hdp : bucket.ActualPower.toNat ≤ hash.directory.p.toNat := by omega
  have hdeq : bucket.ActualPower = hash.directory.p
      ↔ bucket.ActualPower.toNat = hash.directory.p.toNat := by omega
  have hval := splitIndices_valid bucket.ActualPower.toNat hash.directory.p.toNat
    (r.ID % 2 ^ hash.directory.p.toNat) hk0 hk1 hdp
  obtain ⟨hashA, hA, hAp, hAlen⟩ : ∃ hashA,
      (if bucket.ActualPower = hash.directory.p then increasePower hash else some hash)
        = some hashA ∧
      (2 : Int) ^ hashA.directory.p.toNat
        = (if bucket.ActualPower.toNat = hash.directory.p.toNat
            then 2 ^ (hash.directory.p.toNat + 1) else 2 ^ hash.directory.p.toNat) ∧
      ((hashA.directory.bucketPointer.length : Nat) : Int) = 2 ^ hashA.directory.p.toNat := by
    by_cases heq : bucket.ActualPower = hash.directory.p
    · refine ⟨_, by rw [if_pos heq]; exact increasePower_eq hash hp hlen, ?_, ?_⟩
      · rw [if_pos (hdeq.mp heq)]
        show (2 : Int) ^ (hash.directory.p + 1).toNat = _
        rw [show (hash.directory.p + 1).toNat = hash.directory.p.toNat + 1 by omega]
      · show (((hash.directory.bucketPointer ++ hash.directory.bucketPointer).length : Nat) : Int)
          = 2 ^ (hash.directory.p + 1).toNat
        rw [show (hash.directory.p + 1).toNat = hash.directory.p.toNat + 1 by omega,
          List.length_append, hlen, pow_succ]
        push_cast
        ring
    · refine ⟨hash, by rw [if_neg heq], ?_, ?_⟩
      · rw [if_neg (fun h => heq (hdeq.mpr h))]
      · rw [hlen]; push_cast; rfl
  rw [← hAp] at hval
  obtain ⟨v1, v2, v3, v4, v5, v6⟩ := hval
  refine ⟨hashA,
    (splitIndices (2 ^ bucket.ActualPower.toNat) (r.ID % 2 ^ hash.directory.p.toNat)
      (2 ^ hashA.directory.p.toNat)).1,
    (splitIndices (2 ^ bucket.ActualPower.toNat) (r.ID % 2 ^ hash.directory.p.toNat)
      (2 ^ hashA.directory.p.toNat)).2,
    hA, rfl, v1, by rw [hAlen]; exact v2, v3, by rw [hAlen]; exact v4, v5, v6, ?_⟩
  intro hash1 hfull hadd
  have hread2 : readBucket hash (Int.tmod r.ID (2 ^ hash.directory.p.toNat)) = some bucket := by
    rw [hmod]; exact hread
  obtain ⟨hashA1, hashB, hashC, address, bp, count2, a, hA1, hB, hcount2, haddr, _, _, _,
    hbp, hC, hD⟩ := addRecord_split_steps hcount hread2 hfull hadd
  rw [hA] at hA1
  simp only [Option.some.injEq] at hA1
  subst hA1
  obtain ⟨hBp, hBbp, _, _⟩ := initializeNewBucket_frame hB
  have hc2 : count2 = 2 ^ hashA.directory.p.toNat := by
    unfold getBucketCount shiftOne at hcount2
    rw [hBp] at hcount2
    split at hcount2
    · simp at hcount2
    · simp only [Option.some.injEq] at hcount2
      exact hcount2.symm
  subst hc2
  rw [hmod] at hbp hC hD
  refine ⟨hashB, hashC, address, bp, a, ⟨_, _, _⟩, ⟨_, _, _⟩, hB, haddr, hbp, hC, hD, ?_, ?_⟩
  · rw [(insertIntoBucket_frame hD).1, (insertIntoBucket_frame hC).1]
  · rw [sliceSet_length hbp, hBbp]

theorem shiftLoop_length : ∀ (n i : Nat) (recs : List BucketRecord),
    (shiftLoop n i recs).length = recs.length := by
  intro n
  induction n with
  | zero => intro i recs; rfl
  | succ n ih =>
    intro i recs
    simp only [shiftLoop]
    rw [ih, List.length_set]

/-- The removal loop of `HashDelete` moves the records at `i+1 .. i+n` one
index down and leaves the others. -/
theorem shiftLoop_getElem? : ∀ (n i : Nat) (recs : List BucketRecord), i + n < recs.length →
    ∀ j, (shiftLoop n i recs)[j]? = if i ≤ j ∧ j < i + n then recs[j + 1]? else recs[j]? := by
  intro n
  induction n with
  | zero =>
    intro i recs _ j
    simp only [shiftLoop, Nat.add_zero]
    rw [if_neg (by omega)]
  | succ n ih =>
    intro i recs hlt j
    simp only [shiftLoop]
    rw [ih (i + 1) _ (by rw [List.length_set]; omega) j]
    have hget : recs.getD (i + 1) newBucketRecord = recs[i + 1] := by
      rw [List.getD_eq_getElem?_getD, List.getElem?_eq_getElem (by omega)]
      rfl
    by_cases h1 : i + 1 ≤ j ∧ j < i + 1 + n
    · rw [if_pos h1, if_pos (by omega), List.getElem?_set_ne (by omega)]
    · rw [if_neg h1]
      by_cases h2 : j = i
      · subst h2
        rw [if_pos (by omega), List.getElem?_set_self (by omega), hget,
          List.getElem?_eq_getElem (by omega)]
      · rw [if_neg (by omega), List.getElem?_set_ne (by omega)]

/-- The record removal of `HashDelete` at index `t`: the later records move
one slot to the left and the final slot becomes the zero record. -/
theorem removal_eq (recs : List BucketRecord) (t : Nat) (ht : t < recs.length) :
    sliceSet (shiftLoop (recs.length - 1 - t) t recs)
        (((shiftLoop (recs.length - 1 - t) t recs).length : Int) - 1) newBucketRecord
      = some (recs.eraseIdx t ++ [newBucketRecord]) := by
  have hlen := shiftLoop_length (recs.length - 1 - t) t recs
  unfold sliceSet
  rw [hlen, if_pos ⟨by omega, by omega⟩]
  have hidx : ((recs.length : Int) - 1).toNat = recs.length - 1 := by omega
  rw [hidx]
  congr 1
  apply List.ext_getElem?
  intro j
  have hel : (recs.eraseIdx t).length = recs.length - 1 := List.length_eraseIdx_of_lt ht
  by_cases hj : j = recs.length - 1
  · subst hj
    rw [List.getElem?_set_self (by rw [hlen]; omega),
      List.getElem?_append_right (by rw [hel]), hel]
    simp
  · rw [List.getElem?_set_ne (by omega), shiftLoop_getElem? _ _ _ (by omega)]
    by_cases hlt : j < recs.length - 1
    · rw [List.getElem?_append_left (by rw [hel]; exact hlt), List.getElem?_eraseIdx]
      by_cases htj : t ≤ j
      · rw [if_pos ⟨htj, by omega⟩, if_neg (by omega)]
      · rw [if_neg (by omega), if_pos (by omega)]
    · rw [if_neg (by omega), List.getElem?_eq_none (by omega),
        List.getElem?_eq_none (by simp [hel]; omega)]

/-- The scan of `HashDelete` returns its start value when no record among the
first `n` has the key, and otherwise the index of the last one that has it. -/
theorem deleteScan_last (k : Int) : ∀ (n : Nat) (recs : List BucketRecord) (i t0 t : Int),
    deleteScan k n recs i t0 = some t → t0 < i →
    (t = t0 ∧ ∀ x ∈ recs.take n, x.ID ≠ k) ∨
      ∃ j : Nat, t = i + j ∧ j < n ∧ (∃ x, recs[j]? = some x ∧ x.ID = k) ∧
        ∀ (j2 : Nat) (x : BucketRecord), j < j2 → j2 < n → recs[j2]? = some x → x.ID ≠ k := by
  intro n
  induction n with
  | zero =>
    intro recs i t0 t h _
    simp only [deleteScan, Option.some.injEq] at h
    exact Or.inl ⟨h.symm, by simp⟩
  | succ n ih =>
    intro recs i t0 t h hlt
    cases recs with
    | nil => simp [deleteScan] at h
    | cons x rest =>
      simp only [deleteScan] at h
      have hstep : ∀ j : Nat, (∃ y, rest[j]? = some y ∧ y.ID = k) →
          (∀ (j2 : Nat) (y : BucketRecord), j < j2 → j2 < n → rest[j2]? = some y → y.ID ≠ k) →
          (∃ y, (x :: rest)[j + 1]? = some y ∧ y.ID = k) ∧
          ∀ (j2 : Nat) (y : BucketRecord), j + 1 < j2 → j2 < n + 1 →
            (x :: rest)[j2]? = some y → y.ID ≠ k := by
        intro j hm hl
        refine ⟨by simpa using hm, ?_⟩
        intro j2 y h1 h2 h3
        obtain ⟨j3, rfl⟩ : ∃ j3, j2 = j3 + 1 := ⟨j2 - 1, by omega⟩
        exact hl j3 y (by omega) (by omega) (by simpa using h3)
      by_cases hx : x.ID = k
      · rw [if_pos hx] at h
        rcases ih rest (i + 1) i t h (by omega) with ⟨ht, hall⟩ | ⟨j, hj, hjn, hm, hl⟩
        · refine Or.inr ⟨0, by simp [ht], by omega, ⟨x, by simp, hx⟩, ?_⟩
          intro j2 y h1 h2 h3
          obtain ⟨j3, rfl⟩ : ∃ j3, j2 = j3 + 1 := ⟨j2 - 1, by omega⟩
          have h4 : rest[j3]? = some y := by simpa using h3
          have h5 : (rest.take n)[j3]? = some y := by
            rw [List.getElem?_take_of_lt (show j3 < n by omega)]; exact h4
          exact hall y (List.getElem?_mem h5)
        · exact Or.inr ⟨j + 1, by rw [hj]; push_cast; ring, by omega, (hstep j hm hl).1,
            (hstep j hm hl).2⟩
      · rw [if_neg hx] at h
        rcases ih rest (i + 1) t0 t h (by omega) with ⟨ht, hall⟩ | ⟨j, hj, hjn, hm, hl⟩
        · refine Or.inl ⟨ht, ?_⟩
          intro y hy
          simp only [List.take_succ_cons, List.mem_cons] at hy
          rcases hy with rfl | hy
          · exact hx
          · exact hall y hy
        · exact Or.inr ⟨j + 1, by rw [hj]; push_cast; ring, by omega, (hstep j hm hl).1,
            (hstep j hm hl).2⟩

theorem deleteScan_total (k : Int) : ∀ (n : Nat) (recs : List BucketRecord) (i t0 : Int),
    n ≤ recs.length → ∃ t, deleteScan k n recs i t0 = some t := by
  intro n
  induction n with
  | zero => intro recs i t0 _; exact ⟨t0, rfl⟩
  | succ n ih =>
    intro recs i t0 hn
    cases recs with
    | nil => simp at hn
    | cons x rest =>
      simp only [deleteScan]
      exact ih rest _ _ (by simpa using hn)

/-- What a removal writes: for a key present among the first `CurrentSize`
records of its addressed bucket, `HashDelete` removes the last record with
that ID: it writes the bucket back with the same `ActualPower`,
`CurrentSize - 1` and the records with that one erased, the later ones one
slot to the left in their order and the zero record in the final slot (the
number of record slots is kept).  When the bucket stays non-empty this is the
state that `HashDelete` returns, without error; when it becomes empty the
reclaim follows, and the slot still reads as written here when the buddy
entry `bucketPointer[pos >> 1]` designates another slot. -/
theorem record_removal (hash : DinamicHash) (k count : Int) (bucket : Bucket)
    (hcount : getBucketCount hash = some count)
    (hread : readBucket hash (Int.tmod k count) = some bucket)
    (hcap : bucket.CurrentSize.toNat ≤ bucket.Records.length)
    (hpres : ∃ x ∈ bucket.Records.take bucket.CurrentSize.toNat, x.ID = k) :
    ∃ (t : Nat) (off : Int) (hashA : DinamicHash),
      t < bucket.CurrentSize.toNat ∧ (∃ x, bucket.Records[t]? = some x ∧ x.ID = k) ∧
      (∀ (j : Nat) (x : BucketRecord), t < j → j < bucket.CurrentSize.toNat →
        bucket.Records[j]? = some x → x.ID ≠ k) ∧
      sliceGet hash.directory.bucketPointer (Int.tmod k count) = some off ∧
      insertIntoBucket hash (Int.tmod k count) bucket.ActualPower (bucket.CurrentSize - 1)
        (bucket.Records.eraseIdx t ++ [newBucketRecord]) = some hashA ∧
      readBucket hashA (Int.tmod k count) = some ⟨bucket.ActualPower, bucket.CurrentSize - 1,
        bucket.Records.eraseIdx t ++ [newBucketRecord]⟩ ∧
      (bucket.Records.eraseIdx t ++ [newBucketRecord]).length = bucket.Records.length ∧
      (bucket.CurrentSize ≠ 1 → HashDelete hash k = some (hashA, false)) ∧
      ∀ hash1 err, HashDelete hash k = some (hash1, err) → err = false ∧
        ∀ buddy, sliceGet hash.directory.bucketPointer (Int.tmod k count / 2) = some buddy →
          slotOf hash buddy ≠ slotOf hash off →
          readAt hash1 off = some ⟨bucket.ActualPower, bucket.CurrentSize - 1,
            bucket.Records.eraseIdx t ++ [newBucketRecord]⟩ := by
  obtain ⟨t0, hscan⟩ := deleteScan_total k bucket.CurrentSize.toNat bucket.Records 0 (-1) hcap
  obtain ⟨x0, hx0, hx0k⟩ := hpres
  rcases deleteScan_last k _ _ _ _ _ hscan (by decide) with ⟨_, hall⟩ | ⟨t, ht, htn, hm, hl⟩
  · exact absurd hx0k (hall x0 hx0)
  simp only [zero_add] at ht
  subst ht
  have htlen : t < bucket.Records.length := by omega
  have hposn : ¬ Int.tmod k count < 0 := by
    intro hneg
    unfold readBucket at hread
    rw [if_pos hneg] at hread
    simp only [Option.some.injEq] at hread
    subst hread
    simp at htlen
  have hr := hread
  unfold readBucket at hr
  rw [if_neg hposn] at hr
  obtain ⟨off, hoff, hat⟩ := bind_elim hr
  have hrl := readAt_length hat
  have hat2 := hat
  rw [readAt_eq] at hat2
  obtain ⟨s, hs, _⟩ := Option.map_eq_some'.mp hat2
  have hel : (bucket.Records.eraseIdx t ++ [newBucketRecord]).length = bucket.Records.length := by
    rw [List.length_append, List.length_eraseIdx_of_lt htlen]
    simp
    omega
  obtain ⟨hashA, hw⟩ : ∃ hashA, writeAt hash off ⟨bucket.ActualPower, bucket.CurrentSize - 1,
      bucket.Records.eraseIdx t ++ [newBucketRecord]⟩ = some hashA := by
    unfold writeAt
    rw [bind_of_eq_some hs]
    exact ⟨_, rfl⟩
  have hins : insertIntoBucket hash (Int.tmod k count) bucket.ActualPower
      (bucket.CurrentSize - 1) (bucket.Records.eraseIdx t ++ [newBucketRecord]) = some hashA := by
    unfold insertIntoBucket
    rw [bind_of_eq_some hoff]
    exact hw
  obtain ⟨hdA, hlfA, hbsA, _⟩ := writeAt_frame hw
  have hreadA : readAt hashA off = some ⟨bucket.ActualPower, bucket.CurrentSize - 1,
      bucket.Records.eraseIdx t ++ [newBucketRecord]⟩ := by
    rw [readAt_writeAt hw, if_pos rfl, decodeSlot_of_length (by rw [hel, hrl])]
  have hdel : HashDelete hash k = (if bucket.CurrentSize - 1 = 0 then do
        let old ← sliceGet hashA.directory.bucketPointer (Int.tmod k count)
        let buddy ← sliceGet hashA.directory.bucketPointer (Int.tmod k count / 2)
        let bp ← sliceSet hashA.directory.bucketPointer (Int.tmod k count) buddy
        let mergedBucket ← readBucket { hashA with directory := { hashA.directory with
          bucketPointer := bp, garbage := hashA.directory.garbage ++ [old] } } (Int.tmod k count)
        let hash3 ← insertIntoBucket { hashA with directory := { hashA.directory with
          bucketPointer := bp, garbage := hashA.directory.garbage ++ [old] } } (Int.tmod k count)
          (mergedBucket.ActualPower - 1) mergedBucket.CurrentSize mergedBucket.Records
        some (hash3, false)
      else some (hashA, false)) := by
    unfold HashDelete
    rw [bind_of_eq_some hcount]
    dsimp only
    rw [bind_of_eq_some hread, bind_of_eq_some hscan, if_neg (by omega)]
    simp only [Int.toNat_ofNat]
    rw [bind_of_eq_some (removal_eq bucket.Records t htlen), bind_of_eq_some hins]
  refine ⟨t, off, hashA, htn, hm, hl, hoff, hins, ?_, hel, ?_, ?_⟩
  · unfold readBucket
    rw [if_neg hposn, hdA, bind_of_eq_some hoff]
    exact hreadA
  · intro hne
    rw [hdel, if_neg (by omega)]
  · intro hash1 err h
    rw [hdel] at h
    split at h
    · obtain ⟨old, hold, h⟩ := bind_elim h
      obtain ⟨buddy, hbuddy, h⟩ := bind_elim h
      obtain ⟨bp, hbp, h⟩ := bind_elim h
      obtain ⟨merged, hmg, h⟩ := bind_elim h
      obtain ⟨hashC, hC, h⟩ := bind_elim h
      simp only [Option.some.injEq, Prod.mk.injEq] at h
      obtain ⟨rfl, rfl⟩ := h
      refine ⟨rfl, ?_⟩
      intro buddy2 hb2 hne
      rw [hdA] at hbuddy
      rw [hb2] at hbuddy
      simp only [Option.some.injEq] at hbuddy
      subst hbuddy
      unfold insertIntoBucket at hC
      obtain ⟨o2, ho2, hwC⟩ := bind_elim hC
      have ho2b : o2 = buddy2 := by
        obtain ⟨h0, h1, rfl⟩ := sliceSet_some hbp
        have : sliceGet (hashA.directory.bucketPointer.set (Int.tmod k count).toNat buddy2)
            (Int.tmod k count) = some buddy2 := by
          unfold sliceGet
          rw [if_neg hposn, List.getElem?_set_self h1]
        have ho3 : sliceGet (hashA.directory.bucketPointer.set (Int.tmod k count).toNat buddy2)
            (Int.tmod k count) = some o2 := ho2
        rw [this] at ho3
        exact (Option.some.inj ho3).symm
      subst ho2b
      rw [readAt_writeAt hwC, if_neg]
      · exact hreadA
      · intro heq
        apply hne
        have e1 : slotOf hash o2 = slotOf hashA o2 := by simp only [slotOf, hlfA, hbsA]
        have e2 : slotOf hash off = slotOf hashA off := by simp only [slotOf, hlfA, hbsA]
        rw [e1, e2]
        exact heq.symm
    · simp only [Option.some.injEq, Prod.mk.injEq] at h
      obtain ⟨rfl, rfl⟩ := h
      exact ⟨rfl, fun _ _ _ => hreadA⟩

/-- C5 (amended). On `newHash(8)` (`loadFactor = 9`, global depth 1) the
inserts of keys 0..7, with any addresses, cause no split and all eight keys are
readable; the insert of key 8 causes no split either, the global depth stays 1,
and keys 0..8 are all readable with their addresses. -/
theorem concrete_scenario (adr : Int → Int) :
    ∃ h0 h8 h9 : DinamicHash,
      newHash [] 8 = some h0 ∧ h0.loadFactor = 9 ∧ h0.directory.p = 1 ∧
      addAll ([0, 1, 2, 3, 4, 5, 6, 7].map (fun k => ⟨k, adr k⟩)) h0 = some (h8, 0) ∧
      (∀ k ∈ [0, 1, 2, 3, 4, 5, 6, 7], HashRead h8 k = some (adr k, decide (adr k < 0))) ∧
      addAll [⟨8, adr 8⟩] h8 = some (h9, 0) ∧ h9.directory.p = 1 ∧
      (∀ k ∈ [0, 1, 2, 3, 4, 5, 6, 7, 8], HashRead h9 k = some (adr k, decide (adr k < 0))) := by
  have hsz : (0 : Int) ≤ 8 := by decide
  have he : ([0, 1, 2, 3, 4, 5, 6, 7].map (fun k => (⟨k, adr k⟩ : BucketRecord))).filter evenKey
      = [⟨0, adr 0⟩, ⟨2, adr 2⟩, ⟨4, adr 4⟩, ⟨6, adr 6⟩] := by
    simp [evenKey]
  have ho : ([0, 1, 2, 3, 4, 5, 6, 7].map (fun k => (⟨k, adr k⟩ : BucketRecord))).filter oddKey
      = [⟨1, adr 1⟩, ⟨3, adr 3⟩, ⟨5, adr 5⟩, ⟨7, adr 7⟩] := by
    simp [oddKey]
  have he9 : [(⟨8, adr 8⟩ : BucketRecord)].filter evenKey = [⟨8, adr 8⟩] := by simp [evenKey]
  have ho9 : [(⟨8, adr 8⟩ : BucketRecord)].filter oddKey = [] := by simp [oddKey]
  have h8 := addAll_twoBuckets [] 8 hsz
    ([0, 1, 2, 3, 4, 5, 6, 7].map (fun k => (⟨k, adr k⟩ : BucketRecord))) [] []
    (by intro r hr; simp at hr; rcases hr with rfl | rfl | rfl | rfl | rfl | rfl | rfl | rfl <;> simp)
    (by rw [he]; simp) (by rw [ho]; simp)
  rw [he, ho, List.nil_append, List.nil_append] at h8
  have h9 := addAll_twoBuckets [] 8 hsz [⟨8, adr 8⟩]
    [⟨0, adr 0⟩, ⟨2, adr 2⟩, ⟨4, adr 4⟩, ⟨6, adr 6⟩] [⟨1, adr 1⟩, ⟨3, adr 3⟩, ⟨5, adr 5⟩, ⟨7, adr 7⟩]
    (by intro r hr; simp at hr; subst hr; simp) (by rw [he9]; simp) (by rw [ho9]; simp)
  rw [he9, ho9, List.append_nil] at h9
  have hlf : ((8 : Int) + 1).toNat = 9 := by decide
  refine ⟨_, _, _, newHash_twoBuckets [] 8 hsz (by decide), rfl, rfl, h8, ?_, h9, rfl, ?_⟩
  · intro k hk
    simp only [List.mem_cons, List.mem_singleton, List.not_mem_nil, or_false] at hk
    rcases hk with rfl | rfl | rfl | rfl | rfl | rfl | rfl | rfl
    · exact HashRead_indexOf [] 8 hsz _ _ 2 1 0 _ ⟨0, adr 0⟩ rfl
        (show (0 : Int) ≤ Int.tmod 0 2 by decide) rfl rfl (by rw [hlf]; simp) (by simp) (by simp)
    · exact HashRead_indexOf [] 8 hsz _ _ 2 1 1 _ ⟨1, adr 1⟩ rfl
        (show (0 : Int) ≤ Int.tmod 1 2 by decide) rfl rfl (by rw [hlf]; simp) (by simp) (by simp)
    · exact HashRead_indexOf [] 8 hsz _ _ 2 1 0 _ ⟨2, adr 2⟩ rfl
        (show (0 : Int) ≤ Int.tmod 2 2 by decide) rfl rfl (by rw [hlf]; simp) (by simp) (by simp)
    · exact HashRead_indexOf [] 8 hsz _ _ 2 1 1 _ ⟨3, adr 3⟩ rfl
        (show (0 : Int) ≤ Int.tmod 3 2 by decide) rfl rfl (by rw [hlf]; simp) (by simp) (by simp)
    · exact HashRead_indexOf [] 8 hsz _ _ 2 1 0 _ ⟨4, adr 4⟩ rfl
        (show (0 : Int) ≤ Int.tmod 4 2 by decide) rfl rfl (by rw [hlf]; simp) (by simp) (by simp)
    · exact HashRead_indexOf [] 8 hsz _ _ 2 1 1 _ ⟨5, adr 5⟩ rfl
        (show (0 : Int) ≤ Int.tmod 5 2 by decide) rfl rfl (by rw [hlf]; simp) (by simp) (by simp)
    · exact HashRead_indexOf [] 8 hsz _ _ 2 1 0 _ ⟨6, adr 6⟩ rfl
        (show (0 : Int) ≤ Int.tmod 6 2 by decide) rfl rfl (by rw [hlf]; simp) (by simp) (by simp)
    · exact HashRead_indexOf [] 8 hsz _ _ 2 1 1 _ ⟨7, adr 7⟩ rfl
        (show (0 : Int) ≤ Int.tmod 7 2 by decide) rfl rfl (by rw [hlf]; simp) (by simp) (by simp)
  · intro k hk
    simp only [List.mem_cons, List.mem_singleton, List.not_mem_nil, or_false] at hk
    rcases hk with rfl | rfl | rfl | rfl | rfl | rfl | rfl | rfl | rfl
    · exact HashRead_indexOf [] 8 hsz _ _ 2 1 0 _ ⟨0, adr 0⟩ rfl
        (show (0 : Int) ≤ Int.tmod 0 2 by decide) rfl rfl (by rw [hlf]; simp) (by simp) (by simp)
    · exact HashRead_indexOf [] 8 hsz _ _ 2 1 1 _ ⟨1, adr 1⟩ rfl
        (show (0 : Int) ≤ Int.tmod 1 2 by decide) rfl rfl (by rw [hlf]; simp) (by simp) (by simp)
    · exact HashRead_indexOf [] 8 hsz _ _ 2 1 0 _ ⟨2, adr 2⟩ rfl
        (show (0 : Int) ≤ Int.tmod 2 2 by decide) rfl rfl (by rw [hlf]; simp) (by simp) (by simp)
    · exact HashRead_indexOf [] 8 hsz _ _ 2 1 1 _ ⟨3, adr 3⟩ rfl
        (show (0 : Int) ≤ Int.tmod 3 2 by decide) rfl rfl (by rw [hlf]; simp) (by simp) (by simp)
    · exact HashRead_indexOf [] 8 hsz _ _ 2 1 0 _ ⟨4, adr 4⟩ rfl
        (show (0 : Int) ≤ Int.tmod 4 2 by decide) rfl rfl (by rw [hlf]; simp) (by simp) (by simp)
    · exact HashRead_indexOf [] 8 hsz _ _ 2 1 1 _ ⟨5, adr 5⟩ rfl
        (show (0 : Int) ≤ Int.tmod 5 2 by decide) rfl rfl (by rw [hlf]; simp) (by simp) (by simp)
    · exact HashRead_indexOf [] 8 hsz _ _ 2 1 0 _ ⟨6, adr 6⟩ rfl
        (show (0 : Int) ≤ Int.tmod 6 2 by decide) rfl rfl (by rw [hlf]; simp) (by simp) (by simp)
    · exact HashRead_indexOf [] 8 hsz _ _ 2 1 1 _ ⟨7, adr 7⟩ rfl
        (show (0 : Int) ≤ Int.tmod 7 2 by decide) rfl rfl (by rw [hlf]; simp) (by simp) (by simp)
    · exact HashRead_indexOf [] 8 hsz _ _ 2 1 0 _ ⟨8, adr 8⟩ rfl
        (show (0 : Int) ≤ Int.tmod 8 2 by decide) rfl rfl (by rw [hlf]; simp) (by simp) (by simp)


/-- C8. Directory doubling: for a directory of depth `p` with `2^p` entries,
`increasePower` returns a directory of depth `p + 1` with `2^(p+1)` entries
whose lower half is the old directory and whose entry at `i + 2^p` equals the
entry at `i` for every `i < 2^p`; nothing else of the structure changes. -/
theorem increasePower_doubles_directory (hash : DinamicHash) (hp : 0 ≤ hash.directory.p)
    (hlen : hash.directory.bucketPointer.length = 2 ^ hash.directory.p.toNat) :
    ∃ hash1, increasePower hash = some hash1 ∧
      hash1.directory.p = hash.directory.p + 1 ∧
      hash1.directory.bucketPointer.length = 2 ^ (hash.directory.p + 1).toNat ∧
      (∀ i : Nat, i < 2 ^ hash.directory.p.toNat →
        hash1.directory.bucketPointer[i]? = hash.directory.bucketPointer[i]? ∧
        hash1.directory.bucketPointer[i + 2 ^ hash.directory.p.toNat]?
          = hash.directory.bucketPointer[i]?) ∧
      hash1.directory.garbage = hash.directory.garbage ∧
      hash1.bucketFile = hash.bucketFile ∧ hash1.loadFactor = hash.loadFactor ∧
      hash1.bucketSize = hash.bucketSize := by
  refine ⟨_, increasePower_eq hash hp hlen, rfl, ?_, ?_, rfl, rfl, rfl, rfl⟩
  · have htn : (hash.directory.p + 1).toNat = hash.directory.p.toNat + 1 := by omega
    simp only [List.length_append, htn, pow_succ, hlen]
    omega
  · intro i hi
    rw [← hlen] at hi
    constructor
    · exact List.getElem?_append_left hi
    · rw [← hlen, List.getElem?_append_right (by omega)]
      congr 1
      omega

/-- Witness of C8 on the directory of `newHash(1)`. -/
theorem increasePower_doubles_directory_witness :
    (0 ≤ (built 1 []).directory.p ∧
      (built 1 []).directory.bucketPointer.length = 2 ^ (built 1 []).directory.p.toNat) ∧
    ∃ hash1, increasePower (built 1 []) = some hash1 ∧
      hash1.directory.p = (built 1 []).directory.p + 1 ∧
      hash1.directory.bucketPointer.length = 2 ^ ((built 1 []).directory.p + 1).toNat ∧
      (∀ i : Nat, i < 2 ^ (built 1 []).directory.p.toNat →
        hash1.directory.bucketPointer[i]? = (built 1 []).directory.bucketPointer[i]? ∧
        hash1.directory.bucketPointer[i + 2 ^ (built 1 []).directory.p.toNat]?
          = (built 1 []).directory.bucketPointer[i]?) ∧
      hash1.directory.garbage = (built 1 []).directory.garbage ∧
      hash1.bucketFile = (built 1 []).bucketFile ∧ hash1.loadFactor = (built 1 []).loadFactor ∧
      hash1.bucketSize = (built 1 []).bucketSize :=
  ⟨⟨by decide, by decide⟩, increasePower_doubles_directory (built 1 []) (by decide) (by decide)⟩

/-- Witness of C9: `newHash(1)`, three inserts (two of them split), one delete. -/
theorem directory_size_invariant_witness :
    (newHash [] 1 = some (built 1 []) ∧
      run (inserts [0, 2, 4]) (built 1 []) = some (built 1 (inserts [0, 2, 4])) ∧
      run [Op.delete 2] (built 1 (inserts [0, 2, 4]))
        = some (built 1 (inserts [0, 2, 4] ++ [Op.delete 2]))) ∧
    (1 ≤ (built 1 (inserts [0, 2, 4])).directory.p ∧
      (built 1 (inserts [0, 2, 4])).directory.bucketPointer.length
        = 2 ^ (built 1 (inserts [0, 2, 4])).directory.p.toNat ∧
      (built 1 (inserts [0, 2, 4])).directory.p
        ≤ (built 1 (inserts [0, 2, 4] ++ [Op.delete 2])).directory.p) :=
  ⟨⟨by decide, by decide, by decide⟩,
    directory_size_invariant [] 1 (inserts [0, 2, 4]) [Op.delete 2] (built 1 [])
      (built 1 (inserts [0, 2, 4])) (built 1 (inserts [0, 2, 4] ++ [Op.delete 2]))
      (by decide) (by decide) (by decide)⟩

/-- Witness of C10: the bucket at directory index 4 after three inserts. -/
theorem local_depth_le_global_witness :
    (newHash [] 1 = some (built 1 []) ∧
      run (inserts [0, 2, 4]) (built 1 []) = some (built 1 (inserts [0, 2, 4])) ∧
      readBucket (built 1 (inserts [0, 2, 4])) 4 = some ⟨3, 1, [⟨4, 104⟩, ⟨0, 0⟩]⟩) ∧
    (3 : Int) ≤ (built 1 (inserts [0, 2, 4])).directory.p :=
  ⟨⟨by decide, by decide, by decide⟩,
    local_depth_le_global [] 1 (inserts [0, 2, 4]) (built 1 [])
      (built 1 (inserts [0, 2, 4])) 4 ⟨3, 1, [⟨4, 104⟩, ⟨0, 0⟩]⟩
      (by decide) (by decide) (by decide)⟩

/-- Witness of C3: updating key 1 on `newHash(1)` holding keys 0 and 1. -/
theorem update_preserves_identity_witness :
    HashUpdate (built 1 (inserts [0, 1])) 1 777
        = some (built 1 (inserts [0, 1] ++ [Op.update 1 777]), false) ∧
    (HashRead (built 1 (inserts [0, 1] ++ [Op.update 1 777])) 1 = some (777, decide ((777 : Int) < 0)) ∧
      (∀ k2 : Int, k2 ≠ 1 → HashRead (built 1 (inserts [0, 1] ++ [Op.update 1 777])) k2
        = HashRead (built 1 (inserts [0, 1])) k2) ∧
      (built 1 (inserts [0, 1] ++ [Op.update 1 777])).directory.p
        = (built 1 (inserts [0, 1])).directory.p ∧
      (built 1 (inserts [0, 1] ++ [Op.update 1 777])).directory.bucketPointer
        = (built 1 (inserts [0, 1])).directory.bucketPointer ∧
      (built 1 (inserts [0, 1] ++ [Op.update 1 777])).directory.garbage
        = (built 1 (inserts [0, 1])).directory.garbage) :=
  ⟨by decide, update_preserves_identity _ _ 1 777 (by decide)⟩

/-- C1 (defect of the split). On `newHash(1)` the distinct keys 0, 2, 4, 7 are
inserted and key 7 is found with its address 107; after the further insert of
key 1, with no delete and no update, the lookup of key 7 reports not found.
The same happens on `newHash(8)`: after 21 inserts key 7 is found, and the
insert of key 17 makes its lookup fail. -/
theorem lookup_after_insert_lost :
    (HashRead (built 1 (inserts [0, 2, 4, 7])) 7 = some (107, false) ∧
      (newHash [] 1).bind (run (inserts [0, 2, 4, 7, 1]))
        = some (built 1 (inserts [0, 2, 4, 7, 1])) ∧
      HashRead (built 1 (inserts [0, 2, 4, 7, 1])) 7 = some (-1, true)) ∧
    (HashRead (built 8 (inserts [0, 2, 4, 6, 8, 10, 12, 14, 16, 20, 24, 28, 32,
        7, 1, 3, 5, 9, 11, 13, 15])) 7 = some (107, false) ∧
      ((newHash [] 8).bind (run (inserts [0, 2, 4, 6, 8, 10, 12, 14, 16, 20, 24, 28, 32,
        7, 1, 3, 5, 9, 11, 13, 15, 17]))).isSome = true ∧
      HashRead (built 8 (inserts [0, 2, 4, 6, 8, 10, 12, 14, 16, 20, 24, 28, 32,
        7, 1, 3, 5, 9, 11, 13, 15, 17])) 7 = some (-1, true)) := by
  decide

/-- C2 (defect of the split fallback). On `newHash(1)`, after inserting 1, 2,
3, deleting 2 and inserting 6, key 1 is present; `HashDelete(1)` returns
without error, and the lookup of key 1 still returns its address 101. -/
theorem delete_then_lookup_still_found :
    (newHash [] 1).bind (run (inserts [1, 2, 3] ++ [Op.delete 2] ++ inserts [6]))
        = some (built 1 (inserts [1, 2, 3] ++ [Op.delete 2] ++ inserts [6])) ∧
      HashRead (built 1 (inserts [1, 2, 3] ++ [Op.delete 2] ++ inserts [6])) 1
        = some (101, false) ∧
      (HashDelete (built 1 (inserts [1, 2, 3] ++ [Op.delete 2] ++ inserts [6])) 1).map Prod.snd
        = some false ∧
      ((HashDelete (built 1 (inserts [1, 2, 3] ++ [Op.delete 2] ++ inserts [6])) 1).bind
        (fun s => HashRead s.1 1)) = some (101, false) := by
  decide

/-- C5 (as stated, refuted). On `newHash(8)` the inserts of keys 0..7 cause no
split, and it is not the case that the insert of key 8 then splits once and
leaves the global depth at 2. -/
theorem concrete_scenario_no_split_at_eight :
    ((newHash [] 8).bind (addAll (keyed [0, 1, 2, 3, 4, 5, 6, 7]))).map Prod.snd = some 0 ∧
    ¬ ((((newHash [] 8).bind (addAll (keyed [0, 1, 2, 3, 4, 5, 6, 7]))).bind
        (fun s => addAll (keyed [8]) s.1)).map (fun s => (s.2, s.1.directory.p)) = some (1, 2)) := by
  decide

/-- Witness of C4: `newHash(1)` and the keys 0 and 2 of directory slot 0. -/
theorem split_correctness_witness :
    ((0 : Int) ≤ 1 ∧ slotBytes 1 ≤ MaxInt64 ∧ ((keyed [0, 2]).length : Int) = 1 + 1 ∧
      (∀ r ∈ keyed [0, 2], 0 ≤ r.ID) ∧
      ((keyed [0, 2]).map (fun x => x.ID)).Nodup ∧ (∀ r ∈ keyed [0, 2], r.ID % 2 = 0)) ∧
    ∃ h0 h1 h2 : DinamicHash,
      newHash [] 1 = some h0 ∧
      addAll (keyed [0, 2]).dropLast h0 = some (h1, 0) ∧
      addAll (keyed [0, 2]) h0 = some (h2, 1) ∧
      h2.directory.p = 2 ∧
      (∀ r ∈ keyed [0, 2], HashRead h2 r.ID = some (r.Address, decide (r.Address < 0))) ∧
      (∀ i : Int, (i = 0 ∨ i = 0 + 2) → ∃ b, readBucket h2 i = some b ∧ b.ActualPower = 2 ∧
        ∀ x ∈ b.Records.take b.CurrentSize.toNat, x.ID % 2 ^ b.ActualPower.toNat = i) :=
  ⟨⟨by decide, by decide, by decide, by decide, by decide, by decide⟩,
    split_correctness [] 1 (by decide) (by decide) (keyed [0, 2]) 0 (by decide) (by decide)
      (by decide) (by decide)⟩

/-- Witness of C6: on `newHash(1)` holding keys 1, 2, 3 the delete of key 2
empties the bucket at offset 0; after an update, the splitting insert of key 6
is given offset 0 again. -/
theorem merge_reclaims_space_witness :
    ((built 1 (inserts [1, 2, 3])).directory.garbage = [] ∧
      getBucketCount (built 1 (inserts [1, 2, 3])) = some 4 ∧
      readBucket (built 1 (inserts [1, 2, 3])) (Int.tmod 2 4) = some ⟨1, 1, [⟨2, 102⟩, ⟨0, 0⟩]⟩ ∧
      (⟨1, 1, [⟨2, 102⟩, ⟨0, 0⟩]⟩ : Bucket).CurrentSize = 1 ∧
      sliceGet (built 1 (inserts [1, 2, 3])).directory.bucketPointer (Int.tmod 2 4) = some 0 ∧
      HashDelete (built 1 (inserts [1, 2, 3])) 2
        = some (built 1 (inserts [1, 2, 3] ++ [Op.delete 2]), false) ∧
      quiet [Op.update 3 333] (built 1 (inserts [1, 2, 3] ++ [Op.delete 2])) ∧
      run [Op.update 3 333] (built 1 (inserts [1, 2, 3] ++ [Op.delete 2]))
        = some (built 1 (inserts [1, 2, 3] ++ [Op.delete 2, Op.update 3 333])) ∧
      splits (built 1 (inserts [1, 2, 3] ++ [Op.delete 2, Op.update 3 333])) ⟨6, 106⟩ = some true ∧
      addRecord (built 1 (inserts [1, 2, 3] ++ [Op.delete 2, Op.update 3 333])) ⟨6, 106⟩
        = some (built 1 (inserts [1, 2, 3] ++ [Op.delete 2, Op.update 3 333, Op.add ⟨6, 106⟩]))) ∧
    ((built 1 (inserts [1, 2, 3] ++ [Op.delete 2])).directory.garbage = [0] ∧
      ∃ hashA hashB,
        (hashA = built 1 (inserts [1, 2, 3] ++ [Op.delete 2, Op.update 3 333]) ∨
          increasePower (built 1 (inserts [1, 2, 3] ++ [Op.delete 2, Op.update 3 333]))
            = some hashA) ∧
        initializeNewBucket hashA 1 = some (hashB, [0]) ∧
        hashB.bucketFile.slots.length
          = (built 1 (inserts [1, 2, 3] ++ [Op.delete 2, Op.update 3 333])).bucketFile.slots.length ∧
        (0 : Int) ∈ (built 1 (inserts [1, 2, 3]
          ++ [Op.delete 2, Op.update 3 333, Op.add ⟨6, 106⟩])).directory.bucketPointer) :=
  have hq : quiet [Op.update 3 333] (built 1 (inserts [1, 2, 3] ++ [Op.delete 2])) := by
    simp [quiet]
  ⟨⟨by decide, by decide, by decide, by decide, by decide, by decide, hq, by decide, by decide,
      by decide⟩,
    merge_reclaims_space (built 1 (inserts [1, 2, 3]))
      (built 1 (inserts [1, 2, 3] ++ [Op.delete 2]))
      (built 1 (inserts [1, 2, 3] ++ [Op.delete 2, Op.update 3 333]))
      (built 1 (inserts [1, 2, 3] ++ [Op.delete 2, Op.update 3 333, Op.add ⟨6, 106⟩]))
      2 4 0 ⟨1, 1, [⟨2, 102⟩, ⟨0, 0⟩]⟩ [Op.update 3 333] ⟨6, 106⟩
      (by decide) (by decide) (by decide) (by decide) (by decide) (by decide) hq (by decide)
      (by decide) (by decide)⟩

/-- Witness of C7: the directory of `newHash(1)` after three inserts, written
over a longer old file. -/
theorem directory_round_trip_witness :
    Representable (built 1 (inserts [0, 2, 4])) ∧
    ∃ hash1, loadDinamicHash (Close (built 1 (inserts [0, 2, 4])) ++ [7, 7, 7])
        (fun _ => []) = some hash1 ∧
      hash1.directory.p = (built 1 (inserts [0, 2, 4])).directory.p ∧
      hash1.directory.bucketPointer = (built 1 (inserts [0, 2, 4])).directory.bucketPointer ∧
      hash1.directory.garbage = (built 1 (inserts [0, 2, 4])).directory.garbage ∧
      hash1.loadFactor = (built 1 (inserts [0, 2, 4])).loadFactor ∧
      hash1.bucketSize = (built 1 (inserts [0, 2, 4])).bucketSize ∧
      hash1.bucketFile.name = (built 1 (inserts [0, 2, 4])).bucketFile.name :=
  have hr : Representable (built 1 (inserts [0, 2, 4])) := by
    simp only [Representable, isInt64]
    decide
  ⟨hr, directory_round_trip (built 1 (inserts [0, 2, 4])) [7, 7, 7] (fun _ => []) hr⟩

/-- Witness of the slot-boundary invariant: offset 96 of the directory of
`newHash(1)` after three inserts. -/
theorem reachable_offsets_are_slots_witness :
    (newHash [] 1 = some (built 1 []) ∧
      run (inserts [0, 2, 4]) (built 1 []) = some (built 1 (inserts [0, 2, 4])) ∧
      ((96 : Int) ∈ (built 1 (inserts [0, 2, 4])).directory.bucketPointer ∨
        (96 : Int) ∈ (built 1 (inserts [0, 2, 4])).directory.garbage)) ∧
    ((built 1 (inserts [0, 2, 4])).bucketSize = 16 + 16 * (built 1 (inserts [0, 2, 4])).loadFactor ∧
      (0 : Int) ≤ 96 ∧ (96 : Int) % (built 1 (inserts [0, 2, 4])).bucketSize = 0 ∧
      ∃ k, slotOf (built 1 (inserts [0, 2, 4])) 96 = some k) :=
  ⟨⟨by decide, by decide, by decide⟩,
    reachable_offsets_are_slots [] 1 (inserts [0, 2, 4]) (built 1 []) (built 1 (inserts [0, 2, 4]))
      96 (by decide) (by decide) (by decide)⟩

/-- Witness of C11: the bucket at directory index 4 after three inserts on `newHash(1)`. -/
theorem bucket_size_bound_witness :
    ((1 : Int) ≤ 1 ∧ newHash [] 1 = some (built 1 []) ∧
      run (inserts [0, 2, 4]) (built 1 []) = some (built 1 (inserts [0, 2, 4])) ∧
      (0 : Int) ≤ 4 ∧ (4 : Int) < 2 ^ (built 1 (inserts [0, 2, 4])).directory.p.toNat) ∧
    ∃ b, readBucket (built 1 (inserts [0, 2, 4])) 4 = some b ∧ 0 ≤ b.CurrentSize ∧
      b.CurrentSize ≤ (built 1 (inserts [0, 2, 4])).loadFactor ∧
      (b.Records.length : Int) = (built 1 (inserts [0, 2, 4])).loadFactor :=
  ⟨⟨by decide, by decide, by decide, by decide, by decide⟩,
    bucket_size_bound [] 1 (inserts [0, 2, 4]) (built 1 []) (built 1 (inserts [0, 2, 4])) 4
      (by decide) (by decide) (by decide) (by decide) (by decide)⟩

/-- Witness of C12: the lookup of key 1 on `newHash(1)` holding keys 0 and 1. -/
theorem lookup_result_witness :
    (getBucketCount (built 1 (inserts [0, 1])) = some 2 ∧
      readBucket (built 1 (inserts [0, 1])) (Int.tmod 1 2) = some ⟨1, 1, [⟨1, 101⟩, ⟨0, 0⟩]⟩ ∧
      (1 : Int).toNat ≤ [(⟨1, 101⟩ : BucketRecord), ⟨0, 0⟩].length) ∧
    ((2 : Int) = 2 ^ (built 1 (inserts [0, 1])).directory.p.toNat ∧
    (0 ≤ Int.tmod 1 2 → ∃ off,
      sliceGet (built 1 (inserts [0, 1])).directory.bucketPointer (Int.tmod 1 2) = some off ∧
        readAt (built 1 (inserts [0, 1])) off = some ⟨1, 1, [⟨1, 101⟩, ⟨0, 0⟩]⟩) ∧
    (∀ x, ([(⟨1, 101⟩ : BucketRecord), ⟨0, 0⟩].take (1 : Int).toNat).find?
        (fun y => decide (y.ID = 1)) = some x →
        HashRead (built 1 (inserts [0, 1])) 1 = some (x.Address, decide (x.Address < 0))) ∧
    ((∀ x ∈ [(⟨1, 101⟩ : BucketRecord), ⟨0, 0⟩].take (1 : Int).toNat, x.ID ≠ 1) →
      HashRead (built 1 (inserts [0, 1])) 1 = some (-1, true))) :=
  ⟨⟨by decide, by decide, by decide⟩,
    lookup_result (built 1 (inserts [0, 1])) 1 2 ⟨1, 1, [⟨1, 101⟩, ⟨0, 0⟩]⟩
      (by decide) (by decide) (by decide)⟩

/-- Witness of C13: key 3 is absent from `newHash(1)` holding keys 0 and 1. -/
theorem not_found_atomicity_witness :
    (getBucketCount (built 1 (inserts [0, 1])) = some 2 ∧
      readBucket (built 1 (inserts [0, 1])) (Int.tmod 3 2) = some ⟨1, 1, [⟨1, 101⟩, ⟨0, 0⟩]⟩ ∧
      (1 : Int).toNat ≤ [(⟨1, 101⟩ : BucketRecord), ⟨0, 0⟩].length) ∧
    (((∀ x ∈ [(⟨1, 101⟩ : BucketRecord), ⟨0, 0⟩].take (1 : Int).toNat, x.ID ≠ 3) →
      HashUpdate (built 1 (inserts [0, 1])) 3 777 = some (built 1 (inserts [0, 1]), true) ∧
        HashDelete (built 1 (inserts [0, 1])) 3 = some (built 1 (inserts [0, 1]), true)) ∧
    (∀ hash1, HashUpdate (built 1 (inserts [0, 1])) 3 777 = some (hash1, true) →
      hash1 = built 1 (inserts [0, 1]) ∧
        ∀ x ∈ [(⟨1, 101⟩ : BucketRecord), ⟨0, 0⟩].take (1 : Int).toNat, x.ID ≠ 3) ∧
    (∀ hash1, HashDelete (built 1 (inserts [0, 1])) 3 = some (hash1, true) →
      hash1 = built 1 (inserts [0, 1]) ∧
        ∀ x ∈ [(⟨1, 101⟩ : BucketRecord), ⟨0, 0⟩].take (1 : Int).toNat, x.ID ≠ 3)) :=
  ⟨⟨by decide, by decide, by decide⟩,
    not_found_atomicity (built 1 (inserts [0, 1])) 3 777 2 ⟨1, 1, [⟨1, 101⟩, ⟨0, 0⟩]⟩
      (by decide) (by decide) (by decide)⟩

/-- C14, counterexample: a state of capacity 2 whose first slot stores the
record count 5; `readBucket` returns that bucket, count included. -/
theorem readBucket_accepts_oversized_count :
    (indexOf [] 1 [⟨1, 5, [⟨7, 107⟩, ⟨0, 0⟩]⟩, ⟨1, 0, [⟨0, 0⟩, ⟨0, 0⟩]⟩]
        (freshDirectory 1)).loadFactor = 2 ∧
      readBucket (indexOf [] 1 [⟨1, 5, [⟨7, 107⟩, ⟨0, 0⟩]⟩, ⟨1, 0, [⟨0, 0⟩, ⟨0, 0⟩]⟩]
        (freshDirectory 1)) 0 = some ⟨1, 5, [⟨7, 107⟩, ⟨0, 0⟩]⟩ := by
  decide

/-- Witness of C14 (amended): the slot with record count 5 in a state of capacity 2. -/
theorem readBucket_returns_decoded_slot_witness :
    ((0 : Int) ≤ 0 ∧
      sliceGet (indexOf [] 1 [⟨1, 5, [⟨7, 107⟩, ⟨0, 0⟩]⟩, ⟨1, 0, [⟨0, 0⟩, ⟨0, 0⟩]⟩]
        (freshDirectory 1)).directory.bucketPointer 0 = some 0 ∧
      slotOf (indexOf [] 1 [⟨1, 5, [⟨7, 107⟩, ⟨0, 0⟩]⟩, ⟨1, 0, [⟨0, 0⟩, ⟨0, 0⟩]⟩]
        (freshDirectory 1)) 0 = some 0 ∧
      (indexOf [] 1 [⟨1, 5, [⟨7, 107⟩, ⟨0, 0⟩]⟩, ⟨1, 0, [⟨0, 0⟩, ⟨0, 0⟩]⟩]
        (freshDirectory 1)).bucketFile.slots[0]? = some ⟨1, 5, [⟨7, 107⟩, ⟨0, 0⟩]⟩) ∧
    ∃ b, readBucket (indexOf [] 1 [⟨1, 5, [⟨7, 107⟩, ⟨0, 0⟩]⟩, ⟨1, 0, [⟨0, 0⟩, ⟨0, 0⟩]⟩]
        (freshDirectory 1)) 0 = some b ∧ b.ActualPower = 1 ∧ b.CurrentSize = 5 ∧
      b.Records.length = (indexOf [] 1 [⟨1, 5, [⟨7, 107⟩, ⟨0, 0⟩]⟩, ⟨1, 0, [⟨0, 0⟩, ⟨0, 0⟩]⟩]
        (freshDirectory 1)).loadFactor.toNat ∧
      b.Records = (([⟨7, 107⟩, ⟨0, 0⟩] : List BucketRecord) ++ List.replicate
        (indexOf [] 1 [⟨1, 5, [⟨7, 107⟩, ⟨0, 0⟩]⟩, ⟨1, 0, [⟨0, 0⟩, ⟨0, 0⟩]⟩]
          (freshDirectory 1)).loadFactor.toNat newBucketRecord).take
        (indexOf [] 1 [⟨1, 5, [⟨7, 107⟩, ⟨0, 0⟩]⟩, ⟨1, 0, [⟨0, 0⟩, ⟨0, 0⟩]⟩]
          (freshDirectory 1)).loadFactor.toNat :=
  ⟨⟨by decide, by decide, by decide, by decide⟩,
    readBucket_returns_decoded_slot
      (indexOf [] 1 [⟨1, 5, [⟨7, 107⟩, ⟨0, 0⟩]⟩, ⟨1, 0, [⟨0, 0⟩, ⟨0, 0⟩]⟩] (freshDirectory 1))
      0 0 0 ⟨1, 5, [⟨7, 107⟩, ⟨0, 0⟩]⟩ (by decide) (by decide) (by decide) (by decide)⟩

/-- C16 (as stated, refuted). At `size = MaxInt64 ≥ 0` the sum `size + 1` wraps
to `-2^63`, the `make` of that many records panics and `newHash` does not
return. -/
theorem fresh_index_fails_at_MaxInt64 :
    (0 : Int) ≤ MaxInt64 ∧ wrap64 (MaxInt64 + 1) = -9223372036854775808 ∧
      makeSlice (wrap64 (MaxInt64 + 1)) newBucketRecord = none ∧
      newHash [] MaxInt64 = none := by
  decide

/-- Witness of C16: `newHash(8)`. -/
theorem fresh_index_witness :
    (0 : Int) ≤ 8 ∧ slotBytes 8 ≤ MaxInt64 ∧
    ∃ hash, newHash [] 8 = some hash ∧ hash.loadFactor = 8 + 1 ∧
      hash.bucketSize = 16 + hash.loadFactor * 16 ∧ hash.directory.p = 1 ∧
      hash.directory.garbage = [] ∧ hash.directory.bucketPointer = [0, hash.bucketSize] ∧
      hash.bucketFile.slots.length = 2 ∧
      readBucket hash 0
        = some ⟨1, 0, List.replicate hash.loadFactor.toNat newBucketRecord⟩ ∧
      readBucket hash 1
        = some ⟨1, 0, List.replicate hash.loadFactor.toNat newBucketRecord⟩ :=
  ⟨by decide, by decide, fresh_index [] 8 (by decide) (by decide)⟩

/-- Witness of C15: three buckets on the state left by `newHash(1)`, the
inserts of 0 and 1 and the delete of 1, whose free list is `[48]` and whose
bucket file has two slots: offsets 48, 96 and 144. -/
theorem allocation_witness :
    ((0 : Int) ≤ 3 ∧ 0 ≤ (built 1 (inserts [0, 1] ++ [Op.delete 1])).loadFactor ∧
      (built 1 (inserts [0, 1] ++ [Op.delete 1])).bucketSize
        = 16 + 16 * (built 1 (inserts [0, 1] ++ [Op.delete 1])).loadFactor ∧
      (built 1 (inserts [0, 1] ++ [Op.delete 1])).directory.garbage = [48] ∧
      (built 1 (inserts [0, 1] ++ [Op.delete 1])).bucketFile.slots.length = 2 ∧
      ∀ o ∈ (built 1 (inserts [0, 1] ++ [Op.delete 1])).directory.garbage.take (3 : Int).toNat,
        Within (built 1 (inserts [0, 1] ++ [Op.delete 1])) o) ∧
    ∃ hash1 address,
      initializeNewBucket (built 1 (inserts [0, 1] ++ [Op.delete 1])) 3 = some (hash1, address) ∧
      address = (built 1 (inserts [0, 1] ++ [Op.delete 1])).directory.garbage.take (3 : Int).toNat ++
        (List.range ((3 : Int).toNat
            - (built 1 (inserts [0, 1] ++ [Op.delete 1])).directory.garbage.length)).map
          (fun (i : Nat) => seekEnd (built 1 (inserts [0, 1] ++ [Op.delete 1]))
            + (i : Int) * (built 1 (inserts [0, 1] ++ [Op.delete 1])).bucketSize) ∧
      address.length = (3 : Int).toNat ∧
      hash1.directory.garbage
        = (built 1 (inserts [0, 1] ++ [Op.delete 1])).directory.garbage.drop (3 : Int).toNat ∧
      hash1.bucketFile.slots.length
        = (built 1 (inserts [0, 1] ++ [Op.delete 1])).bucketFile.slots.length + ((3 : Int).toNat
            - (built 1 (inserts [0, 1] ++ [Op.delete 1])).directory.garbage.length) ∧
      (∀ o ∈ address, readAt hash1 o
        = some ⟨(built 1 (inserts [0, 1] ++ [Op.delete 1])).directory.p, 0,
            List.replicate (built 1 (inserts [0, 1] ++ [Op.delete 1])).loadFactor.toNat
              newBucketRecord⟩) ∧
      hash1.directory.p = (built 1 (inserts [0, 1] ++ [Op.delete 1])).directory.p ∧
      hash1.directory.bucketPointer
        = (built 1 (inserts [0, 1] ++ [Op.delete 1])).directory.bucketPointer ∧
      hash1.loadFactor = (built 1 (inserts [0, 1] ++ [Op.delete 1])).loadFactor ∧
      hash1.bucketSize = (built 1 (inserts [0, 1] ++ [Op.delete 1])).bucketSize :=
  ⟨⟨by decide, by decide, by decide, by decide, by decide,
      fun o ho => by
        have hg : (built 1 (inserts [0, 1] ++ [Op.delete 1])).directory.garbage = [48] := by
          decide
        rw [hg] at ho
        have h48 : o = 48 := by simpa using ho
        subst h48
        exact ⟨1, by decide, by decide⟩⟩,
    allocation (built 1 (inserts [0, 1] ++ [Op.delete 1])) 3 (by decide) (by decide) (by decide)
      (fun o ho => by
        have hg : (built 1 (inserts [0, 1] ++ [Op.delete 1])).directory.garbage = [48] := by
          decide
        rw [hg] at ho
        have h48 : o = 48 := by simpa using ho
        subst h48
        exact ⟨1, by decide, by decide⟩)⟩

/-- Witness of C20: the insert of key 4 on `newHash(2)`. -/
theorem insert_without_split_witness :
    ((0 : Int) ≤ (built 2 []).directory.p ∧
      (built 2 []).directory.bucketPointer.length = 2 ^ (built 2 []).directory.p.toNat ∧
      (0 : Int) ≤ (⟨4, 104⟩ : BucketRecord).ID ∧
      readBucket (built 2 []) ((⟨4, 104⟩ : BucketRecord).ID % 2 ^ (built 2 []).directory.p.toNat)
        = some ⟨1, 0, [⟨0, 0⟩, ⟨0, 0⟩, ⟨0, 0⟩]⟩ ∧
      (0 : Int) ≤ 0 ∧ (0 : Int) < (built 2 []).loadFactor - 1) ∧
    ∃ hash1 off, addRecord (built 2 []) ⟨4, 104⟩ = some hash1 ∧
      sliceGet (built 2 []).directory.bucketPointer
        ((⟨4, 104⟩ : BucketRecord).ID % 2 ^ (built 2 []).directory.p.toNat) = some off ∧
      readBucket hash1 ((⟨4, 104⟩ : BucketRecord).ID % 2 ^ (built 2 []).directory.p.toNat)
        = some ⟨1, 0 + 1, ([⟨0, 0⟩, ⟨0, 0⟩, ⟨0, 0⟩] : List BucketRecord).set (0 : Int).toNat
            ⟨4, 104⟩⟩ ∧
      hash1.directory = (built 2 []).directory ∧
      hash1.directory.bucketPointer.length = 2 ^ hash1.directory.p.toNat ∧
      hash1.loadFactor = (built 2 []).loadFactor ∧ hash1.bucketSize = (built 2 []).bucketSize ∧
      (∀ off2, slotOf (built 2 []) off2 ≠ slotOf (built 2 []) off →
        readAt hash1 off2 = readAt (built 2 []) off2) ∧
      (Within (built 2 []) off →
        hash1.bucketFile.slots.length = (built 2 []).bucketFile.slots.length) :=
  ⟨⟨by decide, by decide, by decide, by decide, by decide, by decide⟩,
    insert_without_split (built 2 []) ⟨4, 104⟩ ⟨1, 0, [⟨0, 0⟩, ⟨0, 0⟩, ⟨0, 0⟩]⟩
      (by decide) (by decide) (by decide) (by decide) (by decide) (by decide)⟩

/-- Witness of the allocation in a reachable state: three buckets after the
inserts of 0 and 1 and the delete of 1 on `newHash(1)`. -/
theorem reachable_allocation_witness :
    (newHash [] 1 = some (built 1 []) ∧
      run (inserts [0, 1] ++ [Op.delete 1]) (built 1 [])
        = some (built 1 (inserts [0, 1] ++ [Op.delete 1])) ∧ (0 : Int) ≤ 3) ∧
    (0 ≤ (built 1 (inserts [0, 1] ++ [Op.delete 1])).loadFactor ∧
      (built 1 (inserts [0, 1] ++ [Op.delete 1])).bucketSize
        = 16 + 16 * (built 1 (inserts [0, 1] ++ [Op.delete 1])).loadFactor ∧
      (∀ o ∈ (built 1 (inserts [0, 1] ++ [Op.delete 1])).directory.garbage,
        Within (built 1 (inserts [0, 1] ++ [Op.delete 1])) o) ∧
      ∃ hash2, initializeNewBucket (built 1 (inserts [0, 1] ++ [Op.delete 1])) 3 = some (hash2,
        (built 1 (inserts [0, 1] ++ [Op.delete 1])).directory.garbage.take (3 : Int).toNat ++
          (List.range ((3 : Int).toNat
              - (built 1 (inserts [0, 1] ++ [Op.delete 1])).directory.garbage.length)).map
            (fun (i : Nat) => seekEnd (built 1 (inserts [0, 1] ++ [Op.delete 1]))
              + (i : Int) * (built 1 (inserts [0, 1] ++ [Op.delete 1])).bucketSize)) ∧
        hash2.directory.garbage
          = (built 1 (inserts [0, 1] ++ [Op.delete 1])).directory.garbage.drop (3 : Int).toNat ∧
        hash2.bucketFile.slots.length
          = (built 1 (inserts [0, 1] ++ [Op.delete 1])).bucketFile.slots.length
            + ((3 : Int).toNat
              - (built 1 (inserts [0, 1] ++ [Op.delete 1])).directory.garbage.length)) :=
  ⟨⟨by decide, by decide, by decide⟩,
    reachable_allocation [] 1 (inserts [0, 1] ++ [Op.delete 1]) (built 1 [])
      (built 1 (inserts [0, 1] ++ [Op.delete 1])) 3 (by decide) (by decide) (by decide)⟩

/-- C21. On `newHash(1)` (capacity 2) the inserts of keys 0 and 4 complete, the
second one with a split that leaves both records in the bucket of directory
index 0, which then holds `loadFactor = 2` records; the insert of the new key
8, addressed to that bucket, takes the branch without split and does not
complete (the store `Records[2] = r` is out of range). -/
theorem insert_into_full_bucket_panics :
    newHash [] 1 = some (built 1 []) ∧
      run (inserts [0, 4]) (built 1 []) = some (built 1 (inserts [0, 4])) ∧
      splits (built 1 (inserts [0])) ⟨4, 104⟩ = some true ∧
      (built 1 (inserts [0, 4])).loadFactor = 2 ∧
      readBucket (built 1 (inserts [0, 4])) (Int.tmod 8 4)
        = some ⟨2, 2, [⟨0, 100⟩, ⟨4, 104⟩]⟩ ∧
      HashRead (built 1 (inserts [0, 4])) 8 = some (-1, true) ∧
      splits (built 1 (inserts [0, 4])) ⟨8, 108⟩ = some false ∧
      addRecord (built 1 (inserts [0, 4])) ⟨8, 108⟩ = none := by
  decide

/-- C27. On `newHash(1)`, after the insert and the delete of key 0 the free
list is `[0]` while `bucketPointer[0]` is still `0`; after the insert and the
delete of key 2 as well the free list is `[0, 0]`. -/
theorem free_list_meets_directory :
    newHash [] 1 = some (built 1 []) ∧
      run [Op.add ⟨0, 100⟩, Op.delete 0] (built 1 [])
        = some (built 1 [Op.add ⟨0, 100⟩, Op.delete 0]) ∧
      (built 1 [Op.add ⟨0, 100⟩, Op.delete 0]).directory.garbage = [0] ∧
      (built 1 [Op.add ⟨0, 100⟩, Op.delete 0]).directory.bucketPointer = [0, 48] ∧
      run [Op.add ⟨0, 100⟩, Op.delete 0, Op.add ⟨2, 102⟩, Op.delete 2] (built 1 [])
        = some (built 1 [Op.add ⟨0, 100⟩, Op.delete 0, Op.add ⟨2, 102⟩, Op.delete 2]) ∧
      (built 1 [Op.add ⟨0, 100⟩, Op.delete 0, Op.add ⟨2, 102⟩, Op.delete 2]).directory.garbage
        = [0, 0] ∧
      (built 1 [Op.add ⟨0, 100⟩, Op.delete 0, Op.add ⟨2, 102⟩, Op.delete 2]).directory.bucketPointer
        = [0, 48] := by
  decide

/-- C28. On `newHash(1)`, after the insert and delete of key 0 and the insert
and delete of key 2 the bucket of directory index 0 has `ActualPower = -1`,
for which `getBucketPower` has no value; after the insert of key 4 the insert
of key 6 splits that bucket and does not complete. -/
theorem local_depth_becomes_negative :
    newHash [] 1 = some (built 1 []) ∧
      run [Op.add ⟨0, 100⟩, Op.delete 0, Op.add ⟨2, 102⟩, Op.delete 2] (built 1 [])
        = some (built 1 [Op.add ⟨0, 100⟩, Op.delete 0, Op.add ⟨2, 102⟩, Op.delete 2]) ∧
      readBucket (built 1 [Op.add ⟨0, 100⟩, Op.delete 0, Op.add ⟨2, 102⟩, Op.delete 2]) 0
        = some ⟨-1, 0, [⟨0, 0⟩, ⟨0, 0⟩]⟩ ∧
      getBucketPower ⟨-1, 0, [⟨0, 0⟩, ⟨0, 0⟩]⟩ = none ∧
      run [Op.add ⟨4, 104⟩]
          (built 1 [Op.add ⟨0, 100⟩, Op.delete 0, Op.add ⟨2, 102⟩, Op.delete 2])
        = some (built 1 [Op.add ⟨0, 100⟩, Op.delete 0, Op.add ⟨2, 102⟩, Op.delete 2,
            Op.add ⟨4, 104⟩]) ∧
      splits (built 1 [Op.add ⟨0, 100⟩, Op.delete 0, Op.add ⟨2, 102⟩, Op.delete 2,
            Op.add ⟨4, 104⟩]) ⟨6, 106⟩ = some true ∧
      addRecord (built 1 [Op.add ⟨0, 100⟩, Op.delete 0, Op.add ⟨2, 102⟩, Op.delete 2,
            Op.add ⟨4, 104⟩]) ⟨6, 106⟩ = none := by
  decide

/-- Witness of C22: the insert of key 2 on `newHash(1)` holding key 0 splits a
bucket of local depth 1 at global depth 1. -/
theorem directory_doubles_when_witness :
    ((0 : Int) ≤ (⟨2, 102⟩ : BucketRecord).ID ∧
      getBucketCount (built 1 (inserts [0])) = some 2 ∧
      readBucket (built 1 (inserts [0])) ((⟨2, 102⟩ : BucketRecord).ID % 2)
        = some ⟨1, 1, [⟨0, 100⟩, ⟨0, 0⟩]⟩ ∧
      addRecord (built 1 (inserts [0])) ⟨2, 102⟩ = some (built 1 (inserts [0, 2]))) ∧
    WellFormed (built 1 (inserts [0])) ∧
    ((((1 : Int) = (built 1 (inserts [0])).loadFactor - 1 ∧
        (1 : Int) = (built 1 (inserts [0])).directory.p) →
      (built 1 (inserts [0, 2])).directory.p = (built 1 (inserts [0])).directory.p + 1 ∧
        (built 1 (inserts [0, 2])).directory.bucketPointer.length
          = 2 ^ ((built 1 (inserts [0])).directory.p + 1).toNat) ∧
    (¬ ((1 : Int) = (built 1 (inserts [0])).loadFactor - 1 ∧
        (1 : Int) = (built 1 (inserts [0])).directory.p) →
      (built 1 (inserts [0, 2])).directory.p = (built 1 (inserts [0])).directory.p ∧
        (built 1 (inserts [0, 2])).directory.bucketPointer.length
          = (built 1 (inserts [0])).directory.bucketPointer.length) ∧
    (WellFormed (built 1 (inserts [0])) →
      (built 1 (inserts [0])).bucketFile.slots.length
        ≤ (built 1 (inserts [0, 2])).bucketFile.slots.length ∧
      (built 1 (inserts [0, 2])).bucketFile.slots.length
        ≤ (built 1 (inserts [0])).bucketFile.slots.length + 1 ∧
      ((built 1 (inserts [0, 2])).directory.garbage = (built 1 (inserts [0])).directory.garbage ∨
        (built 1 (inserts [0, 2])).directory.garbage
          = (built 1 (inserts [0])).directory.garbage.tail) ∧
      ((1 : Int) ≠ (built 1 (inserts [0])).loadFactor - 1 →
        (built 1 (inserts [0, 2])).bucketFile.slots.length
            = (built 1 (inserts [0])).bucketFile.slots.length ∧
          (built 1 (inserts [0, 2])).directory.garbage
            = (built 1 (inserts [0])).directory.garbage))) :=
  ⟨⟨by decide, by decide, by decide, by decide⟩,
    run_wellFormed (inserts [0]) (built 1 []) (built 1 (inserts [0]))
      (newHash_wellFormed (show newHash [] 1 = some (built 1 []) by decide) (by decide)
        (by decide))
      (by decide),
    directory_doubles_when (built 1 (inserts [0])) (built 1 (inserts [0, 2])) ⟨2, 102⟩ 2
      ⟨1, 1, [⟨0, 100⟩, ⟨0, 0⟩]⟩ (by decide) (by decide) (by decide) (by decide)⟩

/-- Instance of `split_partition`: the insert of key 2 on `newHash(1)` holding key 0. -/
theorem split_partition_witness :
    (getBucketCount (built 1 (inserts [0])) = some 2 ∧
      readBucket (built 1 (inserts [0])) (Int.tmod (⟨2, 102⟩ : BucketRecord).ID 2)
        = some ⟨1, 1, [⟨0, 100⟩, ⟨0, 0⟩]⟩ ∧
      (1 : Int) = (built 1 (inserts [0])).loadFactor - 1 ∧
      addRecord (built 1 (inserts [0])) ⟨2, 102⟩ = some (built 1 (inserts [0, 2]))) ∧
    ∃ (hashB hashC : DinamicHash) (count2 pos newPos : Int) (stay move : List BucketRecord),
      (pos, newPos) = splitIndices (2 ^ (1 : Int).toNat)
        (Int.tmod (⟨2, 102⟩ : BucketRecord).ID 2) count2 ∧
      stay = (([⟨0, 100⟩, ⟨0, 0⟩] : List BucketRecord).take (1 : Int).toNat ++ [(⟨2, 102⟩ : BucketRecord)]).filter
        (fun x => decide (Int.tmod x.ID (2 ^ ((1 : Int) + 1).toNat) = pos)) ∧
      move = (([⟨0, 100⟩, ⟨0, 0⟩] : List BucketRecord).take (1 : Int).toNat ++ [(⟨2, 102⟩ : BucketRecord)]).filter
        (fun x => !decide (Int.tmod x.ID (2 ^ ((1 : Int) + 1).toNat) = pos)) ∧
      ((stay.length : Int) + move.length = (built 1 (inserts [0])).loadFactor) ∧
      (stay ++ move).Perm
        (([⟨0, 100⟩, ⟨0, 0⟩] : List BucketRecord).take (1 : Int).toNat ++ [(⟨2, 102⟩ : BucketRecord)]) ∧
      stay.Sublist
        (([⟨0, 100⟩, ⟨0, 0⟩] : List BucketRecord).take (1 : Int).toNat ++ [(⟨2, 102⟩ : BucketRecord)]) ∧
      move.Sublist
        (([⟨0, 100⟩, ⟨0, 0⟩] : List BucketRecord).take (1 : Int).toNat ++ [(⟨2, 102⟩ : BucketRecord)]) ∧
      insertIntoBucket hashB pos ((1 : Int) + 1) stay.length
        (padded (built 1 (inserts [0])).loadFactor stay) = some hashC ∧
      insertIntoBucket hashC newPos ((1 : Int) + 1) move.length
        (padded (built 1 (inserts [0])).loadFactor move) = some (built 1 (inserts [0, 2])) ∧
      readBucket (built 1 (inserts [0, 2])) newPos
        = some (filled ((1 : Int) + 1) (built 1 (inserts [0])).loadFactor move) ∧
      ∀ o1 o2, sliceGet (built 1 (inserts [0, 2])).directory.bucketPointer pos = some o1 →
        sliceGet (built 1 (inserts [0, 2])).directory.bucketPointer newPos = some o2 →
        slotOf (built 1 (inserts [0])) o1 ≠ slotOf (built 1 (inserts [0])) o2 →
        readBucket (built 1 (inserts [0, 2])) pos
          = some (filled ((1 : Int) + 1) (built 1 (inserts [0])).loadFactor stay) :=
  ⟨⟨by decide, by decide, by decide, by decide⟩,
    split_partition (built 1 (inserts [0])) (built 1 (inserts [0, 2])) ⟨2, 102⟩ 2
      ⟨1, 1, [⟨0, 100⟩, ⟨0, 0⟩]⟩ (by decide) (by decide) (by decide) (by decide)⟩

/-- Witness of C29: the split for key 2 on `newHash(1)` holding key 0. -/
theorem split_indices_valid_witness :
    ((0 : Int) ≤ (built 1 (inserts [0])).directory.p ∧
      (built 1 (inserts [0])).directory.bucketPointer.length
        = 2 ^ (built 1 (inserts [0])).directory.p.toNat ∧
      (0 : Int) ≤ (⟨2, 102⟩ : BucketRecord).ID ∧
      readBucket (built 1 (inserts [0]))
          ((⟨2, 102⟩ : BucketRecord).ID % 2 ^ (built 1 (inserts [0])).directory.p.toNat)
        = some ⟨1, 1, [⟨0, 100⟩, ⟨0, 0⟩]⟩ ∧
      (0 : Int) ≤ 1 ∧ (1 : Int) ≤ (built 1 (inserts [0])).directory.p) ∧
    ∃ (hashA : DinamicHash) (pos newPos : Int),
      (if (1 : Int) = (built 1 (inserts [0])).directory.p
          then increasePower (built 1 (inserts [0])) else some (built 1 (inserts [0])))
        = some hashA ∧
      (pos, newPos) = splitIndices (2 ^ (1 : Int).toNat)
        ((⟨2, 102⟩ : BucketRecord).ID % 2 ^ (built 1 (inserts [0])).directory.p.toNat)
        (2 ^ hashA.directory.p.toNat) ∧
      0 ≤ pos ∧ pos < hashA.directory.bucketPointer.length ∧
      0 ≤ newPos ∧ newPos < hashA.directory.bucketPointer.length ∧
      pos ≠ newPos ∧
      pos % 2 ^ (1 : Int).toNat = newPos % 2 ^ (1 : Int).toNat ∧
      ∀ hash1, (1 : Int) = (built 1 (inserts [0])).loadFactor - 1 →
        addRecord (built 1 (inserts [0])) ⟨2, 102⟩ = some hash1 →
        ∃ (hashB hashC : DinamicHash) (address bp : List Int) (a : Int) (b1 b2 : Bucket),
          initializeNewBucket hashA 1 = some (hashB, address) ∧
          sliceGet address 0 = some a ∧
          sliceSet hashB.directory.bucketPointer newPos a = some bp ∧
          insertIntoBucket
            { hashB with directory := { hashB.directory with bucketPointer := bp } }
            pos b1.ActualPower b1.CurrentSize b1.Records = some hashC ∧
          insertIntoBucket hashC newPos b2.ActualPower b2.CurrentSize b2.Records = some hash1 ∧
          hash1.directory.bucketPointer = bp ∧
          bp.length = hashA.directory.bucketPointer.length :=
  ⟨⟨by decide, by decide, by decide, by decide, by decide, by decide⟩,
    split_indices_valid (built 1 (inserts [0])) ⟨2, 102⟩ ⟨1, 1, [⟨0, 100⟩, ⟨0, 0⟩]⟩
      (by decide) (by decide) (by decide) (by decide) (by decide) (by decide)⟩

/-- Instance of `record_removal`: the delete of key 0 on `newHash(2)` holding keys 0
and 2. -/
theorem record_removal_witness :
    (getBucketCount (built 2 (inserts [0, 2])) = some 2 ∧
      readBucket (built 2 (inserts [0, 2])) (Int.tmod 0 2)
        = some ⟨1, 2, [⟨0, 100⟩, ⟨2, 102⟩, ⟨0, 0⟩]⟩ ∧
      (2 : Int).toNat ≤ ([⟨0, 100⟩, ⟨2, 102⟩, ⟨0, 0⟩] : List BucketRecord).length ∧
      ∃ x ∈ ([⟨0, 100⟩, ⟨2, 102⟩, ⟨0, 0⟩] : List BucketRecord).take (2 : Int).toNat, x.ID = 0) ∧
    ∃ (t : Nat) (off : Int) (hashA : DinamicHash),
      t < (2 : Int).toNat ∧
      (∃ x, ([⟨0, 100⟩, ⟨2, 102⟩, ⟨0, 0⟩] : List BucketRecord)[t]? = some x ∧ x.ID = 0) ∧
      (∀ (j : Nat) (x : BucketRecord), t < j → j < (2 : Int).toNat →
        ([⟨0, 100⟩, ⟨2, 102⟩, ⟨0, 0⟩] : List BucketRecord)[j]? = some x → x.ID ≠ 0) ∧
      sliceGet (built 2 (inserts [0, 2])).directory.bucketPointer (Int.tmod 0 2) = some off ∧
      insertIntoBucket (built 2 (inserts [0, 2])) (Int.tmod 0 2) 1 ((2 : Int) - 1)
        (([⟨0, 100⟩, ⟨2, 102⟩, ⟨0, 0⟩] : List BucketRecord).eraseIdx t ++ [newBucketRecord])
        = some hashA ∧
      readBucket hashA (Int.tmod 0 2) = some ⟨1, (2 : Int) - 1,
        ([⟨0, 100⟩, ⟨2, 102⟩, ⟨0, 0⟩] : List BucketRecord).eraseIdx t ++ [newBucketRecord]⟩ ∧
      (([⟨0, 100⟩, ⟨2, 102⟩, ⟨0, 0⟩] : List BucketRecord).eraseIdx t ++ [newBucketRecord]).length
        = ([⟨0, 100⟩, ⟨2, 102⟩, ⟨0, 0⟩] : List BucketRecord).length ∧
      ((2 : Int) ≠ 1 → HashDelete (built 2 (inserts [0, 2])) 0 = some (hashA, false)) ∧
      ∀ hash1 err, HashDelete (built 2 (inserts [0, 2])) 0 = some (hash1, err) → err = false ∧
        ∀ buddy, sliceGet (built 2 (inserts [0, 2])).directory.bucketPointer (Int.tmod 0 2 / 2)
            = some buddy →
          slotOf (built 2 (inserts [0, 2])) buddy ≠ slotOf (built 2 (inserts [0, 2])) off →
          readAt hash1 off = some ⟨1, (2 : Int) - 1,
            ([⟨0, 100⟩, ⟨2, 102⟩, ⟨0, 0⟩] : List BucketRecord).eraseIdx t
              ++ [newBucketRecord]⟩ :=
  ⟨⟨by decide, by decide, by decide, by decide⟩,
    record_removal (built 2 (inserts [0, 2])) 0 2 ⟨1, 2, [⟨0, 100⟩, ⟨2, 102⟩, ⟨0, 0⟩]⟩
      (by decide) (by decide) (by decide) (by decide)⟩

/-- C23 (defect of the reclaim, met by the split). On `newHash(8)`, after the
insert and the delete of key 0 the free list holds offset 0, which
`bucketPointer[0]` still designates; after the inserts of keys 2, 4, ..., 16
the bucket of directory index 0 holds `loadFactor - 1 = 8` records and the
insert of key 18 splits it, with `pos = 0` and `newPos = 1`.  The allocator
hands out offset 0, so both directory entries designate slot 0: the write at
`newPos` (no record) overwrites the write at `pos` (the nine records), the
bucket of index 0 reads back empty and none of the nine keys is found. -/
theorem split_overwrites_reused_slot :
    run ([Op.add ⟨0, 100⟩, Op.delete 0] ++ inserts [2, 4, 6, 8, 10, 12, 14, 16]) (built 8 [])
        = some (built 8 ([Op.add ⟨0, 100⟩, Op.delete 0]
            ++ inserts [2, 4, 6, 8, 10, 12, 14, 16])) ∧
      (built 8 ([Op.add ⟨0, 100⟩, Op.delete 0]
          ++ inserts [2, 4, 6, 8, 10, 12, 14, 16])).directory.garbage = [0] ∧
      (built 8 ([Op.add ⟨0, 100⟩, Op.delete 0]
          ++ inserts [2, 4, 6, 8, 10, 12, 14, 16])).directory.bucketPointer = [0, 160] ∧
      (built 8 ([Op.add ⟨0, 100⟩, Op.delete 0]
          ++ inserts [2, 4, 6, 8, 10, 12, 14, 16])).loadFactor = 9 ∧
      readBucket (built 8 ([Op.add ⟨0, 100⟩, Op.delete 0]
          ++ inserts [2, 4, 6, 8, 10, 12, 14, 16])) (Int.tmod 18 2)
        = some ⟨0, 8, keyed [2, 4, 6, 8, 10, 12, 14, 16] ++ [⟨0, 0⟩]⟩ ∧
      splits (built 8 ([Op.add ⟨0, 100⟩, Op.delete 0]
          ++ inserts [2, 4, 6, 8, 10, 12, 14, 16])) ⟨18, 118⟩ = some true ∧
      splitIndices (2 ^ 0) (Int.tmod 18 2) 2 = (0, 1) ∧
      addRecord (built 8 ([Op.add ⟨0, 100⟩, Op.delete 0]
          ++ inserts [2, 4, 6, 8, 10, 12, 14, 16])) ⟨18, 118⟩
        = some (built 8 ([Op.add ⟨0, 100⟩, Op.delete 0]
            ++ inserts [2, 4, 6, 8, 10, 12, 14, 16, 18])) ∧
      (built 8 ([Op.add ⟨0, 100⟩, Op.delete 0]
          ++ inserts [2, 4, 6, 8, 10, 12, 14, 16, 18])).directory.bucketPointer = [0, 0] ∧
      readBucket (built 8 ([Op.add ⟨0, 100⟩, Op.delete 0]
          ++ inserts [2, 4, 6, 8, 10, 12, 14, 16, 18])) 0
        = some ⟨1, 0, List.replicate 9 ⟨0, 0⟩⟩ ∧
      ∀ k ∈ [2, 4, 6, 8, 10, 12, 14, 16, 18],
        HashRead (built 8 ([Op.add ⟨0, 100⟩, Op.delete 0]
          ++ inserts [2, 4, 6, 8, 10, 12, 14, 16, 18])) k = some (-1, true) := by
  decide

/-- C24 (defect of the reclaim). On `newHash(1)` holding key 0 the bucket of
directory index 0 has `ActualPower = 1` and one record.  `HashDelete(0)`
returns without error and leaves `bucketPointer` as it was, and the bucket of
index 0, the one the record was removed from, then has `ActualPower = 0`: the
reclaim took `bucketPointer[0 >> 1]`, the emptied bucket itself, for the buddy
and decremented its depth. -/
theorem removal_decrements_own_depth :
    newHash [] 1 = some (built 1 []) ∧
      run [Op.add ⟨0, 100⟩] (built 1 []) = some (built 1 [Op.add ⟨0, 100⟩]) ∧
      (built 1 [Op.add ⟨0, 100⟩]).directory.bucketPointer = [0, 48] ∧
      readBucket (built 1 [Op.add ⟨0, 100⟩]) (Int.tmod 0 2)
        = some ⟨1, 1, [⟨0, 100⟩, ⟨0, 0⟩]⟩ ∧
      (HashDelete (built 1 [Op.add ⟨0, 100⟩]) 0).map Prod.snd = some false ∧
      (HashDelete (built 1 [Op.add ⟨0, 100⟩]) 0).map (fun s => s.1.directory.bucketPointer)
        = some [0, 48] ∧
      (HashDelete (built 1 [Op.add ⟨0, 100⟩]) 0).bind (fun s => readBucket s.1 (Int.tmod 0 2))
        = some ⟨0, 0, [⟨0, 0⟩, ⟨0, 0⟩]⟩ := by
  decide

end HashingDinamico

namespace Kmp

open HashingDinamico (sliceGet sliceSet)

theorem lowerByte_swapCase (b : Nat) : lowerByte (swapCase b) = lowerByte b := by
  unfold lowerByte swapCase
  split_ifs <;> omega

theorem ToLower_caseVariant {s t : List Nat} (h : caseVariant s t) : ToLower t = ToLower s := by
  unfold caseVariant at h
  induction h with
  | nil => rfl
  | cons hab _ ih =>
    simp only [ToLower, List.map_cons, List.cons.injEq] at ih ⊢
    refine ⟨?_, ih⟩
    rcases hab with rfl | rfl
    · rfl
    · exact lowerByte_swapCase _

/-- C17. On haystack `"aaa"` and needle `"aa"` the table of `preKMP` has
`kmpNext[2] = 0` (the entry for the whole needle is never computed), `kmp`
returns only position 0, and the needle occurs at positions 0 and 1. -/
theorem kmp_skips_overlapping_occurrence :
    (preKMP [97, 97]).bind (fun kmpNext => sliceGet kmpNext 2) = some 0 ∧
      kmp [97, 97, 97] [97, 97] = some [0] ∧
      occurrences [97, 97, 97] [97, 97] = [0, 1] := by
  decide

/-- C18. On haystack `"ababa"` and needle `"aba"`, `SearchNext` returns 0
although the needle also occurs at position 2. -/
theorem SearchNext_not_last_occurrence :
    SearchNext [97, 98, 97, 98, 97] [97, 98, 97] = some 0 ∧
      occursAt [97, 98, 97, 98, 97] [97, 98, 97] 2 := by
  decide

/-- C19. Case-insensitive search: on ASCII strings `SearchString` is `kmp` on
the lowercased strings, so its result is the same for any strings obtained by
changing the letter case of characters of the haystack and of the needle. -/
theorem SearchString_case_insensitive (haystack needle : List Nat)
    (_hh : isASCII haystack) (_hn : isASCII needle) :
    SearchString haystack needle = kmp (ToLower haystack) (ToLower needle) ∧
      ∀ haystack1 needle1, caseVariant haystack haystack1 → caseVariant needle needle1 →
        SearchString haystack1 needle1 = SearchString haystack needle := by
  refine ⟨rfl, ?_⟩
  intro haystack1 needle1 h1 h2
  unfold SearchString
  rw [ToLower_caseVariant h1, ToLower_caseVariant h2]

/-- Witness of C19: `"PiKa"` in `"Pikachu"` against `"pIkA"` in `"PIKACHU"`. -/
theorem SearchString_case_insensitive_witness :
    (isASCII [80, 105, 107, 97, 99, 104, 117] ∧ isASCII [80, 105, 75, 97]) ∧
    (SearchString [80, 105, 107, 97, 99, 104, 117] [80, 105, 75, 97]
        = kmp (ToLower [80, 105, 107, 97, 99, 104, 117]) (ToLower [80, 105, 75, 97]) ∧
      ∀ haystack1 needle1, caseVariant [80, 105, 107, 97, 99, 104, 117] haystack1 →
        caseVariant [80, 105, 75, 97] needle1 →
        SearchString haystack1 needle1
          = SearchString [80, 105, 107, 97, 99, 104, 117] [80, 105, 75, 97]) :=
  ⟨⟨by simp [isASCII], by simp [isASCII]⟩,
    SearchString_case_insensitive [80, 105, 107, 97, 99, 104, 117] [80, 105, 75, 97]
      (by simp [isASCII]) (by simp [isASCII])⟩

theorem sliceGet_of_lt {α : Type} (xs : List α) (i : Int) (h0 : 0 ≤ i) (h1 : i < xs.length) :
    ∃ c, sliceGet xs i = some c := by
  unfold sliceGet
  rw [if_neg (by omega)]
  exact ⟨xs[i.toNat], List.getElem?_eq_getElem (by omega)⟩

theorem sliceGet_none_of_le {α : Type} (xs : List α) (i : Int) (h : (xs.length : Int) ≤ i) :
    sliceGet xs i = none := by
  unfold sliceGet
  rw [if_neg (by omega)]
  exact List.getElem?_eq_none (by omega)

theorem sliceGet_nat {α : Type} (xs : List α) (n : Nat) : sliceGet xs (n : Int) = xs[n]? := by
  unfold sliceGet
  rw [if_neg (by omega)]
  rfl

theorem sliceSet_of_lt {α : Type} (xs : List α) (i : Int) (v : α) (h0 : 0 ≤ i)
    (h1 : i < xs.length) : ∃ ys, sliceSet xs i v = some ys := by
  unfold sliceSet
  rw [if_pos ⟨h0, by omega⟩]
  exact ⟨_, rfl⟩

theorem sliceGet_sliceSet {α : Type} {xs ys : List α} {i : Int} {v : α}
    (h : sliceSet xs i v = some ys) (j : Int) :
    sliceGet ys j = if j = i then some v else sliceGet xs j := by
  obtain ⟨h0, h1, rfl⟩ := HashingDinamico.sliceSet_some h
  unfold sliceGet
  by_cases hj : j < 0
  · rw [if_pos hj, if_pos hj, if_neg (by omega)]
  · rw [if_neg hj, if_neg hj]
    by_cases hji : j = i
    · subst hji
      rw [if_pos rfl, List.getElem?_set_self h1]
    · rw [if_neg hji, List.getElem?_set_ne (by omega)]

/-- The inner loop on a table that leads from every index `v` in `0..vmax` to
a smaller one, along which the property `Q` is kept: with enough budget it
ends at an index `v1` with `Q v1` that is `-1` or at which the characters
agree. -/
theorem slide_spec (next : List Int) (x y : List Nat) (w vmax : Int) (Q : Int → Prop)
    (hx : ∀ v, 0 ≤ v → v ≤ vmax → ∃ c, sliceGet x v = some c)
    (hy : ∃ c, sliceGet y w = some c)
    (htab : ∀ v, 0 ≤ v → v ≤ vmax → ∃ k, sliceGet next v = some k ∧ -1 ≤ k ∧ k < v ∧
      (Q v → Q k)) :
    ∀ (fuel : Nat) (v : Int), -1 ≤ v → v ≤ vmax → (v + 1).toNat ≤ fuel → Q v →
      ∃ v1, slide next x y w fuel v = some v1 ∧ -1 ≤ v1 ∧ v1 ≤ v ∧ Q v1 ∧
        (v1 = -1 ∨ (0 ≤ v1 ∧ sliceGet x v1 = sliceGet y w)) := by
  intro fuel
  induction fuel with
  | zero =>
    intro v h0 _ hf hq
    have hv : v = -1 := by omega
    subst hv
    exact ⟨-1, by unfold slide; rfl, le_refl _, le_refl _, hq, Or.inl rfl⟩
  | succ f ih =>
    intro v h0 h1 hf hq
    by_cases hv : v > -1
    · obtain ⟨a, ha⟩ := hx v (by omega) h1
      obtain ⟨b, hb⟩ := hy
      by_cases hab : a = b
      · refine ⟨v, ?_, h0, le_refl _, hq, Or.inr ⟨by omega, by rw [ha, hb, hab]⟩⟩
        unfold slide
        rw [if_pos hv, HashingDinamico.bind_of_eq_some ha, HashingDinamico.bind_of_eq_some hb,
          if_neg (by simpa using hab)]
      · obtain ⟨k, hk, hk0, hk1, hkq⟩ := htab v (by omega) h1
        obtain ⟨v1, e1, e2, e3, e4, e5⟩ := ih k hk0 (by omega) (by omega) (hkq hq)
        refine ⟨v1, ?_, e2, by omega, e4, e5⟩
        unfold slide
        rw [if_pos hv, HashingDinamico.bind_of_eq_some ha, HashingDinamico.bind_of_eq_some hb,
          if_pos hab]
        dsimp only
        rw [HashingDinamico.bind_of_eq_some hk]
        exact e1
    · refine ⟨v, ?_, h0, le_refl _, hq, Or.inl (by omega)⟩
      unfold slide
      rw [if_neg hv]

theorem Pref_trans {x y : List Nat} {k v s : Int} (h1 : Pref x x k (v - k)) (h2 : Pref x y v s)
    (hkv : k ≤ v) : Pref x y k (s + v - k) := by
  intro t ht0 ht1
  rw [h1 t ht0 ht1, h2 (v - k + t) (by omega) (by omega)]
  congr 1
  ring

theorem Pref_succ {x y : List Nat} {k s : Int} (h : k = -1 ∨ (0 ≤ k ∧ Pref x y k s))
    (hlast : k = -1 ∨ sliceGet x k = sliceGet y (s + k)) (hk : -1 ≤ k) : Pref x y (k + 1) s := by
  intro t ht0 ht1
  by_cases htk : t = k
  · subst htk
    rcases hlast with h1 | h1
    · omega
    · exact h1
  · rcases h with h1 | ⟨_, h1⟩
    · omega
    · exact h1 t ht0 (by omega)

theorem preLoop_spec (x : List Nat) : ∀ (n : Nat) (i j : Int) (next : List Int),
    PreInv x next i j → i + n + 1 ≤ x.length → i + n < PatternSize →
    ∃ next1 j1, preLoop x n i j next = some next1 ∧ PreInv x next1 (i + n) j1 := by
  intro n
  induction n with
  | zero =>
    intro i j next hinv _ _
    exact ⟨next, j, rfl, by simpa using hinv⟩
  | succ n ih =>
    intro i j next hinv hlen hps
    obtain ⟨hl, hi0, hj, htab, hzero⟩ := hinv
    push_cast at hlen hps
    have hjlt : j < i ∧ -1 ≤ j := by
      rcases hj with ⟨h1, h2⟩ | ⟨h1, h2, _⟩ <;> omega
    have hQj : j = -1 ∨ (0 ≤ j ∧ j < i ∧ Pref x x j (i - j)) := by
      rcases hj with ⟨_, h2⟩ | h
      · exact Or.inl h2
      · exact Or.inr h
    obtain ⟨j1, hs, hj1a, hj1b, hQ, hend⟩ := slide_spec next x x i j
      (fun v => v = -1 ∨ (0 ≤ v ∧ v < i ∧ Pref x x v (i - v)))
      (fun v h0 h1 => sliceGet_of_lt x v h0 (by omega))
      (sliceGet_of_lt x i hi0 (by omega))
      (fun v h0 h1 => by
        obtain ⟨k, hk, hb⟩ := htab v h0 (by omega)
        refine ⟨k, hk, ?_, ?_, ?_⟩
        · rcases hb with rfl | ⟨hb0, _, _⟩ <;> omega
        · rcases hb with rfl | ⟨_, hb1, _⟩ <;> omega
        · intro hq
          rcases hb with rfl | ⟨hb0, hb1, hb2⟩
          · exact Or.inl rfl
          · rcases hq with hq | ⟨_, hq1, hq2⟩
            · omega
            · refine Or.inr ⟨hb0, by omega, ?_⟩
              have := Pref_trans hb2 hq2 (le_of_lt hb1)
              rwa [show i - v + v - k = i - k by ring] at this)
      (j + 1).toNat j hjlt.2 (le_refl _) (le_refl _) hQj
    obtain ⟨a, ha⟩ := sliceGet_of_lt x (i + 1) (by omega) (by omega)
    obtain ⟨b, hb⟩ := sliceGet_of_lt x (j1 + 1) (by omega) (by omega)
    have hpref2 : Pref x x (j1 + 1) (i + 1 - (j1 + 1)) := by
      apply Pref_succ _ _ hj1a
      · rcases hQ with h | ⟨h0, _, h2⟩
        · exact Or.inl h
        · exact Or.inr ⟨h0, by rwa [show i + 1 - (j1 + 1) = i - j1 by ring]⟩
      · rcases hend with h | ⟨_, h⟩
        · exact Or.inl h
        · refine Or.inr ?_
          rw [h]
          congr 1
          ring
    obtain ⟨v, hv, hvb⟩ : ∃ v, (if a = b then sliceGet next (j1 + 1) else some (j1 + 1)) = some v ∧
        Border x (i + 1) v := by
      by_cases hab : a = b
      · obtain ⟨k, hk, hkb⟩ := htab (j1 + 1) (by omega) (by omega)
        refine ⟨k, by rw [if_pos hab]; exact hk, ?_⟩
        rcases hkb with rfl | ⟨h0, h1, h2⟩
        · exact Or.inl rfl
        · refine Or.inr ⟨h0, by omega, ?_⟩
          have := Pref_trans h2 hpref2 (le_of_lt h1)
          rwa [show i + 1 - (j1 + 1) + (j1 + 1) - k = i + 1 - k by ring] at this
      · exact ⟨j1 + 1, by rw [if_neg hab], Or.inr ⟨by omega, by omega, hpref2⟩⟩
    obtain ⟨next1, hset⟩ := sliceSet_of_lt next (i + 1) v (by omega)
      (by rw [hl]; omega)
    have hinv1 : PreInv x next1 (i + 1) (j1 + 1) := by
      refine ⟨by rw [HashingDinamico.sliceSet_length hset]; exact hl, by omega,
        Or.inr ⟨by omega, by omega, hpref2⟩, ?_, ?_⟩
      · intro u hu0 hu1
        rw [sliceGet_sliceSet hset]
        by_cases hu : u = i + 1
        · subst hu
          exact ⟨v, by rw [if_pos rfl], hvb⟩
        · rw [if_neg hu]
          exact htab u hu0 (by omega)
      · intro u hu0 hu1
        rw [sliceGet_sliceSet hset, if_neg (by omega)]
        exact hzero u (by omega) hu1
    obtain ⟨next2, j2, e1, e2⟩ := ih (i + 1) (j1 + 1) next1 hinv1 (by omega) (by omega)
    refine ⟨next2, j2, ?_, by rwa [show i + ((n + 1 : Nat) : Int) = i + 1 + (n : Int) by push_cast; ring]⟩
    unfold preLoop
    rw [HashingDinamico.bind_of_eq_some hs]
    dsimp only
    rw [HashingDinamico.bind_of_eq_some ha, HashingDinamico.bind_of_eq_some hb,
      HashingDinamico.bind_of_eq_some hv, HashingDinamico.bind_of_eq_some hset]
    exact e1

/-- The table of `preKMP` for a pattern of `1` to `PatternSize` characters:
every entry below the length is a border of its index, and the entries from
the length on, the one for the whole pattern among them, were never written
and are `0`. -/
theorem preKMP_spec (x : List Nat) (h1 : 1 ≤ x.length) (h2 : x.length ≤ PatternSize) :
    ∃ next, preKMP x = some next ∧ next.length = PatternSize ∧
      (∀ v : Int, 0 ≤ v → v < x.length → ∃ k, sliceGet next v = some k ∧ Border x v k) ∧
      (∀ v : Int, (x.length : Int) ≤ v → v < PatternSize → sliceGet next v = some 0) := by
  have hinit : sliceSet (List.replicate PatternSize (0 : Int)) 0 (-1)
      = some ((List.replicate PatternSize (0 : Int)).set 0 (-1)) := by
    unfold sliceSet
    rw [if_pos ⟨le_refl _, by simp [PatternSize]⟩]
    rfl
  have hinv : PreInv x ((List.replicate PatternSize (0 : Int)).set 0 (-1)) 0 (-1) := by
    refine ⟨by simp, le_refl _, Or.inl ⟨rfl, rfl⟩, ?_, ?_⟩
    · intro v hv0 hv1
      have : v = 0 := by omega
      subst this
      exact ⟨-1, by rw [sliceGet_sliceSet hinit, if_pos rfl], Or.inl rfl⟩
    · intro v hv0 hv1
      rw [sliceGet_sliceSet hinit, if_neg (by omega)]
      unfold sliceGet
      rw [if_neg (by omega)]
      simp [List.getElem?_replicate]
      omega
  obtain ⟨next1, j1, e1, e2⟩ := preLoop_spec x ((x.length : Int) - 1).toNat 0 (-1) _ hinv
    (by omega) (by omega)
  have hidx : (0 : Int) + (((x.length : Int) - 1).toNat : Nat) = (x.length : Int) - 1 := by omega
  rw [hidx] at e2
  obtain ⟨hl, _, _, htab, hzero⟩ := e2
  refine ⟨next1, ?_, hl, fun v hv0 hv1 => htab v hv0 (by omega),
    fun v hv0 hv1 => hzero v (by omega) hv1⟩
  unfold preKMP
  dsimp only
  rw [HashingDinamico.bind_of_eq_some hinit]
  exact e1

theorem kmpLoop_spec (next : List Int) (x y : List Nat)
    (htab : ∀ v : Int, 0 ≤ v → v < x.length → ∃ k, sliceGet next v = some k ∧ Border x v k)
    (hlast : sliceGet next x.length = some 0) :
    ∀ (n : Nat) (i j : Int) (ret : List Int), 0 ≤ i → i < x.length → i ≤ j →
      Pref x y i (j - i) → j + n = y.length → Found x y j ret →
      ∃ ret1, kmpLoop next x y n i j ret = some ret1 ∧ Found x y (j + n) ret1 := by
  intro n
  induction n with
  | zero =>
    intro i j ret _ _ _ _ _ hf
    exact ⟨ret, rfl, by simpa using hf⟩
  | succ n ih =>
    intro i j ret hi0 hi1 hij hpref hjn hf
    push_cast at hjn
    obtain ⟨i1, hs, hi1a, hi1b, hQ, hend⟩ := slide_spec next x y j i
      (fun v => v = -1 ∨ (0 ≤ v ∧ Pref x y v (j - v)))
      (fun v h0 h1 => sliceGet_of_lt x v h0 (by omega))
      (sliceGet_of_lt y j (by omega) (by omega))
      (fun v h0 h1 => by
        obtain ⟨k, hk, hb⟩ := htab v h0 (by omega)
        refine ⟨k, hk, ?_, ?_, ?_⟩
        · rcases hb with rfl | ⟨hb0, _, _⟩ <;> omega
        · rcases hb with rfl | ⟨_, hb1, _⟩ <;> omega
        · intro hq
          rcases hb with rfl | ⟨hb0, hb1, hb2⟩
          · exact Or.inl rfl
          · rcases hq with hq | ⟨_, hq2⟩
            · omega
            · refine Or.inr ⟨hb0, ?_⟩
              have := Pref_trans hb2 hq2 (le_of_lt hb1)
              rwa [show j - v + v - k = j - k by ring] at this)
      (i + 1).toNat i (by omega) (le_refl _) (le_refl _) (Or.inr ⟨hi0, hpref⟩)
    have hpref2 : Pref x y (i1 + 1) (j + 1 - (i1 + 1)) := by
      apply Pref_succ _ _ hi1a
      · rcases hQ with h | ⟨h0, h2⟩
        · exact Or.inl h
        · exact Or.inr ⟨h0, by rwa [show j + 1 - (i1 + 1) = j - i1 by ring]⟩
      · rcases hend with h | ⟨_, h⟩
        · exact Or.inl h
        · refine Or.inr ?_
          rw [h]
          congr 1
          ring
    have hmono : Found x y (j + 1) ret :=
      ⟨hf.1, fun p hp => ⟨(hf.2 p hp).1, by have := (hf.2 p hp).2.1; omega, (hf.2 p hp).2.2⟩⟩
    by_cases hfull : i1 + 1 ≥ (x.length : Int)
    · have hi2 : i1 + 1 = (x.length : Int) := by omega
      have hnew : Found x y (j + 1) (ret ++ [j + 1 - (i1 + 1)]) := by
        refine ⟨?_, ?_⟩
        · rw [List.pairwise_append]
          refine ⟨hf.1, List.pairwise_singleton _ _, ?_⟩
          intro a ha b hb
          rw [List.mem_singleton] at hb
          subst hb
          have := (hf.2 a ha).2.1
          omega
        · intro p hp
          rcases List.mem_append.mp hp with hp | hp
          · exact hmono.2 p hp
          · rw [List.mem_singleton] at hp
            subst hp
            exact ⟨by omega, by omega, by rw [← hi2]; exact hpref2⟩
      obtain ⟨ret1, e1, e2⟩ := ih 0 (j + 1) (ret ++ [j + 1 - (i1 + 1)]) (le_refl _)
        (by omega) (by omega) (fun t h0 h1 => by omega) (by omega) hnew
      refine ⟨ret1, ?_, by rwa [show j + ((n + 1 : Nat) : Int) = j + 1 + (n : Int) by
        push_cast; ring]⟩
      unfold kmpLoop
      rw [HashingDinamico.bind_of_eq_some hs]
      dsimp only
      rw [if_pos hfull, hi2, HashingDinamico.bind_of_eq_some hlast, ← hi2]
      exact e1
    · obtain ⟨ret1, e1, e2⟩ := ih (i1 + 1) (j + 1) ret (by omega) (by omega) (by omega)
        hpref2 (by omega) hmono
      refine ⟨ret1, ?_, by rwa [show j + ((n + 1 : Nat) : Int) = j + 1 + (n : Int) by
        push_cast; ring]⟩
      unfold kmpLoop
      rw [HashingDinamico.bind_of_eq_some hs]
      dsimp only
      rw [if_neg hfull]
      exact e1

theorem preKMP_nil : preKMP [] = some ((List.replicate PatternSize (0 : Int)).set 0 (-1)) := by
  decide

theorem occursAt_of_Pref {x y : List Nat} {p : Int} (h0 : 0 ≤ p)
    (h1 : p + x.length ≤ y.length) (h : Pref x y x.length p) : occursAt y x p.toNat := by
  refine ⟨by omega, ?_⟩
  apply List.ext_getElem?
  intro t
  by_cases ht : t < x.length
  · rw [List.getElem?_take_of_lt ht, List.getElem?_drop]
    have := h t (by omega) (by omega)
    rw [sliceGet_nat] at this
    rw [this]
    have hidx : p + (t : Int) = ((p.toNat + t : Nat) : Int) := by omega
    rw [hidx, sliceGet_nat]
  · rw [List.getElem?_eq_none (by simp; omega), List.getElem?_eq_none (by omega)]

/-- The search on a needle shorter than `PatternSize` returns a result, and
the result is a strictly increasing list of start positions of the needle. -/
theorem kmp_spec (haystack needle : List Nat) (hm : needle.length < PatternSize) :
    ∃ ret, kmp haystack needle = some ret ∧ Found needle haystack haystack.length ret ∧
      ((needle.length = 0 ∨ haystack.length = 0 ∨ haystack.length < needle.length) →
        ret = []) := by
  by_cases hm0 : needle.length = 0
  · have hnil : needle = [] := List.length_eq_zero.mp hm0
    subst hnil
    refine ⟨[], ?_, ⟨List.Pairwise.nil, by simp⟩, fun _ => rfl⟩
    unfold kmp
    rw [HashingDinamico.bind_of_eq_some preKMP_nil]
    simp
  · obtain ⟨next, hpre, hl, htab, hzero⟩ := preKMP_spec needle (by omega) (by omega)
    by_cases hearly : haystack.length = 0 ∨ haystack.length < needle.length
    · refine ⟨[], ?_, ⟨List.Pairwise.nil, by simp⟩, fun _ => rfl⟩
      unfold kmp
      rw [HashingDinamico.bind_of_eq_some hpre]
      rcases hearly with h | h
      · rw [if_pos (Or.inr h)]
      · by_cases h2 : needle.length = 0 ∨ haystack.length = 0
        · rw [if_pos h2]
        · rw [if_neg h2, if_pos h]
    · obtain ⟨ret, e1, e2⟩ := kmpLoop_spec next needle haystack
        htab (hzero _ (le_refl _) (by exact_mod_cast hm)) haystack.length 0 0 []
        (le_refl _) (by omega) (le_refl _) (fun t h0 h1 => by omega) (by omega)
        ⟨List.Pairwise.nil, by simp⟩
      refine ⟨ret, ?_, by simpa using e2, fun h => ?_⟩
      · unfold kmp
        rw [HashingDinamico.bind_of_eq_some hpre, if_neg (by omega), if_neg (by omega)]
        exact e1
      · exfalso
        omega

theorem slide_of_eq (next : List Int) (x y : List Nat) (w v : Int) (fuel : Nat) (c : Nat)
    (hv : 0 ≤ v) (hx : sliceGet x v = some c) (hy : sliceGet y w = some c) :
    slide next x y w fuel v = some v := by
  unfold slide
  rw [if_pos (by omega), HashingDinamico.bind_of_eq_some hx, HashingDinamico.bind_of_eq_some hy,
    if_neg (by simp)]

/-- The search of a pattern in itself runs without mismatch up to `i = m`,
where it reads `next[m]`: out of range when the pattern has as many
characters as the table has entries. -/
theorem kmpLoop_self (next : List Int) (x : List Nat) (hx : x.length = next.length) :
    ∀ (n : Nat) (i : Nat) (ret : List Int), i + n = x.length → 1 ≤ n →
      kmpLoop next x x n i i ret = none := by
  intro n
  induction n with
  | zero => intro i ret _ h; omega
  | succ n ih =>
    intro i ret hin _
    obtain ⟨c, hc⟩ := sliceGet_of_lt x (i : Int) (by omega) (by omega)
    have hs := slide_of_eq next x x i i ((i : Int) + 1).toNat c (by omega) hc hc
    unfold kmpLoop
    rw [HashingDinamico.bind_of_eq_some hs]
    dsimp only
    by_cases hfull : (i : Int) + 1 ≥ (x.length : Int)
    · rw [if_pos hfull, sliceGet_none_of_le next _ (by omega)]
      rfl
    · rw [if_neg hfull]
      have := ih (i + 1) ret (by omega) (by omega)
      push_cast at this
      exact this

/-- A pattern of exactly `PatternSize` characters: the preprocessing
completes, and the search of the pattern in itself does not. -/
theorem kmp_self_PatternSize (needle : List Nat) (h : needle.length = PatternSize) :
    (∃ next, preKMP needle = some next ∧ next.length = PatternSize ∧
      sliceGet next needle.length = none) ∧ kmp needle needle = none := by
  obtain ⟨next, hpre, hl, _, _⟩ := preKMP_spec needle (by rw [h]; decide) (by omega)
  refine ⟨⟨next, hpre, hl, sliceGet_none_of_le next _ (by omega)⟩, ?_⟩
  unfold kmp
  rw [HashingDinamico.bind_of_eq_some hpre, if_neg (by rw [h]; decide), if_neg (by omega)]
  exact kmpLoop_self next needle (by omega) needle.length 0 [] (by omega) (by rw [h]; decide)

/-- C26. A needle of `PatternSize = 100` characters `a` in a haystack equal to
it: the length is within the stated maximum, `preKMP` completes with a table
in which index 100 is out of range, and `kmp` does not return a result. -/
theorem kmp_needle_of_PatternSize_panics :
    (List.replicate 100 97).length ≤ PatternSize ∧
      (∃ next, preKMP (List.replicate 100 97) = some next ∧ next.length = PatternSize ∧
        sliceGet next (List.replicate 100 97).length = none) ∧
      kmp (List.replicate 100 97) (List.replicate 100 97) = none :=
  ⟨by simp [PatternSize], kmp_self_PatternSize (List.replicate 100 97) (by simp [PatternSize])⟩

/-- The inner loop, where the table step may rely on the mismatch that caused
it: with enough budget it ends at an index `v1` with `Q v1` that is `-1` or at
which the characters agree. -/
theorem slide_spec_ne (next : List Int) (x y : List Nat) (w vmax : Int) (Q : Int → Prop)
    (hx : ∀ v, 0 ≤ v → v ≤ vmax → ∃ c, sliceGet x v = some c)
    (hy : ∃ c, sliceGet y w = some c)
    (htab : ∀ v, 0 ≤ v → v ≤ vmax → ∃ k, sliceGet next v = some k ∧ -1 ≤ k ∧ k < v ∧
      (Q v → sliceGet x v ≠ sliceGet y w → Q k)) :
    ∀ (fuel : Nat) (v : Int), -1 ≤ v → v ≤ vmax → (v + 1).toNat ≤ fuel → Q v →
      ∃ v1, slide next x y w fuel v = some v1 ∧ -1 ≤ v1 ∧ v1 ≤ v ∧ Q v1 ∧
        (v1 = -1 ∨ (0 ≤ v1 ∧ sliceGet x v1 = sliceGet y w)) := by
  intro fuel
  induction fuel with
  | zero =>
    intro v h0 _ hf hq
    have hv : v = -1 := by omega
    subst hv
    exact ⟨-1, by unfold slide; rfl, le_refl _, le_refl _, hq, Or.inl rfl⟩
  | succ f ih =>
    intro v h0 h1 hf hq
    by_cases hv : v > -1
    · obtain ⟨a, ha⟩ := hx v (by omega) h1
      obtain ⟨b, hb⟩ := hy
      by_cases hab : a = b
      · refine ⟨v, ?_, h0, le_refl _, hq, Or.inr ⟨by omega, by rw [ha, hb, hab]⟩⟩
        unfold slide
        rw [if_pos hv, HashingDinamico.bind_of_eq_some ha, HashingDinamico.bind_of_eq_some hb,
          if_neg (by simpa using hab)]
      · obtain ⟨k, hk, hk0, hk1, hkq⟩ := htab v (by omega) h1
        have hne : sliceGet x v ≠ sliceGet y w := by
          rw [ha, hb]
          intro h
          exact hab (Option.some.inj h)
        obtain ⟨v1, e1, e2, e3, e4, e5⟩ := ih k hk0 (by omega) (by omega) (hkq hq hne)
        refine ⟨v1, ?_, e2, by omega, e4, e5⟩
        unfold slide
        rw [if_pos hv, HashingDinamico.bind_of_eq_some ha, HashingDinamico.bind_of_eq_some hb,
          if_pos hab]
        dsimp only
        rw [HashingDinamico.bind_of_eq_some hk]
        exact e1
    · refine ⟨v, ?_, h0, le_refl _, hq, Or.inl (by omega)⟩
      unfold slide
      rw [if_neg hv]

/-- Two stretches of `x` that end at the same place of `z`: the shorter one is
a border of the longer one. -/
theorem Pref_nested {x z : List Nat} {u v e : Int} (h1 : Pref x z u (e - u))
    (h2 : Pref x z v (e - v)) (huv : u ≤ v) : Pref x x u (v - u) := by
  intro t ht0 ht1
  rw [h1 t ht0 ht1, h2 (v - u + t) (by omega) (by omega)]
  congr 1
  ring

/-- A stretch without its last character, and the agreement at that
character. -/
theorem Pref_pred {x z : List Nat} {u s : Int} (h : Pref x z u s) (hu : 1 ≤ u) :
    Pref x z (u - 1) s ∧ sliceGet x (u - 1) = sliceGet z (s + (u - 1)) :=
  ⟨fun t ht0 ht1 => h t ht0 (by omega), h (u - 1) (by omega) (by omega)⟩

theorem preLoop_max (x : List Nat) : ∀ (n : Nat) (i j : Int) (next : List Int),
    PreMax x next i j → i + n + 1 ≤ x.length → i + n < PatternSize →
    ∃ next1 j1, preLoop x n i j next = some next1 ∧ PreMax x next1 (i + n) j1 := by
  intro n
  induction n with
  | zero =>
    intro i j next hinv _ _
    exact ⟨next, j, rfl, by simpa using hinv⟩
  | succ n ih =>
    intro i j next hinv hlen hps
    obtain ⟨⟨hl, hi0, hj, htab, hzero⟩, hlong, hmax⟩ := hinv
    push_cast at hlen hps
    have hjlt : j < i ∧ -1 ≤ j := by
      rcases hj with ⟨h1, h2⟩ | ⟨h1, h2, _⟩ <;> omega
    have hQj : j = -1 ∨ (0 ≤ j ∧ j < i ∧ Pref x x j (i - j)) := by
      rcases hj with ⟨_, h2⟩ | h
      · exact Or.inl h2
      · exact Or.inr h
    obtain ⟨j1, hs, hj1a, hj1b, ⟨hQ, hR⟩, hend⟩ := slide_spec_ne next x x i j
      (fun v => (v = -1 ∨ (0 ≤ v ∧ v < i ∧ Pref x x v (i - v))) ∧
        ∀ u : Int, 0 ≤ u → u < i → Pref x x u (i - u) → sliceGet x u = sliceGet x i → u ≤ v)
      (fun v h0 h1 => sliceGet_of_lt x v h0 (by omega))
      (sliceGet_of_lt x i hi0 (by omega))
      (fun v h0 h1 => by
        obtain ⟨k, hk, hb⟩ := htab v h0 (by omega)
        have hsm := hmax v k h0 (by omega) hk
        refine ⟨k, hk, ?_, ?_, ?_⟩
        · rcases hb with rfl | ⟨hb0, _, _⟩ <;> omega
        · rcases hb with rfl | ⟨_, hb1, _⟩ <;> omega
        · intro ⟨hq, hr⟩ hne
          have hqv : Pref x x v (i - v) := by
            rcases hq with hq | ⟨_, _, hq2⟩
            · omega
            · exact hq2
          refine ⟨?_, ?_⟩
          · rcases hb with rfl | ⟨hb0, hb1, hb2⟩
            · exact Or.inl rfl
            · rcases hq with hq | ⟨_, hq1, hq2⟩
              · omega
              · refine Or.inr ⟨hb0, by omega, ?_⟩
                have := Pref_trans hb2 hq2 (le_of_lt hb1)
                rwa [show i - v + v - k = i - k by ring] at this
          · intro u hu0 hu1 hu2 hu3
            have huv : u ≤ v := hr u hu0 hu1 hu2 hu3
            have hne2 : sliceGet x u ≠ sliceGet x v := by
              rw [hu3]
              exact fun h => hne h.symm
            have huv2 : u ≠ v := fun h => hne2 (by rw [h])
            exact hsm u hu0 (by omega) (Pref_nested hu2 hqv huv) hne2)
      (j + 1).toNat j hjlt.2 (le_refl _) (le_refl _)
      ⟨hQj, fun u hu0 hu1 hu2 _ => hlong u hu0 hu1 hu2⟩
    obtain ⟨a, ha⟩ := sliceGet_of_lt x (i + 1) (by omega) (by omega)
    obtain ⟨b, hb⟩ := sliceGet_of_lt x (j1 + 1) (by omega) (by omega)
    have hpref2 : Pref x x (j1 + 1) (i + 1 - (j1 + 1)) := by
      apply Pref_succ _ _ hj1a
      · rcases hQ with h | ⟨h0, _, h2⟩
        · exact Or.inl h
        · exact Or.inr ⟨h0, by rwa [show i + 1 - (j1 + 1) = i - j1 by ring]⟩
      · rcases hend with h | ⟨_, h⟩
        · exact Or.inl h
        · refine Or.inr ?_
          rw [h]
          congr 1
          ring
    have hlong2 : Longest x (i + 1) (j1 + 1) := by
      intro u hu0 hu1 hu2
      by_cases hu : u = 0
      · omega
      · obtain ⟨p1, p2⟩ := Pref_pred hu2 (by omega)
        have := hR (u - 1) (by omega) (by omega)
          (by rwa [show i - (u - 1) = i + 1 - u by ring])
          (by rw [p2]; congr 1; ring)
        omega
    obtain ⟨v, hv, hvb, hvm⟩ : ∃ v, (if a = b then sliceGet next (j1 + 1) else some (j1 + 1))
        = some v ∧ Border x (i + 1) v ∧ StrongMax x (i + 1) v := by
      by_cases hab : a = b
      · obtain ⟨k, hk, hkb⟩ := htab (j1 + 1) (by omega) (by omega)
        have hsm := hmax (j1 + 1) k (by omega) (by omega) hk
        refine ⟨k, by rw [if_pos hab]; exact hk, ?_, ?_⟩
        · rcases hkb with rfl | ⟨h0, h1, h2⟩
          · exact Or.inl rfl
          · refine Or.inr ⟨h0, by omega, ?_⟩
            have := Pref_trans h2 hpref2 (le_of_lt h1)
            rwa [show i + 1 - (j1 + 1) + (j1 + 1) - k = i + 1 - k by ring] at this
        · intro u hu0 hu1 hu2 hu3
          have hle : u ≤ j1 + 1 := hlong2 u hu0 hu1 hu2
          have hne2 : sliceGet x u ≠ sliceGet x (j1 + 1) := by
            rw [hb, ← hab, ← ha]
            exact hu3
          have hne3 : u ≠ j1 + 1 := fun h => hne2 (by rw [h])
          exact hsm u hu0 (by omega) (Pref_nested hu2 hpref2 hle) hne2
      · exact ⟨j1 + 1, by rw [if_neg hab], Or.inr ⟨by omega, by omega, hpref2⟩,
          fun u hu0 hu1 hu2 _ => hlong2 u hu0 hu1 hu2⟩
    obtain ⟨next1, hset⟩ := sliceSet_of_lt next (i + 1) v (by omega)
      (by rw [hl]; omega)
    have hinv1 : PreMax x next1 (i + 1) (j1 + 1) := by
      refine ⟨⟨by rw [HashingDinamico.sliceSet_length hset]; exact hl, by omega,
        Or.inr ⟨by omega, by omega, hpref2⟩, ?_, ?_⟩, hlong2, ?_⟩
      · intro u hu0 hu1
        rw [sliceGet_sliceSet hset]
        by_cases hu : u = i + 1
        · subst hu
          exact ⟨v, by rw [if_pos rfl], hvb⟩
        · rw [if_neg hu]
          exact htab u hu0 (by omega)
      · intro u hu0 hu1
        rw [sliceGet_sliceSet hset, if_neg (by omega)]
        exact hzero u (by omega) hu1
      · intro u k hu0 hu1 hk
        rw [sliceGet_sliceSet hset] at hk
        by_cases hu : u = i + 1
        · subst hu
          rw [if_pos rfl] at hk
          rw [← Option.some.inj hk]
          exact hvm
        · rw [if_neg hu] at hk
          exact hmax u k hu0 (by omega) hk
    obtain ⟨next2, j2, e1, e2⟩ := ih (i + 1) (j1 + 1) next1 hinv1 (by omega) (by omega)
    refine ⟨next2, j2, ?_, by rwa [show i + ((n + 1 : Nat) : Int) = i + 1 + (n : Int) by push_cast; ring]⟩
    unfold preLoop
    rw [HashingDinamico.bind_of_eq_some hs]
    dsimp only
    rw [HashingDinamico.bind_of_eq_some ha, HashingDinamico.bind_of_eq_some hb,
      HashingDinamico.bind_of_eq_some hv, HashingDinamico.bind_of_eq_some hset]
    exact e1

/-- The table of `preKMP` for a pattern of `1` to `PatternSize` characters,
with maximality: every entry below the length is a border of its index and is
maximal among the borders followed by another character; the entries from the
length on are `0`. -/
theorem preKMP_max (x : List Nat) (h1 : 1 ≤ x.length) (h2 : x.length ≤ PatternSize) :
    ∃ next, preKMP x = some next ∧ next.length = PatternSize ∧
      (∀ v : Int, 0 ≤ v → v < x.length →
        ∃ k, sliceGet next v = some k ∧ Border x v k ∧ StrongMax x v k) ∧
      (∀ v : Int, (x.length : Int) ≤ v → v < PatternSize → sliceGet next v = some 0) := by
  have hinit : sliceSet (List.replicate PatternSize (0 : Int)) 0 (-1)
      = some ((List.replicate PatternSize (0 : Int)).set 0 (-1)) := by
    unfold sliceSet
    rw [if_pos ⟨le_refl _, by simp [PatternSize]⟩]
    rfl
  have hinv : PreMax x ((List.replicate PatternSize (0 : Int)).set 0 (-1)) 0 (-1) := by
    refine ⟨⟨by simp, le_refl _, Or.inl ⟨rfl, rfl⟩, ?_, ?_⟩, ?_, ?_⟩
    · intro v hv0 hv1
      have : v = 0 := by omega
      subst this
      exact ⟨-1, by rw [sliceGet_sliceSet hinit, if_pos rfl], Or.inl rfl⟩
    · intro v hv0 hv1
      rw [sliceGet_sliceSet hinit, if_neg (by omega)]
      unfold sliceGet
      rw [if_neg (by omega)]
      simp [List.getElem?_replicate]
      omega
    · intro u hu0 hu1 _
      omega
    · intro v k hv0 hv1 _ u hu0 hu1 _ _
      omega
  obtain ⟨next1, j1, e1, e2⟩ := preLoop_max x ((x.length : Int) - 1).toNat 0 (-1) _ hinv
    (by omega) (by omega)
  have hidx : (0 : Int) + (((x.length : Int) - 1).toNat : Nat) = (x.length : Int) - 1 := by omega
  rw [hidx] at e2
  obtain ⟨⟨hl, _, _, htab, hzero⟩, _, hmax⟩ := e2
  refine ⟨next1, ?_, hl, fun v hv0 hv1 => ?_, fun v hv0 hv1 => hzero v (by omega) hv1⟩
  · unfold preKMP
    dsimp only
    rw [HashingDinamico.bind_of_eq_some hinit]
    exact e1
  · obtain ⟨k, hk, hb⟩ := htab v hv0 (by omega)
    exact ⟨k, hk, hb, hmax v k hv0 (by omega) hk⟩

/-- The main loop only appends to the result list. -/
theorem kmpLoop_append (next : List Int) (x y : List Nat) :
    ∀ (n : Nat) (i j : Int) (ret ret1 : List Int),
      kmpLoop next x y n i j ret = some ret1 → ∃ more, ret1 = ret ++ more := by
  intro n
  induction n with
  | zero =>
    intro i j ret ret1 h
    unfold kmpLoop at h
    exact ⟨[], by rw [List.append_nil]; exact (Option.some.inj h).symm⟩
  | succ n ih =>
    intro i j ret ret1 h
    unfold kmpLoop at h
    obtain ⟨i1, _, h⟩ := HashingDinamico.bind_elim h
    dsimp only at h
    split at h
    · obtain ⟨i3, _, h⟩ := HashingDinamico.bind_elim h
      obtain ⟨more, hmore⟩ := ih _ _ _ _ h
      exact ⟨[j + 1 - (i1 + 1)] ++ more, by rw [hmore, List.append_assoc]⟩
    · exact ih _ _ _ _ h

/-- The main loop before the first match, on a table with maximal entries.
From a state in which `i` is the longest stretch of the needle that ends at
`j` and the needle occurs nowhere up to `j`, the loop returns either the empty
list, and the needle occurs nowhere, or a list whose first element is the
leftmost occurrence. -/
theorem kmpLoop_first (next : List Int) (x y : List Nat)
    (htab : ∀ v : Int, 0 ≤ v → v < x.length →
      ∃ k, sliceGet next v = some k ∧ Border x v k ∧ StrongMax x v k)
    (hlast : sliceGet next x.length = some 0) (hm : 0 < x.length) :
    ∀ (n : Nat) (i j : Int), 0 ≤ i → i < x.length → i ≤ j →
      Pref x y i (j - i) → j + n = y.length →
      (∀ u : Int, 0 ≤ u → u < x.length → u ≤ j → Pref x y u (j - u) → u ≤ i) →
      (∀ p : Int, 0 ≤ p → p + x.length ≤ j → ¬ Pref x y x.length p) →
      ∃ ret1, kmpLoop next x y n i j [] = some ret1 ∧
        ((ret1 = [] ∧ ∀ p : Int, 0 ≤ p → p + x.length ≤ y.length → ¬ Pref x y x.length p) ∨
          (∃ p0 rest, ret1 = p0 :: rest ∧ 0 ≤ p0 ∧ p0 + x.length ≤ y.length ∧
            Pref x y x.length p0 ∧
            ∀ p : Int, 0 ≤ p → p + x.length ≤ y.length → Pref x y x.length p → p0 ≤ p)) := by
  intro n
  induction n with
  | zero =>
    intro i j _ _ _ _ hjn _ hnone
    refine ⟨[], rfl, Or.inl ⟨rfl, fun p hp0 hp1 => hnone p hp0 (by omega)⟩⟩
  | succ n ih =>
    intro i j hi0 hi1 hij hpref hjn hmaxi hnone
    push_cast at hjn
    obtain ⟨i1, hs, hi1a, hi1b, ⟨hQ, hR⟩, hend⟩ := slide_spec_ne next x y j i
      (fun v => (v = -1 ∨ (0 ≤ v ∧ Pref x y v (j - v))) ∧
        ∀ u : Int, 0 ≤ u → u < x.length → u ≤ j → Pref x y u (j - u) →
          sliceGet x u = sliceGet y j → u ≤ v)
      (fun v h0 h1 => sliceGet_of_lt x v h0 (by omega))
      (sliceGet_of_lt y j (by omega) (by omega))
      (fun v h0 h1 => by
        obtain ⟨k, hk, hb, hsm⟩ := htab v h0 (by omega)
        refine ⟨k, hk, ?_, ?_, ?_⟩
        · rcases hb with rfl | ⟨hb0, _, _⟩ <;> omega
        · rcases hb with rfl | ⟨_, hb1, _⟩ <;> omega
        · intro ⟨hq, hr⟩ hne
          have hqv : Pref x y v (j - v) := by
            rcases hq with hq | ⟨_, hq2⟩
            · omega
            · exact hq2
          refine ⟨?_, ?_⟩
          · rcases hb with rfl | ⟨hb0, hb1, hb2⟩
            · exact Or.inl rfl
            · refine Or.inr ⟨hb0, ?_⟩
              have := Pref_trans hb2 hqv (le_of_lt hb1)
              rwa [show j - v + v - k = j - k by ring] at this
          · intro u hu0 hu1 hu2 hu3 hu4
            have huv : u ≤ v := hr u hu0 hu1 hu2 hu3 hu4
            have hne2 : sliceGet x u ≠ sliceGet x v := by
              rw [hu4]
              exact fun h => hne h.symm
            have huv2 : u ≠ v := fun h => hne2 (by rw [h])
            exact hsm u hu0 (by omega) (Pref_nested hu3 hqv huv) hne2)
      (i + 1).toNat i (by omega) (le_refl _) (le_refl _)
      ⟨Or.inr ⟨hi0, hpref⟩, fun u hu0 hu1 hu2 hu3 _ => hmaxi u hu0 hu1 hu2 hu3⟩
    have hpref2 : Pref x y (i1 + 1) (j + 1 - (i1 + 1)) := by
      apply Pref_succ _ _ hi1a
      · rcases hQ with h | ⟨h0, h2⟩
        · exact Or.inl h
        · exact Or.inr ⟨h0, by rwa [show j + 1 - (i1 + 1) = j - i1 by ring]⟩
      · rcases hend with h | ⟨_, h⟩
        · exact Or.inl h
        · refine Or.inr ?_
          rw [h]
          congr 1
          ring
    by_cases hfull : i1 + 1 ≥ (x.length : Int)
    · have hi2 : i1 + 1 = (x.length : Int) := by omega
      have hocc : Pref x y x.length (j + 1 - (i1 + 1)) := by rw [← hi2]; exact hpref2
      have hnew : Found x y (j + 1) ([] ++ [j + 1 - (i1 + 1)]) :=
        ⟨List.pairwise_singleton _ _, fun p hp => by
          rw [List.nil_append, List.mem_singleton] at hp
          subst hp
          exact ⟨by omega, by omega, hocc⟩⟩
      obtain ⟨ret1, e1, _⟩ := kmpLoop_spec next x y
        (fun v hv0 hv1 => by
          obtain ⟨k, hk, hb, _⟩ := htab v hv0 hv1
          exact ⟨k, hk, hb⟩)
        hlast n 0 (j + 1) ([] ++ [j + 1 - (i1 + 1)]) (le_refl _)
        (by omega) (by omega) (fun t h0 h1 => by omega) (by omega) hnew
      obtain ⟨more, hmore⟩ := kmpLoop_append next x y n 0 (j + 1) _ ret1 e1
      refine ⟨ret1, ?_, Or.inr ⟨j + 1 - (i1 + 1), more, by rw [hmore]; rfl, by omega, by omega,
        hocc, fun p hp0 hp1 hp2 => ?_⟩⟩
      · unfold kmpLoop
        rw [HashingDinamico.bind_of_eq_some hs]
        dsimp only
        rw [if_pos hfull, hi2, HashingDinamico.bind_of_eq_some hlast, ← hi2]
        exact e1
      · by_contra hlt
        exact hnone p hp0 (by omega) hp2
    · have hmax2 : ∀ u : Int, 0 ≤ u → u < x.length → u ≤ j + 1 →
          Pref x y u (j + 1 - u) → u ≤ i1 + 1 := by
        intro u hu0 hu1 hu2 hu3
        by_cases hu : u = 0
        · omega
        · obtain ⟨p1, p2⟩ := Pref_pred hu3 (by omega)
          have := hR (u - 1) (by omega) (by omega) (by omega)
            (by rwa [show j - (u - 1) = j + 1 - u by ring])
            (by rw [p2]; congr 1; ring)
          omega
      have hnone2 : ∀ p : Int, 0 ≤ p → p + x.length ≤ j + 1 → ¬ Pref x y x.length p := by
        intro p hp0 hp1 hp2
        by_cases hp : p + x.length ≤ j
        · exact hnone p hp0 hp hp2
        · obtain ⟨p1, p2⟩ := Pref_pred hp2 (by omega)
          have := hR ((x.length : Int) - 1) (by omega) (by omega) (by omega)
            (by rwa [show j - ((x.length : Int) - 1) = p by omega])
            (by rw [p2]; congr 1; omega)
          omega
      obtain ⟨ret1, e1, e2⟩ := ih (i1 + 1) (j + 1) (by omega) (by omega) (by omega)
        hpref2 (by omega) hmax2 hnone2
      refine ⟨ret1, ?_, e2⟩
      unfold kmpLoop
      rw [HashingDinamico.bind_of_eq_some hs]
      dsimp only
      rw [if_neg hfull]
      exact e1

theorem Pref_of_occursAt {x y : List Nat} {p : Nat} (h : occursAt y x p) :
    Pref x y x.length p := by
  intro t ht0 ht1
  obtain ⟨h1, h2⟩ := h
  obtain ⟨n, rfl⟩ : ∃ n : Nat, t = (n : Int) := ⟨t.toNat, by omega⟩
  have hidx : (p : Int) + (n : Int) = ((p + n : Nat) : Int) := by push_cast; rfl
  rw [hidx, sliceGet_nat, sliceGet_nat]
  have hlt : n < x.length := by omega
  conv_lhs => rw [← h2]
  rw [List.getElem?_take_of_lt hlt, List.getElem?_drop]

/-- The search on a needle of `1` to `PatternSize - 1` characters returns
either the empty list, and the needle occurs nowhere in the haystack, or a
list that starts with the leftmost occurrence. -/
theorem kmp_first (haystack needle : List Nat) (h0 : 0 < needle.length)
    (hm : needle.length < PatternSize) :
    ∃ ret, kmp haystack needle = some ret ∧
      ((ret = [] ∧ ∀ p, ¬ occursAt haystack needle p) ∨
        (∃ p0 rest, ret = p0 :: rest ∧ 0 ≤ p0 ∧ occursAt haystack needle p0.toNat ∧
          ∀ p, occursAt haystack needle p → p0 ≤ (p : Int))) := by
  obtain ⟨next, hpre, hl, htab, hzero⟩ := preKMP_max needle (by omega) (by omega)
  by_cases hearly : haystack.length = 0 ∨ haystack.length < needle.length
  · refine ⟨[], ?_, Or.inl ⟨rfl, fun p hp => ?_⟩⟩
    · unfold kmp
      rw [HashingDinamico.bind_of_eq_some hpre]
      rcases hearly with h | h
      · rw [if_pos (Or.inr h)]
      · by_cases h2 : needle.length = 0 ∨ haystack.length = 0
        · rw [if_pos h2]
        · rw [if_neg h2, if_pos h]
    · have := hp.1
      omega
  · obtain ⟨ret, e1, e2⟩ := kmpLoop_first next needle haystack htab
      (hzero _ (le_refl _) (by exact_mod_cast hm)) h0 haystack.length 0 0
      (le_refl _) (by omega) (le_refl _) (fun t h0 h1 => by omega) (by omega)
      (fun u hu0 _ hu2 _ => by omega) (fun p hp0 hp1 _ => by omega)
    refine ⟨ret, ?_, ?_⟩
    · unfold kmp
      rw [HashingDinamico.bind_of_eq_some hpre, if_neg (by omega), if_neg (by omega)]
      exact e1
    · rcases e2 with ⟨hnil, hno⟩ | ⟨p0, rest, hret, hp0, hp1, hp2, hp3⟩
      · refine Or.inl ⟨hnil, fun p hp => ?_⟩
        exact hno p (by omega) (by have := hp.1; omega) (Pref_of_occursAt hp)
      · refine Or.inr ⟨p0, rest, hret, hp0, occursAt_of_Pref hp0 hp1 hp2, fun p hp => ?_⟩
        exact hp3 p (by omega) (by have := hp.1; omega) (Pref_of_occursAt hp)

/-- C31. KMP detects presence: for a needle of length `m` with
`0 < m < PatternSize`, `kmp` returns a list that is non-empty exactly when the
needle occurs in the haystack, the first element of the list is then the
leftmost occurrence, and `SearchNext` returns a value that is `-1` exactly when
the needle does not occur in the haystack. -/
theorem kmp_detects_presence (haystack needle : List Nat) (h0 : 0 < needle.length)
    (hm : needle.length < PatternSize) :
    ∃ ret, kmp haystack needle = some ret ∧
      (ret ≠ [] ↔ ∃ p, occursAt haystack needle p) ∧
      (∀ p0, ret.head? = some p0 → 0 ≤ p0 ∧ occursAt haystack needle p0.toNat ∧
        ∀ p, occursAt haystack needle p → p0 ≤ (p : Int)) ∧
      ∃ s, SearchNext haystack needle = some s ∧
        (s = -1 ↔ ¬ ∃ p, occursAt haystack needle p) := by
  obtain ⟨ret, hk, hfirst⟩ := kmp_first haystack needle h0 hm
  obtain ⟨ret2, hk2, hfound, _⟩ := kmp_spec haystack needle hm
  have hret : ret2 = ret := Option.some.inj (hk2.symm.trans hk)
  subst hret
  refine ⟨ret2, hk, ?_, ?_, ?_⟩
  · rcases hfirst with ⟨hnil, hno⟩ | ⟨p0, rest, hret, _, hocc, _⟩
    · exact ⟨fun h => absurd hnil h, fun ⟨p, hp⟩ => absurd hp (hno p)⟩
    · exact ⟨fun _ => ⟨_, hocc⟩, fun _ => by rw [hret]; exact List.cons_ne_nil _ _⟩
  · intro q hq
    rcases hfirst with ⟨hnil, _⟩ | ⟨p0, rest, hret, hp0, hocc, hleft⟩
    · rw [hnil] at hq
      exact absurd hq (by simp)
    · rw [hret, List.head?_cons] at hq
      rw [← Option.some.inj hq]
      exact ⟨hp0, hocc, hleft⟩
  · rcases hfirst with ⟨hnil, hno⟩ | ⟨p0, rest, hret, _, hocc, _⟩
    · refine ⟨-1, ?_, fun _ => fun ⟨p, hp⟩ => hno p hp, fun _ => rfl⟩
      unfold SearchNext
      rw [HashingDinamico.bind_of_eq_some hk, hnil]
      rfl
    · have hlen : 0 < ret2.length := by rw [hret]; simp
      obtain ⟨s, hs⟩ := sliceGet_of_lt ret2 ((ret2.length : Int) - 1) (by omega) (by omega)
      have hmem : s ∈ ret2 := by
        unfold sliceGet at hs
        rw [if_neg (by omega)] at hs
        exact List.mem_iff_getElem?.mpr ⟨_, hs⟩
      have hs0 : 0 ≤ s := (hfound.2 s hmem).1
      refine ⟨s, ?_, fun h => by omega, fun h => absurd ⟨_, hocc⟩ h⟩
      unfold SearchNext
      rw [HashingDinamico.bind_of_eq_some hk, if_pos (by omega)]
      exact hs

theorem kmp_detects_presence_witness :
    0 < [97, 98].length ∧ [97, 98].length < PatternSize ∧
      ∃ ret, kmp [99, 97, 98, 97, 98] [97, 98] = some ret ∧
        (ret ≠ [] ↔ ∃ p, occursAt [99, 97, 98, 97, 98] [97, 98] p) ∧
        (∀ p0, ret.head? = some p0 → 0 ≤ p0 ∧ occursAt [99, 97, 98, 97, 98] [97, 98] p0.toNat ∧
          ∀ p, occursAt [99, 97, 98, 97, 98] [97, 98] p → p0 ≤ (p : Int)) ∧
        ∃ s, SearchNext [99, 97, 98, 97, 98] [97, 98] = some s ∧
          (s = -1 ↔ ¬ ∃ p, occursAt [99, 97, 98, 97, 98] [97, 98] p) :=
  ⟨by decide, by decide, kmp_detects_presence [99, 97, 98, 97, 98] [97, 98] (by decide) (by decide)⟩

end Kmp
